import Mathlib

/-!
# MPC problem formulation (`src/MPC.cpp`)

A shallow embedding of the two pieces of `MPC.cpp`:

* `FG_eval::operator()`, the objective / constraint evaluator handed to the solver;
* `MPC::Solve`, which builds the initial guess and the bound vectors, calls
  `CppAD::ipopt::solve` and extracts the command and the predicted path.

Modelling conventions.

* `double` and `AD<double>` values are read in two ways.
  - *Exact reading.*  Elements of a linearly ordered field `K` (the reals in the intended
    reading, the rationals for concrete evaluation); arithmetic is exact.  `FG_eval`,
    `Solve_problem` and `Solve` are stated for this reading.  It serves for the statements that
    say which expression the code evaluates, which entries it reads and writes, which sizes and
    which bounds it builds: these stay true when the same expressions are evaluated in the
    arithmetic of the program.
  - *Double reading.*  The type `F64` of IEEE 754 binary64 values with round-to-nearest-even:
    a finite double is an integer multiple of `2^-1074`, every operation returns the double
    nearest to the exact result, and a result of magnitude `2^1024` or more overflows.
    `FG_eval_double`, `Solve_problem_double` and `Solve_double` repeat `FG_eval`,
    `Solve_problem` and `Solve` statement by statement in this arithmetic.  It serves for the
    statements that depend on rounding and underflow: zeros of the objective, cancellation,
    numerical bounds, uniqueness of a minimiser.
  - Not represented in `F64`: the sign of a zero; the difference between the infinities and
    NaN (one value `nonfinite`, which every operation propagates and every comparison
    rejects; the program divides only by the constant `Lf`); contraction of a product and a
    sum into one rounding, and evaluation in extended precision.  `CppAD::pow(x, 2)` is the
    product `x * x` (the power with an `int` exponent multiplies repeatedly).
  `CppAD::cos`, `CppAD::sin` and `CppAD::atan` are the three functions of a `Trig K`.
* The globals `N`, `dt` and `ref_v` are parameters (their values in the source
  are `10`, `0.1` and `100`); `Lf` is the constant `2.67`.
* `size_t` and `int` indices are natural numbers.  Every index expression of the
  source is bounded by `8 * N`, far below the range of `int` for any horizon whose
  vectors fit in memory, and the only subtractions are `N - 1`, `N - 2` and `t - 1`
  with `1 ≤ t`: for `2 ≤ N` no wrap-around occurs.  For `N = 1` the `size_t` expression
  `N - 2` of the third cost loop wraps in the source and is `0` here, so the evaluator is
  described only for `2 ≤ N`; `MPC::Solve` up to the call of the solver has no `N - 2` and is
  described for `1 ≤ N`.
* Vectors are arrays.  An access outside the bounds of a vector is undefined in
  the source; here it makes the whole computation end in `Res.fault`.
* `Dvector v(n)` allocates `n` entries whose content is the parameter `junk`,
  so that a theorem valid for every `junk` shows the entry was assigned.
* The external solver `CppAD::ipopt::solve` is a parameter of `Solve`: a function of the problem
  it is handed.  It is not run here and it does not run the evaluator; what the evaluator does
  when the solver calls it is stated separately, on `p.fg_eval`.
* `FG_eval_counted` repeats `FG_eval` statement by statement on a vector that carries a count
  of assignments next to each entry; `FG_eval_counted_erase` shows that it computes what
  `FG_eval` computes.  It serves only to state how often an entry of `fg` is assigned.
* `VehicleState`, `kinematic_update`, `simulate`, `follows_model` and `straight_line` follow
  the words of the specification; the theorems compare them with what the code computes.
-/

namespace MPC

/-! ## Scalars and vectors -/

/-- The elementary functions the evaluator applies: `CppAD::cos`, `CppAD::sin`, `CppAD::atan`. -/
structure Trig (K : Type) where
  cos : K → K
  sin : K → K
  atan : K → K

/-- Outcome of a computation on vectors: a value, or `fault` once a vector has been accessed
outside its bounds. -/
inductive Res (α : Type) where
  | ok : α → Res α
  | fault : Res α
  deriving DecidableEq, Repr

/-- Sequencing: a fault ends the computation. -/
@[noinline] def Res.bind {α β : Type} (x : Res α) (f : α → Res β) : Res β :=
  match x with
  | Res.ok a => f a
  | Res.fault => Res.fault

instance : Monad Res where
  pure := Res.ok
  bind := Res.bind

/-- Read `v[i]`; a fault when `i` is out of range. -/
def rd {K : Type} (v : Array K) (i : Nat) : Res K :=
  if h : i < v.size then Res.ok v[i] else Res.fault

/-- Assignment `v[i] = x`; a fault when `i` is out of range. -/
def wr {K : Type} (v : Array K) (i : Nat) (x : K) : Res (Array K) :=
  if h : i < v.size then Res.ok (v.set ⟨i, h⟩ x) else Res.fault

/-- Total view of an array used to state results: the entry at `i`, `0` outside the array. -/
def entry {K : Type} [Zero K] (v : Array K) (i : Nat) : K := v.getD i 0

/-- The loop `for (i = lo; i < lo + n; i++) s = body(i, s)`, threading the state `s`
and stopping at the first fault. -/
def forLoop {σ : Type} (body : Nat → σ → Res σ) : Nat → Nat → σ → Res σ
  | _, 0, s => Res.ok s
  | i, n + 1, s => (body i s).bind (forLoop body (i + 1) n)

/-- The loop `for (int i = lo; i < hi; i++)`. -/
def forRange {σ : Type} (lo hi : Nat) (body : Nat → σ → Res σ) (s : σ) : Res σ :=
  forLoop body lo (hi - lo) s

/-! ## Constants and variable layout (lines 9-37) -/

/-- The constant `const double Lf = 2.67`. -/
def Lf {K : Type} [Field K] : K := 2.67

def x_start (_N : Nat) : Nat := 0
def y_start (N : Nat) : Nat := x_start N + N
def psi_start (N : Nat) : Nat := y_start N + N
def v_start (N : Nat) : Nat := psi_start N + N
def cte_start (N : Nat) : Nat := v_start N + N
def epsi_start (N : Nat) : Nat := cte_start N + N
def delta_start (N : Nat) : Nat := epsi_start N + N
def a_start (N : Nat) : Nat := delta_start N + N - 1

/-- The local `n_constraints` of `MPC::Solve`. -/
def n_constraints (N : Nat) : Nat := N * 6

/-- The local `n_vars` of `MPC::Solve`. -/
def n_vars (N : Nat) : Nat := N * 6 + (N - 1) * 2

/-! ## The evaluator `FG_eval::operator()` (lines 47-132) -/

/-- The evaluator: `fg` is the vector the solver supplies (objective at index `0`, constraints
after it), `vars` the decision vector, `coeffs` the member captured by the constructor. -/
def FG_eval {K : Type} [Field K] (T : Trig K) (N : Nat) (dt ref_v : K) (coeffs : Array K)
    (fg vars : Array K) : Res (Array K) := do
  let fg ← wr fg 0 0
  let fg ← forRange 0 N (fun t fg => do
    let fg ← wr fg 0 ((← rd fg 0) + 3000 * (← rd vars (cte_start N + t)) ^ 2)
    let fg ← wr fg 0 ((← rd fg 0) + 2000 * (← rd vars (epsi_start N + t)) ^ 2)
    wr fg 0 ((← rd fg 0) + ((← rd vars (v_start N + t)) - ref_v) ^ 2)) fg
  let fg ← forRange 0 (N - 1) (fun t fg => do
    let fg ← wr fg 0 ((← rd fg 0) + 5 * (← rd vars (delta_start N + t)) ^ 2)
    wr fg 0 ((← rd fg 0) + 5 * (← rd vars (a_start N + t)) ^ 2)) fg
  let fg ← forRange 0 (N - 2) (fun t fg => do
    let fg ← wr fg 0 ((← rd fg 0)
      + 200 * ((← rd vars (delta_start N + t + 1)) - (← rd vars (delta_start N + t))) ^ 2)
    wr fg 0 ((← rd fg 0)
      + 10 * ((← rd vars (a_start N + t + 1)) - (← rd vars (a_start N + t))) ^ 2)) fg
  let fg ← wr fg (1 + x_start N) (← rd vars (x_start N))
  let fg ← wr fg (1 + y_start N) (← rd vars (y_start N))
  let fg ← wr fg (1 + psi_start N) (← rd vars (psi_start N))
  let fg ← wr fg (1 + v_start N) (← rd vars (v_start N))
  let fg ← wr fg (1 + cte_start N) (← rd vars (cte_start N))
  let fg ← wr fg (1 + epsi_start N) (← rd vars (epsi_start N))
  forRange 1 N (fun t fg => do
    let x1 ← rd vars (x_start N + t)
    let y1 ← rd vars (y_start N + t)
    let psi1 ← rd vars (psi_start N + t)
    let v1 ← rd vars (v_start N + t)
    let cte1 ← rd vars (cte_start N + t)
    let epsi1 ← rd vars (epsi_start N + t)
    let x0 ← rd vars (x_start N + t - 1)
    let y0 ← rd vars (y_start N + t - 1)
    let psi0 ← rd vars (psi_start N + t - 1)
    let v0 ← rd vars (v_start N + t - 1)
    let _cte0 ← rd vars (cte_start N + t - 1)
    let epsi0 ← rd vars (epsi_start N + t - 1)
    let delta0 ← rd vars (delta_start N + t - 1)
    let a0 ← rd vars (a_start N + t - 1)
    let f0 := (← rd coeffs 0) + (← rd coeffs 1) * x0 + (← rd coeffs 2) * x0 * x0
      + (← rd coeffs 3) * x0 * x0 * x0
    let psides0 := T.atan (3 * (← rd coeffs 3) * x0 * x0 + 2 * (← rd coeffs 2) * x0
      + (← rd coeffs 1))
    let fg ← wr fg (1 + x_start N + t) (x1 - (x0 + v0 * T.cos psi0 * dt))
    let fg ← wr fg (1 + y_start N + t) (y1 - (y0 + v0 * T.sin psi0 * dt))
    let fg ← wr fg (1 + psi_start N + t) (psi1 - (psi0 - v0 * delta0 / Lf * dt))
    let fg ← wr fg (1 + v_start N + t) (v1 - (v0 + a0 * dt))
    let fg ← wr fg (1 + cte_start N + t) (cte1 - ((f0 - y0) + (v0 * T.sin epsi0 * dt)))
    wr fg (1 + epsi_start N + t) (epsi1 - ((psi0 - psides0) - v0 * delta0 / Lf * dt))) fg

/-! ## The evaluator with its assignments counted -/

/-- Read `fg[i]` in a vector that carries, next to each entry, the number of assignments made
to that entry. -/
def rd_counted {K : Type} (fg : Array (K × Nat)) (i : Nat) : Res K := do
  let e ← rd fg i
  pure e.1

/-- Assignment `fg[i] = x` in such a vector: the entry is replaced and its count goes up by
one. -/
def wr_counted {K : Type} (fg : Array (K × Nat)) (i : Nat) (x : K) : Res (Array (K × Nat)) := do
  let e ← rd fg i
  wr fg i (x, e.2 + 1)

/-- The vector without the counts. -/
def erase {K : Type} (fg : Array (K × Nat)) : Array K := fg.map Prod.fst

/-- The vector `fg` with every count at zero. -/
def uncounted {K : Type} (fg : Array K) : Array (K × Nat) := fg.map (fun x => (x, 0))

/-- The evaluator `FG_eval::operator()` (lines 47-132) statement by statement as in `FG_eval`,
with every assignment to `fg` counted. -/
def FG_eval_counted {K : Type} [Field K] (T : Trig K) (N : Nat) (dt ref_v : K)
    (coeffs : Array K) (fg : Array (K × Nat)) (vars : Array K) : Res (Array (K × Nat)) := do
  let fg ← wr_counted fg 0 0
  let fg ← forRange 0 N (fun t fg => do
    let fg ← wr_counted fg 0 ((← rd_counted fg 0) + 3000 * (← rd vars (cte_start N + t)) ^ 2)
    let fg ← wr_counted fg 0 ((← rd_counted fg 0) + 2000 * (← rd vars (epsi_start N + t)) ^ 2)
    wr_counted fg 0 ((← rd_counted fg 0) + ((← rd vars (v_start N + t)) - ref_v) ^ 2)) fg
  let fg ← forRange 0 (N - 1) (fun t fg => do
    let fg ← wr_counted fg 0 ((← rd_counted fg 0) + 5 * (← rd vars (delta_start N + t)) ^ 2)
    wr_counted fg 0 ((← rd_counted fg 0) + 5 * (← rd vars (a_start N + t)) ^ 2)) fg
  let fg ← forRange 0 (N - 2) (fun t fg => do
    let fg ← wr_counted fg 0 ((← rd_counted fg 0)
      + 200 * ((← rd vars (delta_start N + t + 1)) - (← rd vars (delta_start N + t))) ^ 2)
    wr_counted fg 0 ((← rd_counted fg 0)
      + 10 * ((← rd vars (a_start N + t + 1)) - (← rd vars (a_start N + t))) ^ 2)) fg
  let fg ← wr_counted fg (1 + x_start N) (← rd vars (x_start N))
  let fg ← wr_counted fg (1 + y_start N) (← rd vars (y_start N))
  let fg ← wr_counted fg (1 + psi_start N) (← rd vars (psi_start N))
  let fg ← wr_counted fg (1 + v_start N) (← rd vars (v_start N))
  let fg ← wr_counted fg (1 + cte_start N) (← rd vars (cte_start N))
  let fg ← wr_counted fg (1 + epsi_start N) (← rd vars (epsi_start N))
  forRange 1 N (fun t fg => do
    let x1 ← rd vars (x_start N + t)
    let y1 ← rd vars (y_start N + t)
    let psi1 ← rd vars (psi_start N + t)
    let v1 ← rd vars (v_start N + t)
    let cte1 ← rd vars (cte_start N + t)
    let epsi1 ← rd vars (epsi_start N + t)
    let x0 ← rd vars (x_start N + t - 1)
    let y0 ← rd vars (y_start N + t - 1)
    let psi0 ← rd vars (psi_start N + t - 1)
    let v0 ← rd vars (v_start N + t - 1)
    let _cte0 ← rd vars (cte_start N + t - 1)
    let epsi0 ← rd vars (epsi_start N + t - 1)
    let delta0 ← rd vars (delta_start N + t - 1)
    let a0 ← rd vars (a_start N + t - 1)
    let f0 := (← rd coeffs 0) + (← rd coeffs 1) * x0 + (← rd coeffs 2) * x0 * x0
      + (← rd coeffs 3) * x0 * x0 * x0
    let psides0 := T.atan (3 * (← rd coeffs 3) * x0 * x0 + 2 * (← rd coeffs 2) * x0
      + (← rd coeffs 1))
    let fg ← wr_counted fg (1 + x_start N + t) (x1 - (x0 + v0 * T.cos psi0 * dt))
    let fg ← wr_counted fg (1 + y_start N + t) (y1 - (y0 + v0 * T.sin psi0 * dt))
    let fg ← wr_counted fg (1 + psi_start N + t) (psi1 - (psi0 - v0 * delta0 / Lf * dt))
    let fg ← wr_counted fg (1 + v_start N + t) (v1 - (v0 + a0 * dt))
    let fg ← wr_counted fg (1 + cte_start N + t) (cte1 - ((f0 - y0) + (v0 * T.sin epsi0 * dt)))
    wr_counted fg (1 + epsi_start N + t) (epsi1 - ((psi0 - psides0) - v0 * delta0 / Lf * dt))) fg

/-- The six entries of timestep `t` in `s` have been assigned `c` times more than in `s0`. -/
def counts_at {K : Type} [Zero K] (N : Nat) (s0 s : Array (K × Nat)) (t c : Nat) : Prop :=
  (entry s (1 + x_start N + t)).2 = (entry s0 (1 + x_start N + t)).2 + c ∧
  (entry s (1 + y_start N + t)).2 = (entry s0 (1 + y_start N + t)).2 + c ∧
  (entry s (1 + psi_start N + t)).2 = (entry s0 (1 + psi_start N + t)).2 + c ∧
  (entry s (1 + v_start N + t)).2 = (entry s0 (1 + v_start N + t)).2 + c ∧
  (entry s (1 + cte_start N + t)).2 = (entry s0 (1 + cte_start N + t)).2 + c ∧
  (entry s (1 + epsi_start N + t)).2 = (entry s0 (1 + epsi_start N + t)).2 + c

/-! ## `MPC::Solve` (lines 141-261) -/

/-- Modelled from the spec: the status the external solver reports
(success / infeasible / time-limit / other failure); the solver's own header is not part of
the repository. -/
inductive status_type where
  | success
  | infeasible
  | time_limit
  | other_failure
  deriving DecidableEq, Repr

/-- The two members of `CppAD::ipopt::solve_result` that `MPC::Solve` reads. -/
structure solve_result (K : Type) where
  status : status_type
  x : Array K

/-- The arguments of the call `CppAD::ipopt::solve(options, vars, vars_lowerbound,
vars_upperbound, constraints_lowerbound, constraints_upperbound, fg_eval, solution)`. -/
structure Problem (K : Type) where
  options : String
  vars : Array K
  vars_lowerbound : Array K
  vars_upperbound : Array K
  constraints_lowerbound : Array K
  constraints_upperbound : Array K
  fg_eval : Array K → Array K → Res (Array K)

/-- The declaration `Dvector v(n)`: `n` entries of unspecified content `junk`. -/
def Dvector {K : Type} (n : Nat) (junk : K) : Array K := mkArray n junk

/-- Lines 141-234 of `MPC::Solve`: everything up to the call of the solver. -/
def Solve_problem {K : Type} [Field K] (T : Trig K) (N : Nat) (dt ref_v junk : K)
    (state coeffs : Array K) : Res (Problem K) := do
  let n_constraints := N * 6
  let n_vars := N * 6 + (N - 1) * 2
  let x ← rd state 0
  let y ← rd state 1
  let psi ← rd state 2
  let v ← rd state 3
  let cte ← rd state 4
  let epsi ← rd state 5
  let vars := Dvector n_vars junk
  let vars ← forRange 0 n_vars (fun i vars => wr vars i 0) vars
  let vars_lowerbound := Dvector n_vars junk
  let vars_upperbound := Dvector n_vars junk
  let (vars_lowerbound, vars_upperbound) ← forRange 0 (delta_start N) (fun i b => do
    let lb ← wr b.1 i (-1.0e19)
    let ub ← wr b.2 i 1.0e19
    pure (lb, ub)) (vars_lowerbound, vars_upperbound)
  let (vars_lowerbound, vars_upperbound) ← forRange (delta_start N) (a_start N) (fun i b => do
    let lb ← wr b.1 i (-0.436332 * Lf)
    let ub ← wr b.2 i (0.436332 * Lf)
    pure (lb, ub)) (vars_lowerbound, vars_upperbound)
  let (vars_lowerbound, vars_upperbound) ← forRange (a_start N) n_vars (fun i b => do
    let lb ← wr b.1 i (-1.0)
    let ub ← wr b.2 i 1.0
    pure (lb, ub)) (vars_lowerbound, vars_upperbound)
  let constraints_lowerbound := Dvector n_constraints junk
  let constraints_upperbound := Dvector n_constraints junk
  let (constraints_lowerbound, constraints_upperbound) ← forRange 0 n_constraints (fun i b => do
    let lb ← wr b.1 i 0
    let ub ← wr b.2 i 0
    pure (lb, ub)) (constraints_lowerbound, constraints_upperbound)
  let constraints_lowerbound ← wr constraints_lowerbound (x_start N) x
  let constraints_lowerbound ← wr constraints_lowerbound (y_start N) y
  let constraints_lowerbound ← wr constraints_lowerbound (psi_start N) psi
  let constraints_lowerbound ← wr constraints_lowerbound (v_start N) v
  let constraints_lowerbound ← wr constraints_lowerbound (cte_start N) cte
  let constraints_lowerbound ← wr constraints_lowerbound (epsi_start N) epsi
  let constraints_upperbound ← wr constraints_upperbound (x_start N) x
  let constraints_upperbound ← wr constraints_upperbound (y_start N) y
  let constraints_upperbound ← wr constraints_upperbound (psi_start N) psi
  let constraints_upperbound ← wr constraints_upperbound (v_start N) v
  let constraints_upperbound ← wr constraints_upperbound (cte_start N) cte
  let constraints_upperbound ← wr constraints_upperbound (epsi_start N) epsi
  let fg_eval := FG_eval T N dt ref_v coeffs
  let options := ""
  let options := options ++ "Integer print_level  0\n"
  let options := options ++ "Sparse  true        forward\n"
  let options := options ++ "Sparse  true        reverse\n"
  let options := options ++ "Numeric max_cpu_time          0.5\n"
  pure (Problem.mk options vars vars_lowerbound vars_upperbound constraints_lowerbound
    constraints_upperbound fg_eval)

/-- Lines 247-259 of `MPC::Solve`: the returned vector, built from the solver's answer. -/
def Solve_result {K : Type} (N : Nat) (solution : solve_result K) : Res (Array K) := do
  let result : Array K := #[]
  let result := result.push (← rd solution.x (delta_start N))
  let result := result.push (← rd solution.x (a_start N))
  forRange 0 (N - 1) (fun i result => do
    let result := result.push (← rd solution.x (x_start N + i))
    pure (result.push (← rd solution.x (y_start N + i)))) result

/-- The function `MPC::Solve`; `solve` is the external solver.  The flag `ok` is computed
from the status and, as in the source, never read. -/
def Solve {K : Type} [Field K] (T : Trig K) (N : Nat) (dt ref_v junk : K)
    (solve : Problem K → solve_result K) (state coeffs : Array K) : Res (Array K) := do
  let ok := true
  let p ← Solve_problem T N dt ref_v junk state coeffs
  let solution := solve p
  let _ok := ok && decide (solution.status = status_type.success)
  Solve_result N solution


/-! ## The blocks of the decision vector -/

/-- Offset of the `k`-th block of the decision vector, in the order of lines 30-37:
`x, y, psi, v, cte, epsi, delta, a`. -/
def block_start (N : Nat) (k : Nat) : Nat :=
  match k with
  | 0 => x_start N
  | 1 => y_start N
  | 2 => psi_start N
  | 3 => v_start N
  | 4 => cte_start N
  | 5 => epsi_start N
  | 6 => delta_start N
  | _ => a_start N

/-- Length of the `k`-th block: `N` for the six state blocks, `N - 1` for the two actuator
blocks. -/
def block_len (N : Nat) (k : Nat) : Nat := if k < 6 then N else N - 1

/-! ## Closed forms used to describe a run of the evaluator -/

/-- Value accumulated in `fg[0]` by the three cost loops (lines 57-77). -/
def objective {K : Type} [Field K] (N : Nat) (ref_v : K) (vars : Array K) : K :=
  (Finset.range N).sum (fun t => 3000 * entry vars (cte_start N + t) ^ 2
      + 2000 * entry vars (epsi_start N + t) ^ 2
      + (entry vars (v_start N + t) - ref_v) ^ 2)
    + (Finset.range (N - 1)).sum (fun t => 5 * entry vars (delta_start N + t) ^ 2
      + 5 * entry vars (a_start N + t) ^ 2)
    + (Finset.range (N - 2)).sum (fun t =>
      200 * (entry vars (delta_start N + t + 1) - entry vars (delta_start N + t)) ^ 2
      + 10 * (entry vars (a_start N + t + 1) - entry vars (a_start N + t)) ^ 2)

/-- The six entries of `out` at `1 + field_start` hold the values lines 83-88 assign. -/
def initial_entries {K : Type} [Field K] (N : Nat) (vars out : Array K) : Prop :=
  entry out (1 + x_start N) = entry vars (x_start N) ∧
  entry out (1 + y_start N) = entry vars (y_start N) ∧
  entry out (1 + psi_start N) = entry vars (psi_start N) ∧
  entry out (1 + v_start N) = entry vars (v_start N) ∧
  entry out (1 + cte_start N) = entry vars (cte_start N) ∧
  entry out (1 + epsi_start N) = entry vars (epsi_start N)

/-- The six entries of `out` at `1 + field_start + t` hold the values lines 123-130 assign
in the iteration `t` of the constraint loop. -/
def step_entries {K : Type} [Field K] (T : Trig K) (N : Nat) (dt : K) (coeffs vars out : Array K)
    (t : Nat) : Prop :=
  entry out (1 + x_start N + t) = entry vars (x_start N + t)
    - (entry vars (x_start N + t - 1) + entry vars (v_start N + t - 1)
      * T.cos (entry vars (psi_start N + t - 1)) * dt) ∧
  entry out (1 + y_start N + t) = entry vars (y_start N + t)
    - (entry vars (y_start N + t - 1) + entry vars (v_start N + t - 1)
      * T.sin (entry vars (psi_start N + t - 1)) * dt) ∧
  entry out (1 + psi_start N + t) = entry vars (psi_start N + t)
    - (entry vars (psi_start N + t - 1) - entry vars (v_start N + t - 1)
      * entry vars (delta_start N + t - 1) / Lf * dt) ∧
  entry out (1 + v_start N + t) = entry vars (v_start N + t)
    - (entry vars (v_start N + t - 1) + entry vars (a_start N + t - 1) * dt) ∧
  entry out (1 + cte_start N + t) = entry vars (cte_start N + t)
    - ((entry coeffs 0 + entry coeffs 1 * entry vars (x_start N + t - 1)
        + entry coeffs 2 * entry vars (x_start N + t - 1) * entry vars (x_start N + t - 1)
        + entry coeffs 3 * entry vars (x_start N + t - 1) * entry vars (x_start N + t - 1)
          * entry vars (x_start N + t - 1) - entry vars (y_start N + t - 1))
      + entry vars (v_start N + t - 1) * T.sin (entry vars (epsi_start N + t - 1)) * dt) ∧
  entry out (1 + epsi_start N + t) = entry vars (epsi_start N + t)
    - ((entry vars (psi_start N + t - 1)
        - T.atan (3 * entry coeffs 3 * entry vars (x_start N + t - 1)
            * entry vars (x_start N + t - 1)
          + 2 * entry coeffs 2 * entry vars (x_start N + t - 1) + entry coeffs 1))
      - entry vars (v_start N + t - 1) * entry vars (delta_start N + t - 1) / Lf * dt)


/-! ## Description of the problem handed to the solver -/

/-- What lines 141-234 of `MPC::Solve` hand to the solver, entry by entry. -/
structure Built {K : Type} [Field K] (T : Trig K) (N : Nat) (dt ref_v : K)
    (state coeffs : Array K) (p : Problem K) : Prop where
  fg_eval_eq : p.fg_eval = FG_eval T N dt ref_v coeffs
  vars_size : p.vars.size = n_vars N
  vars_zero : ∀ i, i < n_vars N → entry p.vars i = 0
  lower_size : p.vars_lowerbound.size = n_vars N
  upper_size : p.vars_upperbound.size = n_vars N
  state_bounds : ∀ i, i < delta_start N →
    entry p.vars_lowerbound i = -1.0e19 ∧ entry p.vars_upperbound i = 1.0e19
  delta_bounds : ∀ i, delta_start N ≤ i → i < a_start N →
    entry p.vars_lowerbound i = -0.436332 * Lf ∧ entry p.vars_upperbound i = 0.436332 * Lf
  a_bounds : ∀ i, a_start N ≤ i → i < n_vars N →
    entry p.vars_lowerbound i = -1.0 ∧ entry p.vars_upperbound i = 1.0
  clower_size : p.constraints_lowerbound.size = n_constraints N
  cupper_size : p.constraints_upperbound.size = n_constraints N
  cbounds_zero : ∀ i, i < n_constraints N → i ≠ x_start N → i ≠ y_start N → i ≠ psi_start N →
    i ≠ v_start N → i ≠ cte_start N → i ≠ epsi_start N →
    entry p.constraints_lowerbound i = 0 ∧ entry p.constraints_upperbound i = 0
  clower_init : entry p.constraints_lowerbound (x_start N) = entry state 0 ∧
    entry p.constraints_lowerbound (y_start N) = entry state 1 ∧
    entry p.constraints_lowerbound (psi_start N) = entry state 2 ∧
    entry p.constraints_lowerbound (v_start N) = entry state 3 ∧
    entry p.constraints_lowerbound (cte_start N) = entry state 4 ∧
    entry p.constraints_lowerbound (epsi_start N) = entry state 5
  cupper_init : entry p.constraints_upperbound (x_start N) = entry state 0 ∧
    entry p.constraints_upperbound (y_start N) = entry state 1 ∧
    entry p.constraints_upperbound (psi_start N) = entry state 2 ∧
    entry p.constraints_upperbound (v_start N) = entry state 3 ∧
    entry p.constraints_upperbound (cte_start N) = entry state 4 ∧
    entry p.constraints_upperbound (epsi_start N) = entry state 5

/-! ## Trajectories: the spec's vehicle state and kinematic update (sections 3 and 4.2) -/

/-- The `VehicleState` of the spec: `(x, y, psi, v, cte, epsi)`. -/
structure VehicleState (K : Type) where
  x : K
  y : K
  psi : K
  v : K
  cte : K
  epsi : K

/-- The six state entries of a decision vector at timestep `t`. -/
def state_at {K : Type} [Zero K] (N : Nat) (vars : Array K) (t : Nat) : VehicleState K :=
  VehicleState.mk (entry vars (x_start N + t)) (entry vars (y_start N + t))
    (entry vars (psi_start N + t)) (entry vars (v_start N + t)) (entry vars (cte_start N + t))
    (entry vars (epsi_start N + t))

/-- The kinematic update in the words of the spec (section 4.2): the state that follows the
state `s` under the actuators `delta` and `a`, for the reference polynomial
`f(x) = c0 + c1 x + c2 x² + c3 x³` and the desired heading `atan(3 c3 x² + 2 c2 x + c1)`. -/
def kinematic_update {K : Type} [Field K] (T : Trig K) (dt c0 c1 c2 c3 : K)
    (s : VehicleState K) (delta a : K) : VehicleState K :=
  VehicleState.mk (s.x + s.v * T.cos s.psi * dt) (s.y + s.v * T.sin s.psi * dt)
    (s.psi - s.v * delta / Lf * dt) (s.v + a * dt)
    ((c0 + c1 * s.x + c2 * s.x ^ 2 + c3 * s.x ^ 3 - s.y) + s.v * T.sin s.epsi * dt)
    ((s.psi - T.atan (3 * c3 * s.x ^ 2 + 2 * c2 * s.x + c1)) - s.v * delta / Lf * dt)

/-- Forward simulation: the measured state, then one kinematic update per transition. -/
def simulate {K : Type} [Field K] (T : Trig K) (dt c0 c1 c2 c3 : K) (m : VehicleState K)
    (delta a : Nat → K) : Nat → VehicleState K
  | 0 => m
  | t + 1 => kinematic_update T dt c0 c1 c2 c3 (simulate T dt c0 c1 c2 c3 m delta a t)
      (delta t) (a t)

/-- The vector with the `n` entries `f 0, ..., f (n - 1)`. -/
def vec_of {K : Type} (n : Nat) (f : Nat → K) : Array K := Array.ofFn (fun i : Fin n => f i.val)

/-- The decision vector that holds the states `s 0, ..., s (N - 1)` in the six state blocks and
the actuators `delta t`, `a t` for `t < N - 1` in the two actuator blocks. -/
def trajectory {K : Type} (N : Nat) (s : Nat → VehicleState K) (delta a : Nat → K) : Array K :=
  vec_of (n_vars N) (fun i =>
    if i < y_start N then (s (i - x_start N)).x
    else if i < psi_start N then (s (i - y_start N)).y
    else if i < v_start N then (s (i - psi_start N)).psi
    else if i < cte_start N then (s (i - v_start N)).v
    else if i < epsi_start N then (s (i - cte_start N)).cte
    else if i < delta_start N then (s (i - epsi_start N)).epsi
    else if i < a_start N then delta (i - delta_start N)
    else a (i - a_start N))

/-- The decision vector is a forward simulation from the measured state `m`: its timestep-0
state is `m` and each later state is the kinematic update of the previous one under the
actuators stored for that transition. -/
def follows_model {K : Type} [Field K] (T : Trig K) (N : Nat) (dt c0 c1 c2 c3 : K)
    (m : VehicleState K) (vars : Array K) : Prop :=
  state_at N vars 0 = m ∧
  ∀ t, t + 1 < N → state_at N vars (t + 1)
    = kinematic_update T dt c0 c1 c2 c3 (state_at N vars t) (entry vars (delta_start N + t))
      (entry vars (a_start N + t))

/-- The constraint entries `out[1 ..  N * 6]` computed by the evaluator equal both constraint
bounds of the problem `p`. -/
def feasible {K : Type} [Zero K] (N : Nat) (p : Problem K) (out : Array K) : Prop :=
  ∀ i, i < N * 6 → entry out (1 + i) = entry p.constraints_lowerbound i ∧
    entry out (1 + i) = entry p.constraints_upperbound i

/-! ## The straight-line scenario -/

/-- Every entry of the decision vector lies between its lower and its upper variable bound. -/
def within_bounds {K : Type} [Zero K] [LE K] (p : Problem K) (vars : Array K) : Prop :=
  ∀ i, i < vars.size →
    entry p.vars_lowerbound i ≤ entry vars i ∧ entry vars i ≤ entry p.vars_upperbound i

/-- The decision vector of the straight-line scenario: `x_t = 100 * dt * t`, `v_t = 100`,
`y_t = psi_t = cte_t = epsi_t = 0` for every timestep and `delta_t = a_t = 0` for every
transition. -/
def straight_line {K : Type} [Field K] (N : Nat) (dt : K) : Array K :=
  trajectory N (fun t => VehicleState.mk (100 * dt * (t : K)) 0 0 100 0 0) (fun _ => 0)
    (fun _ => 0)

/-! ## Sample inputs for the horizon `N = 10` of the source -/

/-- Stand-ins on the rationals for `cos`, `sin` and `atan`: their values at `0`. -/
def sample_trig : Trig ℚ := Trig.mk (fun _ => 1) (fun _ => 0) (fun _ => 0)

/-- A decision vector for `N = 10`: the `10 * 6 + 9 * 2 = 78` entries `0, 1, ..., 77`. -/
def sample_vars : Array ℚ := Array.map (fun (n : Nat) => (n : ℚ)) (Array.range 78)

/-- A vector `fg` for `N = 10`: room for the objective and `10 * 6` constraints. -/
def sample_fg : Array ℚ := mkArray 61 0

/-- A solver that reports success with the solution `0, 1, ..., 77`. -/
def sample_solve (_p : Problem ℚ) : solve_result ℚ :=
  solve_result.mk status_type.success sample_vars

/-- A solver that runs out of time and leaves `0, 1, ..., 77` in `solution.x`. -/
def sample_solve_time_limit (_p : Problem ℚ) : solve_result ℚ :=
  solve_result.mk status_type.time_limit sample_vars


/-- A solver that reports success with the straight-line vector for `N = 10`. -/
def sample_solve_straight (_p : Problem ℚ) : solve_result ℚ :=
  solve_result.mk status_type.success (straight_line 10 0.1)



/-! ## Double precision arithmetic -/

/-- A value of type `double`.  `fin k` is the finite value `k * 2^-1074`: every finite double
is an integer multiple of the smallest subnormal `2^-1074` (`fin 0` stands for both signed
zeros).  `nonfinite` is an infinity or a NaN, or a value computed from one.  The doubles are
the values `fin k` with `|k| < 2^2098` whose magnitude has at most 53 significant bits; the
literals and the rounded operations below produce such values, and a statement made for every
`fin k` holds for them in particular. -/
inductive F64 where
  | fin (k : Int)
  | nonfinite
  deriving DecidableEq, Repr

/-- The integer nearest to `n / d`, ties to the even one. -/
def F64.rne (n d : Nat) : Nat :=
  if 2 * (n % d) < d then n / d
  else if d < 2 * (n % d) then n / d + 1
  else if (n / d) % 2 = 0 then n / d else n / d + 1

/-- Bisection for the position of the leading bit: the largest `e < acc + 2 ^ b` with
`2 ^ e ≤ q`, given `2 ^ acc ≤ q`. -/
def F64.log2Bisect (q : Nat) : Nat → Nat → Nat
  | 0, acc => acc
  | b + 1, acc =>
    if 2 ^ (acc + 2 ^ b) ≤ q then F64.log2Bisect q b (acc + 2 ^ b) else F64.log2Bisect q b acc

/-- The number of bits by which `q` exceeds the 53 bits of a significand. -/
def F64.excess (q : Nat) : Nat := F64.log2Bisect q 13 0 - 52

/-- Round to nearest, ties to even: the multiple of `2 ^ excess` with a 53-bit significand
nearest to `n / d`, in units of `2^-1074`. -/
@[irreducible] def F64.roundMag (n d : Nat) : Nat :=
  F64.rne n (d * 2 ^ F64.excess (n / d)) * 2 ^ F64.excess (n / d)

/-- The value `1.0` in units of `2^-1074`. -/
@[irreducible] def F64.unit : Nat := 2 ^ 1074

/-- The magnitude `2^1024` in units of `2^-1074`: from here on a rounded result overflows. -/
@[irreducible] def F64.overflow : Nat := 2 ^ 2098

/-- The double nearest to `p / d` units of `2^-1074`; a result of magnitude `2^1024` or more
is an overflow. -/
@[irreducible] def F64.round (p : Int) (d : Nat) : F64 :=
  if F64.roundMag p.natAbs d < F64.overflow then
    (if p < 0 then F64.fin (-(F64.roundMag p.natAbs d : Int))
      else F64.fin (F64.roundMag p.natAbs d))
  else F64.nonfinite

/-- The sum: the exact sum of the two values, rounded. -/
def F64.add : F64 → F64 → F64
  | F64.fin a, F64.fin b => F64.round (a + b) 1
  | _, _ => F64.nonfinite

/-- The difference: the exact difference of the two values, rounded. -/
def F64.sub : F64 → F64 → F64
  | F64.fin a, F64.fin b => F64.round (a - b) 1
  | _, _ => F64.nonfinite

/-- The product: the exact product `a * b * 2^-2148`, rounded to units of `2^-1074`. -/
def F64.mul : F64 → F64 → F64
  | F64.fin a, F64.fin b => F64.round (a * b) F64.unit
  | _, _ => F64.nonfinite

/-- The quotient.  A division by zero is not finite; so is, here, a division by a non-finite
value (the program divides only by the constant `Lf`). -/
def F64.div : F64 → F64 → F64
  | F64.fin a, F64.fin b =>
    if 0 < b then F64.round (a * (F64.unit : Int)) b.natAbs
    else if b < 0 then F64.round (-(a * (F64.unit : Int))) b.natAbs
    else F64.nonfinite
  | _, _ => F64.nonfinite

/-- The opposite value, which is exact. -/
def F64.neg : F64 → F64
  | F64.fin a => F64.fin (-a)
  | F64.nonfinite => F64.nonfinite

instance : Add F64 := ⟨F64.add⟩
instance : Sub F64 := ⟨F64.sub⟩
instance : Mul F64 := ⟨F64.mul⟩
instance : Div F64 := ⟨F64.div⟩
instance : Neg F64 := ⟨F64.neg⟩
instance : Zero F64 := ⟨F64.fin 0⟩
instance : One F64 := ⟨F64.fin F64.unit⟩

/-- Conversion of an integer constant. -/
instance : NatCast F64 := ⟨fun n => F64.round ((n * F64.unit : Nat) : Int) 1⟩

/-- A decimal literal denotes the double nearest to it. -/
instance : OfScientific F64 :=
  ⟨fun m s e => if s then F64.round ((m * F64.unit : Nat) : Int) (10 ^ e)
    else F64.round ((m * 10 ^ e * F64.unit : Nat) : Int) 1⟩

/-- The power with an `int` exponent by repeated multiplication, as `CppAD::pow` computes
it. -/
def F64.powAux : Nat → F64 → Nat → F64
  | 0, _, _ => 1
  | fuel + 1, x, n =>
    if n = 0 then 1
    else if n = 1 then x
    else if n % 2 = 0 then F64.powAux fuel (x * x) (n / 2)
    else F64.powAux fuel (x * x) (n / 2) * x

instance : Pow F64 Nat := ⟨fun x n => F64.powAux n x n⟩

/-- Comparison of finite doubles; nothing is compared with a non-finite value. -/
instance : LE F64 := ⟨fun x y => match x, y with
  | F64.fin a, F64.fin b => a ≤ b
  | _, _ => False⟩

instance : LT F64 := ⟨fun x y => match x, y with
  | F64.fin a, F64.fin b => a < b
  | _, _ => False⟩

instance F64.decLe (x y : F64) : Decidable (x ≤ y) :=
  match x, y with
  | F64.fin a, F64.fin b => (inferInstance : Decidable (a ≤ b))
  | F64.fin _, F64.nonfinite => isFalse (fun h => h)
  | F64.nonfinite, _ => isFalse (fun h => h)

instance F64.decLt (x y : F64) : Decidable (x < y) :=
  match x, y with
  | F64.fin a, F64.fin b => (inferInstance : Decidable (a < b))
  | F64.fin _, F64.nonfinite => isFalse (fun h => h)
  | F64.nonfinite, _ => isFalse (fun h => h)

/-- The rational value of a finite double (`0` for a non-finite one). -/
def F64.toRat : F64 → ℚ
  | F64.fin k => (k : ℚ) / (F64.unit : ℚ)
  | F64.nonfinite => 0

/-- The number of units `2^-1074` in a finite double (`0` for a non-finite one). -/
def F64.units : F64 → Int
  | F64.fin k => k
  | F64.nonfinite => 0

/-- The value is not negative: a finite value `≥ 0`, or non-finite (an overflow). -/
def F64.NotNeg : F64 → Prop
  | F64.fin k => 0 ≤ k
  | F64.nonfinite => True

/-- The constant `const double Lf = 2.67` as a double. -/
def Lf_double : F64 := 2.67

/-- The evaluator `FG_eval::operator()` (lines 47-132) statement by statement as in `FG_eval`,
in double arithmetic: every operation is rounded. -/
def FG_eval_double (T : Trig F64) (N : Nat) (dt ref_v : F64) (coeffs : Array F64)
    (fg vars : Array F64) : Res (Array F64) := do
  let fg ← wr fg 0 0
  let fg ← forRange 0 N (fun t fg => do
    let fg ← wr fg 0 ((← rd fg 0) + 3000 * (← rd vars (cte_start N + t)) ^ 2)
    let fg ← wr fg 0 ((← rd fg 0) + 2000 * (← rd vars (epsi_start N + t)) ^ 2)
    wr fg 0 ((← rd fg 0) + ((← rd vars (v_start N + t)) - ref_v) ^ 2)) fg
  let fg ← forRange 0 (N - 1) (fun t fg => do
    let fg ← wr fg 0 ((← rd fg 0) + 5 * (← rd vars (delta_start N + t)) ^ 2)
    wr fg 0 ((← rd fg 0) + 5 * (← rd vars (a_start N + t)) ^ 2)) fg
  let fg ← forRange 0 (N - 2) (fun t fg => do
    let fg ← wr fg 0 ((← rd fg 0)
      + 200 * ((← rd vars (delta_start N + t + 1)) - (← rd vars (delta_start N + t))) ^ 2)
    wr fg 0 ((← rd fg 0)
      + 10 * ((← rd vars (a_start N + t + 1)) - (← rd vars (a_start N + t))) ^ 2)) fg
  let fg ← wr fg (1 + x_start N) (← rd vars (x_start N))
  let fg ← wr fg (1 + y_start N) (← rd vars (y_start N))
  let fg ← wr fg (1 + psi_start N) (← rd vars (psi_start N))
  let fg ← wr fg (1 + v_start N) (← rd vars (v_start N))
  let fg ← wr fg (1 + cte_start N) (← rd vars (cte_start N))
  let fg ← wr fg (1 + epsi_start N) (← rd vars (epsi_start N))
  forRange 1 N (fun t fg => do
    let x1 ← rd vars (x_start N + t)
    let y1 ← rd vars (y_start N + t)
    let psi1 ← rd vars (psi_start N + t)
    let v1 ← rd vars (v_start N + t)
    let cte1 ← rd vars (cte_start N + t)
    let epsi1 ← rd vars (epsi_start N + t)
    let x0 ← rd vars (x_start N + t - 1)
    let y0 ← rd vars (y_start N + t - 1)
    let psi0 ← rd vars (psi_start N + t - 1)
    let v0 ← rd vars (v_start N + t - 1)
    let _cte0 ← rd vars (cte_start N + t - 1)
    let epsi0 ← rd vars (epsi_start N + t - 1)
    let delta0 ← rd vars (delta_start N + t - 1)
    let a0 ← rd vars (a_start N + t - 1)
    let f0 := (← rd coeffs 0) + (← rd coeffs 1) * x0 + (← rd coeffs 2) * x0 * x0
      + (← rd coeffs 3) * x0 * x0 * x0
    let psides0 := T.atan (3 * (← rd coeffs 3) * x0 * x0 + 2 * (← rd coeffs 2) * x0
      + (← rd coeffs 1))
    let fg ← wr fg (1 + x_start N + t) (x1 - (x0 + v0 * T.cos psi0 * dt))
    let fg ← wr fg (1 + y_start N + t) (y1 - (y0 + v0 * T.sin psi0 * dt))
    let fg ← wr fg (1 + psi_start N + t) (psi1 - (psi0 - v0 * delta0 / Lf_double * dt))
    let fg ← wr fg (1 + v_start N + t) (v1 - (v0 + a0 * dt))
    let fg ← wr fg (1 + cte_start N + t) (cte1 - ((f0 - y0) + (v0 * T.sin epsi0 * dt)))
    wr fg (1 + epsi_start N + t) (epsi1 - ((psi0 - psides0) - v0 * delta0 / Lf_double * dt))) fg


/-! ## Closed forms for a run of the evaluator in double arithmetic -/

/-- Value of `fg[0]` after `k` rounds of the first cost loop (lines 57-61), every operation
rounded, in the order of the source. -/
def cost_track (N : Nat) (ref_v : F64) (vars : Array F64) : Nat → F64
  | 0 => 0
  | k + 1 => cost_track N ref_v vars k + 3000 * entry vars (cte_start N + k) ^ 2
      + 2000 * entry vars (epsi_start N + k) ^ 2 + (entry vars (v_start N + k) - ref_v) ^ 2

/-- Value of `fg[0]` after `k` rounds of the second cost loop (lines 65-68), started
at `base`. -/
def cost_act (N : Nat) (vars : Array F64) (base : F64) : Nat → F64
  | 0 => base
  | k + 1 => cost_act N vars base k + 5 * entry vars (delta_start N + k) ^ 2
      + 5 * entry vars (a_start N + k) ^ 2

/-- Value of `fg[0]` after `k` rounds of the third cost loop (lines 74-77), started
at `base`. -/
def cost_rate (N : Nat) (vars : Array F64) (base : F64) : Nat → F64
  | 0 => base
  | k + 1 => cost_rate N vars base k
      + 200 * (entry vars (delta_start N + k + 1) - entry vars (delta_start N + k)) ^ 2
      + 10 * (entry vars (a_start N + k + 1) - entry vars (a_start N + k)) ^ 2

/-- Value accumulated in `fg[0]` by the three cost loops in double arithmetic. -/
def objective_double (N : Nat) (ref_v : F64) (vars : Array F64) : F64 :=
  cost_rate N vars (cost_act N vars (cost_track N ref_v vars N) (N - 1)) (N - 2)

/-- The six entries of `out` at `1 + field_start` hold the values lines 83-88 assign. -/
def initial_entries_double (N : Nat) (vars out : Array F64) : Prop :=
  entry out (1 + x_start N) = entry vars (x_start N) ∧
  entry out (1 + y_start N) = entry vars (y_start N) ∧
  entry out (1 + psi_start N) = entry vars (psi_start N) ∧
  entry out (1 + v_start N) = entry vars (v_start N) ∧
  entry out (1 + cte_start N) = entry vars (cte_start N) ∧
  entry out (1 + epsi_start N) = entry vars (epsi_start N)

/-- The six entries of `out` at `1 + field_start + t` hold the values lines 123-130 assign
in the iteration `t` of the constraint loop, every operation rounded. -/
def step_entries_double (T : Trig F64) (N : Nat) (dt : F64) (coeffs vars out : Array F64)
    (t : Nat) : Prop :=
  entry out (1 + x_start N + t) = entry vars (x_start N + t)
    - (entry vars (x_start N + t - 1) + entry vars (v_start N + t - 1)
      * T.cos (entry vars (psi_start N + t - 1)) * dt) ∧
  entry out (1 + y_start N + t) = entry vars (y_start N + t)
    - (entry vars (y_start N + t - 1) + entry vars (v_start N + t - 1)
      * T.sin (entry vars (psi_start N + t - 1)) * dt) ∧
  entry out (1 + psi_start N + t) = entry vars (psi_start N + t)
    - (entry vars (psi_start N + t - 1) - entry vars (v_start N + t - 1)
      * entry vars (delta_start N + t - 1) / Lf_double * dt) ∧
  entry out (1 + v_start N + t) = entry vars (v_start N + t)
    - (entry vars (v_start N + t - 1) + entry vars (a_start N + t - 1) * dt) ∧
  entry out (1 + cte_start N + t) = entry vars (cte_start N + t)
    - ((entry coeffs 0 + entry coeffs 1 * entry vars (x_start N + t - 1)
        + entry coeffs 2 * entry vars (x_start N + t - 1) * entry vars (x_start N + t - 1)
        + entry coeffs 3 * entry vars (x_start N + t - 1) * entry vars (x_start N + t - 1)
          * entry vars (x_start N + t - 1) - entry vars (y_start N + t - 1))
      + entry vars (v_start N + t - 1) * T.sin (entry vars (epsi_start N + t - 1)) * dt) ∧
  entry out (1 + epsi_start N + t) = entry vars (epsi_start N + t)
    - ((entry vars (psi_start N + t - 1)
        - T.atan (3 * entry coeffs 3 * entry vars (x_start N + t - 1)
            * entry vars (x_start N + t - 1)
          + 2 * entry coeffs 2 * entry vars (x_start N + t - 1) + entry coeffs 1))
      - entry vars (v_start N + t - 1) * entry vars (delta_start N + t - 1) / Lf_double * dt)

/-- The steering term `v0 * delta0 / Lf * dt` that lines 127 and 130 subtract in the iteration
`t` of the constraint loop, every operation rounded. -/
def steer_term (N : Nat) (dt : F64) (vars : Array F64) (t : Nat) : F64 :=
  entry vars (v_start N + t - 1) * entry vars (delta_start N + t - 1) / Lf_double * dt

/-- The desired heading `psides0` of line 121 in the iteration `t` of the constraint loop, every
operation rounded. -/
def psides_at (T : Trig F64) (N : Nat) (coeffs vars : Array F64) (t : Nat) : F64 :=
  T.atan (3 * entry coeffs 3 * entry vars (x_start N + t - 1) * entry vars (x_start N + t - 1)
    + 2 * entry coeffs 2 * entry vars (x_start N + t - 1) + entry coeffs 1)


/-! ## `MPC::Solve` in double arithmetic -/

/-- Lines 141-234 of `MPC::Solve` statement by statement as in `Solve_problem`, with the bounds
computed in double arithmetic and the evaluator `FG_eval_double`. -/
def Solve_problem_double (T : Trig F64) (N : Nat) (dt ref_v junk : F64)
    (state coeffs : Array F64) : Res (Problem F64) := do
  let n_constraints := N * 6
  let n_vars := N * 6 + (N - 1) * 2
  let x ← rd state 0
  let y ← rd state 1
  let psi ← rd state 2
  let v ← rd state 3
  let cte ← rd state 4
  let epsi ← rd state 5
  let vars := Dvector n_vars junk
  let vars ← forRange 0 n_vars (fun i vars => wr vars i 0) vars
  let vars_lowerbound := Dvector n_vars junk
  let vars_upperbound := Dvector n_vars junk
  let (vars_lowerbound, vars_upperbound) ← forRange 0 (delta_start N) (fun i b => do
    let lb ← wr b.1 i (-1.0e19)
    let ub ← wr b.2 i 1.0e19
    pure (lb, ub)) (vars_lowerbound, vars_upperbound)
  let (vars_lowerbound, vars_upperbound) ← forRange (delta_start N) (a_start N) (fun i b => do
    let lb ← wr b.1 i (-0.436332 * Lf_double)
    let ub ← wr b.2 i (0.436332 * Lf_double)
    pure (lb, ub)) (vars_lowerbound, vars_upperbound)
  let (vars_lowerbound, vars_upperbound) ← forRange (a_start N) n_vars (fun i b => do
    let lb ← wr b.1 i (-1.0)
    let ub ← wr b.2 i 1.0
    pure (lb, ub)) (vars_lowerbound, vars_upperbound)
  let constraints_lowerbound := Dvector n_constraints junk
  let constraints_upperbound := Dvector n_constraints junk
  let (constraints_lowerbound, constraints_upperbound) ← forRange 0 n_constraints (fun i b => do
    let lb ← wr b.1 i 0
    let ub ← wr b.2 i 0
    pure (lb, ub)) (constraints_lowerbound, constraints_upperbound)
  let constraints_lowerbound ← wr constraints_lowerbound (x_start N) x
  let constraints_lowerbound ← wr constraints_lowerbound (y_start N) y
  let constraints_lowerbound ← wr constraints_lowerbound (psi_start N) psi
  let constraints_lowerbound ← wr constraints_lowerbound (v_start N) v
  let constraints_lowerbound ← wr constraints_lowerbound (cte_start N) cte
  let constraints_lowerbound ← wr constraints_lowerbound (epsi_start N) epsi
  let constraints_upperbound ← wr constraints_upperbound (x_start N) x
  let constraints_upperbound ← wr constraints_upperbound (y_start N) y
  let constraints_upperbound ← wr constraints_upperbound (psi_start N) psi
  let constraints_upperbound ← wr constraints_upperbound (v_start N) v
  let constraints_upperbound ← wr constraints_upperbound (cte_start N) cte
  let constraints_upperbound ← wr constraints_upperbound (epsi_start N) epsi
  let fg_eval := FG_eval_double T N dt ref_v coeffs
  let options := ""
  let options := options ++ "Integer print_level  0\n"
  let options := options ++ "Sparse  true        forward\n"
  let options := options ++ "Sparse  true        reverse\n"
  let options := options ++ "Numeric max_cpu_time          0.5\n"
  pure (Problem.mk options vars vars_lowerbound vars_upperbound constraints_lowerbound
    constraints_upperbound fg_eval)

/-- What `Solve_problem_double` hands to the solver, entry by entry. -/
structure Built_double (T : Trig F64) (N : Nat) (dt ref_v : F64)
    (state coeffs : Array F64) (p : Problem F64) : Prop where
  fg_eval_eq : p.fg_eval = FG_eval_double T N dt ref_v coeffs
  vars_size : p.vars.size = n_vars N
  vars_zero : ∀ i, i < n_vars N → entry p.vars i = 0
  lower_size : p.vars_lowerbound.size = n_vars N
  upper_size : p.vars_upperbound.size = n_vars N
  state_bounds : ∀ i, i < delta_start N →
    entry p.vars_lowerbound i = -1.0e19 ∧ entry p.vars_upperbound i = 1.0e19
  delta_bounds : ∀ i, delta_start N ≤ i → i < a_start N →
    entry p.vars_lowerbound i = -0.436332 * Lf_double ∧
      entry p.vars_upperbound i = 0.436332 * Lf_double
  a_bounds : ∀ i, a_start N ≤ i → i < n_vars N →
    entry p.vars_lowerbound i = -1.0 ∧ entry p.vars_upperbound i = 1.0
  clower_size : p.constraints_lowerbound.size = n_constraints N
  cupper_size : p.constraints_upperbound.size = n_constraints N
  cbounds_zero : ∀ i, i < n_constraints N → i ≠ x_start N → i ≠ y_start N → i ≠ psi_start N →
    i ≠ v_start N → i ≠ cte_start N → i ≠ epsi_start N →
    entry p.constraints_lowerbound i = 0 ∧ entry p.constraints_upperbound i = 0
  clower_init : entry p.constraints_lowerbound (x_start N) = entry state 0 ∧
    entry p.constraints_lowerbound (y_start N) = entry state 1 ∧
    entry p.constraints_lowerbound (psi_start N) = entry state 2 ∧
    entry p.constraints_lowerbound (v_start N) = entry state 3 ∧
    entry p.constraints_lowerbound (cte_start N) = entry state 4 ∧
    entry p.constraints_lowerbound (epsi_start N) = entry state 5
  cupper_init : entry p.constraints_upperbound (x_start N) = entry state 0 ∧
    entry p.constraints_upperbound (y_start N) = entry state 1 ∧
    entry p.constraints_upperbound (psi_start N) = entry state 2 ∧
    entry p.constraints_upperbound (v_start N) = entry state 3 ∧
    entry p.constraints_upperbound (cte_start N) = entry state 4 ∧
    entry p.constraints_upperbound (epsi_start N) = entry state 5

/-- The state that makes the six constraint entries of the next timestep zero: the values that
lines 123-130 subtract from the next state, every operation rounded, in the order of the
source. -/
def kinematic_update_double (T : Trig F64) (dt c0 c1 c2 c3 : F64) (s : VehicleState F64)
    (delta a : F64) : VehicleState F64 :=
  VehicleState.mk (s.x + s.v * T.cos s.psi * dt) (s.y + s.v * T.sin s.psi * dt)
    (s.psi - s.v * delta / Lf_double * dt) (s.v + a * dt)
    ((c0 + c1 * s.x + c2 * s.x * s.x + c3 * s.x * s.x * s.x - s.y) + s.v * T.sin s.epsi * dt)
    ((s.psi - T.atan (3 * c3 * s.x * s.x + 2 * c2 * s.x + c1)) - s.v * delta / Lf_double * dt)

/-- Forward simulation in double arithmetic: the measured state, then one update per
transition. -/
def simulate_double (T : Trig F64) (dt c0 c1 c2 c3 : F64) (m : VehicleState F64)
    (delta a : Nat → F64) : Nat → VehicleState F64
  | 0 => m
  | t + 1 => kinematic_update_double T dt c0 c1 c2 c3 (simulate_double T dt c0 c1 c2 c3 m delta a t)
      (delta t) (a t)

/-- The function `MPC::Solve` statement by statement as in `Solve`, in double arithmetic. -/
def Solve_double (T : Trig F64) (N : Nat) (dt ref_v junk : F64)
    (solve : Problem F64 → solve_result F64) (state coeffs : Array F64) : Res (Array F64) := do
  let ok := true
  let p ← Solve_problem_double T N dt ref_v junk state coeffs
  let solution := solve p
  let _ok := ok && decide (solution.status = status_type.success)
  Solve_result N solution

/-- The decision vector of the straight-line scenario in double arithmetic:
`x_t = 100 * dt * t` with both products rounded, `v_t = 100`,
`y_t = psi_t = cte_t = epsi_t = 0` for every timestep and `delta_t = a_t = 0` for every
transition. -/
def straight_line_double (N : Nat) (dt : F64) : Array F64 :=
  trajectory N (fun t => VehicleState.mk (100 * dt * (t : F64)) 0 0 100 0 0) (fun _ => 0)
    (fun _ => 0)


/-! ## Sample inputs in double arithmetic for the horizon `N = 10` -/

/-- Stand-ins for `cos`, `sin` and `atan` on doubles that agree with the correctly rounded
functions at the arguments used below: `cos x = 1` and `sin x = x` for `|x| < 1e-8`,
`atan 0 = 0`, and `atan 0.5 = 0.4636476090008061`, the double nearest to
`0.46364760900080611621...`. -/
def double_trig : Trig F64 :=
  Trig.mk (fun _ => 1) (fun x => x) (fun x => if x = 0.5 then 0.4636476090008061 else x)

/-- A vector `fg` of doubles for `N = 10`: room for the objective and `10 * 6` constraints. -/
def double_fg : Array F64 := mkArray 61 0

/-- A decision vector for `N = 10` with the zero-cost values `v_t = 100`,
`epsi_t = delta_t = a_t = 0` and `cte_t = 0`, except for `cte_0 = 1e-200`. -/
def tiny_cte_vars : Array F64 :=
  trajectory 10 (fun t => VehicleState.mk 0 0 0 100 (if t = 0 then 1e-200 else 0) 0) (fun _ => 0)
    (fun _ => 0)

/-- A decision vector for `N = 10` with `psi_0 = 0.3`, `v_0 = 10`, `delta_0 = 0.1`,
`psi_1 = 0.26254681647940076`, `epsi_1 = -0.20110079252140536` and `0` elsewhere. -/
def heading_vars : Array F64 :=
  ((((mkArray 78 (0 : F64)).setD 20 0.3).setD 30 10).setD 60 0.1).setD 21 0.26254681647940076
    |>.setD 51 (-0.20110079252140536)

/-- The forward simulation in double arithmetic for `N = 10` and `dt = 0.1` from the state
`(0, 0, 0, 30, 0, 0)` along the reference line `y = 0`, with steering `0` and acceleration `1`
at every transition. -/
def speed_path : Array F64 :=
  trajectory 10 (simulate_double double_trig 0.1 0 0 0 0 (VehicleState.mk 0 0 0 30 0 0)
    (fun _ => 0) (fun _ => 1)) (fun _ => 0) (fun _ => 1)

/-- A steering sequence: `1e-200` at the first transition, `0` afterwards. -/
def tiny_delta : Nat → F64 := fun t => if t = 0 then 1e-200 else 0

/-- The forward simulation in double arithmetic for `N = 10` and `dt = 0.1` from the state
`(0, 0, 0, 100, 0, 0)` along the reference line `y = 0`, with the steering `tiny_delta` and
acceleration `0`. -/
def tiny_steer_path : Array F64 :=
  trajectory 10 (simulate_double double_trig 0.1 0 0 0 0 (VehicleState.mk 0 0 0 100 0 0)
    tiny_delta (fun _ => 0)) tiny_delta (fun _ => 0)

/-- A solver that reports success with the straight-line vector for `N = 10`. -/
def double_solve_straight (_p : Problem F64) : solve_result F64 :=
  solve_result.mk status_type.success (straight_line_double 10 0.1)

/-! # Theorems -/

/-! ## Basic facts about faults, reads, writes and loops -/

section Basics

variable {K : Type}

@[simp] theorem Res.ok_bind {α β : Type} (a : α) (f : α → Res β) : (Res.ok a >>= f) = f a := rfl

@[simp] theorem Res.fault_bind {α β : Type} (f : α → Res β) :
    ((Res.fault : Res α) >>= f) = Res.fault := rfl

@[simp] theorem Res.pure_eq {α : Type} (a : α) : (pure a : Res α) = Res.ok a := rfl

theorem rd_eq [Zero K] {v : Array K} {i : Nat} (h : i < v.size) : rd v i = Res.ok (entry v i) := by
  simp [rd, entry, h, Array.getD]

theorem rd_fault {v : Array K} {i : Nat} (h : v.size ≤ i) : rd v i = Res.fault := by
  simp [rd, Nat.not_lt.mpr h]

theorem wr_eq {v : Array K} {i : Nat} (x : K) (h : i < v.size) :
    wr v i x = Res.ok (v.setD i x) := by
  simp [wr, Array.setD, h]

theorem wr_fault {v : Array K} {i : Nat} (x : K) (h : v.size ≤ i) : wr v i x = Res.fault := by
  simp [wr, Nat.not_lt.mpr h]

theorem entry_setD_eq [Zero K] (v : Array K) (i : Nat) (x : K) (h : i < v.size) :
    entry (v.setD i x) i = x := by
  simp [entry, Array.getD, Array.setD, h]

theorem entry_setD_ne [Zero K] (v : Array K) (i : Nat) (x : K) {j : Nat}
    (hj : j ≠ i) : entry (v.setD i x) j = entry v j := by
  by_cases h : i < v.size
  · unfold entry Array.getD
    by_cases hjs : j < v.size
    · have hjs2 : j < (v.setD i x).size := by simpa using hjs
      simp only [hjs, hjs2, dite_true]
      simp only [Array.setD, h, dite_true, Array.get_eq_getElem]
      exact Array.getElem_set_ne v ⟨i, h⟩ x _ (fun e => hj e.symm)
    · have hjs2 : ¬ j < (v.setD i x).size := by simpa using hjs
      simp only [hjs, hjs2, dite_false]
  · simp [Array.setD, h]

theorem entry_eq_getElem [Zero K] (v : Array K) (i : Nat) (h : i < v.size) : entry v i = v[i] := by
  simp [entry, Array.getD, h]

theorem entry_push_lt [Zero K] (v : Array K) (x : K) {i : Nat} (h : i < v.size) :
    entry (v.push x) i = entry v i := by
  have h2 : i < (v.push x).size := by rw [Array.size_push]; omega
  rw [entry_eq_getElem _ _ h2, entry_eq_getElem _ _ h]
  exact Array.getElem_push_lt v x i h

theorem entry_push_eq [Zero K] (v : Array K) (x : K) : entry (v.push x) v.size = x := by
  have h2 : v.size < (v.push x).size := by rw [Array.size_push]; omega
  rw [entry_eq_getElem _ _ h2]
  exact Array.getElem_push_eq v x

/-- Two arrays of the same size with the same entries are equal. -/
theorem ext_entry [Zero K] (v w : Array K) (hs : v.size = w.size)
    (h : ∀ i, i < v.size → entry v i = entry w i) : v = w := by
  refine Array.ext v w hs (fun i h1 h2 => ?_)
  rw [← entry_eq_getElem v i h1, ← entry_eq_getElem w i h2]
  exact h i h1

/-- Sequencing rule: a step establishing `Q`, followed by a continuation taking `Q` to `P`. -/
theorem bind_spec {α β : Type} {x : Res α} {f : α → Res β} {P : β → Prop} (Q : α → Prop)
    (hx : ∃ a, x = Res.ok a ∧ Q a) (hf : ∀ a, Q a → ∃ b, f a = Res.ok b ∧ P b) :
    ∃ b, (x >>= f) = Res.ok b ∧ P b := by
  obtain ⟨a, rfl, ha⟩ := hx
  exact hf a ha

theorem forLoop_spec {σ : Type} (Inv : Nat → σ → Prop) (body : Nat → σ → Res σ) :
    ∀ (n lo : Nat) (s : σ), Inv lo s →
      (∀ i s, lo ≤ i → i < lo + n → Inv i s → ∃ s', body i s = Res.ok s' ∧ Inv (i + 1) s') →
      ∃ s', forLoop body lo n s = Res.ok s' ∧ Inv (lo + n) s'
  | 0, lo, s, h0, _ => ⟨s, rfl, h0⟩
  | n + 1, lo, s, h0, hstep => by
    obtain ⟨s1, hs1, hI1⟩ := hstep lo s (Nat.le_refl _) (by omega) h0
    obtain ⟨s2, hs2, hI2⟩ := forLoop_spec Inv body n (lo + 1) s1 hI1
      (fun i s hi hlt hI => hstep i s (by omega) (by omega) hI)
    refine ⟨s2, ?_, ?_⟩
    · show (body lo s).bind (forLoop body (lo + 1) n) = Res.ok s2
      rw [hs1]; exact hs2
    · have e : lo + (n + 1) = lo + 1 + n := by omega
      rw [e]; exact hI2

/-- Invariant rule for the loop `for (i = lo; i < hi; i++)`. -/
theorem forRange_spec {σ : Type} (Inv : Nat → σ → Prop) (lo hi : Nat) (body : Nat → σ → Res σ)
    (s : σ) (hle : lo ≤ hi) (h0 : Inv lo s)
    (hstep : ∀ i s, lo ≤ i → i < hi → Inv i s → ∃ s', body i s = Res.ok s' ∧ Inv (i + 1) s') :
    ∃ s', forRange lo hi body s = Res.ok s' ∧ Inv hi s' := by
  have h := forLoop_spec Inv body (hi - lo) lo s h0
    (fun i s hi1 hi2 hI => hstep i s hi1 (by omega) hI)
  have e : lo + (hi - lo) = hi := by omega
  rw [e] at h
  exact h

end Basics

/-! ## The evaluator -/

section Evaluator

theorem layout_eqs (N : Nat) :
    x_start N = 0 ∧ y_start N = N ∧ psi_start N = 2 * N ∧ v_start N = 3 * N ∧
      cte_start N = 4 * N ∧ epsi_start N = 5 * N ∧ delta_start N = 6 * N ∧
      a_start N = 7 * N - 1 ∧ n_vars N = N * 6 + (N - 1) * 2 ∧ n_constraints N = N * 6 := by
  unfold n_vars n_constraints a_start delta_start epsi_start cte_start v_start psi_start
    y_start x_start
  refine ⟨rfl, ?_, ?_, ?_, ?_, ?_, ?_, ?_, rfl, rfl⟩ <;> omega

variable {K : Type} [LinearOrderedField K]

/-- Complete description of a run of the evaluator on vectors that are large enough: it
succeeds, keeps the size of `fg`, stores the objective at index `0`, the timestep-0 variables
at the six indices `1 + field_start`, the model residuals at `1 + field_start + t`, and leaves
the entries after index `N * 6` alone. -/
theorem FG_eval_run (T : Trig K) (N : Nat) (dt ref_v : K) (coeffs fg vars : Array K)
    (hN : 2 ≤ N) (hc : 4 ≤ coeffs.size) (hfg : 1 + N * 6 ≤ fg.size)
    (hv : n_vars N ≤ vars.size) :
    ∃ fg', FG_eval T N dt ref_v coeffs fg vars = Res.ok fg' ∧ (fg'.size = fg.size ∧
      entry fg' 0 = objective N ref_v vars ∧ initial_entries N vars fg' ∧
      (∀ t, 1 ≤ t → t < N → step_entries T N dt coeffs vars fg' t) ∧
      ∀ j, 1 + N * 6 ≤ j → entry fg' j = entry fg j) := by
  obtain ⟨hx, hy, hpsi, hvs, hcte, hepsi, hdelta, ha, hnv, -⟩ := layout_eqs N
  unfold FG_eval
  -- fg[0] = 0
  refine bind_spec (fun s => s.size = fg.size ∧ entry s 0 = 0 ∧
    ∀ j, 1 + N * 6 ≤ j → entry s j = entry fg j) ?_ ?_
  · rw [wr_eq _ (by omega)]
    exact ⟨_, rfl, Array.size_setD _ _ _, entry_setD_eq _ _ _ (by omega),
      fun j hj => entry_setD_ne _ _ _ (by omega)⟩
  rintro fg0 ⟨hs0, he0, hr0⟩
  -- first cost loop
  refine bind_spec (fun s => s.size = fg.size ∧ (entry s 0 = ∑ t ∈ Finset.range N,
      (3000 * entry vars (cte_start N + t) ^ 2 + 2000 * entry vars (epsi_start N + t) ^ 2
        + (entry vars (v_start N + t) - ref_v) ^ 2)) ∧
      ∀ j, 1 + N * 6 ≤ j → entry s j = entry fg j) ?_ ?_
  · refine forRange_spec (fun k s => s.size = fg.size ∧ (entry s 0 = ∑ t ∈ Finset.range k,
        (3000 * entry vars (cte_start N + t) ^ 2 + 2000 * entry vars (epsi_start N + t) ^ 2
          + (entry vars (v_start N + t) - ref_v) ^ 2)) ∧
        ∀ j, 1 + N * 6 ≤ j → entry s j = entry fg j)
      0 N _ fg0 (by omega) ⟨hs0, by simpa using he0, hr0⟩ ?_
    rintro i s - hi ⟨hs, he, hr⟩
    simp (disch := first | omega | (simp only [Array.size_setD]; omega)) only
      [rd_eq, wr_eq, Res.ok_bind]
    refine ⟨_, rfl, ?_, ?_, ?_⟩
    · simp only [Array.size_setD, hs]
    · simp (disch := first | omega | (simp only [Array.size_setD]; omega)) only
        [entry_setD_eq, Finset.sum_range_succ, he]
      ring
    · intro j hj
      simp (disch := omega) only [entry_setD_ne, hr j hj]
  rintro fg1 ⟨hs1, he1, hr1⟩
  -- second cost loop
  refine bind_spec (fun s => s.size = fg.size ∧ (entry s 0 = entry fg1 0
      + ∑ t ∈ Finset.range (N - 1), (5 * entry vars (delta_start N + t) ^ 2
        + 5 * entry vars (a_start N + t) ^ 2)) ∧
      ∀ j, 1 + N * 6 ≤ j → entry s j = entry fg j) ?_ ?_
  · refine forRange_spec (fun k s => s.size = fg.size ∧ (entry s 0 = entry fg1 0
        + ∑ t ∈ Finset.range k, (5 * entry vars (delta_start N + t) ^ 2
          + 5 * entry vars (a_start N + t) ^ 2)) ∧
        ∀ j, 1 + N * 6 ≤ j → entry s j = entry fg j)
      0 (N - 1) _ fg1 (by omega) ⟨hs1, by simp, hr1⟩ ?_
    rintro i s - hi ⟨hs, he, hr⟩
    simp (disch := first | omega | (simp only [Array.size_setD]; omega)) only
      [rd_eq, wr_eq, Res.ok_bind]
    refine ⟨_, rfl, ?_, ?_, ?_⟩
    · simp only [Array.size_setD, hs]
    · simp (disch := first | omega | (simp only [Array.size_setD]; omega)) only
        [entry_setD_eq, Finset.sum_range_succ, he]
      ring
    · intro j hj
      simp (disch := omega) only [entry_setD_ne, hr j hj]
  rintro fg2 ⟨hs2, he2, hr2⟩
  -- third cost loop
  refine bind_spec (fun s => s.size = fg.size ∧ (entry s 0 = entry fg2 0
      + ∑ t ∈ Finset.range (N - 2),
        (200 * (entry vars (delta_start N + t + 1) - entry vars (delta_start N + t)) ^ 2
        + 10 * (entry vars (a_start N + t + 1) - entry vars (a_start N + t)) ^ 2)) ∧
      ∀ j, 1 + N * 6 ≤ j → entry s j = entry fg j) ?_ ?_
  · refine forRange_spec (fun k s => s.size = fg.size ∧ (entry s 0 = entry fg2 0
        + ∑ t ∈ Finset.range k,
          (200 * (entry vars (delta_start N + t + 1) - entry vars (delta_start N + t)) ^ 2
          + 10 * (entry vars (a_start N + t + 1) - entry vars (a_start N + t)) ^ 2)) ∧
        ∀ j, 1 + N * 6 ≤ j → entry s j = entry fg j)
      0 (N - 2) _ fg2 (by omega) ⟨hs2, by simp, hr2⟩ ?_
    rintro i s - hi ⟨hs, he, hr⟩
    simp (disch := first | omega | (simp only [Array.size_setD]; omega)) only
      [rd_eq, wr_eq, Res.ok_bind]
    refine ⟨_, rfl, ?_, ?_, ?_⟩
    · simp only [Array.size_setD, hs]
    · simp (disch := first | omega | (simp only [Array.size_setD]; omega)) only
        [entry_setD_eq, Finset.sum_range_succ, he]
      ring
    · intro j hj
      simp (disch := omega) only [entry_setD_ne, hr j hj]
  rintro fg3 ⟨hs3, he3, hr3⟩
  have hobj : entry fg3 0 = objective N ref_v vars := by
    rw [he3, he2, he1]; rfl
  -- the six timestep-0 entries
  simp (disch := first | omega | (simp only [Array.size_setD]; omega)) only
    [rd_eq, wr_eq, Res.ok_bind]
  -- the constraint loop
  refine forRange_spec (fun k s => s.size = fg.size ∧
      entry s 0 = objective N ref_v vars ∧ initial_entries N vars s ∧
      (∀ t, 1 ≤ t → t < k → step_entries T N dt coeffs vars s t) ∧
      ∀ j, 1 + N * 6 ≤ j → entry s j = entry fg j) 1 N _ _ (by omega) ?_ ?_
  · refine ⟨?_, ?_, ?_, ?_, ?_⟩
    · simp only [Array.size_setD, hs3]
    · simp (disch := omega) only [entry_setD_ne, hobj]
    · unfold initial_entries
      simp (disch := first | omega | (simp only [Array.size_setD]; omega)) only
        [entry_setD_ne, entry_setD_eq, and_self]
    · intro t h1 h2
      omega
    · intro j hj
      simp (disch := omega) only [entry_setD_ne, hr3 j hj]
  · rintro i s hi1 hi2 ⟨hs, he, hinit, hstep, hr⟩
    simp (disch := first | omega | (simp only [Array.size_setD]; omega)) only
      [rd_eq, wr_eq, Res.ok_bind]
    refine ⟨_, rfl, ?_, ?_, ?_, ?_, ?_⟩
    · simp only [Array.size_setD, hs]
    · simp (disch := omega) only [entry_setD_ne, he]
    · unfold initial_entries at hinit ⊢
      simp (disch := omega) only [entry_setD_ne]
      exact hinit
    · intro t h1 h2
      by_cases hti : t = i
      · subst hti
        unfold step_entries
        simp (disch := first | omega | (simp only [Array.size_setD]; omega)) only
          [entry_setD_ne, entry_setD_eq, and_self]
      · have hlt : t < i := by omega
        have := hstep t h1 hlt
        unfold step_entries at this ⊢
        simp (disch := omega) only [entry_setD_ne]
        exact this
    · intro j hj
      simp (disch := omega) only [entry_setD_ne, hr j hj]

end Evaluator

/-! ## The bounds and the result -/

section Solver

variable {K : Type} [LinearOrderedField K]

/-- A loop assigning `a` to `lb[i]` and `b` to `ub[i]` for `lo ≤ i < hi`. -/
theorem fill_pair_spec (lo hi : Nat) (a b : K) (lb ub : Array K) (hle : lo ≤ hi)
    (h1 : hi ≤ lb.size) (h2 : hi ≤ ub.size) :
    ∃ r, forRange lo hi (fun i (p : Array K × Array K) => do
        let l ← wr p.1 i a
        let u ← wr p.2 i b
        pure (l, u)) (lb, ub) = Res.ok r ∧
      (r.1.size = lb.size ∧ r.2.size = ub.size ∧
        (∀ j, lo ≤ j → j < hi → entry r.1 j = a ∧ entry r.2 j = b) ∧
        ∀ j, (j < lo ∨ hi ≤ j) → entry r.1 j = entry lb j ∧ entry r.2 j = entry ub j) := by
  refine forRange_spec (fun k r => r.1.size = lb.size ∧ r.2.size = ub.size ∧
        (∀ j, lo ≤ j → j < k → entry r.1 j = a ∧ entry r.2 j = b) ∧
        ∀ j, (j < lo ∨ k ≤ j) → entry r.1 j = entry lb j ∧ entry r.2 j = entry ub j)
    lo hi _ (lb, ub) hle ⟨rfl, rfl, fun j h1 h2 => by omega, fun j _ => ⟨rfl, rfl⟩⟩ ?_
  rintro i ⟨l, u⟩ hi1 hi2 ⟨hs1, hs2, hin, hout⟩
  simp only at hs1 hs2 hin hout
  simp (disch := omega) only [wr_eq, Res.ok_bind, Res.pure_eq]
  refine ⟨_, rfl, ?_, ?_, ?_, ?_⟩
  · simp only [Array.size_setD, hs1]
  · simp only [Array.size_setD, hs2]
  · intro j hj1 hj2
    by_cases hji : j = i
    · subst hji
      exact ⟨entry_setD_eq _ _ _ (by omega), entry_setD_eq _ _ _ (by omega)⟩
    · rw [entry_setD_ne _ _ _ hji, entry_setD_ne _ _ _ hji]
      exact hin j hj1 (by omega)
  · intro j hj
    have hji : j ≠ i := by omega
    rw [entry_setD_ne _ _ _ hji, entry_setD_ne _ _ _ hji]
    exact hout j (by omega)

/-- A loop assigning `a` to `v[i]` for `lo ≤ i < hi`. -/
theorem fill_spec (lo hi : Nat) (a : K) (v : Array K) (hle : lo ≤ hi) (h1 : hi ≤ v.size) :
    ∃ r, forRange lo hi (fun i v => wr v i a) v = Res.ok r ∧
      (r.size = v.size ∧ (∀ j, lo ≤ j → j < hi → entry r j = a) ∧
        ∀ j, (j < lo ∨ hi ≤ j) → entry r j = entry v j) := by
  refine forRange_spec (fun k r => r.size = v.size ∧ (∀ j, lo ≤ j → j < k → entry r j = a) ∧
        ∀ j, (j < lo ∨ k ≤ j) → entry r j = entry v j)
    lo hi _ v hle ⟨rfl, fun j h1 h2 => by omega, fun j _ => rfl⟩ ?_
  rintro i s hi1 hi2 ⟨hs1, hin, hout⟩
  simp (disch := omega) only [wr_eq]
  refine ⟨_, rfl, ?_, ?_, ?_⟩
  · simp only [Array.size_setD, hs1]
  · intro j hj1 hj2
    by_cases hji : j = i
    · subst hji
      exact entry_setD_eq _ _ _ (by omega)
    · rw [entry_setD_ne _ _ _ hji]
      exact hin j hj1 (by omega)
  · intro j hj
    have hji : j ≠ i := by omega
    rw [entry_setD_ne _ _ _ hji]
    exact hout j (by omega)

/-- Lines 141-234 succeed for every state with six entries, and build the problem described
by `Built`. -/
theorem Solve_problem_run (T : Trig K) (N : Nat) (dt ref_v junk : K) (state coeffs : Array K)
    (hN : 1 ≤ N) (hst : 6 ≤ state.size) :
    ∃ p, Solve_problem T N dt ref_v junk state coeffs = Res.ok p ∧
      Built T N dt ref_v state coeffs p := by
  obtain ⟨hx, hy, hpsi, hvs, hcte, hepsi, hdelta, ha, hnv, hnc⟩ := layout_eqs N
  unfold Solve_problem
  simp (disch := omega) only [rd_eq, Res.ok_bind]
  -- the initial guess
  refine bind_spec (fun v => v.size = n_vars N ∧ ∀ j, j < n_vars N → entry v j = 0) ?_ ?_
  · obtain ⟨r, hr, hs, hin, -⟩ := fill_spec 0 (N * 6 + (N - 1) * 2) (0 : K)
      (Dvector (N * 6 + (N - 1) * 2) junk) (by omega) (by simp [Dvector])
    refine ⟨r, hr, ?_, fun j hj => hin j (by omega) (by omega)⟩
    rw [hs, hnv]; simp [Dvector]
  rintro vars ⟨hvars_size, hvars_zero⟩
  -- bounds of the state variables
  refine bind_spec (fun r => r.1.size = n_vars N ∧ r.2.size = n_vars N ∧
    ∀ j, j < delta_start N → entry r.1 j = -1.0e19 ∧ entry r.2 j = 1.0e19) ?_ ?_
  · obtain ⟨r, hr, hs1, hs2, hin, -⟩ := fill_pair_spec 0 (delta_start N) (-1.0e19 : K) 1.0e19
      (Dvector (N * 6 + (N - 1) * 2) junk) (Dvector (N * 6 + (N - 1) * 2) junk) (by omega)
      (by simp only [Dvector, Array.size_mkArray]; omega)
      (by simp only [Dvector, Array.size_mkArray]; omega)
    refine ⟨r, hr, ?_, ?_, fun j hj => hin j (by omega) hj⟩
    · rw [hs1, hnv]; simp [Dvector]
    · rw [hs2, hnv]; simp [Dvector]
  rintro b1 ⟨hb1s1, hb1s2, hb1⟩
  -- bounds of the steering variables
  refine bind_spec (fun r => r.1.size = n_vars N ∧ r.2.size = n_vars N ∧
    (∀ j, j < delta_start N → entry r.1 j = -1.0e19 ∧ entry r.2 j = 1.0e19) ∧
    ∀ j, delta_start N ≤ j → j < a_start N →
      entry r.1 j = -0.436332 * Lf ∧ entry r.2 j = 0.436332 * Lf) ?_ ?_
  · obtain ⟨r, hr, hs1, hs2, hin, hout⟩ := fill_pair_spec (delta_start N) (a_start N)
      (-0.436332 * Lf : K) (0.436332 * Lf) b1.1 b1.2 (by omega) (by omega) (by omega)
    refine ⟨r, hr, by omega, by omega, fun j hj => ?_, hin⟩
    rw [(hout j (Or.inl hj)).1, (hout j (Or.inl hj)).2]
    exact hb1 j hj
  rintro b2 ⟨hb2s1, hb2s2, hb2a, hb2b⟩
  -- bounds of the acceleration variables
  refine bind_spec (fun r => r.1.size = n_vars N ∧ r.2.size = n_vars N ∧
    (∀ j, j < delta_start N → entry r.1 j = -1.0e19 ∧ entry r.2 j = 1.0e19) ∧
    (∀ j, delta_start N ≤ j → j < a_start N →
      entry r.1 j = -0.436332 * Lf ∧ entry r.2 j = 0.436332 * Lf) ∧
    ∀ j, a_start N ≤ j → j < n_vars N → entry r.1 j = -1.0 ∧ entry r.2 j = 1.0) ?_ ?_
  · obtain ⟨r, hr, hs1, hs2, hin, hout⟩ := fill_pair_spec (a_start N) (N * 6 + (N - 1) * 2)
      (-1.0 : K) 1.0 b2.1 b2.2 (by omega) (by omega) (by omega)
    refine ⟨r, hr, by omega, by omega, fun j hj => ?_, fun j hj1 hj2 => ?_,
      fun j hj1 hj2 => hin j hj1 (by omega)⟩
    · rw [(hout j (Or.inl (by omega))).1, (hout j (Or.inl (by omega))).2]
      exact hb2a j hj
    · rw [(hout j (Or.inl (by omega))).1, (hout j (Or.inl (by omega))).2]
      exact hb2b j hj1 hj2
  rintro b3 ⟨hb3s1, hb3s2, hb3a, hb3b, hb3c⟩
  -- bounds of the constraints
  refine bind_spec (fun r => r.1.size = N * 6 ∧ r.2.size = N * 6 ∧
    ∀ j, j < N * 6 → entry r.1 j = 0 ∧ entry r.2 j = 0) ?_ ?_
  · obtain ⟨r, hr, hs1, hs2, hin, -⟩ := fill_pair_spec 0 (N * 6) (0 : K) 0
      (Dvector (N * 6) junk) (Dvector (N * 6) junk) (by omega)
      (by simp only [Dvector, Array.size_mkArray]; omega)
      (by simp only [Dvector, Array.size_mkArray]; omega)
    refine ⟨r, hr, ?_, ?_, fun j hj => hin j (by omega) hj⟩
    · rw [hs1]; simp [Dvector]
    · rw [hs2]; simp [Dvector]
  rintro c ⟨hcs1, hcs2, hc⟩
  -- the twelve entries pinned to the measured state
  simp (disch := first | omega | (simp only [Array.size_setD]; omega)) only
    [wr_eq, Res.ok_bind, Res.pure_eq]
  refine ⟨_, rfl, ?_⟩
  constructor
  · rfl
  · exact hvars_size
  · exact hvars_zero
  · exact hb3s1
  · exact hb3s2
  · exact hb3a
  · exact hb3b
  · exact hb3c
  · simp only [Array.size_setD, hcs1, hnc]
  · simp only [Array.size_setD, hcs2, hnc]
  · intro i hi h1 h2 h3 h4 h5 h6
    simp (disch := omega) only [entry_setD_ne]
    exact hc i (by omega)
  · simp (disch := first | omega | (simp only [Array.size_setD]; omega)) only
      [entry_setD_ne, entry_setD_eq, and_self]
  · simp (disch := first | omega | (simp only [Array.size_setD]; omega)) only
      [entry_setD_ne, entry_setD_eq, and_self]

/-- Lines 247-259 on a solution vector that has all `n_vars` entries. -/
theorem Solve_result_run (N : Nat) (solution : solve_result K) (hN : 2 ≤ N)
    (hx : n_vars N ≤ solution.x.size) :
    ∃ result, Solve_result N solution = Res.ok result ∧ (result.size = 2 + 2 * (N - 1) ∧
      entry result 0 = entry solution.x (delta_start N) ∧
      entry result 1 = entry solution.x (a_start N) ∧
      ∀ i, i < N - 1 → entry result (2 + 2 * i) = entry solution.x (x_start N + i) ∧
        entry result (3 + 2 * i) = entry solution.x (y_start N + i)) := by
  obtain ⟨hx0, hy, hpsi, hvs, hcte, hepsi, hdelta, ha, hnv, hnc⟩ := layout_eqs N
  unfold Solve_result
  simp (disch := omega) only [rd_eq, Res.ok_bind]
  refine forRange_spec (fun k r => r.size = 2 + 2 * k ∧
      entry r 0 = entry solution.x (delta_start N) ∧
      entry r 1 = entry solution.x (a_start N) ∧
      ∀ i, i < k → entry r (2 + 2 * i) = entry solution.x (x_start N + i) ∧
        entry r (3 + 2 * i) = entry solution.x (y_start N + i)) 0 (N - 1) _ _ (by omega) ?_ ?_
  · refine ⟨by simp, ?_, ?_, fun i hi => by omega⟩
    · rw [entry_push_lt _ _ (by simp)]
      exact entry_push_eq #[] _
    · exact entry_push_eq (#[].push _) _
  · rintro k r - hk ⟨hs, h0, h1, hin⟩
    simp (disch := omega) only [rd_eq, Res.ok_bind, Res.pure_eq]
    refine ⟨_, rfl, ?_, ?_, ?_, ?_⟩
    · simp only [Array.size_push, hs]; omega
    · rw [entry_push_lt _ _ (by simp only [Array.size_push]; omega),
        entry_push_lt _ _ (by omega)]
      exact h0
    · rw [entry_push_lt _ _ (by simp only [Array.size_push]; omega),
        entry_push_lt _ _ (by omega)]
      exact h1
    · intro i hi
      by_cases hik : i = k
      · subst hik
        constructor
        · rw [entry_push_lt _ _ (by simp only [Array.size_push]; omega)]
          have e : 2 + 2 * i = r.size := by omega
          rw [e]
          exact entry_push_eq r _
        · have e : 3 + 2 * i = (r.push (entry solution.x (x_start N + i))).size := by
            simp only [Array.size_push]; omega
          rw [e]
          exact entry_push_eq _ _
      · have hlt : i < k := by omega
        rw [entry_push_lt _ _ (by simp only [Array.size_push]; omega),
          entry_push_lt _ _ (by omega),
          entry_push_lt _ _ (by simp only [Array.size_push]; omega),
          entry_push_lt _ _ (by omega)]
        exact hin i hlt

/-- The function `Solve` is the extraction of lines 247-259 applied to the solver's answer on
the problem of lines 141-234. -/
theorem Solve_eq (T : Trig K) (N : Nat) (dt ref_v junk : K)
    (solve : Problem K → solve_result K) (state coeffs : Array K) (p : Problem K)
    (hp : Solve_problem T N dt ref_v junk state coeffs = Res.ok p) :
    Solve T N dt ref_v junk solve state coeffs = Solve_result N (solve p) := by
  unfold Solve
  rw [hp]
  rfl

end Solver

section Inversion

variable {K : Type} [LinearOrderedField K]

theorem Res.bind_eq_ok {α β : Type} {x : Res α} {f : α → Res β} {b : β} :
    (x >>= f) = Res.ok b ↔ ∃ a, x = Res.ok a ∧ f a = Res.ok b := by
  cases x with
  | ok a => exact ⟨fun h => ⟨a, rfl, h⟩, fun ⟨a', ha, h⟩ => (by cases ha; exact h)⟩
  | fault => exact ⟨fun h => (by cases h), fun ⟨a', ha, _⟩ => (by cases ha)⟩

omit [LinearOrderedField K] in
theorem rd_ok_inv {v : Array K} {i : Nat} {x : K} (h : rd v i = Res.ok x) : i < v.size := by
  unfold rd at h
  by_cases hi : i < v.size
  · exact hi
  · rw [dif_neg hi] at h
    cases h

omit [LinearOrderedField K] in
theorem wr_ok_inv {v w : Array K} {i : Nat} {x : K} (h : wr v i x = Res.ok w) :
    i < v.size ∧ w.size = v.size := by
  unfold wr at h
  by_cases hi : i < v.size
  · rw [dif_pos hi] at h
    cases h
    exact ⟨hi, Array.size_set _ _ _⟩
  · rw [dif_neg hi] at h
    cases h

/-- A successful loop preserves every property that its successful iterations preserve, and
its last iteration started from a state with that property. -/
theorem forLoop_ok_inv {σ : Type} (P : σ → Prop) (body : Nat → σ → Res σ)
    (hP : ∀ i s s', body i s = Res.ok s' → P s → P s') :
    ∀ (n lo : Nat) (s s' : σ), forLoop body lo n s = Res.ok s' → P s →
      P s' ∧ (0 < n → ∃ s1, P s1 ∧ body (lo + n - 1) s1 = Res.ok s')
  | 0, lo, s, s', h, hs => by
    cases h
    exact ⟨hs, fun h0 => absurd h0 (Nat.lt_irrefl 0)⟩
  | n + 1, lo, s, s', h, hs => by
    have h' : (body lo s >>= forLoop body (lo + 1) n) = Res.ok s' := h
    obtain ⟨s1, h1, h2⟩ := Res.bind_eq_ok.mp h'
    have hs1 := hP lo s s1 h1 hs
    obtain ⟨hP', hlast⟩ := forLoop_ok_inv P body hP n (lo + 1) s1 s' h2 hs1
    refine ⟨hP', fun _ => ?_⟩
    by_cases hn : n = 0
    · subst hn
      cases h2
      exact ⟨s, hs, by simpa using h1⟩
    · obtain ⟨s2, hs2, hb⟩ := hlast (by omega)
      have e : lo + 1 + n - 1 = lo + (n + 1) - 1 := by omega
      rw [e] at hb
      exact ⟨s2, hs2, hb⟩

theorem forRange_ok_inv {σ : Type} (P : σ → Prop) (lo hi : Nat) (body : Nat → σ → Res σ)
    (hP : ∀ i s s', body i s = Res.ok s' → P s → P s') (s s' : σ)
    (h : forRange lo hi body s = Res.ok s') (hs : P s) :
    P s' ∧ (lo < hi → ∃ s1, P s1 ∧ body (hi - 1) s1 = Res.ok s') := by
  obtain ⟨h1, h2⟩ := forLoop_ok_inv P body hP (hi - lo) lo s s' h hs
  refine ⟨h1, fun hlt => ?_⟩
  obtain ⟨s1, hs1, hb⟩ := h2 (by omega)
  have e : lo + (hi - lo) - 1 = hi - 1 := by omega
  rw [e] at hb
  exact ⟨s1, hs1, hb⟩

theorem last_step_sizes (N e a nv fs cs vs : Nat) (hN : 2 ≤ N) (he : e = 5 * N)
    (ha : a = 7 * N - 1) (hnv : nv = N * 6 + (N - 1) * 2) (h1 : 1 + e + (N - 1) < fs)
    (h2 : 3 < cs) (h3 : a + (N - 1) - 1 < vs) : N * 6 < fs ∧ 4 ≤ cs ∧ nv ≤ vs := by
  omega

/-- A successful run of the evaluator needs an `fg` with more than `N * 6` entries, four
coefficients and `n_vars` variables: the last iteration of the constraint loop assigns
`fg[N * 6]` and reads `coeffs[3]` and `vars[a_start + N - 2]`. -/
theorem FG_eval_ok_size (T : Trig K) (N : Nat) (dt ref_v : K) (coeffs fg vars fg' : Array K)
    (hN : 2 ≤ N) (h : FG_eval T N dt ref_v coeffs fg vars = Res.ok fg') :
    N * 6 < fg.size ∧ 4 ≤ coeffs.size ∧ n_vars N ≤ vars.size := by
  obtain ⟨hx, hy, hpsi, hvs, hcte, hepsi, hdelta, ha, hnv, -⟩ := layout_eqs N
  unfold FG_eval at h
  simp only [Res.bind_eq_ok] at h
  obtain ⟨fg0, h0, fg1, h1, fg2, h2, fg3, h3, rest⟩ := h
  have s0 := (wr_ok_inv h0).2
  have s1 : fg1.size = fg.size := by
    refine (forRange_ok_inv (fun s => s.size = fg.size) _ _ _ ?_ _ _ h1 s0).1
    intro i s s' hb hs
    simp only [Res.bind_eq_ok] at hb
    obtain ⟨_, _, _, _, a, ha1, _, _, _, _, b, hb1, _, _, _, _, hc1⟩ := hb
    rw [(wr_ok_inv hc1).2, (wr_ok_inv hb1).2, (wr_ok_inv ha1).2, hs]
  have s2 : fg2.size = fg.size := by
    refine (forRange_ok_inv (fun s => s.size = fg.size) _ _ _ ?_ _ _ h2 s1).1
    intro i s s' hb hs
    simp only [Res.bind_eq_ok] at hb
    obtain ⟨_, _, _, _, a, ha1, _, _, _, _, hc1⟩ := hb
    rw [(wr_ok_inv hc1).2, (wr_ok_inv ha1).2, hs]
  have s3 : fg3.size = fg.size := by
    refine (forRange_ok_inv (fun s => s.size = fg.size) _ _ _ ?_ _ _ h3 s2).1
    intro i s s' hb hs
    simp only [Res.bind_eq_ok] at hb
    obtain ⟨_, _, _, _, _, _, a, ha1, _, _, _, _, _, _, hc1⟩ := hb
    rw [(wr_ok_inv hc1).2, (wr_ok_inv ha1).2, hs]
  obtain ⟨_, _, g1, w1, _, _, g2, w2, _, _, g3, w3, _, _, g4, w4, _, _, g5, w5, _, _, g6, w6,
    hloop⟩ := rest
  have s6 : g6.size = fg.size := by
    rw [(wr_ok_inv w6).2, (wr_ok_inv w5).2, (wr_ok_inv w4).2, (wr_ok_inv w3).2,
      (wr_ok_inv w2).2, (wr_ok_inv w1).2, s3]
  obtain ⟨-, hlast⟩ := forRange_ok_inv (fun s : Array K => s.size = fg.size) 1 N _
    (by
      intro i s s' hb hs
      simp only [Res.bind_eq_ok] at hb
      obtain ⟨_, _, _, _, _, _, _, _, _, _, _, _, _, _, _, _, _, _, _, _, _, _, _, _, _, _, _, _,
        _, _, _, _, _, _, _, _, _, _, _, _, _, _, u1, q1, u2, q2, u3, q3, u4, q4, u5, q5, q6⟩ := hb
      show s'.size = fg.size
      rw [(wr_ok_inv q6).2, (wr_ok_inv q5).2, (wr_ok_inv q4).2, (wr_ok_inv q3).2,
        (wr_ok_inv q2).2, (wr_ok_inv q1).2, hs]) _ _ hloop s6
  obtain ⟨s1', hs1', hb⟩ := hlast (by omega)
  simp only [Res.bind_eq_ok] at hb
  obtain ⟨_, _, _, _, _, _, _, _, _, _, _, _, _, _, _, _, _, _, _, _, _, _, _, _, _, _, _, ra0,
    _, _, _, _, _, _, _, rc3, _, _, _, _, _, _, u1, q1, u2, q2, u3, q3, u4, q4, u5, q5, q6⟩ := hb
  have hidx := (wr_ok_inv q6).1
  rw [(wr_ok_inv q5).2, (wr_ok_inv q4).2, (wr_ok_inv q3).2, (wr_ok_inv q2).2,
    (wr_ok_inv q1).2, hs1'] at hidx
  exact last_step_sizes N (epsi_start N) (a_start N) (n_vars N) fg.size coeffs.size vars.size
    hN hepsi ha hnv hidx (rd_ok_inv rc3) (rd_ok_inv ra0)

/-- The evaluator faults on an `fg` that has no room for the objective and `N * 6`
constraints. -/
theorem FG_eval_fault_of_short (T : Trig K) (N : Nat) (dt ref_v : K) (coeffs fg vars : Array K)
    (hN : 2 ≤ N) (hfg : fg.size < 1 + N * 6) :
    FG_eval T N dt ref_v coeffs fg vars = Res.fault := by
  cases h : FG_eval T N dt ref_v coeffs fg vars with
  | fault => rfl
  | ok fg' =>
    have := (FG_eval_ok_size T N dt ref_v coeffs fg vars fg' hN h).1
    omega

/-- The evaluator faults when it has fewer than four coefficients. -/
theorem FG_eval_fault_of_few_coeffs (T : Trig K) (N : Nat) (dt ref_v : K)
    (coeffs fg vars : Array K) (hN : 2 ≤ N) (hc : coeffs.size < 4) :
    FG_eval T N dt ref_v coeffs fg vars = Res.fault := by
  cases h : FG_eval T N dt ref_v coeffs fg vars with
  | fault => rfl
  | ok fg' =>
    have := (FG_eval_ok_size T N dt ref_v coeffs fg vars fg' hN h).2.1
    omega

end Inversion

/-! ## The claims -/

section Claims

variable {K : Type} [LinearOrderedField K]

theorem entry_lit4 (c0 c1 c2 c3 : K) :
    entry #[c0, c1, c2, c3] 0 = c0 ∧ entry #[c0, c1, c2, c3] 1 = c1 ∧
      entry #[c0, c1, c2, c3] 2 = c2 ∧ entry #[c0, c1, c2, c3] 3 = c3 :=
  ⟨rfl, rfl, rfl, rfl⟩

theorem entry_lit6 (x y psi v cte epsi : K) :
    entry #[x, y, psi, v, cte, epsi] 0 = x ∧ entry #[x, y, psi, v, cte, epsi] 1 = y ∧
      entry #[x, y, psi, v, cte, epsi] 2 = psi ∧ entry #[x, y, psi, v, cte, epsi] 3 = v ∧
      entry #[x, y, psi, v, cte, epsi] 4 = cte ∧ entry #[x, y, psi, v, cte, epsi] 5 = epsi :=
  ⟨rfl, rfl, rfl, rfl, rfl, rfl⟩

theorem sample_vars_size : sample_vars.size = 78 := by
  simp [sample_vars]

theorem sample_vars_entry (i : Nat) (h : i < 78) : entry sample_vars i = (i : ℚ) := by
  rw [entry_eq_getElem _ _ (by rw [sample_vars_size]; exact h)]
  simp [sample_vars]

/-- C3, counterexample: for `N = 10`, the decision vector `0, 1, ..., 77` and the measured
speed `v = 100`, the timestep-0 constraint entry of `v` is `var(v, 0) = 30` and not
`var(v, 0) - measured(v) = -70`. -/
theorem FG_eval_initial_entry_not_residual :
    ∃ fg', FG_eval sample_trig 10 0.1 100 #[7, 5, 3, 1] sample_fg sample_vars = Res.ok fg' ∧
      fg'.size = 61 ∧ entry fg' (1 + v_start 10) = 30 ∧
      entry fg' (1 + v_start 10)
        ≠ entry sample_vars (v_start 10) - entry (#[0, 0, 0, 100, 0, 0] : Array ℚ) 3 := by
  obtain ⟨fg', hrun, hs, -, hinit, -⟩ := FG_eval_run sample_trig 10 0.1 100 #[7, 5, 3, 1]
    sample_fg sample_vars (by decide) (by decide) (by decide)
    (by rw [sample_vars_size]; decide)
  obtain ⟨-, -, -, i4, -, -⟩ := hinit
  have hv : entry sample_vars (v_start 10) = 30 := by
    rw [show v_start 10 = 30 from rfl, sample_vars_entry 30 (by decide)]
    norm_num
  have hm : entry (#[0, 0, 0, 100, 0, 0] : Array ℚ) 3 = 100 := rfl
  refine ⟨fg', hrun, hs, by rw [i4, hv], ?_⟩
  rw [i4, hv, hm]
  norm_num

/-- C3, as amended: each of the six timestep-0 constraint entries written by the evaluator is
the variable `var(field, 0)` itself; the measured value is not subtracted by the evaluator but
is the value of both constraint bounds that `MPC::Solve` sets at that entry, so the distance
of the entry to its bound is `var(field, 0) - measured(field)`. -/
theorem FG_eval_initial_entries (T : Trig K) (N : Nat) (dt ref_v junk : K)
    (x y psi v cte epsi : K) (coeffs fg vars : Array K)
    (hN : 2 ≤ N) (hc : coeffs.size = 4) (hfg : fg.size = 1 + N * 6)
    (hv : vars.size = N * 6 + (N - 1) * 2) :
    ∃ fg' p, FG_eval T N dt ref_v coeffs fg vars = Res.ok fg' ∧
      Solve_problem T N dt ref_v junk #[x, y, psi, v, cte, epsi] coeffs = Res.ok p ∧
      fg'.size = 1 + N * 6 ∧ p.constraints_lowerbound.size = N * 6 ∧
      p.constraints_upperbound.size = N * 6 ∧
      (entry fg' (1 + x_start N) = entry vars (x_start N) ∧
        entry fg' (1 + y_start N) = entry vars (y_start N) ∧
        entry fg' (1 + psi_start N) = entry vars (psi_start N) ∧
        entry fg' (1 + v_start N) = entry vars (v_start N) ∧
        entry fg' (1 + cte_start N) = entry vars (cte_start N) ∧
        entry fg' (1 + epsi_start N) = entry vars (epsi_start N)) ∧
      (entry fg' (1 + x_start N) - entry p.constraints_lowerbound (x_start N)
          = entry vars (x_start N) - x ∧
        entry fg' (1 + y_start N) - entry p.constraints_lowerbound (y_start N)
          = entry vars (y_start N) - y ∧
        entry fg' (1 + psi_start N) - entry p.constraints_lowerbound (psi_start N)
          = entry vars (psi_start N) - psi ∧
        entry fg' (1 + v_start N) - entry p.constraints_lowerbound (v_start N)
          = entry vars (v_start N) - v ∧
        entry fg' (1 + cte_start N) - entry p.constraints_lowerbound (cte_start N)
          = entry vars (cte_start N) - cte ∧
        entry fg' (1 + epsi_start N) - entry p.constraints_lowerbound (epsi_start N)
          = entry vars (epsi_start N) - epsi) ∧
      (entry fg' (1 + x_start N) - entry p.constraints_upperbound (x_start N)
          = entry vars (x_start N) - x ∧
        entry fg' (1 + y_start N) - entry p.constraints_upperbound (y_start N)
          = entry vars (y_start N) - y ∧
        entry fg' (1 + psi_start N) - entry p.constraints_upperbound (psi_start N)
          = entry vars (psi_start N) - psi ∧
        entry fg' (1 + v_start N) - entry p.constraints_upperbound (v_start N)
          = entry vars (v_start N) - v ∧
        entry fg' (1 + cte_start N) - entry p.constraints_upperbound (cte_start N)
          = entry vars (cte_start N) - cte ∧
        entry fg' (1 + epsi_start N) - entry p.constraints_upperbound (epsi_start N)
          = entry vars (epsi_start N) - epsi) := by
  obtain ⟨fg', hrun, hs, -, hinit, -⟩ := FG_eval_run T N dt ref_v coeffs fg vars hN
    (by omega) (by omega) (by rw [hv]; exact Nat.le_of_eq rfl)
  obtain ⟨p, hp, hb⟩ := Solve_problem_run T N dt ref_v junk #[x, y, psi, v, cte, epsi] coeffs
    (by omega) (by simp)
  obtain ⟨i1, i2, i3, i4, i5, i6⟩ := hinit
  obtain ⟨l1, l2, l3, l4, l5, l6⟩ := hb.clower_init
  obtain ⟨u1, u2, u3, u4, u5, u6⟩ := hb.cupper_init
  obtain ⟨s0, s1, s2, s3, s4, s5⟩ := entry_lit6 x y psi v cte epsi
  rw [s0] at l1 u1
  rw [s1] at l2 u2
  rw [s2] at l3 u3
  rw [s3] at l4 u4
  rw [s4] at l5 u5
  rw [s5] at l6 u6
  refine ⟨fg', p, hrun, hp, by omega, hb.clower_size, hb.cupper_size,
    ⟨i1, i2, i3, i4, i5, i6⟩, ⟨?_, ?_, ?_, ?_, ?_, ?_⟩, ⟨?_, ?_, ?_, ?_, ?_, ?_⟩⟩
  · rw [i1, l1]
  · rw [i2, l2]
  · rw [i3, l3]
  · rw [i4, l4]
  · rw [i5, l5]
  · rw [i6, l6]
  · rw [i1, u1]
  · rw [i2, u2]
  · rw [i3, u3]
  · rw [i4, u4]
  · rw [i5, u5]
  · rw [i6, u6]

/-- C4: for `2 ≤ N` the two constraint bound vectors built by `MPC::Solve` have length `6 N`,
are equal, are `0` away from the six indices `0, N, 2N, 3N, 4N, 5N` (the offsets `x_start`,
..., `epsi_start`), and hold the measured `x, y, psi, v, cte, epsi` at those six indices. -/
theorem Solve_constraint_bounds (T : Trig K) (N : Nat) (dt ref_v junk : K)
    (x y psi v cte epsi : K) (coeffs : Array K) (hN : 2 ≤ N) :
    ∃ p, Solve_problem T N dt ref_v junk #[x, y, psi, v, cte, epsi] coeffs = Res.ok p ∧
      p.constraints_lowerbound.size = 6 * N ∧ p.constraints_upperbound.size = 6 * N ∧
      p.constraints_lowerbound = p.constraints_upperbound ∧
      (∀ i, i < 6 * N →
        entry p.constraints_lowerbound i = entry p.constraints_upperbound i) ∧
      (∀ i, i < 6 * N → i ≠ 0 → i ≠ N → i ≠ 2 * N → i ≠ 3 * N → i ≠ 4 * N → i ≠ 5 * N →
        entry p.constraints_lowerbound i = 0 ∧ entry p.constraints_upperbound i = 0) ∧
      (x_start N = 0 ∧ y_start N = N ∧ psi_start N = 2 * N ∧ v_start N = 3 * N ∧
        cte_start N = 4 * N ∧ epsi_start N = 5 * N) ∧
      (entry p.constraints_lowerbound (x_start N) = x ∧
        entry p.constraints_lowerbound (y_start N) = y ∧
        entry p.constraints_lowerbound (psi_start N) = psi ∧
        entry p.constraints_lowerbound (v_start N) = v ∧
        entry p.constraints_lowerbound (cte_start N) = cte ∧
        entry p.constraints_lowerbound (epsi_start N) = epsi) ∧
      (entry p.constraints_upperbound (x_start N) = x ∧
        entry p.constraints_upperbound (y_start N) = y ∧
        entry p.constraints_upperbound (psi_start N) = psi ∧
        entry p.constraints_upperbound (v_start N) = v ∧
        entry p.constraints_upperbound (cte_start N) = cte ∧
        entry p.constraints_upperbound (epsi_start N) = epsi) := by
  obtain ⟨p, hp, hb⟩ := Solve_problem_run T N dt ref_v junk #[x, y, psi, v, cte, epsi] coeffs
    (by omega) (by simp)
  obtain ⟨hx, hy, hpsi, hvs, hcte, hepsi, hdelta, ha, hnv, hnc⟩ := layout_eqs N
  obtain ⟨l1, l2, l3, l4, l5, l6⟩ := hb.clower_init
  obtain ⟨u1, u2, u3, u4, u5, u6⟩ := hb.cupper_init
  obtain ⟨s0, s1, s2, s3, s4, s5⟩ := entry_lit6 x y psi v cte epsi
  rw [s0] at l1 u1
  rw [s1] at l2 u2
  rw [s2] at l3 u3
  rw [s3] at l4 u4
  rw [s4] at l5 u5
  rw [s5] at l6 u6
  have hls : p.constraints_lowerbound.size = 6 * N := by rw [hb.clower_size, hnc]; omega
  have hus : p.constraints_upperbound.size = 6 * N := by rw [hb.cupper_size, hnc]; omega
  have hz : ∀ i, i < 6 * N → i ≠ 0 → i ≠ N → i ≠ 2 * N → i ≠ 3 * N → i ≠ 4 * N →
      i ≠ 5 * N →
      entry p.constraints_lowerbound i = 0 ∧ entry p.constraints_upperbound i = 0 :=
    fun i hi h0 h1 h2 h3 h4 h5 => hb.cbounds_zero i (by omega) (by omega) (by omega) (by omega)
      (by omega) (by omega) (by omega)
  have heq : ∀ i, i < 6 * N →
      entry p.constraints_lowerbound i = entry p.constraints_upperbound i := by
    intro i hi
    by_cases h0 : i = x_start N
    · rw [h0, l1, u1]
    by_cases h1 : i = y_start N
    · rw [h1, l2, u2]
    by_cases h2 : i = psi_start N
    · rw [h2, l3, u3]
    by_cases h3 : i = v_start N
    · rw [h3, l4, u4]
    by_cases h4 : i = cte_start N
    · rw [h4, l5, u5]
    by_cases h5 : i = epsi_start N
    · rw [h5, l6, u6]
    obtain ⟨a, b⟩ := hb.cbounds_zero i (by omega) h0 h1 h2 h3 h4 h5
    rw [a, b]
  exact ⟨p, hp, hls, hus, ext_entry _ _ (by omega) (fun i hi => heq i (by omega)), heq, hz,
    ⟨hx, hy, hpsi, hvs, hcte, hepsi⟩, ⟨l1, l2, l3, l4, l5, l6⟩, ⟨u1, u2, u3, u4, u5, u6⟩⟩

/-- C5: for `2 ≤ N` every index below `6 N + 2 (N - 1)` has a pair of variable bounds:
`∓1e19` on the state entries, `∓0.436332 * 2.67` on the `N - 1` steering entries and `∓1` on
the `N - 1` acceleration entries, so that the lower bound is below the upper bound. -/
theorem Solve_variable_bounds (T : Trig K) (N : Nat) (dt ref_v junk : K)
    (x y psi v cte epsi : K) (coeffs : Array K) (hN : 2 ≤ N) :
    ∃ p, Solve_problem T N dt ref_v junk #[x, y, psi, v, cte, epsi] coeffs = Res.ok p ∧
      p.vars_lowerbound.size = 6 * N + 2 * (N - 1) ∧
      p.vars_upperbound.size = 6 * N + 2 * (N - 1) ∧
      (∀ i, i < delta_start N →
        entry p.vars_lowerbound i = -1e19 ∧ entry p.vars_upperbound i = 1e19) ∧
      (∀ i, delta_start N ≤ i → i < a_start N →
        entry p.vars_lowerbound i = -0.436332 * 2.67 ∧
        entry p.vars_upperbound i = 0.436332 * 2.67) ∧
      (∀ i, a_start N ≤ i → i < n_vars N →
        entry p.vars_lowerbound i = -1.0 ∧ entry p.vars_upperbound i = 1.0) ∧
      (delta_start N = 6 * N ∧ a_start N = delta_start N + (N - 1) ∧
        n_vars N = a_start N + (N - 1) ∧ n_vars N = 6 * N + 2 * (N - 1)) ∧
      ∀ i, i < 6 * N + 2 * (N - 1) → entry p.vars_lowerbound i < entry p.vars_upperbound i := by
  obtain ⟨p, hp, hb⟩ := Solve_problem_run T N dt ref_v junk #[x, y, psi, v, cte, epsi] coeffs
    (by omega) (by simp)
  obtain ⟨hx, hy, hpsi, hvs, hcte, hepsi, hdelta, ha, hnv, hnc⟩ := layout_eqs N
  have hs : ∀ i, i < delta_start N →
      entry p.vars_lowerbound i = -1e19 ∧ entry p.vars_upperbound i = 1e19 := by
    intro i hi
    obtain ⟨a, b⟩ := hb.state_bounds i hi
    rw [a, b]
    constructor <;> norm_num
  have hd : ∀ i, delta_start N ≤ i → i < a_start N →
      entry p.vars_lowerbound i = -0.436332 * 2.67 ∧
      entry p.vars_upperbound i = 0.436332 * 2.67 := by
    intro i h1 h2
    obtain ⟨a, b⟩ := hb.delta_bounds i h1 h2
    rw [a, b]
    exact ⟨rfl, rfl⟩
  refine ⟨p, hp, by rw [hb.lower_size]; omega, by rw [hb.upper_size]; omega, hs, hd, hb.a_bounds,
    ⟨hdelta, by omega, by omega, by omega⟩, ?_⟩
  intro i hi
  by_cases h1 : i < delta_start N
  · obtain ⟨a, b⟩ := hs i h1
    rw [a, b]; norm_num
  by_cases h2 : i < a_start N
  · obtain ⟨a, b⟩ := hd i (by omega) h2
    rw [a, b]; norm_num
  · obtain ⟨a, b⟩ := hb.a_bounds i (by omega) (by omega)
    rw [a, b]; norm_num

theorem block_next (N k : Nat) (hN : 1 ≤ N) (hk : k < 7) :
    block_start N (k + 1) = block_start N k + block_len N k := by
  obtain ⟨hx, hy, hpsi, hvs, hcte, hepsi, hdelta, ha, -, -⟩ := layout_eqs N
  interval_cases k
  · show y_start N = x_start N + N
    omega
  · show psi_start N = y_start N + N
    omega
  · show v_start N = psi_start N + N
    omega
  · show cte_start N = v_start N + N
    omega
  · show epsi_start N = cte_start N + N
    omega
  · show delta_start N = epsi_start N + N
    omega
  · show a_start N = delta_start N + (N - 1)
    omega

theorem block_mono (N : Nat) (hN : 1 ≤ N) (k : Nat) :
    ∀ d, k + d + 1 < 8 → block_start N k + block_len N k ≤ block_start N (k + d + 1)
  | 0, h => Nat.le_of_eq (block_next N k hN (by omega)).symm
  | d + 1, h => by
    have h1 := block_mono N hN k d (by omega)
    have h2 := block_next N (k + d + 1) hN (by omega)
    have e : k + (d + 1) + 1 = k + d + 1 + 1 := by omega
    rw [e, h2]
    omega

theorem block_lt (N : Nat) (hN : 1 ≤ N) (k k' : Nat) (hlt : k < k') (hk' : k' < 8) :
    block_start N k + block_len N k ≤ block_start N k' := by
  have h := block_mono N hN k (k' - k - 1) (by omega)
  have e : k + (k' - k - 1) + 1 = k' := by omega
  rw [e] at h
  exact h

theorem cover_one (N i k s len : Nat) (hs : block_start N k = s) (hl : block_len N k = len)
    (hk : k < 8) (h1 : s ≤ i) (h2 : i < s + len) :
    ∃ k t, k < 8 ∧ t < block_len N k ∧ i = block_start N k + t :=
  ⟨k, i - s, hk, by omega, by omega⟩

theorem block_cover (N : Nat) (hN : 1 ≤ N) (i : Nat) (hi : i < 6 * N + 2 * (N - 1)) :
    ∃ k t, k < 8 ∧ t < block_len N k ∧ i = block_start N k + t := by
  obtain ⟨hx, hy, hpsi, hvs, hcte, hepsi, hdelta, ha, -, -⟩ := layout_eqs N
  have hcase : i < N ∨ (N ≤ i ∧ i < 2 * N) ∨ (2 * N ≤ i ∧ i < 3 * N) ∨
      (3 * N ≤ i ∧ i < 4 * N) ∨ (4 * N ≤ i ∧ i < 5 * N) ∨ (5 * N ≤ i ∧ i < 6 * N) ∨
      (6 * N ≤ i ∧ i < 7 * N - 1) ∨ 7 * N - 1 ≤ i := by omega
  rcases hcase with h | h | h | h | h | h | h | h
  · exact cover_one N i 0 0 N hx rfl (by decide) (by omega) (by omega)
  · exact cover_one N i 1 N N hy rfl (by decide) (by omega) (by omega)
  · exact cover_one N i 2 (2 * N) N hpsi rfl (by decide) (by omega) (by omega)
  · exact cover_one N i 3 (3 * N) N hvs rfl (by decide) (by omega) (by omega)
  · exact cover_one N i 4 (4 * N) N hcte rfl (by decide) (by omega) (by omega)
  · exact cover_one N i 5 (5 * N) N hepsi rfl (by decide) (by omega) (by omega)
  · exact cover_one N i 6 (6 * N) (N - 1) hdelta rfl (by decide) (by omega) (by omega)
  · exact cover_one N i 7 (7 * N - 1) (N - 1) ha rfl (by decide) (by omega) (by omega)

/-- C6: for `1 ≤ N` the offsets are `0, N, 2N, 3N, 4N, 5N, 6N, 7N - 1`; the eight blocks (six
of length `N`, then two of length `N - 1`) follow each other in that order without gap, lie
inside `[0, 6N + 2(N-1))`, are pairwise disjoint (the map `(block, t) ↦ start + t` is
injective) and cover that range. -/
theorem layout_blocks (N : Nat) (hN : 1 ≤ N) :
    (x_start N = 0 ∧ y_start N = N ∧ psi_start N = 2 * N ∧ v_start N = 3 * N ∧
      cte_start N = 4 * N ∧ epsi_start N = 5 * N ∧ delta_start N = 6 * N ∧
      a_start N = 7 * N - 1) ∧
    (a_start N + (N - 1) = n_vars N ∧ n_vars N = 6 * N + 2 * (N - 1)) ∧
    (∀ k, k < 7 → block_start N (k + 1) = block_start N k + block_len N k) ∧
    (∀ k t, k < 8 → t < block_len N k → block_start N k + t < 6 * N + 2 * (N - 1)) ∧
    (∀ k t k' t', k < 8 → k' < 8 → t < block_len N k → t' < block_len N k' →
      block_start N k + t = block_start N k' + t' → k = k' ∧ t = t') ∧
    ∀ i, i < 6 * N + 2 * (N - 1) →
      ∃ k t, k < 8 ∧ t < block_len N k ∧ i = block_start N k + t := by
  obtain ⟨hx, hy, hpsi, hvs, hcte, hepsi, hdelta, ha, hnv, hnc⟩ := layout_eqs N
  have b7 : block_start N 7 = 7 * N - 1 ∧ block_len N 7 = N - 1 := ⟨ha, rfl⟩
  refine ⟨⟨hx, hy, hpsi, hvs, hcte, hepsi, hdelta, ha⟩, ⟨by omega, by omega⟩,
    fun k hk => block_next N k hN hk, ?_, ?_, ?_⟩
  · intro k t hk ht
    by_cases h7 : k = 7
    · subst h7
      omega
    · have h := block_lt N hN k 7 (by omega) (by omega)
      omega
  · intro k t k' t' hk hk' ht ht' h
    have hkk : k = k' := by
      by_contra hne
      by_cases hlt : k < k'
      · have h1 := block_lt N hN k k' hlt hk'
        omega
      · have h1 := block_lt N hN k' k (by omega) hk
        omega
    subst hkk
    exact ⟨rfl, by omega⟩
  · exact block_cover N hN

/-- Two runs of the evaluator on the same decision vector store the same values at every
index up to `N * 6`: every such entry is assigned by the evaluator. -/
theorem FG_eval_entries_assigned (T : Trig K) (N : Nat) (dt ref_v : K)
    (coeffs vars o1 o2 : Array K)
    (h01 : entry o1 0 = objective N ref_v vars) (h02 : entry o2 0 = objective N ref_v vars)
    (hi1 : initial_entries N vars o1) (hi2 : initial_entries N vars o2)
    (hs1 : ∀ t, 1 ≤ t → t < N → step_entries T N dt coeffs vars o1 t)
    (hs2 : ∀ t, 1 ≤ t → t < N → step_entries T N dt coeffs vars o2 t) :
    ∀ j, j < 1 + N * 6 → entry o1 j = entry o2 j := by
  obtain ⟨hx, hy, hpsi, hvs, hcte, hepsi, -, -, -, -⟩ := layout_eqs N
  have hblock : ∀ t, t < N →
      entry o1 (1 + x_start N + t) = entry o2 (1 + x_start N + t) ∧
      entry o1 (1 + y_start N + t) = entry o2 (1 + y_start N + t) ∧
      entry o1 (1 + psi_start N + t) = entry o2 (1 + psi_start N + t) ∧
      entry o1 (1 + v_start N + t) = entry o2 (1 + v_start N + t) ∧
      entry o1 (1 + cte_start N + t) = entry o2 (1 + cte_start N + t) ∧
      entry o1 (1 + epsi_start N + t) = entry o2 (1 + epsi_start N + t) := by
    intro t ht
    by_cases h0 : t = 0
    · subst h0
      obtain ⟨a1, a2, a3, a4, a5, a6⟩ := hi1
      obtain ⟨b1, b2, b3, b4, b5, b6⟩ := hi2
      exact ⟨a1.trans b1.symm, a2.trans b2.symm, a3.trans b3.symm, a4.trans b4.symm,
        a5.trans b5.symm, a6.trans b6.symm⟩
    · obtain ⟨a1, a2, a3, a4, a5, a6⟩ := hs1 t (by omega) ht
      obtain ⟨b1, b2, b3, b4, b5, b6⟩ := hs2 t (by omega) ht
      exact ⟨a1.trans b1.symm, a2.trans b2.symm, a3.trans b3.symm, a4.trans b4.symm,
        a5.trans b5.symm, a6.trans b6.symm⟩
  intro j hj
  have hcase : j = 0 ∨ (1 ≤ j ∧ j < 1 + N) ∨ (1 + N ≤ j ∧ j < 1 + 2 * N) ∨
      (1 + 2 * N ≤ j ∧ j < 1 + 3 * N) ∨ (1 + 3 * N ≤ j ∧ j < 1 + 4 * N) ∨
      (1 + 4 * N ≤ j ∧ j < 1 + 5 * N) ∨ (1 + 5 * N ≤ j ∧ j < 1 + 6 * N) := by omega
  rcases hcase with h | h | h | h | h | h | h
  · rw [h, h01, h02]
  · have e : j = 1 + x_start N + (j - 1) := by omega
    rw [e]
    exact (hblock (j - 1) (by omega)).1
  · have e : j = 1 + y_start N + (j - 1 - N) := by omega
    rw [e]
    exact (hblock (j - 1 - N) (by omega)).2.1
  · have e : j = 1 + psi_start N + (j - 1 - 2 * N) := by omega
    rw [e]
    exact (hblock (j - 1 - 2 * N) (by omega)).2.2.1
  · have e : j = 1 + v_start N + (j - 1 - 3 * N) := by omega
    rw [e]
    exact (hblock (j - 1 - 3 * N) (by omega)).2.2.2.1
  · have e : j = 1 + cte_start N + (j - 1 - 4 * N) := by omega
    rw [e]
    exact (hblock (j - 1 - 4 * N) (by omega)).2.2.2.2.1
  · have e : j = 1 + epsi_start N + (j - 1 - 5 * N) := by omega
    rw [e]
    exact (hblock (j - 1 - 5 * N) (by omega)).2.2.2.2.2

/-- The output of the evaluator on an `fg` of size `1 + N * 6` does not depend on what `fg`
held before the call. -/
theorem FG_eval_independent (T : Trig K) (N : Nat) (dt ref_v : K)
    (coeffs fg1 fg2 vars : Array K) (hN : 2 ≤ N) (hc : 4 ≤ coeffs.size)
    (h1 : fg1.size = 1 + N * 6) (h2 : fg2.size = 1 + N * 6) (hv : n_vars N ≤ vars.size) :
    FG_eval T N dt ref_v coeffs fg1 vars = FG_eval T N dt ref_v coeffs fg2 vars := by
  obtain ⟨o1, r1, s1, a1, b1, c1, -⟩ := FG_eval_run T N dt ref_v coeffs fg1 vars hN hc
    (by omega) hv
  obtain ⟨o2, r2, s2, a2, b2, c2, -⟩ := FG_eval_run T N dt ref_v coeffs fg2 vars hN hc
    (by omega) hv
  rw [r1, r2]
  have h := FG_eval_entries_assigned T N dt ref_v coeffs vars o1 o2 a1 a2 b1 b2 c1 c2
  rw [ext_entry o1 o2 (by omega) (fun i hi => h i (by omega))]

/-- C7: for `2 ≤ N` the initial guess and the two variable bound vectors handed to the solver
have length `N * 6 + (N - 1) * 2`, the two constraint bound vectors have length `N * 6`, and
the evaluator handed to the solver, run on a decision vector of that length and on an `fg` with
room for the objective and `N * 6` constraints, returns an `fg` of the same length whose
`1 + N * 6` entries it has all assigned (the result does not depend on the incoming `fg`),
while it faults on any shorter `fg`. -/
theorem Solve_problem_sizes (T : Trig K) (N : Nat) (dt ref_v junk : K)
    (x y psi v cte epsi c0 c1 c2 c3 : K) (hN : 2 ≤ N) :
    ∃ p, Solve_problem T N dt ref_v junk #[x, y, psi, v, cte, epsi] #[c0, c1, c2, c3]
        = Res.ok p ∧
      p.vars.size = N * 6 + (N - 1) * 2 ∧
      p.vars_lowerbound.size = N * 6 + (N - 1) * 2 ∧
      p.vars_upperbound.size = N * 6 + (N - 1) * 2 ∧
      p.constraints_lowerbound.size = N * 6 ∧
      p.constraints_upperbound.size = N * 6 ∧
      (∀ fg vars : Array K, fg.size = 1 + N * 6 → vars.size = N * 6 + (N - 1) * 2 →
        ∃ fg', p.fg_eval fg vars = Res.ok fg' ∧ fg'.size = 1 + N * 6) ∧
      (∀ fg1 fg2 vars : Array K, fg1.size = 1 + N * 6 → fg2.size = 1 + N * 6 →
        vars.size = N * 6 + (N - 1) * 2 → p.fg_eval fg1 vars = p.fg_eval fg2 vars) ∧
      ∀ fg vars : Array K, fg.size < 1 + N * 6 → p.fg_eval fg vars = Res.fault := by
  obtain ⟨p, hp, hb⟩ := Solve_problem_run T N dt ref_v junk #[x, y, psi, v, cte, epsi]
    #[c0, c1, c2, c3] (by omega) (by simp)
  have hnv : n_vars N = N * 6 + (N - 1) * 2 := rfl
  have hnc : n_constraints N = N * 6 := rfl
  refine ⟨p, hp, by rw [hb.vars_size, hnv], by rw [hb.lower_size, hnv],
    by rw [hb.upper_size, hnv], by rw [hb.clower_size, hnc], by rw [hb.cupper_size, hnc], ?_, ?_,
    ?_⟩
  · intro fg vars hfg hv
    obtain ⟨fg', hrun, hs, -⟩ := FG_eval_run T N dt ref_v #[c0, c1, c2, c3] fg vars hN
      (by simp) (by omega) (by rw [hv, hnv])
    exact ⟨fg', by rw [hb.fg_eval_eq]; exact hrun, by omega⟩
  · intro fg1 fg2 vars h1 h2 hv
    rw [hb.fg_eval_eq]
    exact FG_eval_independent T N dt ref_v #[c0, c1, c2, c3] fg1 fg2 vars hN (by simp) h1 h2
      (by rw [hv, hnv])
  · intro fg vars hfg
    rw [hb.fg_eval_eq]
    exact FG_eval_fault_of_short T N dt ref_v #[c0, c1, c2, c3] fg vars hN hfg

/-- C8: for `2 ≤ N`, when the solver reports success with a solution vector `s` of length
`n_vars`, the result of `MPC::Solve` has length `2 + 2 (N - 1)`, starts with
`s[delta_start], s[a_start]` and continues with the pairs `s[x_start + i], s[y_start + i]` for
`i = 0, ..., N - 2` at the positions `2 + 2 i` and `3 + 2 i`. -/
theorem Solve_success_result (T : Trig K) (N : Nat) (dt ref_v junk : K)
    (solve : Problem K → solve_result K) (x y psi v cte epsi : K) (coeffs : Array K)
    (hN : 2 ≤ N)
    (hsolve : ∀ p, Solve_problem T N dt ref_v junk #[x, y, psi, v, cte, epsi] coeffs = Res.ok p →
      (solve p).status = status_type.success ∧ (solve p).x.size = n_vars N) :
    ∃ p result, Solve_problem T N dt ref_v junk #[x, y, psi, v, cte, epsi] coeffs = Res.ok p ∧
      Solve T N dt ref_v junk solve #[x, y, psi, v, cte, epsi] coeffs = Res.ok result ∧
      result.size = 2 + 2 * (N - 1) ∧
      entry result 0 = entry (solve p).x (delta_start N) ∧
      entry result 1 = entry (solve p).x (a_start N) ∧
      ∀ i, i ≤ N - 2 →
        entry result (2 + 2 * i) = entry (solve p).x (x_start N + i) ∧
        entry result (3 + 2 * i) = entry (solve p).x (y_start N + i) := by
  obtain ⟨p, hp, -⟩ := Solve_problem_run T N dt ref_v junk #[x, y, psi, v, cte, epsi] coeffs
    (by omega) (by simp)
  obtain ⟨result, hr, hs, h0, h1, hxy⟩ := Solve_result_run N (solve p) hN
    (by rw [(hsolve p hp).2])
  exact ⟨p, result, hp, by rw [Solve_eq T N dt ref_v junk solve _ coeffs p hp]; exact hr, hs,
    h0, h1, fun i hi => hxy i (by omega)⟩

/-- C9, the behaviour of the code where the claim fails: with `N = 10`, when the solver
reports `time_limit` and leaves the vector `0, 1, ..., 77` in `solution.x`, `MPC::Solve`
returns twenty values, the first two being the steering `60` and the acceleration `69` found
in that vector, and no error. -/
theorem Solve_ignores_status :
    ∃ result, Solve sample_trig 10 0.1 100 0 sample_solve_time_limit #[0, 0, 0, 100, 0, 0]
        #[0, 0, 0, 0] = Res.ok result ∧
      result.size = 20 ∧ entry result 0 = 60 ∧ entry result 1 = 69 := by
  obtain ⟨p, hp, -⟩ := Solve_problem_run sample_trig 10 0.1 100 0 #[0, 0, 0, 100, 0, 0]
    #[0, 0, 0, 0] (by decide) (by decide)
  obtain ⟨result, hr, hs, h0, h1, -⟩ := Solve_result_run 10 (sample_solve_time_limit p)
    (by decide) (by rw [show (sample_solve_time_limit p).x = sample_vars from rfl,
      sample_vars_size]; decide)
  refine ⟨result, ?_, hs, ?_, ?_⟩
  · rw [Solve_eq _ 10 _ _ _ _ _ _ p hp]
    exact hr
  · rw [h0, show (sample_solve_time_limit p).x = sample_vars from rfl,
      show delta_start 10 = 60 from rfl, sample_vars_entry 60 (by decide)]
    norm_num
  · rw [h1, show (sample_solve_time_limit p).x = sample_vars from rfl,
      show a_start 10 = 69 from rfl, sample_vars_entry 69 (by decide)]
    norm_num

/-- C10, counterexample: nothing is rejected before the solver is invoked.  With `N = 10`,
`dt = 0` and a coefficient vector of length five the problem is built, the evaluator handed to
the solver runs normally on the sample vectors and `MPC::Solve` returns twenty values extracted
from the answer of the solver (steering `60`, acceleration `69`).  With `dt = 0.1` and a
coefficient vector of length three the problem is built as well; the malformed vector is met
only when the solver runs the evaluator, which then reads outside of it. -/
theorem Solve_accepts_invalid_input :
    (∃ p out result, Solve_problem sample_trig 10 0 100 0 #[0, 0, 0, 100, 0, 0]
        #[0, 0, 0, 0, 0] = Res.ok p ∧
      p.fg_eval sample_fg sample_vars = Res.ok out ∧
      Solve sample_trig 10 0 100 0 sample_solve #[0, 0, 0, 100, 0, 0] #[0, 0, 0, 0, 0]
        = Res.ok result ∧
      result.size = 20 ∧ entry result 0 = 60 ∧ entry result 1 = 69) ∧
    ∃ q, Solve_problem sample_trig 10 0.1 100 0 #[0, 0, 0, 100, 0, 0] #[0, 0, 0] = Res.ok q ∧
      q.vars.size = 78 ∧ q.constraints_lowerbound.size = 60 ∧
      q.fg_eval sample_fg sample_vars = Res.fault := by
  constructor
  · obtain ⟨p, hp, hb⟩ := Solve_problem_run sample_trig 10 0 100 0 #[0, 0, 0, 100, 0, 0]
      #[0, 0, 0, 0, 0] (by decide) (by decide)
    obtain ⟨out, hrun, -⟩ := FG_eval_run sample_trig 10 0 100 #[0, 0, 0, 0, 0] sample_fg
      sample_vars (by decide) (by decide) (by decide) (by rw [sample_vars_size]; decide)
    obtain ⟨result, hr, hs, h0, h1, -⟩ := Solve_result_run 10 (sample_solve p)
      (by decide) (by rw [show (sample_solve p).x = sample_vars from rfl,
        sample_vars_size]; decide)
    refine ⟨p, out, result, hp, ?_, ?_, hs, ?_, ?_⟩
    · rw [hb.fg_eval_eq]
      exact hrun
    · rw [Solve_eq _ 10 _ _ _ _ _ _ p hp]
      exact hr
    · rw [h0, show (sample_solve p).x = sample_vars from rfl,
        show delta_start 10 = 60 from rfl, sample_vars_entry 60 (by decide)]
      norm_num
    · rw [h1, show (sample_solve p).x = sample_vars from rfl,
        show a_start 10 = 69 from rfl, sample_vars_entry 69 (by decide)]
      norm_num
  · obtain ⟨q, hq, hb⟩ := Solve_problem_run sample_trig 10 0.1 100 0 #[0, 0, 0, 100, 0, 0]
      #[0, 0, 0] (by decide) (by decide)
    refine ⟨q, hq, hb.vars_size, hb.clower_size, ?_⟩
    rw [hb.fg_eval_eq]
    exact FG_eval_fault_of_few_coeffs sample_trig 10 0.1 100 #[0, 0, 0] sample_fg sample_vars
      (by decide) (by decide)

/-- C10, as amended: `MPC::Solve` validates neither `dt` nor the coefficient vector.  For every
`N ≥ 2`, every `dt` (so also `dt ≤ 0`) and every coefficient vector (of any length), it builds
from a six-entry state the vectors of lengths `n_vars` and `N * 6` and the evaluator, and hands
them to the solver.  With four or more coefficients (so also with five) the evaluator runs
normally on vectors of these lengths, and `MPC::Solve` returns the `2 + 2 (N - 1)` values that
lines 247-259 extract from an answer of the solver of length `n_vars`.  With fewer than four
coefficients every run of the evaluator reads outside the coefficient vector. -/
theorem Solve_no_validation (T : Trig K) (N : Nat) (dt ref_v junk : K)
    (x y psi v cte epsi : K) (coeffs : Array K) (hN : 2 ≤ N) :
    ∃ p, Solve_problem T N dt ref_v junk #[x, y, psi, v, cte, epsi] coeffs = Res.ok p ∧
      p.fg_eval = FG_eval T N dt ref_v coeffs ∧
      p.vars.size = N * 6 + (N - 1) * 2 ∧ p.constraints_lowerbound.size = N * 6 ∧
      p.constraints_upperbound.size = N * 6 ∧
      (4 ≤ coeffs.size →
        (∀ fg vars : Array K, fg.size = 1 + N * 6 → vars.size = N * 6 + (N - 1) * 2 →
          ∃ out, p.fg_eval fg vars = Res.ok out ∧ out.size = 1 + N * 6) ∧
        ∀ solve : Problem K → solve_result K, (solve p).x.size = N * 6 + (N - 1) * 2 →
          ∃ result, Solve T N dt ref_v junk solve #[x, y, psi, v, cte, epsi] coeffs
              = Res.ok result ∧
            result.size = 2 + 2 * (N - 1) ∧
            entry result 0 = entry (solve p).x (delta_start N) ∧
            entry result 1 = entry (solve p).x (a_start N)) ∧
      (coeffs.size < 4 → ∀ fg vars : Array K, p.fg_eval fg vars = Res.fault) := by
  obtain ⟨p, hp, hb⟩ := Solve_problem_run T N dt ref_v junk #[x, y, psi, v, cte, epsi] coeffs
    (by omega) (by simp)
  have hnv : n_vars N = N * 6 + (N - 1) * 2 := rfl
  have hnc : n_constraints N = N * 6 := rfl
  refine ⟨p, hp, hb.fg_eval_eq, by rw [hb.vars_size, hnv], by rw [hb.clower_size, hnc],
    by rw [hb.cupper_size, hnc], fun hc => ⟨fun fg vars hfg hv => ?_, fun solve hs => ?_⟩,
    fun hc fg vars => ?_⟩
  · obtain ⟨out, hrun, hsz, -⟩ := FG_eval_run T N dt ref_v coeffs fg vars hN hc (by omega)
      (by rw [hv, hnv])
    exact ⟨out, by rw [hb.fg_eval_eq]; exact hrun, by omega⟩
  · obtain ⟨result, hr, hsz, h0, h1, -⟩ := Solve_result_run N (solve p) hN (by rw [hs, hnv])
    exact ⟨result, by rw [Solve_eq T N dt ref_v junk solve _ coeffs p hp]; exact hr, hsz, h0,
      h1⟩
  · rw [hb.fg_eval_eq]
    exact FG_eval_fault_of_few_coeffs T N dt ref_v coeffs fg vars hN hc

/-! ## Instances of the theorems on the sample inputs -/

/-- Witness for C3 as amended: `N = 10`, measured state `(1, 2, 3, 4, 5, 6)`. -/
theorem FG_eval_initial_entries_witness :
    (2 ≤ 10 ∧ (#[7, 5, 3, 1] : Array ℚ).size = 4 ∧ sample_fg.size = 1 + 10 * 6 ∧
      sample_vars.size = 10 * 6 + (10 - 1) * 2) ∧
    (∃ fg' p, FG_eval sample_trig 10 0.1 100 #[7, 5, 3, 1] sample_fg sample_vars = Res.ok fg' ∧
      Solve_problem sample_trig 10 0.1 100 9 #[1, 2, 3, 4, 5, 6] #[7, 5, 3, 1] = Res.ok p ∧
      fg'.size = 1 + 10 * 6 ∧ p.constraints_lowerbound.size = 10 * 6 ∧
      p.constraints_upperbound.size = 10 * 6 ∧
      (entry fg' (1 + x_start 10) = entry sample_vars (x_start 10) ∧
        entry fg' (1 + y_start 10) = entry sample_vars (y_start 10) ∧
        entry fg' (1 + psi_start 10) = entry sample_vars (psi_start 10) ∧
        entry fg' (1 + v_start 10) = entry sample_vars (v_start 10) ∧
        entry fg' (1 + cte_start 10) = entry sample_vars (cte_start 10) ∧
        entry fg' (1 + epsi_start 10) = entry sample_vars (epsi_start 10)) ∧
      (entry fg' (1 + x_start 10) - entry p.constraints_lowerbound (x_start 10)
          = entry sample_vars (x_start 10) - 1 ∧
        entry fg' (1 + y_start 10) - entry p.constraints_lowerbound (y_start 10)
          = entry sample_vars (y_start 10) - 2 ∧
        entry fg' (1 + psi_start 10) - entry p.constraints_lowerbound (psi_start 10)
          = entry sample_vars (psi_start 10) - 3 ∧
        entry fg' (1 + v_start 10) - entry p.constraints_lowerbound (v_start 10)
          = entry sample_vars (v_start 10) - 4 ∧
        entry fg' (1 + cte_start 10) - entry p.constraints_lowerbound (cte_start 10)
          = entry sample_vars (cte_start 10) - 5 ∧
        entry fg' (1 + epsi_start 10) - entry p.constraints_lowerbound (epsi_start 10)
          = entry sample_vars (epsi_start 10) - 6) ∧
      (entry fg' (1 + x_start 10) - entry p.constraints_upperbound (x_start 10)
          = entry sample_vars (x_start 10) - 1 ∧
        entry fg' (1 + y_start 10) - entry p.constraints_upperbound (y_start 10)
          = entry sample_vars (y_start 10) - 2 ∧
        entry fg' (1 + psi_start 10) - entry p.constraints_upperbound (psi_start 10)
          = entry sample_vars (psi_start 10) - 3 ∧
        entry fg' (1 + v_start 10) - entry p.constraints_upperbound (v_start 10)
          = entry sample_vars (v_start 10) - 4 ∧
        entry fg' (1 + cte_start 10) - entry p.constraints_upperbound (cte_start 10)
          = entry sample_vars (cte_start 10) - 5 ∧
        entry fg' (1 + epsi_start 10) - entry p.constraints_upperbound (epsi_start 10)
          = entry sample_vars (epsi_start 10) - 6)) :=
  ⟨⟨by decide, rfl, rfl, sample_vars_size⟩,
    FG_eval_initial_entries sample_trig 10 0.1 100 9 1 2 3 4 5 6 #[7, 5, 3, 1] sample_fg
      sample_vars (by decide) rfl rfl sample_vars_size⟩

/-- Witness for C4: `N = 10`, measured state `(1, 2, 3, 4, 5, 6)`. -/
theorem Solve_constraint_bounds_witness :
    2 ≤ 10 ∧
    (∃ p, Solve_problem sample_trig 10 0.1 100 9 #[1, 2, 3, 4, 5, 6] #[7, 5, 3, 1] = Res.ok p ∧
      p.constraints_lowerbound.size = 6 * 10 ∧ p.constraints_upperbound.size = 6 * 10 ∧
      p.constraints_lowerbound = p.constraints_upperbound ∧
      (∀ i, i < 6 * 10 →
        entry p.constraints_lowerbound i = entry p.constraints_upperbound i) ∧
      (∀ i, i < 6 * 10 → i ≠ 0 → i ≠ 10 → i ≠ 2 * 10 → i ≠ 3 * 10 → i ≠ 4 * 10 → i ≠ 5 * 10 →
        entry p.constraints_lowerbound i = 0 ∧ entry p.constraints_upperbound i = 0) ∧
      (x_start 10 = 0 ∧ y_start 10 = 10 ∧ psi_start 10 = 2 * 10 ∧ v_start 10 = 3 * 10 ∧
        cte_start 10 = 4 * 10 ∧ epsi_start 10 = 5 * 10) ∧
      (entry p.constraints_lowerbound (x_start 10) = 1 ∧
        entry p.constraints_lowerbound (y_start 10) = 2 ∧
        entry p.constraints_lowerbound (psi_start 10) = 3 ∧
        entry p.constraints_lowerbound (v_start 10) = 4 ∧
        entry p.constraints_lowerbound (cte_start 10) = 5 ∧
        entry p.constraints_lowerbound (epsi_start 10) = 6) ∧
      (entry p.constraints_upperbound (x_start 10) = 1 ∧
        entry p.constraints_upperbound (y_start 10) = 2 ∧
        entry p.constraints_upperbound (psi_start 10) = 3 ∧
        entry p.constraints_upperbound (v_start 10) = 4 ∧
        entry p.constraints_upperbound (cte_start 10) = 5 ∧
        entry p.constraints_upperbound (epsi_start 10) = 6)) :=
  ⟨by decide,
    Solve_constraint_bounds sample_trig 10 0.1 100 9 1 2 3 4 5 6 #[7, 5, 3, 1] (by decide)⟩

/-- Witness for C5: `N = 10`, measured state `(1, 2, 3, 4, 5, 6)`. -/
theorem Solve_variable_bounds_witness :
    2 ≤ 10 ∧
    (∃ p, Solve_problem sample_trig 10 0.1 100 9 #[1, 2, 3, 4, 5, 6] #[7, 5, 3, 1] = Res.ok p ∧
      p.vars_lowerbound.size = 6 * 10 + 2 * (10 - 1) ∧
      p.vars_upperbound.size = 6 * 10 + 2 * (10 - 1) ∧
      (∀ i, i < delta_start 10 →
        entry p.vars_lowerbound i = -1e19 ∧ entry p.vars_upperbound i = 1e19) ∧
      (∀ i, delta_start 10 ≤ i → i < a_start 10 →
        entry p.vars_lowerbound i = -0.436332 * 2.67 ∧
        entry p.vars_upperbound i = 0.436332 * 2.67) ∧
      (∀ i, a_start 10 ≤ i → i < n_vars 10 →
        entry p.vars_lowerbound i = -1.0 ∧ entry p.vars_upperbound i = 1.0) ∧
      (delta_start 10 = 6 * 10 ∧ a_start 10 = delta_start 10 + (10 - 1) ∧
        n_vars 10 = a_start 10 + (10 - 1) ∧ n_vars 10 = 6 * 10 + 2 * (10 - 1)) ∧
      ∀ i, i < 6 * 10 + 2 * (10 - 1) → entry p.vars_lowerbound i < entry p.vars_upperbound i) :=
  ⟨by decide,
    Solve_variable_bounds sample_trig 10 0.1 100 9 1 2 3 4 5 6 #[7, 5, 3, 1] (by decide)⟩

/-- Witness for C6: the horizon `N = 10` of the source. -/
theorem layout_blocks_witness :
    1 ≤ 10 ∧
    ((x_start 10 = 0 ∧ y_start 10 = 10 ∧ psi_start 10 = 2 * 10 ∧ v_start 10 = 3 * 10 ∧
      cte_start 10 = 4 * 10 ∧ epsi_start 10 = 5 * 10 ∧ delta_start 10 = 6 * 10 ∧
      a_start 10 = 7 * 10 - 1) ∧
    (a_start 10 + (10 - 1) = n_vars 10 ∧ n_vars 10 = 6 * 10 + 2 * (10 - 1)) ∧
    (∀ k, k < 7 → block_start 10 (k + 1) = block_start 10 k + block_len 10 k) ∧
    (∀ k t, k < 8 → t < block_len 10 k → block_start 10 k + t < 6 * 10 + 2 * (10 - 1)) ∧
    (∀ k t k' t', k < 8 → k' < 8 → t < block_len 10 k → t' < block_len 10 k' →
      block_start 10 k + t = block_start 10 k' + t' → k = k' ∧ t = t') ∧
    ∀ i, i < 6 * 10 + 2 * (10 - 1) →
      ∃ k t, k < 8 ∧ t < block_len 10 k ∧ i = block_start 10 k + t) :=
  ⟨by decide, layout_blocks 10 (by decide)⟩

/-- Witness for C7: `N = 10`, measured state `(1, 2, 3, 4, 5, 6)`, coefficients
`(7, 5, 3, 1)`. -/
theorem Solve_problem_sizes_witness :
    2 ≤ 10 ∧
    (∃ p, Solve_problem sample_trig 10 0.1 100 9 #[1, 2, 3, 4, 5, 6] #[7, 5, 3, 1]
        = Res.ok p ∧
      p.vars.size = 10 * 6 + (10 - 1) * 2 ∧
      p.vars_lowerbound.size = 10 * 6 + (10 - 1) * 2 ∧
      p.vars_upperbound.size = 10 * 6 + (10 - 1) * 2 ∧
      p.constraints_lowerbound.size = 10 * 6 ∧
      p.constraints_upperbound.size = 10 * 6 ∧
      (∀ fg vars : Array ℚ, fg.size = 1 + 10 * 6 → vars.size = 10 * 6 + (10 - 1) * 2 →
        ∃ fg', p.fg_eval fg vars = Res.ok fg' ∧ fg'.size = 1 + 10 * 6) ∧
      (∀ fg1 fg2 vars : Array ℚ, fg1.size = 1 + 10 * 6 → fg2.size = 1 + 10 * 6 →
        vars.size = 10 * 6 + (10 - 1) * 2 → p.fg_eval fg1 vars = p.fg_eval fg2 vars) ∧
      ∀ fg vars : Array ℚ, fg.size < 1 + 10 * 6 → p.fg_eval fg vars = Res.fault) :=
  ⟨by decide, Solve_problem_sizes sample_trig 10 0.1 100 9 1 2 3 4 5 6 7 5 3 1 (by decide)⟩

/-- Witness for C8: `N = 10` and a solver that reports success with the solution
`0, 1, ..., 77`. -/
theorem Solve_success_result_witness :
    (2 ≤ 10 ∧ ∀ p : Problem ℚ,
      Solve_problem sample_trig 10 0.1 100 9 #[1, 2, 3, 4, 5, 6] #[7, 5, 3, 1] = Res.ok p →
      (sample_solve p).status = status_type.success ∧ (sample_solve p).x.size = n_vars 10) ∧
    (∃ p result, Solve_problem sample_trig 10 0.1 100 9 #[1, 2, 3, 4, 5, 6] #[7, 5, 3, 1] = Res.ok p ∧
      Solve sample_trig 10 0.1 100 9 sample_solve #[1, 2, 3, 4, 5, 6] #[7, 5, 3, 1] = Res.ok result ∧
      result.size = 2 + 2 * (10 - 1) ∧
      entry result 0 = entry (sample_solve p).x (delta_start 10) ∧
      entry result 1 = entry (sample_solve p).x (a_start 10) ∧
      ∀ i, i ≤ 10 - 2 →
        entry result (2 + 2 * i) = entry (sample_solve p).x (x_start 10 + i) ∧
        entry result (3 + 2 * i) = entry (sample_solve p).x (y_start 10 + i)) :=
  ⟨⟨by decide, fun _ _ => ⟨rfl, sample_vars_size⟩⟩,
    Solve_success_result sample_trig 10 0.1 100 9 sample_solve 1 2 3 4 5 6 #[7, 5, 3, 1]
      (by decide) (fun _ _ => ⟨rfl, sample_vars_size⟩)⟩

/-- Witness for C10 as amended: `N = 10`, `dt = 0` and a coefficient vector of length five. -/
theorem Solve_no_validation_witness :
    2 ≤ 10 ∧
    (∃ p, Solve_problem sample_trig 10 0 100 9 #[1, 2, 3, 4, 5, 6] #[7, 5, 3, 1, 8] = Res.ok p ∧
      p.fg_eval = FG_eval sample_trig 10 0 100 #[7, 5, 3, 1, 8] ∧
      p.vars.size = 10 * 6 + (10 - 1) * 2 ∧ p.constraints_lowerbound.size = 10 * 6 ∧
      p.constraints_upperbound.size = 10 * 6 ∧
      (4 ≤ (#[7, 5, 3, 1, 8] : Array ℚ).size →
        (∀ fg vars : Array ℚ, fg.size = 1 + 10 * 6 → vars.size = 10 * 6 + (10 - 1) * 2 →
          ∃ out, p.fg_eval fg vars = Res.ok out ∧ out.size = 1 + 10 * 6) ∧
        ∀ solve : Problem ℚ → solve_result ℚ, (solve p).x.size = 10 * 6 + (10 - 1) * 2 →
          ∃ result, Solve sample_trig 10 0 100 9 solve #[1, 2, 3, 4, 5, 6] #[7, 5, 3, 1, 8]
              = Res.ok result ∧
            result.size = 2 + 2 * (10 - 1) ∧
            entry result 0 = entry (solve p).x (delta_start 10) ∧
            entry result 1 = entry (solve p).x (a_start 10)) ∧
      ((#[7, 5, 3, 1, 8] : Array ℚ).size < 4 →
        ∀ fg vars : Array ℚ, p.fg_eval fg vars = Res.fault)) :=
  ⟨by decide, Solve_no_validation sample_trig 10 0 100 9 1 2 3 4 5 6 #[7, 5, 3, 1, 8]
    (by decide)⟩

end Claims

/-! ## The objective as a sum of squares -/

section Objective

variable {K : Type} [LinearOrderedField K]

/-- The objective is a sum of squares with positive weights. -/
theorem objective_nonneg (N : Nat) (ref_v : K) (vars : Array K) : 0 ≤ objective N ref_v vars := by
  unfold objective
  refine add_nonneg (add_nonneg ?_ ?_) ?_
  · exact Finset.sum_nonneg (fun t _ => by positivity)
  · exact Finset.sum_nonneg (fun t _ => by positivity)
  · exact Finset.sum_nonneg (fun t _ => by positivity)

/-- The objective vanishes exactly when every tracking term and every actuation vanishes. -/
theorem objective_eq_zero_iff (N : Nat) (hN : 2 ≤ N) (ref_v : K) (vars : Array K) :
    objective N ref_v vars = 0 ↔
      (∀ t, t < N → entry vars (cte_start N + t) = 0 ∧ entry vars (epsi_start N + t) = 0 ∧
        entry vars (v_start N + t) = ref_v) ∧
      (∀ t, t < N - 1 → entry vars (delta_start N + t) = 0 ∧ entry vars (a_start N + t) = 0) := by
  have h1 : 0 ≤ (Finset.range N).sum (fun t => 3000 * entry vars (cte_start N + t) ^ 2
      + 2000 * entry vars (epsi_start N + t) ^ 2
      + (entry vars (v_start N + t) - ref_v) ^ 2) :=
    Finset.sum_nonneg (fun t _ => by positivity)
  have h2 : 0 ≤ (Finset.range (N - 1)).sum (fun t => 5 * entry vars (delta_start N + t) ^ 2
      + 5 * entry vars (a_start N + t) ^ 2) :=
    Finset.sum_nonneg (fun t _ => by positivity)
  have h3 : 0 ≤ (Finset.range (N - 2)).sum (fun t =>
      200 * (entry vars (delta_start N + t + 1) - entry vars (delta_start N + t)) ^ 2
      + 10 * (entry vars (a_start N + t + 1) - entry vars (a_start N + t)) ^ 2) :=
    Finset.sum_nonneg (fun t _ => by positivity)
  unfold objective
  constructor
  · intro h
    have e1 : (Finset.range N).sum (fun t => 3000 * entry vars (cte_start N + t) ^ 2
        + 2000 * entry vars (epsi_start N + t) ^ 2
        + (entry vars (v_start N + t) - ref_v) ^ 2) = 0 := by linarith
    have e2 : (Finset.range (N - 1)).sum (fun t => 5 * entry vars (delta_start N + t) ^ 2
        + 5 * entry vars (a_start N + t) ^ 2) = 0 := by linarith
    rw [Finset.sum_eq_zero_iff_of_nonneg (fun t _ => by positivity)] at e1 e2
    constructor
    · intro t ht
      have := e1 t (Finset.mem_range.mpr ht)
      have a1 : 0 ≤ entry vars (cte_start N + t) ^ 2 := by positivity
      have a2 : 0 ≤ entry vars (epsi_start N + t) ^ 2 := by positivity
      have a3 : 0 ≤ (entry vars (v_start N + t) - ref_v) ^ 2 := by positivity
      have b1 : entry vars (cte_start N + t) ^ 2 = 0 := by linarith
      have b2 : entry vars (epsi_start N + t) ^ 2 = 0 := by linarith
      have b3 : (entry vars (v_start N + t) - ref_v) ^ 2 = 0 := by linarith
      exact ⟨pow_eq_zero_iff (two_ne_zero) |>.mp b1, pow_eq_zero_iff (two_ne_zero) |>.mp b2,
        sub_eq_zero.mp (pow_eq_zero_iff (two_ne_zero) |>.mp b3)⟩
    · intro t ht
      have := e2 t (Finset.mem_range.mpr ht)
      have a1 : 0 ≤ entry vars (delta_start N + t) ^ 2 := by positivity
      have a2 : 0 ≤ entry vars (a_start N + t) ^ 2 := by positivity
      have b1 : entry vars (delta_start N + t) ^ 2 = 0 := by linarith
      have b2 : entry vars (a_start N + t) ^ 2 = 0 := by linarith
      exact ⟨pow_eq_zero_iff (two_ne_zero) |>.mp b1, pow_eq_zero_iff (two_ne_zero) |>.mp b2⟩
  · rintro ⟨ha, hb⟩
    have e1 : (Finset.range N).sum (fun t => 3000 * entry vars (cte_start N + t) ^ 2
        + 2000 * entry vars (epsi_start N + t) ^ 2
        + (entry vars (v_start N + t) - ref_v) ^ 2) = 0 := by
      refine Finset.sum_eq_zero (fun t ht => ?_)
      obtain ⟨c, e, v⟩ := ha t (Finset.mem_range.mp ht)
      rw [c, e, v]; ring
    have e2 : (Finset.range (N - 1)).sum (fun t => 5 * entry vars (delta_start N + t) ^ 2
        + 5 * entry vars (a_start N + t) ^ 2) = 0 := by
      refine Finset.sum_eq_zero (fun t ht => ?_)
      obtain ⟨d, a⟩ := hb t (Finset.mem_range.mp ht)
      rw [d, a]; ring
    have e3 : (Finset.range (N - 2)).sum (fun t =>
        200 * (entry vars (delta_start N + t + 1) - entry vars (delta_start N + t)) ^ 2
        + 10 * (entry vars (a_start N + t + 1) - entry vars (a_start N + t)) ^ 2) = 0 := by
      refine Finset.sum_eq_zero (fun t ht => ?_)
      have ht' := Finset.mem_range.mp ht
      obtain ⟨d, a⟩ := hb t (by omega)
      obtain ⟨d1, a1⟩ := hb (t + 1) (by omega)
      have i1 : delta_start N + t + 1 = delta_start N + (t + 1) := rfl
      have i2 : a_start N + t + 1 = a_start N + (t + 1) := rfl
      rw [i1, i2, d, a, d1, a1]; ring
    rw [e1, e2, e3]; ring

/-- The objective reads only the `v`, `cte`, `epsi`, `delta` and `a` blocks. -/
theorem objective_congr (N : Nat) (ref_v : K) (vars1 vars2 : Array K)
    (h : ∀ i, v_start N ≤ i → entry vars1 i = entry vars2 i) :
    objective N ref_v vars1 = objective N ref_v vars2 := by
  obtain ⟨hx, hy, hpsi, hvs, hcte, hepsi, hdelta, ha, -, -⟩ := layout_eqs N
  unfold objective
  congr 1
  · congr 1
    · refine Finset.sum_congr rfl (fun t _ => ?_)
      rw [h (cte_start N + t) (by omega), h (epsi_start N + t) (by omega),
        h (v_start N + t) (by omega)]
    · refine Finset.sum_congr rfl (fun t ht => ?_)
      have := Finset.mem_range.mp ht
      rw [h (delta_start N + t) (by omega), h (a_start N + t) (by omega)]
  · refine Finset.sum_congr rfl (fun t ht => ?_)
    have := Finset.mem_range.mp ht
    rw [h (delta_start N + t) (by omega), h (a_start N + t) (by omega),
      h (delta_start N + t + 1) (by omega), h (a_start N + t + 1) (by omega)]

end Objective

/-! ## Trajectories and the kinematic model -/

section Trajectories

variable {K : Type} [LinearOrderedField K]

omit [LinearOrderedField K] in
theorem vec_of_size (n : Nat) (f : Nat → K) : (vec_of n f).size = n := by
  simp [vec_of]

theorem vec_of_entry (n : Nat) (f : Nat → K) (i : Nat) (h : i < n) :
    entry (vec_of n f) i = f i := by
  rw [entry_eq_getElem _ _ (by rw [vec_of_size]; exact h)]
  simp [vec_of]

omit [LinearOrderedField K] in
theorem trajectory_size (N : Nat) (s : Nat → VehicleState K) (delta a : Nat → K) :
    (trajectory N s delta a).size = n_vars N := vec_of_size _ _

/-- The state blocks of a trajectory hold the states, its actuator blocks the actuators. -/
theorem trajectory_entries (N : Nat) (hN : 2 ≤ N) (s : Nat → VehicleState K)
    (delta a : Nat → K) :
    (∀ t, t < N → state_at N (trajectory N s delta a) t = s t) ∧
    ∀ t, t < N - 1 → entry (trajectory N s delta a) (delta_start N + t) = delta t ∧
      entry (trajectory N s delta a) (a_start N + t) = a t := by
  obtain ⟨hx, hy, hpsi, hvs, hcte, hepsi, hdelta, ha, hnv, -⟩ := layout_eqs N
  constructor
  · intro t ht
    unfold state_at trajectory
    rw [vec_of_entry _ _ _ (by omega), vec_of_entry _ _ _ (by omega),
      vec_of_entry _ _ _ (by omega), vec_of_entry _ _ _ (by omega),
      vec_of_entry _ _ _ (by omega), vec_of_entry _ _ _ (by omega)]
    have e1 : x_start N + t - x_start N = t := by omega
    have e2 : y_start N + t - y_start N = t := by omega
    have e3 : psi_start N + t - psi_start N = t := by omega
    have e4 : v_start N + t - v_start N = t := by omega
    have e5 : cte_start N + t - cte_start N = t := by omega
    have e6 : epsi_start N + t - epsi_start N = t := by omega
    simp (disch := omega) only [if_pos, if_neg, e1, e2, e3, e4, e5, e6]
  · intro t ht
    unfold trajectory
    rw [vec_of_entry _ _ _ (by omega), vec_of_entry _ _ _ (by omega)]
    have e1 : delta_start N + t - delta_start N = t := by omega
    have e2 : a_start N + t - a_start N = t := by omega
    simp (disch := omega) only [if_pos, if_neg, e1, e2, and_self]

end Trajectories

/-! ## Feasible decision vectors -/

section Feasibility

variable {K : Type} [LinearOrderedField K]

/-- Index bookkeeping: every constraint index is `f_start + t` for one of the six state blocks
and some `t < N`. -/
theorem constraint_index_cases (N i : Nat) (hi : i < N * 6) :
    (∃ t, t < N ∧ i = x_start N + t) ∨ (∃ t, t < N ∧ i = y_start N + t) ∨
    (∃ t, t < N ∧ i = psi_start N + t) ∨ (∃ t, t < N ∧ i = v_start N + t) ∨
    (∃ t, t < N ∧ i = cte_start N + t) ∨ (∃ t, t < N ∧ i = epsi_start N + t) := by
  obtain ⟨hx, hy, hpsi, hvs, hcte, hepsi, -, -, -, -⟩ := layout_eqs N
  have hcase : i < N ∨ (N ≤ i ∧ i < 2 * N) ∨ (2 * N ≤ i ∧ i < 3 * N) ∨
      (3 * N ≤ i ∧ i < 4 * N) ∨ (4 * N ≤ i ∧ i < 5 * N) ∨ (5 * N ≤ i ∧ i < 6 * N) := by
    omega
  rcases hcase with h | h | h | h | h | h
  · exact Or.inl ⟨i, by omega, by omega⟩
  · exact Or.inr (Or.inl ⟨i - N, by omega, by omega⟩)
  · exact Or.inr (Or.inr (Or.inl ⟨i - 2 * N, by omega, by omega⟩))
  · exact Or.inr (Or.inr (Or.inr (Or.inl ⟨i - 3 * N, by omega, by omega⟩)))
  · exact Or.inr (Or.inr (Or.inr (Or.inr (Or.inl ⟨i - 4 * N, by omega, by omega⟩))))
  · exact Or.inr (Or.inr (Or.inr (Or.inr (Or.inr ⟨i - 5 * N, by omega, by omega⟩))))

/-- The targets of the constraints: the measured state at timestep `0`, zero afterwards. -/
theorem feasible_iff_targets (T : Trig K) (N : Nat) (dt ref_v : K) (x y psi v cte epsi : K)
    (coeffs : Array K) (p : Problem K) (out : Array K) (hN : 2 ≤ N)
    (hb : Built T N dt ref_v #[x, y, psi, v, cte, epsi] coeffs p) :
    feasible N p out ↔
      (entry out (1 + x_start N) = x ∧ entry out (1 + y_start N) = y ∧
        entry out (1 + psi_start N) = psi ∧ entry out (1 + v_start N) = v ∧
        entry out (1 + cte_start N) = cte ∧ entry out (1 + epsi_start N) = epsi) ∧
      ∀ t, 1 ≤ t → t < N →
        entry out (1 + x_start N + t) = 0 ∧ entry out (1 + y_start N + t) = 0 ∧
        entry out (1 + psi_start N + t) = 0 ∧ entry out (1 + v_start N + t) = 0 ∧
        entry out (1 + cte_start N + t) = 0 ∧ entry out (1 + epsi_start N + t) = 0 := by
  obtain ⟨hx, hy, hpsi, hvs, hcte, hepsi, -, -, -, hnc⟩ := layout_eqs N
  obtain ⟨l1, l2, l3, l4, l5, l6⟩ := hb.clower_init
  obtain ⟨u1, u2, u3, u4, u5, u6⟩ := hb.cupper_init
  obtain ⟨s0, s1, s2, s3, s4, s5⟩ := entry_lit6 x y psi v cte epsi
  rw [s0] at l1 u1
  rw [s1] at l2 u2
  rw [s2] at l3 u3
  rw [s3] at l4 u4
  rw [s4] at l5 u5
  rw [s5] at l6 u6
  have hz : ∀ t, 1 ≤ t → t < N → ∀ s, (s = x_start N ∨ s = y_start N ∨ s = psi_start N ∨
      s = v_start N ∨ s = cte_start N ∨ s = epsi_start N) →
      entry p.constraints_lowerbound (s + t) = 0 ∧
      entry p.constraints_upperbound (s + t) = 0 := by
    intro t h1 ht s hs
    exact hb.cbounds_zero (s + t) (by omega) (by omega) (by omega) (by omega) (by omega)
      (by omega) (by omega)
  constructor
  · intro h
    refine ⟨⟨?_, ?_, ?_, ?_, ?_, ?_⟩, fun t h1 ht => ⟨?_, ?_, ?_, ?_, ?_, ?_⟩⟩
    · rw [(h (x_start N) (by omega)).1, l1]
    · rw [(h (y_start N) (by omega)).1, l2]
    · rw [(h (psi_start N) (by omega)).1, l3]
    · rw [(h (v_start N) (by omega)).1, l4]
    · rw [(h (cte_start N) (by omega)).1, l5]
    · rw [(h (epsi_start N) (by omega)).1, l6]
    · rw [Nat.add_assoc, (h (x_start N + t) (by omega)).1]
      exact (hz t h1 ht _ (Or.inl rfl)).1
    · rw [Nat.add_assoc, (h (y_start N + t) (by omega)).1]
      exact (hz t h1 ht _ (Or.inr (Or.inl rfl))).1
    · rw [Nat.add_assoc, (h (psi_start N + t) (by omega)).1]
      exact (hz t h1 ht _ (Or.inr (Or.inr (Or.inl rfl)))).1
    · rw [Nat.add_assoc, (h (v_start N + t) (by omega)).1]
      exact (hz t h1 ht _ (Or.inr (Or.inr (Or.inr (Or.inl rfl))))).1
    · rw [Nat.add_assoc, (h (cte_start N + t) (by omega)).1]
      exact (hz t h1 ht _ (Or.inr (Or.inr (Or.inr (Or.inr (Or.inl rfl)))))).1
    · rw [Nat.add_assoc, (h (epsi_start N + t) (by omega)).1]
      exact (hz t h1 ht _ (Or.inr (Or.inr (Or.inr (Or.inr (Or.inr rfl)))))).1
  · rintro ⟨⟨i1, i2, i3, i4, i5, i6⟩, hstep⟩ i hi
    have key : ∀ s m, (s = x_start N ∨ s = y_start N ∨ s = psi_start N ∨
        s = v_start N ∨ s = cte_start N ∨ s = epsi_start N) →
        entry out (1 + s) = m → entry p.constraints_lowerbound s = m →
        entry p.constraints_upperbound s = m →
        (∀ t, 1 ≤ t → t < N → entry out (1 + s + t) = 0) →
        ∀ t, t < N → entry out (1 + (s + t)) = entry p.constraints_lowerbound (s + t) ∧
          entry out (1 + (s + t)) = entry p.constraints_upperbound (s + t) := by
      intro s m hs h0 hl hu hst t ht
      by_cases ht0 : t = 0
      · subst ht0
        rw [Nat.add_zero, h0, hl, hu]
        exact ⟨rfl, rfl⟩
      · obtain ⟨a, b⟩ := hz t (by omega) ht s hs
        rw [← Nat.add_assoc, hst t (by omega) ht, a, b]
        exact ⟨rfl, rfl⟩
    rcases constraint_index_cases N i hi with ⟨t, ht, rfl⟩ | ⟨t, ht, rfl⟩ | ⟨t, ht, rfl⟩ |
      ⟨t, ht, rfl⟩ | ⟨t, ht, rfl⟩ | ⟨t, ht, rfl⟩
    · exact key _ _ (Or.inl rfl) i1 l1 u1 (fun t h1 ht => (hstep t h1 ht).1) t ht
    · exact key _ _ (Or.inr (Or.inl rfl)) i2 l2 u2 (fun t h1 ht => (hstep t h1 ht).2.1) t ht
    · exact key _ _ (Or.inr (Or.inr (Or.inl rfl))) i3 l3 u3
        (fun t h1 ht => (hstep t h1 ht).2.2.1) t ht
    · exact key _ _ (Or.inr (Or.inr (Or.inr (Or.inl rfl)))) i4 l4 u4
        (fun t h1 ht => (hstep t h1 ht).2.2.2.1) t ht
    · exact key _ _ (Or.inr (Or.inr (Or.inr (Or.inr (Or.inl rfl))))) i5 l5 u5
        (fun t h1 ht => (hstep t h1 ht).2.2.2.2.1) t ht
    · exact key _ _ (Or.inr (Or.inr (Or.inr (Or.inr (Or.inr rfl))))) i6 l6 u6
        (fun t h1 ht => (hstep t h1 ht).2.2.2.2.2) t ht

/-- The six entries of a later timestep vanish exactly when the state of that timestep is the
kinematic update of the previous state. -/
theorem step_entries_zero_iff (T : Trig K) (N : Nat) (dt c0 c1 c2 c3 : K)
    (vars out : Array K) (t : Nat)
    (h : step_entries T N dt #[c0, c1, c2, c3] vars out (t + 1)) :
    (entry out (1 + x_start N + (t + 1)) = 0 ∧ entry out (1 + y_start N + (t + 1)) = 0 ∧
      entry out (1 + psi_start N + (t + 1)) = 0 ∧ entry out (1 + v_start N + (t + 1)) = 0 ∧
      entry out (1 + cte_start N + (t + 1)) = 0 ∧
      entry out (1 + epsi_start N + (t + 1)) = 0) ↔
    state_at N vars (t + 1) = kinematic_update T dt c0 c1 c2 c3 (state_at N vars t)
      (entry vars (delta_start N + t)) (entry vars (a_start N + t)) := by
  obtain ⟨r1, r2, r3, r4, r5, r6⟩ := h
  obtain ⟨e0, e1, e2, e3⟩ := entry_lit4 c0 c1 c2 c3
  have ix : ∀ s : Nat, s + (t + 1) - 1 = s + t := fun s => rfl
  simp only [ix, e0, e1, e2, e3] at r1 r2 r3 r4 r5 r6
  have e : 3 * c3 * entry vars (x_start N + t) * entry vars (x_start N + t)
      = 3 * c3 * entry vars (x_start N + t) ^ 2 := by ring
  rw [e] at r6
  unfold state_at kinematic_update
  rw [VehicleState.mk.injEq, r1, r2, r3, r4, r5, r6]
  constructor
  · rintro ⟨z1, z2, z3, z4, z5, z6⟩
    exact ⟨by linear_combination z1, by linear_combination z2, by linear_combination z3,
      by linear_combination z4, by linear_combination z5, by linear_combination z6⟩
  · rintro ⟨q1, q2, q3, q4, q5, q6⟩
    exact ⟨by linear_combination q1, by linear_combination q2, by linear_combination q3,
      by linear_combination q4, by linear_combination q5, by linear_combination q6⟩

/-- Feasible decision vectors are the forward simulations: given the entries the evaluator
writes and the bounds `MPC::Solve` builds, the constraint entries equal their bounds exactly
when the decision vector follows the model from the measured state. -/
theorem feasible_iff_follows (T : Trig K) (N : Nat) (dt ref_v : K) (x y psi v cte epsi : K)
    (c0 c1 c2 c3 : K) (p : Problem K) (vars out : Array K) (hN : 2 ≤ N)
    (hb : Built T N dt ref_v #[x, y, psi, v, cte, epsi] #[c0, c1, c2, c3] p)
    (hinit : initial_entries N vars out)
    (hstep : ∀ t, 1 ≤ t → t < N → step_entries T N dt #[c0, c1, c2, c3] vars out t) :
    feasible N p out ↔
      follows_model T N dt c0 c1 c2 c3 (VehicleState.mk x y psi v cte epsi) vars := by
  rw [feasible_iff_targets T N dt ref_v x y psi v cte epsi _ p out hN hb]
  obtain ⟨i1, i2, i3, i4, i5, i6⟩ := hinit
  unfold follows_model
  constructor
  · rintro ⟨⟨a1, a2, a3, a4, a5, a6⟩, hz⟩
    refine ⟨?_, fun t ht => ?_⟩
    · show VehicleState.mk (entry vars (x_start N)) (entry vars (y_start N))
        (entry vars (psi_start N)) (entry vars (v_start N)) (entry vars (cte_start N))
        (entry vars (epsi_start N)) = _
      rw [← i1, ← i2, ← i3, ← i4, ← i5, ← i6, a1, a2, a3, a4, a5, a6]
    · exact (step_entries_zero_iff T N dt c0 c1 c2 c3 vars out t
        (hstep (t + 1) (by omega) ht)).mp (hz (t + 1) (by omega) ht)
  · rintro ⟨h0, hz⟩
    have h0' : VehicleState.mk (entry vars (x_start N)) (entry vars (y_start N))
        (entry vars (psi_start N)) (entry vars (v_start N)) (entry vars (cte_start N))
        (entry vars (epsi_start N)) = VehicleState.mk x y psi v cte epsi := h0
    rw [VehicleState.mk.injEq] at h0'
    obtain ⟨a1, a2, a3, a4, a5, a6⟩ := h0'
    refine ⟨⟨by rw [i1, a1], by rw [i2, a2], by rw [i3, a3], by rw [i4, a4], by rw [i5, a5],
      by rw [i6, a6]⟩, fun t h1 ht => ?_⟩
    obtain ⟨s, rfl⟩ : ∃ s, t = s + 1 := ⟨t - 1, by omega⟩
    exact (step_entries_zero_iff T N dt c0 c1 c2 c3 vars out s
      (hstep (s + 1) (by omega) ht)).mpr (hz s ht)

/-- A decision vector that follows the model is determined by its actuators. -/
theorem follows_model_unique (T : Trig K) (N : Nat) (dt c0 c1 c2 c3 : K) (m : VehicleState K)
    (delta a : Nat → K) (vars : Array K)
    (hact : ∀ t, t < N - 1 → entry vars (delta_start N + t) = delta t ∧
      entry vars (a_start N + t) = a t)
    (h : follows_model T N dt c0 c1 c2 c3 m vars) :
    ∀ t, t < N → state_at N vars t = simulate T dt c0 c1 c2 c3 m delta a t
  | 0, _ => h.1
  | t + 1, ht => by
    rw [h.2 t ht, follows_model_unique T N dt c0 c1 c2 c3 m delta a vars hact h t (by omega),
      (hact t (by omega)).1, (hact t (by omega)).2]
    rfl

/-- The trajectory built from the forward simulation follows the model. -/
theorem trajectory_follows_model (T : Trig K) (N : Nat) (hN : 2 ≤ N) (dt c0 c1 c2 c3 : K)
    (m : VehicleState K) (delta a : Nat → K) :
    follows_model T N dt c0 c1 c2 c3 m
      (trajectory N (simulate T dt c0 c1 c2 c3 m delta a) delta a) := by
  obtain ⟨hs, hact⟩ := trajectory_entries N hN (simulate T dt c0 c1 c2 c3 m delta a) delta a
  refine ⟨by rw [hs 0 (by omega)]; rfl, fun t ht => ?_⟩
  rw [hs (t + 1) ht, hs t (by omega), (hact t (by omega)).1, (hact t (by omega)).2]
  rfl

end Feasibility

/-! ## Forward simulation -/

section Simulation

variable {K : Type} [LinearOrderedField K]

/-- Two decision vectors with the same states and the same actuators are equal. -/
theorem vars_ext_states (N : Nat) (hN : 2 ≤ N) (v w : Array K) (hv : v.size = n_vars N)
    (hw : w.size = n_vars N) (hs : ∀ t, t < N → state_at N v t = state_at N w t)
    (ha : ∀ t, t < N - 1 → entry v (delta_start N + t) = entry w (delta_start N + t) ∧
      entry v (a_start N + t) = entry w (a_start N + t)) : v = w := by
  obtain ⟨-, -, -, -, -, -, hdelta, hast, hnv, -⟩ := layout_eqs N
  have hs' : ∀ t, t < N → entry v (x_start N + t) = entry w (x_start N + t) ∧
      entry v (y_start N + t) = entry w (y_start N + t) ∧
      entry v (psi_start N + t) = entry w (psi_start N + t) ∧
      entry v (v_start N + t) = entry w (v_start N + t) ∧
      entry v (cte_start N + t) = entry w (cte_start N + t) ∧
      entry v (epsi_start N + t) = entry w (epsi_start N + t) := by
    intro t ht
    have h := hs t ht
    unfold state_at at h
    rw [VehicleState.mk.injEq] at h
    exact h
  refine ext_entry v w (by rw [hv, hw]) (fun i hi => ?_)
  by_cases h6 : i < N * 6
  · rcases constraint_index_cases N i h6 with ⟨t, ht, rfl⟩ | ⟨t, ht, rfl⟩ | ⟨t, ht, rfl⟩ |
      ⟨t, ht, rfl⟩ | ⟨t, ht, rfl⟩ | ⟨t, ht, rfl⟩
    · exact (hs' t ht).1
    · exact (hs' t ht).2.1
    · exact (hs' t ht).2.2.1
    · exact (hs' t ht).2.2.2.1
    · exact (hs' t ht).2.2.2.2.1
    · exact (hs' t ht).2.2.2.2.2
  · by_cases h7 : i < a_start N
    · have e : i = delta_start N + (i - delta_start N) := by omega
      rw [e]
      exact (ha (i - delta_start N) (by omega)).1
    · have e : i = a_start N + (i - a_start N) := by omega
      rw [e]
      exact (ha (i - a_start N) (by omega)).2

/-- A run of the evaluator that returns is the run described by `FG_eval_run`. -/
theorem FG_eval_ok_entries (T : Trig K) (N : Nat) (dt ref_v : K) (coeffs fg vars out : Array K)
    (hN : 2 ≤ N) (h : FG_eval T N dt ref_v coeffs fg vars = Res.ok out) :
    entry out 0 = objective N ref_v vars ∧ initial_entries N vars out ∧
      ∀ t, 1 ≤ t → t < N → step_entries T N dt coeffs vars out t := by
  obtain ⟨h1, h2, h3⟩ := FG_eval_ok_size T N dt ref_v coeffs fg vars out hN h
  obtain ⟨fg', hrun, -, hobj, hinit, hstep, -⟩ := FG_eval_run T N dt ref_v coeffs fg vars hN h2
    (by omega) h3
  rw [h] at hrun
  cases hrun
  exact ⟨hobj, hinit, hstep⟩

/-- Along a feasible decision vector the speed is the measured speed plus `dt` times the sum
of the accelerations applied so far. -/
theorem feasible_speed (T : Trig K) (N : Nat) (dt ref_v : K) (x y psi v cte epsi : K)
    (coeffs : Array K) (p : Problem K) (vars out : Array K) (hN : 2 ≤ N)
    (hb : Built T N dt ref_v #[x, y, psi, v, cte, epsi] coeffs p)
    (hinit : initial_entries N vars out)
    (hstep : ∀ t, 1 ≤ t → t < N → step_entries T N dt coeffs vars out t)
    (hfeas : feasible N p out) :
    ∀ t, t < N → entry vars (v_start N + t)
      = v + dt * (Finset.range t).sum (fun k => entry vars (a_start N + k)) := by
  rw [feasible_iff_targets T N dt ref_v x y psi v cte epsi coeffs p out hN hb] at hfeas
  obtain ⟨⟨-, -, -, a4, -, -⟩, hz⟩ := hfeas
  intro t
  induction t with
  | zero =>
    intro _
    show entry vars (v_start N) = _
    rw [Finset.sum_range_zero, mul_zero, add_zero, ← a4, hinit.2.2.2.1]
  | succ t ih =>
    intro ht
    have r4 := (hstep (t + 1) (by omega) ht).2.2.2.1
    have z4 := (hz (t + 1) (by omega) ht).2.2.2.1
    have ix : ∀ s : Nat, s + (t + 1) - 1 = s + t := fun s => rfl
    rw [z4, ix, ix, ih (by omega)] at r4
    rw [Finset.sum_range_succ]
    linear_combination -r4

/-- A sum of `t` terms of absolute value at most `1` has absolute value at most `t`. -/
theorem abs_sum_le_of_abs_le_one (f : Nat → K) (t : Nat) (h : ∀ k, k < t → |f k| ≤ 1) :
    |(Finset.range t).sum f| ≤ t := by
  induction t with
  | zero => simp
  | succ t ih =>
    rw [Finset.sum_range_succ]
    have h1 := ih (fun k hk => h k (by omega))
    have h2 := h t (by omega)
    have h3 := abs_add ((Finset.range t).sum f) (f t)
    push_cast
    linarith

end Simulation

/-! ## The straight-line vector -/

section Straight

variable {K : Type} [LinearOrderedField K]

/-- With `cos 0 = 1`, `sin 0 = 0`, `atan 0 = 0`, a flat reference and no actuation, the forward
simulation from `(0, 0, 0, 100, 0, 0)` advances `x` by `100 * dt` per step and leaves the rest. -/
theorem simulate_straight (T : Trig K) (dt : K) (hcos : T.cos 0 = 1) (hsin : T.sin 0 = 0)
    (hatan : T.atan 0 = 0) (t : Nat) :
    simulate T dt 0 0 0 0 (VehicleState.mk 0 0 0 100 0 0) (fun _ => 0) (fun _ => 0) t
      = VehicleState.mk (100 * dt * (t : K)) 0 0 100 0 0 := by
  induction t with
  | zero => simp [simulate]
  | succ t ih =>
    rw [simulate, ih]
    unfold kinematic_update
    have e : 3 * (0 : K) * (100 * dt * (t : K)) ^ 2 + 2 * 0 * (100 * dt * (t : K)) + 0 = 0 := by
      ring
    simp only [e, hcos, hsin, hatan]
    rw [VehicleState.mk.injEq]
    refine ⟨?_, ?_, ?_, ?_, ?_, ?_⟩
    · push_cast; ring
    · ring
    · simp
    · ring
    · ring
    · simp

theorem straight_line_eq (T : Trig K) (N : Nat) (dt : K) (hcos : T.cos 0 = 1)
    (hsin : T.sin 0 = 0) (hatan : T.atan 0 = 0) :
    straight_line N dt = trajectory N
      (simulate T dt 0 0 0 0 (VehicleState.mk 0 0 0 100 0 0) (fun _ => 0) (fun _ => 0))
      (fun _ => 0) (fun _ => 0) := by
  unfold straight_line
  congr 1
  funext t
  exact (simulate_straight T dt hcos hsin hatan t).symm

theorem straight_line_size (N : Nat) (dt : K) : (straight_line N dt).size = n_vars N :=
  trajectory_size N _ _ _

/-- The entries of the straight-line vector, block by block. -/
theorem straight_line_entries (N : Nat) (hN : 2 ≤ N) (dt : K) :
    (∀ t, t < N → entry (straight_line N dt) (x_start N + t) = 100 * dt * (t : K) ∧
      entry (straight_line N dt) (y_start N + t) = 0 ∧
      entry (straight_line N dt) (psi_start N + t) = 0 ∧
      entry (straight_line N dt) (v_start N + t) = 100 ∧
      entry (straight_line N dt) (cte_start N + t) = 0 ∧
      entry (straight_line N dt) (epsi_start N + t) = 0) ∧
    ∀ t, t < N - 1 → entry (straight_line N dt) (delta_start N + t) = 0 ∧
      entry (straight_line N dt) (a_start N + t) = 0 := by
  obtain ⟨hst, hact⟩ := trajectory_entries N hN
    (fun t => VehicleState.mk (100 * dt * (t : K)) 0 0 100 0 0) (fun _ => 0) (fun _ => 0)
  refine ⟨fun t ht => ?_, hact⟩
  have h := hst t ht
  unfold state_at at h
  rw [VehicleState.mk.injEq] at h
  exact h

/-- A decision vector whose objective is `0` and which follows the model from
`(0, 0, 0, 100, 0, 0)` along a flat reference is the straight-line vector. -/
theorem eq_straight_line (T : Trig K) (N : Nat) (hN : 2 ≤ N) (dt : K) (hcos : T.cos 0 = 1)
    (hsin : T.sin 0 = 0) (hatan : T.atan 0 = 0) (vars : Array K) (hsize : vars.size = n_vars N)
    (hobj : objective N 100 vars = 0)
    (hfol : follows_model T N dt 0 0 0 0 (VehicleState.mk 0 0 0 100 0 0) vars) :
    vars = straight_line N dt := by
  obtain ⟨-, hact⟩ := (objective_eq_zero_iff N hN 100 vars).mp hobj
  obtain ⟨hst, hact2⟩ := trajectory_entries N hN
    (fun t => VehicleState.mk (100 * dt * (t : K)) 0 0 100 0 0) (fun _ => (0 : K))
    (fun _ => (0 : K))
  refine vars_ext_states N hN _ _ hsize (straight_line_size N dt) (fun t ht => ?_)
    (fun t ht => ?_)
  · rw [follows_model_unique T N dt 0 0 0 0 _ (fun _ => 0) (fun _ => 0) vars hact hfol t ht,
      simulate_straight T dt hcos hsin hatan t]
    exact (hst t ht).symm
  · rw [(hact t ht).1, (hact t ht).2]
    exact ⟨(hact2 t ht).1.symm, (hact2 t ht).2.symm⟩

/-- The straight-line vector lies within the variable bounds as long as its last `x` entry,
`10 * (N - 1)`, does not exceed `1.0e19`. -/
theorem straight_line_within_bounds (T : Trig K) (N : Nat) (hN : 2 ≤ N)
    (hmax : N ≤ 1000000000000000001) (ref_v : K) (state coeffs : Array K) (p : Problem K)
    (hb : Built T N 0.1 ref_v state coeffs p) : within_bounds p (straight_line N (0.1 : K)) := by
  obtain ⟨-, -, -, -, -, -, hdelta, hast, hnv, -⟩ := layout_eqs N
  obtain ⟨hst, hact⟩ := straight_line_entries N hN (0.1 : K)
  have hLf : (0 : K) < Lf := by unfold Lf; norm_num
  intro i hi
  rw [straight_line_size] at hi
  by_cases h6 : i < N * 6
  · obtain ⟨bl, bu⟩ := hb.state_bounds i (by omega)
    rw [bl, bu]
    rcases constraint_index_cases N i h6 with ⟨t, ht, rfl⟩ | ⟨t, ht, rfl⟩ | ⟨t, ht, rfl⟩ |
      ⟨t, ht, rfl⟩ | ⟨t, ht, rfl⟩ | ⟨t, ht, rfl⟩
    · rw [(hst t ht).1]
      have h1 : (t : K) ≤ 1000000000000000000 := by
        have : t ≤ 1000000000000000000 := by omega
        exact_mod_cast this
      have h2 : (0 : K) ≤ (t : K) := Nat.cast_nonneg t
      constructor
      · norm_num; linarith
      · norm_num; linarith
    · rw [(hst t ht).2.1]; constructor <;> norm_num
    · rw [(hst t ht).2.2.1]; constructor <;> norm_num
    · rw [(hst t ht).2.2.2.1]; constructor <;> norm_num
    · rw [(hst t ht).2.2.2.2.1]; constructor <;> norm_num
    · rw [(hst t ht).2.2.2.2.2]; constructor <;> norm_num
  · by_cases h7 : i < a_start N
    · obtain ⟨bl, bu⟩ := hb.delta_bounds i (by omega) h7
      have e : i = delta_start N + (i - delta_start N) := by omega
      rw [bl, bu, e, (hact (i - delta_start N) (by omega)).1]
      constructor
      · have : (0 : K) ≤ 0.436332 * Lf := by positivity
        linarith
      · positivity
    · obtain ⟨bl, bu⟩ := hb.a_bounds i (by omega) hi
      have e : i = a_start N + (i - a_start N) := by omega
      rw [bl, bu, e, (hact (i - a_start N) (by omega)).2]
      constructor <;> norm_num

end Straight

/-! ## The evaluator with counted assignments -/

section Erasure

variable {K : Type} [LinearOrderedField K]

omit [LinearOrderedField K] in
theorem erase_size (fg : Array (K × Nat)) : (erase fg).size = fg.size := by
  simp [erase]

omit [LinearOrderedField K] in
theorem rd_counted_eq (fg : Array (K × Nat)) (i : Nat) : rd_counted fg i = rd (erase fg) i := by
  unfold rd_counted rd erase
  by_cases h : i < fg.size
  · simp [h]
  · simp [h]

omit [LinearOrderedField K] in
/-- Erasing the counts after a counted assignment is the plain assignment. -/
theorem wr_counted_erase (fg : Array (K × Nat)) (i : Nat) (x : K) :
    (wr_counted fg i x >>= fun s => Res.ok (erase s)) = wr (erase fg) i x := by
  unfold wr_counted rd wr erase
  by_cases h : i < fg.size
  · simp only [h, dite_true, Res.ok_bind, Array.size_map]
    congr 1
    refine Array.ext _ _ (by simp) (fun j h1 h2 => ?_)
    simp only [Array.getElem_map, Array.getElem_set]
    split <;> rfl
  · simp [h]

omit [LinearOrderedField K] in
/-- Erasure commutes with a step on the counted vector followed by a continuation. -/
theorem erase_bind {x' : Res (Array (K × Nat))} {x : Res (Array K)}
    {f' : Array (K × Nat) → Res (Array (K × Nat))} {f : Array K → Res (Array K)}
    (hx : (x' >>= fun s => Res.ok (erase s)) = x)
    (hf : ∀ s, (f' s >>= fun s => Res.ok (erase s)) = f (erase s)) :
    ((x' >>= f') >>= fun s => Res.ok (erase s)) = (x >>= f) := by
  subst hx
  cases x' with
  | ok s => exact hf s
  | fault => rfl

omit [LinearOrderedField K] in
/-- Erasure commutes with a read followed by a continuation. -/
theorem erase_bind_val {α : Type} (y : Res α) {f' : α → Res (Array (K × Nat))}
    {f : α → Res (Array K)} (hf : ∀ v, (f' v >>= fun s => Res.ok (erase s)) = f v) :
    ((y >>= f') >>= fun s => Res.ok (erase s)) = (y >>= f) := by
  cases y with
  | ok v => exact hf v
  | fault => rfl

omit [LinearOrderedField K] in
theorem erase_forLoop (body' : Nat → Array (K × Nat) → Res (Array (K × Nat)))
    (body : Nat → Array K → Res (Array K))
    (h : ∀ i s, (body' i s >>= fun s => Res.ok (erase s)) = body i (erase s)) :
    ∀ (n lo : Nat) (s : Array (K × Nat)),
      (forLoop body' lo n s >>= fun s => Res.ok (erase s)) = forLoop body lo n (erase s)
  | 0, _, _ => rfl
  | n + 1, lo, s =>
    erase_bind (h lo s) (fun s1 => erase_forLoop body' body h n (lo + 1) s1)

omit [LinearOrderedField K] in
/-- Erasure commutes with a loop whose body commutes with it. -/
theorem erase_forRange (lo hi : Nat) (body' : Nat → Array (K × Nat) → Res (Array (K × Nat)))
    (body : Nat → Array K → Res (Array K))
    (h : ∀ i s, (body' i s >>= fun s => Res.ok (erase s)) = body i (erase s))
    (s : Array (K × Nat)) :
    (forRange lo hi body' s >>= fun s => Res.ok (erase s)) = forRange lo hi body (erase s) :=
  erase_forLoop body' body h (hi - lo) lo s

/-- The counted evaluator computes what the evaluator computes: erasing the counts of its result
gives the result of `FG_eval` on the vector without counts, fault for fault. -/
theorem FG_eval_counted_erase (T : Trig K) (N : Nat) (dt ref_v : K) (coeffs : Array K)
    (fg : Array (K × Nat)) (vars : Array K) :
    (FG_eval_counted T N dt ref_v coeffs fg vars >>= fun s => Res.ok (erase s))
      = FG_eval T N dt ref_v coeffs (erase fg) vars := by
  unfold FG_eval_counted FG_eval
  refine erase_bind (wr_counted_erase _ _ _) (fun fg0 => ?_)
  refine erase_bind (erase_forRange _ _ _ _ (fun t s => ?_) _) (fun fg1 => ?_)
  · simp only [rd_counted_eq]
    refine erase_bind_val _ (fun a => erase_bind_val _ (fun b => ?_))
    refine erase_bind (wr_counted_erase _ _ _) (fun s1 => ?_)
    refine erase_bind_val _ (fun a => erase_bind_val _ (fun b => ?_))
    refine erase_bind (wr_counted_erase _ _ _) (fun s2 => ?_)
    refine erase_bind_val _ (fun a => erase_bind_val _ (fun b => ?_))
    exact wr_counted_erase _ _ _
  refine erase_bind (erase_forRange _ _ _ _ (fun t s => ?_) _) (fun fg2 => ?_)
  · simp only [rd_counted_eq]
    refine erase_bind_val _ (fun a => erase_bind_val _ (fun b => ?_))
    refine erase_bind (wr_counted_erase _ _ _) (fun s1 => ?_)
    refine erase_bind_val _ (fun a => erase_bind_val _ (fun b => ?_))
    exact wr_counted_erase _ _ _
  refine erase_bind (erase_forRange _ _ _ _ (fun t s => ?_) _) (fun fg3 => ?_)
  · simp only [rd_counted_eq]
    refine erase_bind_val _ (fun a => erase_bind_val _ (fun b => erase_bind_val _ (fun c => ?_)))
    refine erase_bind (wr_counted_erase _ _ _) (fun s1 => ?_)
    refine erase_bind_val _ (fun a => erase_bind_val _ (fun b => erase_bind_val _ (fun c => ?_)))
    exact wr_counted_erase _ _ _
  refine erase_bind_val _ (fun a => erase_bind (wr_counted_erase _ _ _) (fun s1 => ?_))
  refine erase_bind_val _ (fun a => erase_bind (wr_counted_erase _ _ _) (fun s2 => ?_))
  refine erase_bind_val _ (fun a => erase_bind (wr_counted_erase _ _ _) (fun s3 => ?_))
  refine erase_bind_val _ (fun a => erase_bind (wr_counted_erase _ _ _) (fun s4 => ?_))
  refine erase_bind_val _ (fun a => erase_bind (wr_counted_erase _ _ _) (fun s5 => ?_))
  refine erase_bind_val _ (fun a => erase_bind (wr_counted_erase _ _ _) (fun s6 => ?_))
  refine erase_forRange _ _ _ _ (fun t s => ?_) _
  refine erase_bind_val _ (fun x1 => erase_bind_val _ (fun y1 => erase_bind_val _ (fun psi1 =>
    erase_bind_val _ (fun v1 => erase_bind_val _ (fun cte1 => erase_bind_val _ (fun epsi1 =>
    erase_bind_val _ (fun x0 => erase_bind_val _ (fun y0 => erase_bind_val _ (fun psi0 =>
    erase_bind_val _ (fun v0 => erase_bind_val _ (fun cte0 => erase_bind_val _ (fun epsi0 =>
    erase_bind_val _ (fun delta0 => erase_bind_val _ (fun a0 => ?_))))))))))))))
  refine erase_bind_val _ (fun k0 => erase_bind_val _ (fun k1 => erase_bind_val _ (fun k2 =>
    erase_bind_val _ (fun k3 => erase_bind_val _ (fun k3b => erase_bind_val _ (fun k2b =>
    erase_bind_val _ (fun k1b => ?_)))))))
  refine erase_bind (wr_counted_erase _ _ _) (fun s1 => ?_)
  refine erase_bind (wr_counted_erase _ _ _) (fun s2 => ?_)
  refine erase_bind (wr_counted_erase _ _ _) (fun s3 => ?_)
  refine erase_bind (wr_counted_erase _ _ _) (fun s4 => ?_)
  refine erase_bind (wr_counted_erase _ _ _) (fun s5 => ?_)
  exact wr_counted_erase _ _ _

end Erasure

section Counting

variable {K : Type} [LinearOrderedField K]

omit [LinearOrderedField K] in
/-- One counted assignment: the size stays, the count of the entry goes up by one, the other
entries stay. -/
theorem wr_counted_step [Zero K] (fg : Array (K × Nat)) (i : Nat) (x : K) (h : i < fg.size) :
    ∃ s, wr_counted fg i x = Res.ok s ∧ (s.size = fg.size ∧
      (entry s i).2 = (entry fg i).2 + 1 ∧ ∀ j, j ≠ i → entry s j = entry fg j) := by
  simp (disch := omega) only [wr_counted, rd_eq, wr_eq, Res.ok_bind]
  exact ⟨_, rfl, Array.size_setD _ _ _, by rw [entry_setD_eq _ _ _ h],
    fun j hj => entry_setD_ne _ _ _ hj⟩

omit [LinearOrderedField K] in
/-- Six counted assignments to six different entries, one after the other. -/
theorem six_writes [Zero K] (s : Array (K × Nat)) (i1 i2 i3 i4 i5 i6 : Nat)
    (x1 x2 x3 x4 x5 x6 : K)
    (hb : i1 < s.size ∧ i2 < s.size ∧ i3 < s.size ∧ i4 < s.size ∧ i5 < s.size ∧ i6 < s.size)
    (hd : i1 < i2 ∧ i2 < i3 ∧ i3 < i4 ∧ i4 < i5 ∧ i5 < i6) :
    ∃ s1 s2 s3 s4 s5 r, (wr_counted s i1 x1 = Res.ok s1 ∧ wr_counted s1 i2 x2 = Res.ok s2 ∧
        wr_counted s2 i3 x3 = Res.ok s3 ∧ wr_counted s3 i4 x4 = Res.ok s4 ∧
        wr_counted s4 i5 x5 = Res.ok s5 ∧ wr_counted s5 i6 x6 = Res.ok r) ∧ (r.size = s.size ∧
      ((entry r i1).2 = (entry s i1).2 + 1 ∧ (entry r i2).2 = (entry s i2).2 + 1 ∧
        (entry r i3).2 = (entry s i3).2 + 1 ∧ (entry r i4).2 = (entry s i4).2 + 1 ∧
        (entry r i5).2 = (entry s i5).2 + 1 ∧ (entry r i6).2 = (entry s i6).2 + 1) ∧
      ∀ j, j ≠ i1 → j ≠ i2 → j ≠ i3 → j ≠ i4 → j ≠ i5 → j ≠ i6 → entry r j = entry s j) := by
  obtain ⟨b1, b2, b3, b4, b5, b6⟩ := hb
  obtain ⟨d1, d2, d3, d4, d5⟩ := hd
  obtain ⟨s1, w1, z1, e1, n1⟩ := wr_counted_step s i1 x1 b1
  obtain ⟨s2, w2, z2, e2, n2⟩ := wr_counted_step s1 i2 x2 (by omega)
  obtain ⟨s3, w3, z3, e3, n3⟩ := wr_counted_step s2 i3 x3 (by omega)
  obtain ⟨s4, w4, z4, e4, n4⟩ := wr_counted_step s3 i4 x4 (by omega)
  obtain ⟨s5, w5, z5, e5, n5⟩ := wr_counted_step s4 i5 x5 (by omega)
  obtain ⟨s6, w6, z6, e6, n6⟩ := wr_counted_step s5 i6 x6 (by omega)
  refine ⟨s1, s2, s3, s4, s5, s6, ⟨w1, w2, w3, w4, w5, w6⟩, by omega,
    ⟨?_, ?_, ?_, ?_, ?_, ?_⟩, fun j h1 h2 h3 h4 h5 h6 => ?_⟩
  · rw [n6 i1 (by omega), n5 i1 (by omega), n4 i1 (by omega), n3 i1 (by omega),
      n2 i1 (by omega), e1]
  · rw [n6 i2 (by omega), n5 i2 (by omega), n4 i2 (by omega), n3 i2 (by omega), e2,
      n1 i2 (by omega)]
  · rw [n6 i3 (by omega), n5 i3 (by omega), n4 i3 (by omega), e3, n2 i3 (by omega),
      n1 i3 (by omega)]
  · rw [n6 i4 (by omega), n5 i4 (by omega), e4, n3 i4 (by omega), n2 i4 (by omega),
      n1 i4 (by omega)]
  · rw [n6 i5 (by omega), e5, n4 i5 (by omega), n3 i5 (by omega), n2 i5 (by omega),
      n1 i5 (by omega)]
  · rw [e6, n5 i6 (by omega), n4 i6 (by omega), n3 i6 (by omega), n2 i6 (by omega),
      n1 i6 (by omega)]
  · rw [n6 j h6, n5 j h5, n4 j h4, n3 j h3, n2 j h2, n1 j h1]

omit [LinearOrderedField K] in
/-- Rule for six counted assignments that end a computation. -/
theorem six_writes_spec [Zero K] (s : Array (K × Nat)) (i1 i2 i3 i4 i5 i6 : Nat)
    (x1 x2 x3 x4 x5 x6 : K) (P : Array (K × Nat) → Prop)
    (hb : i1 < s.size ∧ i2 < s.size ∧ i3 < s.size ∧ i4 < s.size ∧ i5 < s.size ∧ i6 < s.size)
    (hd : i1 < i2 ∧ i2 < i3 ∧ i3 < i4 ∧ i4 < i5 ∧ i5 < i6)
    (hP : ∀ r : Array (K × Nat), r.size = s.size →
      ((entry r i1).2 = (entry s i1).2 + 1 ∧ (entry r i2).2 = (entry s i2).2 + 1 ∧
        (entry r i3).2 = (entry s i3).2 + 1 ∧ (entry r i4).2 = (entry s i4).2 + 1 ∧
        (entry r i5).2 = (entry s i5).2 + 1 ∧ (entry r i6).2 = (entry s i6).2 + 1) →
      (∀ j, j ≠ i1 → j ≠ i2 → j ≠ i3 → j ≠ i4 → j ≠ i5 → j ≠ i6 → entry r j = entry s j) →
      P r) :
    ∃ r, (wr_counted s i1 x1 >>= fun s => wr_counted s i2 x2 >>= fun s =>
        wr_counted s i3 x3 >>= fun s => wr_counted s i4 x4 >>= fun s =>
        wr_counted s i5 x5 >>= fun s => wr_counted s i6 x6) = Res.ok r ∧ P r := by
  obtain ⟨s1, s2, s3, s4, s5, r, ⟨w1, w2, w3, w4, w5, w6⟩, hz, hc, ho⟩ :=
    six_writes s i1 i2 i3 i4 i5 i6 x1 x2 x3 x4 x5 x6 hb hd
  refine ⟨r, ?_, hP r hz hc ho⟩
  rw [w1, Res.ok_bind, w2, Res.ok_bind, w3, Res.ok_bind, w4, Res.ok_bind, w5, Res.ok_bind, w6]

omit [LinearOrderedField K] in
/-- Rule for six counted assignments followed by a continuation. -/
theorem six_writes_then [Zero K] {β : Type} (s : Array (K × Nat)) (i1 i2 i3 i4 i5 i6 : Nat)
    (x1 x2 x3 x4 x5 x6 : K) (f : Array (K × Nat) → Res β) (P : β → Prop)
    (hb : i1 < s.size ∧ i2 < s.size ∧ i3 < s.size ∧ i4 < s.size ∧ i5 < s.size ∧ i6 < s.size)
    (hd : i1 < i2 ∧ i2 < i3 ∧ i3 < i4 ∧ i4 < i5 ∧ i5 < i6)
    (hf : ∀ r : Array (K × Nat), r.size = s.size →
      ((entry r i1).2 = (entry s i1).2 + 1 ∧ (entry r i2).2 = (entry s i2).2 + 1 ∧
        (entry r i3).2 = (entry s i3).2 + 1 ∧ (entry r i4).2 = (entry s i4).2 + 1 ∧
        (entry r i5).2 = (entry s i5).2 + 1 ∧ (entry r i6).2 = (entry s i6).2 + 1) →
      (∀ j, j ≠ i1 → j ≠ i2 → j ≠ i3 → j ≠ i4 → j ≠ i5 → j ≠ i6 → entry r j = entry s j) →
      ∃ b, f r = Res.ok b ∧ P b) :
    ∃ b, (wr_counted s i1 x1 >>= fun s => wr_counted s i2 x2 >>= fun s =>
        wr_counted s i3 x3 >>= fun s => wr_counted s i4 x4 >>= fun s =>
        wr_counted s i5 x5 >>= fun s => wr_counted s i6 x6 >>= f) = Res.ok b ∧ P b := by
  obtain ⟨s1, s2, s3, s4, s5, r, ⟨w1, w2, w3, w4, w5, w6⟩, hz, hc, ho⟩ :=
    six_writes s i1 i2 i3 i4 i5 i6 x1 x2 x3 x4 x5 x6 hb hd
  obtain ⟨b, hb1, hb2⟩ := hf r hz hc ho
  refine ⟨b, ?_, hb2⟩
  rw [w1, Res.ok_bind, w2, Res.ok_bind, w3, Res.ok_bind, w4, Res.ok_bind, w5, Res.ok_bind, w6,
    Res.ok_bind]
  exact hb1

/-- Arithmetic of the constraint indices of two timesteps: those of different timesteps differ,
none is `0` and none lies beyond `N * 6`. -/
theorem constraint_index_facts (N t i : Nat) (ht : t < N) (hi : i < N) :
    (1 + x_start N + i < 1 + y_start N + i ∧ 1 + y_start N + i < 1 + psi_start N + i ∧
      1 + psi_start N + i < 1 + v_start N + i ∧ 1 + v_start N + i < 1 + cte_start N + i ∧
      1 + cte_start N + i < 1 + epsi_start N + i) ∧
    (0 < 1 + x_start N + i ∧ 1 + epsi_start N + i < 1 + N * 6) ∧
    (t ≠ i → ∀ j, (j = 1 + x_start N + t ∨ j = 1 + y_start N + t ∨ j = 1 + psi_start N + t ∨
        j = 1 + v_start N + t ∨ j = 1 + cte_start N + t ∨ j = 1 + epsi_start N + t) →
      1 ≤ j ∧ j ≠ 1 + x_start N + i ∧ j ≠ 1 + y_start N + i ∧ j ≠ 1 + psi_start N + i ∧
      j ≠ 1 + v_start N + i ∧ j ≠ 1 + cte_start N + i ∧ j ≠ 1 + epsi_start N + i) := by
  obtain ⟨hx, hy, hpsi, hvs, hcte, hepsi, -, -, -, -⟩ := layout_eqs N
  refine ⟨by omega, by omega, fun hne j hj => ?_⟩
  rcases hj with h | h | h | h | h | h <;> omega

omit [LinearOrderedField K] in
/-- The counts of a timestep carry over to a vector with the same entries at that timestep. -/
theorem counts_at_of_keep [Zero K] (N : Nat) (s0 s r : Array (K × Nat)) (t c : Nat)
    (h : counts_at N s0 s t c)
    (hkeep : ∀ j, (j = 1 + x_start N + t ∨ j = 1 + y_start N + t ∨ j = 1 + psi_start N + t ∨
        j = 1 + v_start N + t ∨ j = 1 + cte_start N + t ∨ j = 1 + epsi_start N + t) →
      entry r j = entry s j) : counts_at N s0 r t c := by
  obtain ⟨c1, c2, c3, c4, c5, c6⟩ := h
  unfold counts_at
  rw [hkeep _ (Or.inl rfl), hkeep _ (Or.inr (Or.inl rfl)), hkeep _ (Or.inr (Or.inr (Or.inl rfl))),
    hkeep _ (Or.inr (Or.inr (Or.inr (Or.inl rfl)))),
    hkeep _ (Or.inr (Or.inr (Or.inr (Or.inr (Or.inl rfl))))),
    hkeep _ (Or.inr (Or.inr (Or.inr (Or.inr (Or.inr rfl)))))]
  exact ⟨c1, c2, c3, c4, c5, c6⟩

omit [LinearOrderedField K] in
/-- The counts of a timestep after one more assignment to each of its six entries. -/
theorem counts_at_succ [Zero K] (N : Nat) (s0 s r : Array (K × Nat)) (t c : Nat)
    (h : counts_at N s0 s t c)
    (hr : (entry r (1 + x_start N + t)).2 = (entry s (1 + x_start N + t)).2 + 1 ∧
      (entry r (1 + y_start N + t)).2 = (entry s (1 + y_start N + t)).2 + 1 ∧
      (entry r (1 + psi_start N + t)).2 = (entry s (1 + psi_start N + t)).2 + 1 ∧
      (entry r (1 + v_start N + t)).2 = (entry s (1 + v_start N + t)).2 + 1 ∧
      (entry r (1 + cte_start N + t)).2 = (entry s (1 + cte_start N + t)).2 + 1 ∧
      (entry r (1 + epsi_start N + t)).2 = (entry s (1 + epsi_start N + t)).2 + 1) :
    counts_at N s0 r t (c + 1) := by
  obtain ⟨c1, c2, c3, c4, c5, c6⟩ := h
  obtain ⟨r1, r2, r3, r4, r5, r6⟩ := hr
  unfold counts_at
  rw [r1, r2, r3, r4, r5, r6, c1, c2, c3, c4, c5, c6]
  exact ⟨rfl, rfl, rfl, rfl, rfl, rfl⟩

omit [LinearOrderedField K] in
/-- Consequence rule: a weaker description of the result. -/
theorem spec_weaken {α : Type} {x : Res α} {P Q : α → Prop} (h : ∃ a, x = Res.ok a ∧ P a)
    (hPQ : ∀ a, P a → Q a) : ∃ a, x = Res.ok a ∧ Q a := by
  obtain ⟨a, ha, hp⟩ := h
  exact ⟨a, ha, hPQ a hp⟩

omit [LinearOrderedField K] in
/-- Rule for a counted assignment that ends a computation. -/
theorem wr_counted_spec [Zero K] (fg : Array (K × Nat)) (i : Nat) (x : K)
    (P : Array (K × Nat) → Prop) (h : i < fg.size)
    (hP : ∀ s : Array (K × Nat), s.size = fg.size → (entry s i).2 = (entry fg i).2 + 1 →
      (∀ j, j ≠ i → entry s j = entry fg j) → P s) :
    ∃ s, wr_counted fg i x = Res.ok s ∧ P s := by
  obtain ⟨s, w, z, e, n⟩ := wr_counted_step fg i x h
  exact ⟨s, w, hP s z e n⟩

/-- The assignments made by a run of the evaluator: it succeeds, `fg[0]` is assigned
`1 + 3 N + 2 (N - 1) + 2 (N - 2)` times, each of the `N * 6` constraint entries exactly once,
and nothing after index `N * 6` is touched. -/
theorem FG_eval_counted_run (T : Trig K) (N : Nat) (dt ref_v : K) (coeffs : Array K)
    (fg : Array (K × Nat)) (vars : Array K) (hN : 2 ≤ N) (hc : 4 ≤ coeffs.size)
    (hfg : 1 + N * 6 ≤ fg.size) (hv : n_vars N ≤ vars.size) :
    ∃ out, FG_eval_counted T N dt ref_v coeffs fg vars = Res.ok out ∧ (out.size = fg.size ∧
      (entry out 0).2 = (entry fg 0).2 + 1 + 3 * N + 2 * (N - 1) + 2 * (N - 2) ∧
      (∀ t, t < N → counts_at N fg out t 1) ∧
      ∀ j, 1 + N * 6 ≤ j → entry out j = entry fg j) := by
  obtain ⟨hx, hy, hpsi, hvs, hcte, hepsi, hdelta, ha, hnv, -⟩ := layout_eqs N
  unfold FG_eval_counted
  -- fg[0] = 0
  refine bind_spec (fun s => s.size = fg.size ∧ (entry s 0).2 = (entry fg 0).2 + 1 ∧
    ∀ j, 1 ≤ j → entry s j = entry fg j) ?_ ?_
  · obtain ⟨s, w, z, e, n⟩ := wr_counted_step fg 0 0 (by omega)
    exact ⟨s, w, z, e, fun j hj => n j (by omega)⟩
  rintro fg0 ⟨hs0, he0, hr0⟩
  -- first cost loop
  refine bind_spec (fun s => s.size = fg.size ∧ (entry s 0).2 = (entry fg 0).2 + 1 + 3 * N ∧
      ∀ j, 1 ≤ j → entry s j = entry fg j) ?_ ?_
  · refine forRange_spec (fun k s => s.size = fg.size ∧
        (entry s 0).2 = (entry fg 0).2 + 1 + 3 * k ∧ ∀ j, 1 ≤ j → entry s j = entry fg j)
      0 N _ fg0 (by omega) ⟨hs0, by simpa using he0, hr0⟩ ?_
    rintro i s - hi ⟨hs, he, hr⟩
    simp (disch := omega) only [rd_counted, rd_eq, Res.ok_bind, Res.pure_eq]
    refine bind_spec _ (wr_counted_step _ _ _ (by omega)) ?_
    rintro s1 ⟨z1, e1, n1⟩
    simp (disch := omega) only [rd_eq, Res.ok_bind]
    refine bind_spec _ (wr_counted_step _ _ _ (by omega)) ?_
    rintro s2 ⟨z2, e2, n2⟩
    simp (disch := omega) only [rd_eq, Res.ok_bind]
    refine wr_counted_spec _ _ _ _ (by omega) (fun s3 z3 e3 n3 => ⟨by omega, by omega, ?_⟩)
    intro j hj
    rw [n3 j (by omega), n2 j (by omega), n1 j (by omega), hr j hj]
  clear hs0 he0 hr0
  rintro fg1 ⟨hs1, he1, hr1⟩
  -- second cost loop
  refine bind_spec (fun s => s.size = fg.size ∧
      (entry s 0).2 = (entry fg 0).2 + 1 + 3 * N + 2 * (N - 1) ∧
      ∀ j, 1 ≤ j → entry s j = entry fg j) ?_ ?_
  · refine forRange_spec (fun k s => s.size = fg.size ∧
        (entry s 0).2 = (entry fg 0).2 + 1 + 3 * N + 2 * k ∧
        ∀ j, 1 ≤ j → entry s j = entry fg j)
      0 (N - 1) _ fg1 (by omega) ⟨hs1, by simpa using he1, hr1⟩ ?_
    rintro i s - hi ⟨hs, he, hr⟩
    simp (disch := omega) only [rd_counted, rd_eq, Res.ok_bind, Res.pure_eq]
    refine bind_spec _ (wr_counted_step _ _ _ (by omega)) ?_
    rintro s1 ⟨z1, e1, n1⟩
    simp (disch := omega) only [rd_eq, Res.ok_bind]
    refine wr_counted_spec _ _ _ _ (by omega) (fun s2 z2 e2 n2 => ⟨by omega, by omega, ?_⟩)
    intro j hj
    rw [n2 j (by omega), n1 j (by omega), hr j hj]
  clear hs1 he1 hr1
  rintro fg2 ⟨hs2, he2, hr2⟩
  -- third cost loop
  refine bind_spec (fun s => s.size = fg.size ∧
      (entry s 0).2 = (entry fg 0).2 + 1 + 3 * N + 2 * (N - 1) + 2 * (N - 2) ∧
      ∀ j, 1 ≤ j → entry s j = entry fg j) ?_ ?_
  · refine forRange_spec (fun k s => s.size = fg.size ∧
        (entry s 0).2 = (entry fg 0).2 + 1 + 3 * N + 2 * (N - 1) + 2 * k ∧
        ∀ j, 1 ≤ j → entry s j = entry fg j)
      0 (N - 2) _ fg2 (by omega) ⟨hs2, by simpa using he2, hr2⟩ ?_
    rintro i s - hi ⟨hs, he, hr⟩
    simp (disch := omega) only [rd_counted, rd_eq, Res.ok_bind, Res.pure_eq]
    refine bind_spec _ (wr_counted_step _ _ _ (by omega)) ?_
    rintro s1 ⟨z1, e1, n1⟩
    simp (disch := omega) only [rd_eq, Res.ok_bind]
    refine wr_counted_spec _ _ _ _ (by omega) (fun s2 z2 e2 n2 => ⟨by omega, by omega, ?_⟩)
    intro j hj
    rw [n2 j (by omega), n1 j (by omega), hr j hj]
  clear hs2 he2 hr2
  rintro fg3 ⟨hs3, he3, hr3⟩
  -- the six timestep-0 entries
  simp (disch := omega) only [rd_eq, Res.ok_bind]
  obtain ⟨hord, ⟨hpos, hmax⟩, -⟩ := constraint_index_facts N 0 0 (by omega) (by omega)
  simp only [Nat.add_zero] at hord hpos hmax
  refine six_writes_then _ _ _ _ _ _ _ _ _ _ _ _ _ _ _
    ⟨by omega, by omega, by omega, by omega, by omega, by omega⟩ hord (fun r hz hcnt ho => ?_)
  -- the constraint loop
  refine spec_weaken (forRange_spec (fun k s => s.size = fg.size ∧
      (entry s 0).2 = (entry fg 0).2 + 1 + 3 * N + 2 * (N - 1) + 2 * (N - 2) ∧
      (∀ t, t < k → counts_at N fg s t 1) ∧
      (∀ t, k ≤ t → t < N → counts_at N fg s t 0) ∧
      ∀ j, 1 + N * 6 ≤ j → entry s j = entry fg j) 1 N _ _ (by omega) ?_ ?_)
    (fun a h => ⟨h.1, h.2.1, h.2.2.1, h.2.2.2.2⟩)
  · refine ⟨by omega, ?_, ?_, ?_, ?_⟩
    · rw [ho 0 (by omega) (by omega) (by omega) (by omega) (by omega) (by omega), he3]
    · intro t ht
      obtain rfl : t = 0 := by omega
      obtain ⟨c1, c2, c3, c4, c5, c6⟩ := hcnt
      unfold counts_at
      simp only [Nat.add_zero]
      rw [c1, c2, c3, c4, c5, c6, hr3 _ (by omega), hr3 _ (by omega), hr3 _ (by omega),
        hr3 _ (by omega), hr3 _ (by omega), hr3 _ (by omega)]
      exact ⟨rfl, rfl, rfl, rfl, rfl, rfl⟩
    · intro t h1 h2
      have hidx := (constraint_index_facts N t 0 h2 (by omega)).2.2 (by omega)
      simp only [Nat.add_zero] at hidx
      unfold counts_at
      simp only [Nat.add_zero]
      have hkeep : ∀ j, (j = 1 + x_start N + t ∨ j = 1 + y_start N + t ∨
          j = 1 + psi_start N + t ∨ j = 1 + v_start N + t ∨ j = 1 + cte_start N + t ∨
          j = 1 + epsi_start N + t) → entry r j = entry fg j := by
        intro j hj
        obtain ⟨p0, p1, p2, p3, p4, p5, p6⟩ := hidx j hj
        rw [ho j p1 p2 p3 p4 p5 p6, hr3 j p0]
      rw [hkeep _ (Or.inl rfl), hkeep _ (Or.inr (Or.inl rfl)),
        hkeep _ (Or.inr (Or.inr (Or.inl rfl))),
        hkeep _ (Or.inr (Or.inr (Or.inr (Or.inl rfl)))),
        hkeep _ (Or.inr (Or.inr (Or.inr (Or.inr (Or.inl rfl))))),
        hkeep _ (Or.inr (Or.inr (Or.inr (Or.inr (Or.inr rfl)))))]
      exact ⟨rfl, rfl, rfl, rfl, rfl, rfl⟩
    · intro j hj
      rw [ho j (by omega) (by omega) (by omega) (by omega) (by omega) (by omega),
        hr3 j (by omega)]
  · clear hz hcnt ho hs3 he3 hr3 hord hpos hmax
    rintro i s hi1 hi2 ⟨hs, he, hdone, htodo, hr⟩
    simp (disch := omega) only [rd_eq, Res.ok_bind]
    obtain ⟨hord, ⟨hpos, hmax⟩, -⟩ := constraint_index_facts N i i hi2 hi2
    refine six_writes_spec _ _ _ _ _ _ _ _ _ _ _ _ _ _
      ⟨by omega, by omega, by omega, by omega, by omega, by omega⟩ hord
      (fun r hz hcnt ho => ?_)
    have hkeep : ∀ t, t < N → t ≠ i → ∀ j, (j = 1 + x_start N + t ∨ j = 1 + y_start N + t ∨
        j = 1 + psi_start N + t ∨ j = 1 + v_start N + t ∨ j = 1 + cte_start N + t ∨
        j = 1 + epsi_start N + t) → entry r j = entry s j := by
      intro t ht hne j hj
      obtain ⟨-, p1, p2, p3, p4, p5, p6⟩ := (constraint_index_facts N t i ht hi2).2.2 hne j hj
      exact ho j p1 p2 p3 p4 p5 p6
    refine ⟨by omega, ?_, ?_, ?_, ?_⟩
    · rw [ho 0 (by omega) (by omega) (by omega) (by omega) (by omega) (by omega), he]
    · intro t ht
      by_cases hti : t = i
      · subst hti
        exact counts_at_succ N fg s r t 0 (htodo t (Nat.le_refl _) hi2) hcnt
      · exact counts_at_of_keep N fg s r t 1 (hdone t (by omega)) (hkeep t (by omega) hti)
    · intro t h1 h2
      exact counts_at_of_keep N fg s r t 0 (htodo t (by omega) h2) (hkeep t h2 (by omega))
    · intro j hj
      rw [ho j (by omega) (by omega) (by omega) (by omega) (by omega) (by omega), hr j hj]

end Counting

section Accesses

variable {K : Type} [LinearOrderedField K]

omit [LinearOrderedField K] in
theorem erase_uncounted (fg : Array K) : erase (uncounted fg) = fg := by
  unfold erase uncounted
  refine Array.ext _ _ (by simp) (fun j h1 h2 => ?_)
  simp

omit [LinearOrderedField K] in
theorem uncounted_size (fg : Array K) : (uncounted fg).size = fg.size := by
  simp [uncounted]

omit [LinearOrderedField K] in
theorem uncounted_count [Zero K] (fg : Array K) (j : Nat) : (entry (uncounted fg) j).2 = 0 := by
  unfold entry uncounted Array.getD
  by_cases h : j < fg.size
  · simp [h]
  · simp [h]

/-- The vectors `MPC::Solve` hands to the solver do not depend on the content of the fresh
allocations: every entry of the guess and of the four bound vectors is assigned. -/
theorem Built_vectors_eq (T : Trig K) (N : Nat) (dt ref_v : K) (state coeffs : Array K)
    (p q : Problem K) (hp : Built T N dt ref_v state coeffs p)
    (hq : Built T N dt ref_v state coeffs q) :
    q.vars = p.vars ∧ q.vars_lowerbound = p.vars_lowerbound ∧
      q.vars_upperbound = p.vars_upperbound ∧
      q.constraints_lowerbound = p.constraints_lowerbound ∧
      q.constraints_upperbound = p.constraints_upperbound := by
  have hvb : ∀ i, i < n_vars N → (entry q.vars_lowerbound i = entry p.vars_lowerbound i ∧
      entry q.vars_upperbound i = entry p.vars_upperbound i) := by
    intro i hi
    by_cases h1 : i < delta_start N
    · rw [(hp.state_bounds i h1).1, (hp.state_bounds i h1).2, (hq.state_bounds i h1).1,
        (hq.state_bounds i h1).2]
      exact ⟨rfl, rfl⟩
    · by_cases h2 : i < a_start N
      · rw [(hp.delta_bounds i (by omega) h2).1, (hp.delta_bounds i (by omega) h2).2,
          (hq.delta_bounds i (by omega) h2).1, (hq.delta_bounds i (by omega) h2).2]
        exact ⟨rfl, rfl⟩
      · rw [(hp.a_bounds i (by omega) hi).1, (hp.a_bounds i (by omega) hi).2,
          (hq.a_bounds i (by omega) hi).1, (hq.a_bounds i (by omega) hi).2]
        exact ⟨rfl, rfl⟩
  have hcb : ∀ i, i < n_constraints N →
      (entry q.constraints_lowerbound i = entry p.constraints_lowerbound i ∧
        entry q.constraints_upperbound i = entry p.constraints_upperbound i) := by
    intro i hi
    obtain ⟨l1, l2, l3, l4, l5, l6⟩ := hp.clower_init
    obtain ⟨u1, u2, u3, u4, u5, u6⟩ := hp.cupper_init
    obtain ⟨m1, m2, m3, m4, m5, m6⟩ := hq.clower_init
    obtain ⟨w1, w2, w3, w4, w5, w6⟩ := hq.cupper_init
    by_cases e1 : i = x_start N
    · rw [e1, l1, u1, m1, w1]; exact ⟨rfl, rfl⟩
    by_cases e2 : i = y_start N
    · rw [e2, l2, u2, m2, w2]; exact ⟨rfl, rfl⟩
    by_cases e3 : i = psi_start N
    · rw [e3, l3, u3, m3, w3]; exact ⟨rfl, rfl⟩
    by_cases e4 : i = v_start N
    · rw [e4, l4, u4, m4, w4]; exact ⟨rfl, rfl⟩
    by_cases e5 : i = cte_start N
    · rw [e5, l5, u5, m5, w5]; exact ⟨rfl, rfl⟩
    by_cases e6 : i = epsi_start N
    · rw [e6, l6, u6, m6, w6]; exact ⟨rfl, rfl⟩
    rw [(hp.cbounds_zero i hi e1 e2 e3 e4 e5 e6).1, (hp.cbounds_zero i hi e1 e2 e3 e4 e5 e6).2,
      (hq.cbounds_zero i hi e1 e2 e3 e4 e5 e6).1, (hq.cbounds_zero i hi e1 e2 e3 e4 e5 e6).2]
    exact ⟨rfl, rfl⟩
  refine ⟨?_, ?_, ?_, ?_, ?_⟩
  · refine ext_entry _ _ (by rw [hq.vars_size, hp.vars_size]) (fun i hi => ?_)
    rw [hq.vars_size] at hi
    rw [hq.vars_zero i hi, hp.vars_zero i hi]
  · refine ext_entry _ _ (by rw [hq.lower_size, hp.lower_size]) (fun i hi => ?_)
    rw [hq.lower_size] at hi
    exact (hvb i hi).1
  · refine ext_entry _ _ (by rw [hq.upper_size, hp.upper_size]) (fun i hi => ?_)
    rw [hq.upper_size] at hi
    exact (hvb i hi).2
  · refine ext_entry _ _ (by rw [hq.clower_size, hp.clower_size]) (fun i hi => ?_)
    rw [hq.clower_size] at hi
    exact (hcb i hi).1
  · refine ext_entry _ _ (by rw [hq.cupper_size, hp.cupper_size]) (fun i hi => ?_)
    rw [hq.cupper_size] at hi
    exact (hcb i hi).2

end Accesses

section SamplePath

variable {K : Type} [LinearOrderedField K]

/-- The forward simulation under given actuators is feasible for the problem built by
`MPC::Solve`. -/
theorem trajectory_feasible (T : Trig K) (N : Nat) (dt ref_v junk : K)
    (x y psi v cte epsi c0 c1 c2 c3 : K) (delta a : Nat → K) (fg : Array K) (hN : 2 ≤ N)
    (hfg : fg.size = 1 + N * 6) :
    ∃ p out, Solve_problem T N dt ref_v junk #[x, y, psi, v, cte, epsi] #[c0, c1, c2, c3]
        = Res.ok p ∧
      Built T N dt ref_v #[x, y, psi, v, cte, epsi] #[c0, c1, c2, c3] p ∧
      FG_eval T N dt ref_v #[c0, c1, c2, c3] fg
        (trajectory N (simulate T dt c0 c1 c2 c3 (VehicleState.mk x y psi v cte epsi) delta a)
          delta a) = Res.ok out ∧
      feasible N p out := by
  obtain ⟨p, hp, hb⟩ := Solve_problem_run T N dt ref_v junk #[x, y, psi, v, cte, epsi]
    #[c0, c1, c2, c3] (by omega) (by simp)
  have hsize := trajectory_size N
    (simulate T dt c0 c1 c2 c3 (VehicleState.mk x y psi v cte epsi) delta a) delta a
  obtain ⟨out, hrun, -, -, hinit, hstep, -⟩ := FG_eval_run T N dt ref_v #[c0, c1, c2, c3] fg
    (trajectory N (simulate T dt c0 c1 c2 c3 (VehicleState.mk x y psi v cte epsi) delta a)
      delta a) hN (by simp) (by omega) (by rw [hsize])
  exact ⟨p, out, hp, hb, hrun,
    (feasible_iff_follows T N dt ref_v x y psi v cte epsi c0 c1 c2 c3 p _ out hN hb hinit
      hstep).mpr (trajectory_follows_model T N hN dt c0 c1 c2 c3 _ delta a)⟩

end SamplePath

/-! ## What the evaluator and the result extraction read -/

section Footprint

variable {K : Type} [LinearOrderedField K]

/-- The objective reads the decision vector only in the blocks `v`, `cte`, `epsi`, `delta`
and `a`. -/
theorem objective_congr_lt (N : Nat) (hN : 2 ≤ N) (ref_v : K) (vars1 vars2 : Array K)
    (h : ∀ i, v_start N ≤ i → i < n_vars N → entry vars1 i = entry vars2 i) :
    objective N ref_v vars1 = objective N ref_v vars2 := by
  obtain ⟨hx, hy, hpsi, hvs, hcte, hepsi, hdelta, ha, hnv, -⟩ := layout_eqs N
  unfold objective
  congr 1
  · congr 1
    · refine Finset.sum_congr rfl (fun t ht => ?_)
      have := Finset.mem_range.mp ht
      rw [h (cte_start N + t) (by omega) (by omega), h (epsi_start N + t) (by omega) (by omega),
        h (v_start N + t) (by omega) (by omega)]
    · refine Finset.sum_congr rfl (fun t ht => ?_)
      have := Finset.mem_range.mp ht
      rw [h (delta_start N + t) (by omega) (by omega), h (a_start N + t) (by omega) (by omega)]
  · refine Finset.sum_congr rfl (fun t ht => ?_)
    have := Finset.mem_range.mp ht
    rw [h (delta_start N + t) (by omega) (by omega), h (a_start N + t) (by omega) (by omega),
      h (delta_start N + t + 1) (by omega) (by omega),
      h (a_start N + t + 1) (by omega) (by omega)]

/-- The evaluator reads the decision vector only below index `N * 6 + (N - 1) * 2`: two
decision vectors that agree there give the same result. -/
theorem FG_eval_reads_below (T : Trig K) (N : Nat) (dt ref_v : K) (coeffs fg vars1 vars2 : Array K)
    (hN : 2 ≤ N) (hc : 4 ≤ coeffs.size) (hfg : fg.size = 1 + N * 6)
    (h1 : n_vars N ≤ vars1.size) (h2 : n_vars N ≤ vars2.size)
    (hag : ∀ i, i < n_vars N → entry vars1 i = entry vars2 i) :
    FG_eval T N dt ref_v coeffs fg vars1 = FG_eval T N dt ref_v coeffs fg vars2 := by
  obtain ⟨hx, hy, hpsi, hvs, hcte, hepsi, hdelta, ha, hnv, -⟩ := layout_eqs N
  obtain ⟨o1, r1, s1, a1, b1, c1, -⟩ := FG_eval_run T N dt ref_v coeffs fg vars1 hN hc
    (by omega) h1
  obtain ⟨o2, r2, s2, a2, b2, c2, -⟩ := FG_eval_run T N dt ref_v coeffs fg vars2 hN hc
    (by omega) h2
  rw [r1, r2]
  have a1' : entry o1 0 = objective N ref_v vars2 := by
    rw [a1]
    exact objective_congr_lt N hN ref_v vars1 vars2 (fun i _ hi => hag i hi)
  have b1' : initial_entries N vars2 o1 := by
    unfold initial_entries at b1 ⊢
    simp (disch := omega) only [hag] at b1
    exact b1
  have c1' : ∀ t, 1 ≤ t → t < N → step_entries T N dt coeffs vars2 o1 t := by
    intro t ht1 ht2
    have h := c1 t ht1 ht2
    unfold step_entries at h ⊢
    simp (disch := omega) only [hag] at h
    exact h
  have h := FG_eval_entries_assigned T N dt ref_v coeffs vars2 o1 o2 a1' a2 b1' b2 c1' c2
  rw [ext_entry o1 o2 (by omega) (fun i hi => h i (by omega))]

/-- The result is read out of the solution below index `N * 6 + (N - 1) * 2` only. -/
theorem Solve_result_reads_below (N : Nat) (hN : 2 ≤ N) (s1 s2 : solve_result K)
    (h1 : n_vars N ≤ s1.x.size) (h2 : n_vars N ≤ s2.x.size)
    (hag : ∀ i, i < n_vars N → entry s1.x i = entry s2.x i) :
    Solve_result N s1 = Solve_result N s2 := by
  obtain ⟨hx, hy, -, -, -, -, hdelta, ha, hnv, -⟩ := layout_eqs N
  obtain ⟨r1, e1, z1, p1, q1, xy1⟩ := Solve_result_run N s1 hN h1
  obtain ⟨r2, e2, z2, p2, q2, xy2⟩ := Solve_result_run N s2 hN h2
  rw [e1, e2]
  congr 1
  refine ext_entry r1 r2 (by omega) (fun i hi => ?_)
  by_cases i0 : i = 0
  · rw [i0, p1, p2, hag _ (by omega)]
  by_cases i1 : i = 1
  · rw [i1, q1, q2, hag _ (by omega)]
  by_cases hpar : i % 2 = 0
  · have e : i = 2 + 2 * ((i - 2) / 2) := by omega
    rw [e, (xy1 _ (by omega)).1, (xy2 _ (by omega)).1, hag _ (by omega)]
  · have e : i = 3 + 2 * ((i - 3) / 2) := by omega
    rw [e, (xy1 _ (by omega)).2, (xy2 _ (by omega)).2, hag _ (by omega)]

end Footprint

/-! ## The claims on feasibility, optimality, accesses and bounds -/

section Claims2

variable {K : Type} [LinearOrderedField K]

/-- C11, the behaviour of the code where the claim fails: with `N = 10`, a solver that obeys the
variable bounds whenever it reports success, but here reports `time_limit` and leaves the vector
`0, 1, ..., 77` in `solution.x`, makes `MPC::Solve` return the steering `60`, beyond
`0.436332 * Lf`, and the acceleration `69`, beyond `1.0`. -/
theorem Solve_command_out_of_bounds :
    (∀ p : Problem ℚ, (sample_solve_time_limit p).status = status_type.success →
      within_bounds p (sample_solve_time_limit p).x) ∧
    ∃ result, Solve sample_trig 10 0.1 100 0 sample_solve_time_limit #[0, 0, 0, 100, 0, 0]
        #[0, 0, 0, 0] = Res.ok result ∧
      0.436332 * Lf < |entry result 0| ∧ 1.0 < |entry result 1| := by
  refine ⟨fun p h => ?_, ?_⟩
  · have h2 : (sample_solve_time_limit p).status = status_type.time_limit := rfl
    rw [h2] at h
    exact absurd h (by decide)
  obtain ⟨p, hp, -⟩ := Solve_problem_run sample_trig 10 0.1 100 0 #[0, 0, 0, 100, 0, 0]
    #[0, 0, 0, 0] (by decide) (by decide)
  obtain ⟨result, hr, -, h0, h1, -⟩ := Solve_result_run 10 (sample_solve_time_limit p)
    (by decide) (by rw [show (sample_solve_time_limit p).x = sample_vars from rfl,
      sample_vars_size]; decide)
  refine ⟨result, ?_, ?_, ?_⟩
  · rw [Solve_eq _ 10 _ _ _ _ _ _ p hp]
    exact hr
  · rw [h0, show (sample_solve_time_limit p).x = sample_vars from rfl,
      show delta_start 10 = 60 from rfl, sample_vars_entry 60 (by decide)]
    unfold Lf
    norm_num
  · rw [h1, show (sample_solve_time_limit p).x = sample_vars from rfl,
      show a_start 10 = 69 from rfl, sample_vars_entry 69 (by decide)]
    norm_num

/-- The command returned after a success: when the solver, on the problem that `MPC::Solve`
builds, reports a vector of the right length within the variable bounds it was given, the
steering `result[0]` satisfies `|delta| ≤ 0.436332 * Lf` and the acceleration `result[1]`
satisfies `|a| ≤ 1.0`. -/
theorem Solve_command_within_bounds (T : Trig K) (N : Nat) (dt ref_v junk : K)
    (solve : Problem K → solve_result K) (x y psi v cte epsi : K) (coeffs : Array K)
    (hN : 2 ≤ N)
    (hsolve : ∀ p, Solve_problem T N dt ref_v junk #[x, y, psi, v, cte, epsi] coeffs = Res.ok p →
      (solve p).x.size = n_vars N ∧ within_bounds p (solve p).x) :
    ∃ result, Solve T N dt ref_v junk solve #[x, y, psi, v, cte, epsi] coeffs = Res.ok result ∧
      |entry result 0| ≤ 0.436332 * Lf ∧ |entry result 1| ≤ 1.0 := by
  obtain ⟨p, hp, hb⟩ := Solve_problem_run T N dt ref_v junk #[x, y, psi, v, cte, epsi] coeffs
    (by omega) (by simp)
  obtain ⟨hsz, hw⟩ := hsolve p hp
  obtain ⟨-, -, -, -, -, -, hdelta, hast, hnv, -⟩ := layout_eqs N
  obtain ⟨result, hr, -, h0, h1, -⟩ := Solve_result_run N (solve p) hN (by omega)
  refine ⟨result, ?_, ?_, ?_⟩
  · rw [Solve_eq T N dt ref_v junk solve _ _ p hp]
    exact hr
  · obtain ⟨l, u⟩ := hw (delta_start N) (by omega)
    obtain ⟨bl, bu⟩ := hb.delta_bounds (delta_start N) (by omega) (by omega)
    rw [bl] at l
    rw [bu] at u
    rw [h0, abs_le]
    exact ⟨by linarith, u⟩
  · obtain ⟨l, u⟩ := hw (a_start N) (by omega)
    obtain ⟨bl, bu⟩ := hb.a_bounds (a_start N) (by omega) (by omega)
    rw [bl] at l
    rw [bu] at u
    rw [h1, abs_le]
    exact ⟨by linarith, u⟩

/-- An instance of `Solve_command_within_bounds`: for `N = 10` and the straight-line scenario,
the solver that returns the straight-line vector stays within the variable bounds, and
`MPC::Solve` returns a command within the bounds. -/
theorem Solve_command_within_bounds_instance :
    (∀ p : Problem ℚ, Solve_problem sample_trig 10 0.1 100 9 #[0, 0, 0, 100, 0, 0] #[0, 0, 0, 0]
        = Res.ok p →
      (sample_solve_straight p).x.size = n_vars 10 ∧
        within_bounds p (sample_solve_straight p).x) ∧
    ∃ result, Solve sample_trig 10 0.1 100 9 sample_solve_straight #[0, 0, 0, 100, 0, 0]
        #[0, 0, 0, 0] = Res.ok result ∧
      |entry result 0| ≤ 0.436332 * Lf ∧ |entry result 1| ≤ 1.0 := by
  have hs : ∀ p : Problem ℚ, Solve_problem sample_trig 10 0.1 100 9 #[0, 0, 0, 100, 0, 0]
      #[0, 0, 0, 0] = Res.ok p →
      (sample_solve_straight p).x.size = n_vars 10 ∧
        within_bounds p (sample_solve_straight p).x := by
    intro p hp
    obtain ⟨q, hq, hb⟩ := Solve_problem_run sample_trig 10 0.1 100 9 #[0, 0, 0, 100, 0, 0]
      #[0, 0, 0, 0] (by decide) (by decide)
    rw [hp] at hq
    cases hq
    exact ⟨straight_line_size 10 0.1,
      straight_line_within_bounds sample_trig 10 (by decide) (by decide) 100 _ _ p hb⟩
  exact ⟨hs, Solve_command_within_bounds sample_trig 10 0.1 100 9 sample_solve_straight
    0 0 0 100 0 0 #[0, 0, 0, 0] (by decide) hs⟩

/-- The straight-line scenario read over the real numbers (exact arithmetic): for
`2 ≤ N ≤ 10^18 + 1`, measured state `(0, 0, 0, 100, 0, 0)`, coefficients `(0, 0, 0, 0)`,
`v_ref = 100`, `dt = 0.1` and elementary functions with `cos 0 = 1`, `sin 0 = 0`, `atan 0 = 0`,
the straight-line vector has every constraint entry equal to its bound, lies within every
variable bound and has objective `0`; no decision vector has a smaller objective; a decision
vector that satisfies the constraints and whose objective does not exceed that of the
straight-line vector is the straight-line vector.  In the double arithmetic of the program the
last part fails. -/
theorem straight_line_optimal_exact (T : Trig K) (N : Nat) (junk : K) (fg : Array K) (hN : 2 ≤ N)
    (hmax : N ≤ 1000000000000000001) (hfg : fg.size = 1 + N * 6) (hcos : T.cos 0 = 1)
    (hsin : T.sin 0 = 0) (hatan : T.atan 0 = 0) :
    ∃ p out, Solve_problem T N 0.1 100 junk #[0, 0, 0, 100, 0, 0] #[0, 0, 0, 0] = Res.ok p ∧
      FG_eval T N 0.1 100 #[0, 0, 0, 0] fg (straight_line N 0.1) = Res.ok out ∧
      feasible N p out ∧ within_bounds p (straight_line N (0.1 : K)) ∧ entry out 0 = 0 ∧
      (∀ vars out2 : Array K, FG_eval T N 0.1 100 #[0, 0, 0, 0] fg vars = Res.ok out2 →
        0 ≤ entry out2 0) ∧
      (∀ vars out2 : Array K, vars.size = N * 6 + (N - 1) * 2 →
        FG_eval T N 0.1 100 #[0, 0, 0, 0] fg vars = Res.ok out2 → feasible N p out2 →
        entry out2 0 ≤ entry out 0 → vars = straight_line N 0.1) ∧
      ∀ solve : Problem K → solve_result K, (solve p).x.size = N * 6 + (N - 1) * 2 →
        (∃ out2, FG_eval T N 0.1 100 #[0, 0, 0, 0] fg (solve p).x = Res.ok out2 ∧
          feasible N p out2 ∧ within_bounds p (solve p).x ∧
          ∀ vars3 out3 : Array K, vars3.size = N * 6 + (N - 1) * 2 →
            FG_eval T N 0.1 100 #[0, 0, 0, 0] fg vars3 = Res.ok out3 → feasible N p out3 →
            within_bounds p vars3 → entry out2 0 ≤ entry out3 0) →
        ∃ result, Solve T N 0.1 100 junk solve #[0, 0, 0, 100, 0, 0] #[0, 0, 0, 0]
            = Res.ok result ∧
          entry result 0 = 0 ∧ entry result 1 = 0 ∧
          ∀ i, i < N - 1 → entry result (2 + 2 * i) = 100 * 0.1 * (i : K) ∧
            entry result (3 + 2 * i) = 0 := by
  obtain ⟨p, hp, hb⟩ := Solve_problem_run T N 0.1 100 junk #[0, 0, 0, 100, 0, 0]
    #[0, 0, 0, 0] (by omega) (by simp)
  obtain ⟨-, -, -, -, -, -, -, -, hnv, -⟩ := layout_eqs N
  have hsize := straight_line_size N (0.1 : K)
  obtain ⟨hst, hact⟩ := straight_line_entries N hN (0.1 : K)
  obtain ⟨out, hrun, -, hobj, hinit, hstep, -⟩ := FG_eval_run T N 0.1 100 #[0, 0, 0, 0] fg
    (straight_line N 0.1) hN (by simp) (by omega) (by rw [hsize])
  have hfol : follows_model T N 0.1 0 0 0 0 (VehicleState.mk 0 0 0 100 0 0)
      (straight_line N 0.1) := by
    rw [straight_line_eq T N 0.1 hcos hsin hatan]
    exact trajectory_follows_model T N hN 0.1 0 0 0 0 _ _ _
  have hfeas : feasible N p out :=
    (feasible_iff_follows T N 0.1 100 0 0 0 100 0 0 0 0 0 0 p _ out hN hb hinit hstep).mpr hfol
  have hwb := straight_line_within_bounds T N hN hmax 100 _ _ p hb
  have hzero : entry out 0 = 0 := by
    rw [hobj, objective_eq_zero_iff N hN]
    exact ⟨fun t ht => ⟨(hst t ht).2.2.2.2.1, (hst t ht).2.2.2.2.2, (hst t ht).2.2.2.1⟩, hact⟩
  have huniq : ∀ vars out2 : Array K, vars.size = N * 6 + (N - 1) * 2 →
      FG_eval T N 0.1 100 #[0, 0, 0, 0] fg vars = Res.ok out2 → feasible N p out2 →
      entry out2 0 ≤ entry out 0 → vars = straight_line N 0.1 := by
    intro vars out2 hs2 hrun2 hfeas2 hle
    obtain ⟨hobj2, hinit2, hstep2⟩ := FG_eval_ok_entries T N 0.1 100 _ fg vars out2 hN hrun2
    have hfol2 := (feasible_iff_follows T N 0.1 100 0 0 0 100 0 0 0 0 0 0 p vars out2 hN hb
      hinit2 hstep2).mp hfeas2
    have h0 : objective N 100 vars = 0 := by
      have h1 := objective_nonneg N (100 : K) vars
      rw [hobj2, hzero] at hle
      exact le_antisymm hle h1
    exact eq_straight_line T N hN 0.1 hcos hsin hatan vars (by rw [hs2, hnv]) h0 hfol2
  refine ⟨p, out, hp, hrun, hfeas, hwb, hzero, ?_, huniq, ?_⟩
  · intro vars out2 hrun2
    rw [(FG_eval_ok_entries T N 0.1 100 _ fg vars out2 hN hrun2).1]
    exact objective_nonneg N 100 vars
  · rintro solve hsz ⟨out2, hrun2, hfeas2, -, hopt⟩
    have hle := hopt (straight_line N 0.1) out (by rw [hsize, hnv]) hrun hfeas hwb
    have hx := huniq (solve p).x out2 hsz hrun2 hfeas2 hle
    obtain ⟨result, hr, -, h0, h1, hxy⟩ := Solve_result_run N (solve p) hN (by omega)
    refine ⟨result, ?_, ?_, ?_, fun i hi => ?_⟩
    · rw [Solve_eq T N 0.1 100 junk solve _ _ p hp]
      exact hr
    · rw [h0, hx]
      exact (hact 0 (by omega)).1
    · rw [h1, hx]
      exact (hact 0 (by omega)).2
    · rw [(hxy i hi).1, (hxy i hi).2, hx]
      exact ⟨(hst i (by omega)).1, (hst i (by omega)).2.1⟩

/-- C13: for `2 ≤ N` the initial guess handed to the solver is the vector of
`N * 6 + (N - 1) * 2` zeros, whatever the measured state, the coefficients and the content of
the fresh allocation; in particular its six timestep-0 entries are `0`, not the measured
state. -/
theorem Solve_initial_guess (T : Trig K) (N : Nat) (dt ref_v junk : K)
    (x y psi v cte epsi : K) (coeffs : Array K) (hN : 2 ≤ N) :
    ∃ p, Solve_problem T N dt ref_v junk #[x, y, psi, v, cte, epsi] coeffs = Res.ok p ∧
      p.vars = mkArray (N * 6 + (N - 1) * 2) 0 ∧
      p.vars.size = N * 6 + (N - 1) * 2 ∧
      (∀ i, i < N * 6 + (N - 1) * 2 → entry p.vars i = 0) ∧
      (entry p.vars (x_start N) = 0 ∧ entry p.vars (y_start N) = 0 ∧
        entry p.vars (psi_start N) = 0 ∧ entry p.vars (v_start N) = 0 ∧
        entry p.vars (cte_start N) = 0 ∧ entry p.vars (epsi_start N) = 0) := by
  obtain ⟨p, hp, hb⟩ := Solve_problem_run T N dt ref_v junk #[x, y, psi, v, cte, epsi] coeffs
    (by omega) (by simp)
  obtain ⟨hx, hy, hpsi, hvs, hcte, hepsi, -, -, hnv, -⟩ := layout_eqs N
  have hz : ∀ i, i < N * 6 + (N - 1) * 2 → entry p.vars i = 0 :=
    fun i hi => hb.vars_zero i (by omega)
  have hs : p.vars.size = N * 6 + (N - 1) * 2 := by rw [hb.vars_size, hnv]
  refine ⟨p, hp, ?_, hs, hz, ⟨hz _ (by omega), hz _ (by omega), hz _ (by omega),
    hz _ (by omega), hz _ (by omega), hz _ (by omega)⟩⟩
  refine ext_entry _ _ (by rw [hs, Array.size_mkArray]) (fun i hi => ?_)
  rw [hz i (by omega), entry_eq_getElem _ _ (by rw [Array.size_mkArray]; omega)]
  simp

/-- C15: for `2 ≤ N`, `vars` of length `N * 6 + (N - 1) * 2` and `fg` of length `1 + N * 6`, the
evaluator makes no access outside `vars`, `fg` or the coefficients (an access outside a vector
would end the run in a fault), while one entry less in `vars` or in `fg` makes it fault; the run
with counted assignments has the same result, assigns every entry `fg[0 .. N * 6]` at least
once and each constraint entry `fg[1 .. N * 6]` exactly once.  Given longer vectors, it reads
nothing of `vars` from index `N * 6 + (N - 1) * 2` on and assigns nothing in `fg` after index
`N * 6`.  Likewise `MPC::Solve` fills the guess, the two variable bound vectors (length
`N * 6 + (N - 1) * 2`) and the two constraint bound vectors (length `N * 6`) without an access
out of range, assigning every entry (the vectors do not depend on the content of the fresh
allocations), and reads the result out of a solution of length `N * 6 + (N - 1) * 2` without
an access out of range, reading nothing from that index on in a longer solution. -/
theorem accesses_in_range (T : Trig K) (N : Nat) (dt ref_v junk : K)
    (x y psi v cte epsi : K) (coeffs fg vars : Array K) (hN : 2 ≤ N) (hc : coeffs.size = 4)
    (hfg : fg.size = 1 + N * 6) (hv : vars.size = N * 6 + (N - 1) * 2) :
    (∃ out outc, FG_eval T N dt ref_v coeffs fg vars = Res.ok out ∧
      FG_eval_counted T N dt ref_v coeffs (uncounted fg) vars = Res.ok outc ∧
      erase outc = out ∧ out.size = 1 + N * 6 ∧
      (∀ j, j ≤ N * 6 → 1 ≤ (entry outc j).2) ∧
      (∀ j, 1 ≤ j → j ≤ N * 6 → (entry outc j).2 = 1)) ∧
    (∀ vars2 : Array K, vars2.size < N * 6 + (N - 1) * 2 →
      FG_eval T N dt ref_v coeffs fg vars2 = Res.fault) ∧
    (∀ fg2 : Array K, fg2.size < 1 + N * 6 →
      FG_eval T N dt ref_v coeffs fg2 vars = Res.fault) ∧
    (∀ vars2 : Array K, N * 6 + (N - 1) * 2 ≤ vars2.size →
      (∀ i, i < N * 6 + (N - 1) * 2 → entry vars2 i = entry vars i) →
      FG_eval T N dt ref_v coeffs fg vars2 = FG_eval T N dt ref_v coeffs fg vars) ∧
    (∀ fg2 : Array K, 1 + N * 6 ≤ fg2.size →
      ∃ outc, FG_eval_counted T N dt ref_v coeffs (uncounted fg2) vars = Res.ok outc ∧
        ∀ j, N * 6 < j → (entry outc j).2 = 0) ∧
    (∃ p, Solve_problem T N dt ref_v junk #[x, y, psi, v, cte, epsi] coeffs = Res.ok p ∧
      (p.vars.size = N * 6 + (N - 1) * 2 ∧ p.vars_lowerbound.size = N * 6 + (N - 1) * 2 ∧
        p.vars_upperbound.size = N * 6 + (N - 1) * 2 ∧
        p.constraints_lowerbound.size = N * 6 ∧ p.constraints_upperbound.size = N * 6) ∧
      ∀ junk2 : K, ∃ q,
        Solve_problem T N dt ref_v junk2 #[x, y, psi, v, cte, epsi] coeffs = Res.ok q ∧
        q.vars = p.vars ∧ q.vars_lowerbound = p.vars_lowerbound ∧
        q.vars_upperbound = p.vars_upperbound ∧
        q.constraints_lowerbound = p.constraints_lowerbound ∧
        q.constraints_upperbound = p.constraints_upperbound) ∧
    (∀ solution : solve_result K, solution.x.size = N * 6 + (N - 1) * 2 →
      (∃ result, Solve_result N solution = Res.ok result ∧ result.size = 2 + 2 * (N - 1)) ∧
      ∀ solution2 : solve_result K, N * 6 + (N - 1) * 2 ≤ solution2.x.size →
        (∀ i, i < N * 6 + (N - 1) * 2 → entry solution2.x i = entry solution.x i) →
        Solve_result N solution2 = Solve_result N solution) := by
  obtain ⟨-, -, -, -, -, -, -, -, hnv, hnc⟩ := layout_eqs N
  refine ⟨?_, ?_, ?_, ?_, ?_, ?_, ?_⟩
  · obtain ⟨out, hrun, hsize, -⟩ := FG_eval_run T N dt ref_v coeffs fg vars hN (by omega)
      (by omega) (by omega)
    obtain ⟨outc, hrunc, -, h0, hcnt, -⟩ := FG_eval_counted_run T N dt ref_v coeffs
      (uncounted fg) vars hN (by omega) (by rw [uncounted_size]; omega) (by omega)
    have her := FG_eval_counted_erase T N dt ref_v coeffs (uncounted fg) vars
    rw [hrunc, erase_uncounted, hrun, Res.ok_bind] at her
    have hone : ∀ j, 1 ≤ j → j ≤ N * 6 → (entry outc j).2 = 1 := by
      intro j h1 h2
      rcases constraint_index_cases N (j - 1) (by omega) with ⟨t, ht, e⟩ | ⟨t, ht, e⟩ |
        ⟨t, ht, e⟩ | ⟨t, ht, e⟩ | ⟨t, ht, e⟩ | ⟨t, ht, e⟩
      · have hj : j = 1 + x_start N + t := by omega
        rw [hj, (hcnt t ht).1, uncounted_count]
      · have hj : j = 1 + y_start N + t := by omega
        rw [hj, (hcnt t ht).2.1, uncounted_count]
      · have hj : j = 1 + psi_start N + t := by omega
        rw [hj, (hcnt t ht).2.2.1, uncounted_count]
      · have hj : j = 1 + v_start N + t := by omega
        rw [hj, (hcnt t ht).2.2.2.1, uncounted_count]
      · have hj : j = 1 + cte_start N + t := by omega
        rw [hj, (hcnt t ht).2.2.2.2.1, uncounted_count]
      · have hj : j = 1 + epsi_start N + t := by omega
        rw [hj, (hcnt t ht).2.2.2.2.2, uncounted_count]
    refine ⟨out, outc, hrun, hrunc, Res.ok.inj her, by omega, fun j hj => ?_, hone⟩
    by_cases h0j : j = 0
    · rw [h0j, h0]
      omega
    · rw [hone j (by omega) hj]
  · intro vars2 h2
    cases h : FG_eval T N dt ref_v coeffs fg vars2 with
    | fault => rfl
    | ok fg' =>
      have := (FG_eval_ok_size T N dt ref_v coeffs fg vars2 fg' hN h).2.2
      omega
  · intro fg2 h2
    exact FG_eval_fault_of_short T N dt ref_v coeffs fg2 vars hN h2
  · intro vars2 hs2 hag
    exact FG_eval_reads_below T N dt ref_v coeffs fg vars2 vars hN (by omega) hfg (by omega)
      (by omega) (fun i hi => hag i (by omega))
  · intro fg2 hs2
    obtain ⟨outc, hrunc, -, -, -, hrest⟩ := FG_eval_counted_run T N dt ref_v coeffs
      (uncounted fg2) vars hN (by omega) (by rw [uncounted_size]; omega) (by omega)
    exact ⟨outc, hrunc, fun j hj => by rw [hrest j (by omega), uncounted_count]⟩
  · obtain ⟨p, hp, hb⟩ := Solve_problem_run T N dt ref_v junk #[x, y, psi, v, cte, epsi] coeffs
      (by omega) (by simp)
    refine ⟨p, hp, ⟨by rw [hb.vars_size, hnv], by rw [hb.lower_size, hnv],
      by rw [hb.upper_size, hnv], by rw [hb.clower_size, hnc], by rw [hb.cupper_size, hnc]⟩,
      fun junk2 => ?_⟩
    obtain ⟨q, hq, hbq⟩ := Solve_problem_run T N dt ref_v junk2 #[x, y, psi, v, cte, epsi]
      coeffs (by omega) (by simp)
    exact ⟨q, hq, Built_vectors_eq T N dt ref_v _ coeffs p q hb hbq⟩
  · intro solution hs
    refine ⟨?_, fun solution2 hs2 hag => ?_⟩
    · obtain ⟨result, hr, hsz, -⟩ := Solve_result_run N solution hN (by omega)
      exact ⟨result, hr, hsz⟩
    · exact Solve_result_reads_below N hN solution2 solution (by omega) (by omega)
        (fun i hi => hag i (by omega))

/-- The objective read over the real numbers (exact arithmetic): for `2 ≤ N` it is
nonnegative, it is `0` exactly when `cte_t = 0`, `epsi_t = 0`, `v_t = 100` for `t < N` and
`delta_t = 0`, `a_t = 0` for `t < N - 1`, and it is the same for any other coefficients and any
other decision vector with the same entries outside the `x`, `y` and `psi` blocks.  In the
double arithmetic of the program the "only if" part fails. -/
theorem FG_eval_objective_sign_exact (T : Trig K) (N : Nat) (dt : K) (coeffs fg vars : Array K)
    (hN : 2 ≤ N) (hc : coeffs.size = 4) (hfg : fg.size = 1 + N * 6)
    (hv : vars.size = N * 6 + (N - 1) * 2) :
    ∃ fg', FG_eval T N dt 100 coeffs fg vars = Res.ok fg' ∧
      0 ≤ entry fg' 0 ∧
      (entry fg' 0 = 0 ↔
        (∀ t, t < N → entry vars (cte_start N + t) = 0 ∧ entry vars (epsi_start N + t) = 0 ∧
          entry vars (v_start N + t) = 100) ∧
        (∀ t, t < N - 1 →
          entry vars (delta_start N + t) = 0 ∧ entry vars (a_start N + t) = 0)) ∧
      ∀ coeffs2 fg2 vars2 : Array K, coeffs2.size = 4 → fg2.size = 1 + N * 6 →
        vars2.size = N * 6 + (N - 1) * 2 →
        (∀ i, v_start N ≤ i → entry vars2 i = entry vars i) →
        ∃ fg2', FG_eval T N dt 100 coeffs2 fg2 vars2 = Res.ok fg2' ∧
          entry fg2' 0 = entry fg' 0 := by
  obtain ⟨fg', hrun, -, hobj, -⟩ := FG_eval_run T N dt 100 coeffs fg vars hN
    (by omega) (by omega) (by rw [hv]; exact Nat.le_of_eq rfl)
  refine ⟨fg', hrun, ?_, ?_, ?_⟩
  · rw [hobj]; exact objective_nonneg N 100 vars
  · rw [hobj]; exact objective_eq_zero_iff N hN 100 vars
  · intro coeffs2 fg2 vars2 hc2 hfg2 hv2 hagree
    obtain ⟨fg2', hrun2, -, hobj2, -⟩ := FG_eval_run T N dt 100 coeffs2 fg2 vars2 hN
      (by omega) (by omega) (by rw [hv2]; exact Nat.le_of_eq rfl)
    exact ⟨fg2', hrun2, by rw [hobj2, hobj]; exact objective_congr N 100 vars2 vars hagree⟩

/-- The heading error read over the real numbers (exact arithmetic): for `2 ≤ N` and
`1 ≤ t < N` the `epsi` entry minus the `psi` entry of timestep `t` is
`epsi_t - psi_t + atan(3 c3 x² + 2 c2 x + c1)` with `x = x_{t-1}` (the steering term cancels),
so that when both entries are `0` the heading error is the heading minus the desired heading.
In the double arithmetic of the program the cancellation is not exact. -/
theorem FG_eval_heading_error_exact (T : Trig K) (N : Nat) (dt ref_v c0 c1 c2 c3 : K)
    (fg vars : Array K) (t : Nat) (hN : 2 ≤ N) (hfg : fg.size = 1 + N * 6)
    (hv : vars.size = N * 6 + (N - 1) * 2) (h1 : 1 ≤ t) (ht : t < N) :
    ∃ fg', FG_eval T N dt ref_v #[c0, c1, c2, c3] fg vars = Res.ok fg' ∧
      entry fg' (1 + epsi_start N + t) - entry fg' (1 + psi_start N + t)
        = entry vars (epsi_start N + t) - entry vars (psi_start N + t)
          + T.atan (3 * c3 * entry vars (x_start N + (t - 1)) ^ 2
            + 2 * c2 * entry vars (x_start N + (t - 1)) + c1) ∧
      (entry fg' (1 + psi_start N + t) = 0 → entry fg' (1 + epsi_start N + t) = 0 →
        entry vars (epsi_start N + t) = entry vars (psi_start N + t)
          - T.atan (3 * c3 * entry vars (x_start N + (t - 1)) ^ 2
            + 2 * c2 * entry vars (x_start N + (t - 1)) + c1)) := by
  obtain ⟨fg', hrun, -, -, -, hstep, -⟩ := FG_eval_run T N dt ref_v #[c0, c1, c2, c3] fg vars hN
    (by simp) (by omega) (by rw [hv]; exact Nat.le_of_eq rfl)
  obtain ⟨-, e1, e2, e3⟩ := entry_lit4 c0 c1 c2 c3
  obtain ⟨hx, -, -, -, -, -, -, -, -, -⟩ := layout_eqs N
  obtain ⟨-, -, r3, -, -, r6⟩ := hstep t h1 ht
  rw [e1, e2, e3] at r6
  have ix : x_start N + t - 1 = x_start N + (t - 1) := by omega
  rw [ix] at r6
  have e : 3 * c3 * entry vars (x_start N + (t - 1)) * entry vars (x_start N + (t - 1))
      = 3 * c3 * entry vars (x_start N + (t - 1)) ^ 2 := by ring
  rw [e] at r6
  have hdiff : entry fg' (1 + epsi_start N + t) - entry fg' (1 + psi_start N + t)
      = entry vars (epsi_start N + t) - entry vars (psi_start N + t)
        + T.atan (3 * c3 * entry vars (x_start N + (t - 1)) ^ 2
          + 2 * c2 * entry vars (x_start N + (t - 1)) + c1) := by
    rw [r6, r3]; ring
  refine ⟨fg', hrun, hdiff, fun hp he => ?_⟩
  rw [hp, he] at hdiff
  linarith

/-- The speed along a feasible decision vector read over the real numbers (exact arithmetic):
for `2 ≤ N` the speed at timestep `t < N` is the measured speed plus `dt` times the sum of the
first `t` accelerations, so (for `0 ≤ dt`) it differs from the measured speed by at most
`t * dt`: by at most `0.9` over the whole horizon when `dt = 0.1` and `N = 10`.  In the
double arithmetic of the program the bound is exceeded. -/
theorem feasible_speed_bound_exact (T : Trig K) (N : Nat) (dt ref_v junk : K)
    (x y psi v cte epsi : K) (coeffs : Array K) (p : Problem K) (fg vars out : Array K)
    (hN : 2 ≤ N)
    (hp : Solve_problem T N dt ref_v junk #[x, y, psi, v, cte, epsi] coeffs = Res.ok p)
    (hrun : FG_eval T N dt ref_v coeffs fg vars = Res.ok out)
    (hfeas : feasible N p out)
    (hacc : ∀ k, k < N - 1 →
      entry p.vars_lowerbound (a_start N + k) ≤ entry vars (a_start N + k) ∧
      entry vars (a_start N + k) ≤ entry p.vars_upperbound (a_start N + k)) :
    (∀ t, t < N →
      entry vars (v_start N + t)
        = v + dt * (Finset.range t).sum (fun k => entry vars (a_start N + k))) ∧
    (0 ≤ dt → ∀ t, t < N → |entry vars (v_start N + t) - v| ≤ t * dt) ∧
    (dt = 0.1 → N = 10 → ∀ t, t < N → |entry vars (v_start N + t) - v| ≤ 0.9) := by
  obtain ⟨p', hp', hb⟩ := Solve_problem_run T N dt ref_v junk #[x, y, psi, v, cte, epsi] coeffs
    (by omega) (by simp)
  rw [hp] at hp'
  cases hp'
  obtain ⟨-, hinit, hstep⟩ := FG_eval_ok_entries T N dt ref_v coeffs fg vars out hN hrun
  have hv := feasible_speed T N dt ref_v x y psi v cte epsi coeffs p vars out hN hb hinit hstep
    hfeas
  obtain ⟨-, -, -, -, -, -, -, hast, hnv, -⟩ := layout_eqs N
  have habs : ∀ k, k < N - 1 → |entry vars (a_start N + k)| ≤ 1 := by
    intro k hk
    obtain ⟨l, u⟩ := hacc k hk
    obtain ⟨bl, bu⟩ := hb.a_bounds (a_start N + k) (by omega) (by omega)
    rw [bl] at l
    rw [bu] at u
    rw [abs_le]
    constructor
    · linarith
    · linarith
  have hbound : 0 ≤ dt → ∀ t, t < N → |entry vars (v_start N + t) - v| ≤ t * dt := by
    intro hdt t ht
    rw [hv t ht]
    have h1 := abs_sum_le_of_abs_le_one (fun k => entry vars (a_start N + k)) t
      (fun k hk => habs k (by omega))
    rw [add_sub_cancel_left, abs_mul, abs_of_nonneg hdt, mul_comm]
    exact mul_le_mul_of_nonneg_right h1 hdt
  refine ⟨hv, hbound, fun hdt h10 t ht => ?_⟩
  have h1 := hbound (by rw [hdt]; norm_num) t ht
  have h2 : (t : K) ≤ 9 := by
    have : t ≤ 9 := by omega
    exact_mod_cast this
  rw [hdt] at h1
  linarith

/-! ## Instances of these theorems on the sample inputs -/

/-- Witness for C13: `N = 10`, measured state `(1, 2, 3, 4, 5, 6)`. -/
theorem Solve_initial_guess_witness :
    2 ≤ 10 ∧
    (∃ p, Solve_problem sample_trig 10 0.1 100 9 #[1, 2, 3, 4, 5, 6] #[7, 5, 3, 1] = Res.ok p ∧
      p.vars = mkArray (10 * 6 + (10 - 1) * 2) 0 ∧
      p.vars.size = 10 * 6 + (10 - 1) * 2 ∧
      (∀ i, i < 10 * 6 + (10 - 1) * 2 → entry p.vars i = 0) ∧
      (entry p.vars (x_start 10) = 0 ∧ entry p.vars (y_start 10) = 0 ∧
        entry p.vars (psi_start 10) = 0 ∧ entry p.vars (v_start 10) = 0 ∧
        entry p.vars (cte_start 10) = 0 ∧ entry p.vars (epsi_start 10) = 0)) :=
  ⟨by decide, Solve_initial_guess sample_trig 10 0.1 100 9 1 2 3 4 5 6 #[7, 5, 3, 1] (by decide)⟩

/-- Witness for C15: `N = 10`, the sample vectors, measured state `(1, 2, 3, 4, 5, 6)`. -/
theorem accesses_in_range_witness :
    (2 ≤ 10 ∧ (#[7, 5, 3, 1] : Array ℚ).size = 4 ∧ sample_fg.size = 1 + 10 * 6 ∧
      sample_vars.size = 10 * 6 + (10 - 1) * 2) ∧
    ((∃ out outc, FG_eval sample_trig 10 0.1 100 #[7, 5, 3, 1] sample_fg sample_vars = Res.ok out ∧
      FG_eval_counted sample_trig 10 0.1 100 #[7, 5, 3, 1] (uncounted sample_fg) sample_vars = Res.ok outc ∧
      erase outc = out ∧ out.size = 1 + 10 * 6 ∧
      (∀ j, j ≤ 10 * 6 → 1 ≤ (entry outc j).2) ∧
      (∀ j, 1 ≤ j → j ≤ 10 * 6 → (entry outc j).2 = 1)) ∧
    (∀ vars2 : Array ℚ, vars2.size < 10 * 6 + (10 - 1) * 2 →
      FG_eval sample_trig 10 0.1 100 #[7, 5, 3, 1] sample_fg vars2 = Res.fault) ∧
    (∀ fg2 : Array ℚ, fg2.size < 1 + 10 * 6 →
      FG_eval sample_trig 10 0.1 100 #[7, 5, 3, 1] fg2 sample_vars = Res.fault) ∧
    (∀ vars2 : Array ℚ, 10 * 6 + (10 - 1) * 2 ≤ vars2.size →
      (∀ i, i < 10 * 6 + (10 - 1) * 2 → entry vars2 i = entry sample_vars i) →
      FG_eval sample_trig 10 0.1 100 #[7, 5, 3, 1] sample_fg vars2 = FG_eval sample_trig 10 0.1 100 #[7, 5, 3, 1] sample_fg sample_vars) ∧
    (∀ fg2 : Array ℚ, 1 + 10 * 6 ≤ fg2.size →
      ∃ outc, FG_eval_counted sample_trig 10 0.1 100 #[7, 5, 3, 1] (uncounted fg2) sample_vars = Res.ok outc ∧
        ∀ j, 10 * 6 < j → (entry outc j).2 = 0) ∧
    (∃ p, Solve_problem sample_trig 10 0.1 100 9 #[1, 2, 3, 4, 5, 6] #[7, 5, 3, 1] = Res.ok p ∧
      (p.vars.size = 10 * 6 + (10 - 1) * 2 ∧ p.vars_lowerbound.size = 10 * 6 + (10 - 1) * 2 ∧
        p.vars_upperbound.size = 10 * 6 + (10 - 1) * 2 ∧
        p.constraints_lowerbound.size = 10 * 6 ∧ p.constraints_upperbound.size = 10 * 6) ∧
      ∀ junk2 : ℚ, ∃ q,
        Solve_problem sample_trig 10 0.1 100 junk2 #[1, 2, 3, 4, 5, 6] #[7, 5, 3, 1] = Res.ok q ∧
        q.vars = p.vars ∧ q.vars_lowerbound = p.vars_lowerbound ∧
        q.vars_upperbound = p.vars_upperbound ∧
        q.constraints_lowerbound = p.constraints_lowerbound ∧
        q.constraints_upperbound = p.constraints_upperbound) ∧
    (∀ solution : solve_result ℚ, solution.x.size = 10 * 6 + (10 - 1) * 2 →
      (∃ result, Solve_result 10 solution = Res.ok result ∧ result.size = 2 + 2 * (10 - 1)) ∧
      ∀ solution2 : solve_result ℚ, 10 * 6 + (10 - 1) * 2 ≤ solution2.x.size →
        (∀ i, i < 10 * 6 + (10 - 1) * 2 → entry solution2.x i = entry solution.x i) →
        Solve_result 10 solution2 = Solve_result 10 solution)) :=
  ⟨⟨by decide, rfl, rfl, sample_vars_size⟩,
    accesses_in_range sample_trig 10 0.1 100 9 1 2 3 4 5 6 #[7, 5, 3, 1] sample_fg sample_vars
      (by decide) rfl rfl sample_vars_size⟩

end Claims2

/-! ## The evaluator in double arithmetic -/

section DoubleRun

/-- Complete description of a run of the evaluator in double arithmetic on vectors that are
large enough. -/
theorem FG_eval_double_run (T : Trig F64) (N : Nat) (dt ref_v : F64)
    (coeffs fg vars : Array F64) (hN : 2 ≤ N) (hc : 4 ≤ coeffs.size)
    (hfg : 1 + N * 6 ≤ fg.size) (hv : n_vars N ≤ vars.size) :
    ∃ out, FG_eval_double T N dt ref_v coeffs fg vars = Res.ok out ∧ (out.size = fg.size ∧
      entry out 0 = objective_double N ref_v vars ∧ initial_entries_double N vars out ∧
      ∀ t, 1 ≤ t → t < N → step_entries_double T N dt coeffs vars out t) := by
  obtain ⟨hx, hy, hpsi, hvs, hcte, hepsi, hdelta, ha, hnv, -⟩ := layout_eqs N
  unfold FG_eval_double
  -- fg[0] = 0
  refine bind_spec (fun s => s.size = fg.size ∧ entry s 0 = 0) ?_ ?_
  · rw [wr_eq _ (by omega)]
    exact ⟨_, rfl, Array.size_setD _ _ _, entry_setD_eq _ _ _ (by omega)⟩
  rintro fg0 ⟨hs0, he0⟩
  -- first cost loop
  refine bind_spec (fun s => s.size = fg.size ∧ entry s 0 = cost_track N ref_v vars N) ?_ ?_
  · refine forRange_spec (fun k s => s.size = fg.size ∧ entry s 0 = cost_track N ref_v vars k)
      0 N _ fg0 (by omega) ⟨hs0, he0⟩ ?_
    rintro i s - hi ⟨hs, he⟩
    simp (disch := first | omega | (simp only [Array.size_setD]; omega)) only
      [rd_eq, wr_eq, Res.ok_bind]
    refine ⟨_, rfl, ?_, ?_⟩
    · simp only [Array.size_setD, hs]
    · simp (disch := first | omega | (simp only [Array.size_setD]; omega)) only
        [entry_setD_eq, he]
      rfl
  clear hs0 he0
  rintro fg1 ⟨hs1, he1⟩
  -- second cost loop
  refine bind_spec (fun s => s.size = fg.size ∧
      entry s 0 = cost_act N vars (cost_track N ref_v vars N) (N - 1)) ?_ ?_
  · refine forRange_spec (fun k s => s.size = fg.size ∧
        entry s 0 = cost_act N vars (cost_track N ref_v vars N) k)
      0 (N - 1) _ fg1 (by omega) ⟨hs1, he1⟩ ?_
    rintro i s - hi ⟨hs, he⟩
    simp (disch := first | omega | (simp only [Array.size_setD]; omega)) only
      [rd_eq, wr_eq, Res.ok_bind]
    refine ⟨_, rfl, ?_, ?_⟩
    · simp only [Array.size_setD, hs]
    · simp (disch := first | omega | (simp only [Array.size_setD]; omega)) only
        [entry_setD_eq, he]
      rfl
  clear hs1 he1
  rintro fg2 ⟨hs2, he2⟩
  -- third cost loop
  refine bind_spec (fun s => s.size = fg.size ∧ entry s 0 = objective_double N ref_v vars) ?_ ?_
  · refine forRange_spec (fun k s => s.size = fg.size ∧
        entry s 0 = cost_rate N vars (cost_act N vars (cost_track N ref_v vars N) (N - 1)) k)
      0 (N - 2) _ fg2 (by omega) ⟨hs2, he2⟩ ?_
    rintro i s - hi ⟨hs, he⟩
    simp (disch := first | omega | (simp only [Array.size_setD]; omega)) only
      [rd_eq, wr_eq, Res.ok_bind]
    refine ⟨_, rfl, ?_, ?_⟩
    · simp only [Array.size_setD, hs]
    · simp (disch := first | omega | (simp only [Array.size_setD]; omega)) only
        [entry_setD_eq, he]
      rfl
  clear hs2 he2
  rintro fg3 ⟨hs3, he3⟩
  -- the six timestep-0 entries
  simp (disch := first | omega | (simp only [Array.size_setD]; omega)) only
    [rd_eq, wr_eq, Res.ok_bind]
  -- the constraint loop
  refine forRange_spec (fun k s => s.size = fg.size ∧
      entry s 0 = objective_double N ref_v vars ∧ initial_entries_double N vars s ∧
      ∀ t, 1 ≤ t → t < k → step_entries_double T N dt coeffs vars s t) 1 N _ _ (by omega) ?_ ?_
  · refine ⟨?_, ?_, ?_, ?_⟩
    · simp only [Array.size_setD, hs3]
    · simp (disch := omega) only [entry_setD_ne, he3]
    · unfold initial_entries_double
      simp (disch := first | omega | (simp only [Array.size_setD]; omega)) only
        [entry_setD_ne, entry_setD_eq, and_self]
    · intro t h1 h2
      omega
  · rintro i s hi1 hi2 ⟨hs, he, hinit, hstep⟩
    simp (disch := first | omega | (simp only [Array.size_setD]; omega)) only
      [rd_eq, wr_eq, Res.ok_bind]
    refine ⟨_, rfl, ?_, ?_, ?_, ?_⟩
    · simp only [Array.size_setD, hs]
    · simp (disch := omega) only [entry_setD_ne, he]
    · unfold initial_entries_double at hinit ⊢
      simp (disch := omega) only [entry_setD_ne]
      exact hinit
    · intro t h1 h2
      by_cases hti : t = i
      · subst hti
        unfold step_entries_double
        simp (disch := first | omega | (simp only [Array.size_setD]; omega)) only
          [entry_setD_ne, entry_setD_eq, and_self]
      · have hlt : t < i := by omega
        have := hstep t h1 hlt
        unfold step_entries_double at this ⊢
        simp (disch := omega) only [entry_setD_ne]
        exact this

end DoubleRun

/-! ## Rounding -/

section Rounding

theorem log2Bisect_pow_le (q : Nat) :
    ∀ (b acc : Nat), 2 ^ acc ≤ q → 2 ^ F64.log2Bisect q b acc ≤ q
  | 0, _, h => h
  | b + 1, acc, h => by
    unfold F64.log2Bisect
    split
    · exact log2Bisect_pow_le q b _ (by assumption)
    · exact log2Bisect_pow_le q b acc h

/-- The unit `2 ^ excess q` of the binade of `q` does not exceed `q`. -/
theorem excess_pow_le (q : Nat) (hq : 1 ≤ q) : 2 ^ F64.excess q ≤ q := by
  have h := log2Bisect_pow_le q 13 0 (by simpa using hq)
  exact le_trans (Nat.pow_le_pow_right (by norm_num) (Nat.sub_le _ _)) h

theorem excess_zero : F64.excess 0 = 0 := by decide!

theorem rne_ge (n d : Nat) : n / d ≤ F64.rne n d := by
  unfold F64.rne
  split_ifs <;> omega

theorem rne_le (n d : Nat) : F64.rne n d ≤ n / d + 1 := by
  unfold F64.rne
  split_ifs <;> omega

/-- A magnitude rounds to zero exactly when it is at most half the smallest subnormal. -/
theorem roundMag_eq_zero_iff (n d : Nat) (hd : 0 < d) : F64.roundMag n d = 0 ↔ 2 * n ≤ d := by
  unfold F64.roundMag
  by_cases h : n < d
  · rw [Nat.div_eq_of_lt h, excess_zero, pow_zero, mul_one, mul_one]
    unfold F64.rne
    rw [Nat.div_eq_of_lt h, Nat.mod_eq_of_lt h]
    split_ifs
    all_goals first | omega | (rw [false_iff]; omega)
  · have hq : 1 ≤ n / d := (Nat.one_le_div_iff hd).mpr (by omega)
    have hE := excess_pow_le (n / d) hq
    have hpos : 0 < 2 ^ F64.excess (n / d) := pow_pos (by norm_num) _
    have h1 : 1 ≤ n / (d * 2 ^ F64.excess (n / d)) := by
      rw [← Nat.div_div_eq_div_mul]
      exact (Nat.one_le_div_iff hpos).mpr hE
    have h2 := rne_ge n (d * 2 ^ F64.excess (n / d))
    have h3 : 0 < F64.rne n (d * 2 ^ F64.excess (n / d)) * 2 ^ F64.excess (n / d) :=
      Nat.mul_pos (by omega) hpos
    constructor
    · intro h0
      omega
    · intro h0
      omega

theorem overflow_pos : 0 < F64.overflow := by
  unfold F64.overflow
  exact pow_pos (by norm_num) _

theorem unit_pos : 0 < F64.unit := by
  unfold F64.unit
  exact pow_pos (by norm_num) _

/-- A rounded value is zero exactly when its magnitude rounds to zero. -/
theorem round_eq_zero_iff (p : Int) (d : Nat) :
    F64.round p d = 0 ↔ F64.roundMag p.natAbs d = 0 := by
  have ho := overflow_pos
  show F64.round p d = F64.fin 0 ↔ _
  unfold F64.round
  split_ifs with h1 h2
  · rw [F64.fin.injEq]
    omega
  · rw [F64.fin.injEq]
    omega
  · constructor
    · intro h
      cases h
    · intro h
      omega

/-- Rounding an integer gives zero only for zero. -/
theorem round_int_eq_zero (p : Int) : F64.round p 1 = 0 ↔ p = 0 := by
  rw [round_eq_zero_iff, roundMag_eq_zero_iff _ _ (by norm_num)]
  omega

theorem round_notNeg (p : Int) (d : Nat) (hp : 0 ≤ p) : F64.NotNeg (F64.round p d) := by
  unfold F64.round
  split_ifs with h1 h2
  · omega
  · show (0 : Int) ≤ _
    omega
  · trivial

/-- In doubles a difference is zero only if the two values are equal (and finite). -/
theorem sub_eq_zero_iff (x y : F64) : x - y = 0 ↔ (x = y ∧ x ≠ F64.nonfinite) := by
  cases x with
  | nonfinite =>
    constructor
    · intro h
      cases h
    · intro h
      exact absurd rfl h.2
  | fin a =>
    cases y with
    | nonfinite =>
      constructor
      · intro h
        cases h
      · intro h
        cases h.1
    | fin b =>
      show F64.round (a - b) 1 = 0 ↔ _
      rw [round_int_eq_zero, F64.fin.injEq]
      constructor
      · intro h
        exact ⟨by omega, fun h2 => by cases h2⟩
      · intro h
        omega

theorem add_notNeg (x y : F64) (hx : F64.NotNeg x) (hy : F64.NotNeg y) :
    F64.NotNeg (x + y) := by
  cases x with
  | nonfinite => trivial
  | fin a =>
    cases y with
    | nonfinite => trivial
    | fin b =>
      have ha : (0 : Int) ≤ a := hx
      have hb : (0 : Int) ≤ b := hy
      exact round_notNeg (a + b) 1 (by omega)

/-- A sum of two values that are not negative is zero only if both are zero. -/
theorem add_eq_zero_iff (x y : F64) (hx : F64.NotNeg x) (hy : F64.NotNeg y) :
    x + y = 0 ↔ (x = 0 ∧ y = 0) := by
  cases x with
  | nonfinite =>
    constructor
    · intro h
      cases h
    · intro h
      cases h.1
  | fin a =>
    cases y with
    | nonfinite =>
      constructor
      · intro h
        cases h
      · intro h
        cases h.2
    | fin b =>
      have ha : (0 : Int) ≤ a := hx
      have hb : (0 : Int) ≤ b := hy
      show F64.round (a + b) 1 = 0 ↔ (F64.fin a = F64.fin 0 ∧ F64.fin b = F64.fin 0)
      rw [round_int_eq_zero, F64.fin.injEq, F64.fin.injEq]
      omega

theorem pow_two_eq (x : F64) : x ^ 2 = x * x := rfl

theorem sq_notNeg (x : F64) : F64.NotNeg (x ^ 2) := by
  rw [pow_two_eq]
  cases x with
  | nonfinite => trivial
  | fin a => exact round_notNeg (a * a) F64.unit (mul_self_nonneg a)

/-- The square of a finite double rounds to zero exactly when it is at most `2^-1075`, half
the smallest subnormal: in units of `2^-1074`, when `2 * k * k ≤ 2^1074`. -/
theorem sq_eq_zero_iff (k : Int) : (F64.fin k) ^ 2 = 0 ↔ 2 * (k * k) ≤ (F64.unit : Int) := by
  rw [pow_two_eq]
  show F64.round (k * k) F64.unit = 0 ↔ _
  rw [round_eq_zero_iff, roundMag_eq_zero_iff _ _ unit_pos]
  have h : ((k * k).natAbs : Int) = k * k := Int.natAbs_of_nonneg (mul_self_nonneg k)
  omega

end Rounding

/-! ## Rounding errors and exact results -/

section RoundingErrors

/-- The nearest integer to `n / d` is within half a unit of it. -/
theorem rne_err (n d : Nat) (hd : 0 < d) :
    2 * (F64.rne n d * d) ≤ 2 * n + d ∧ 2 * n ≤ 2 * (F64.rne n d * d) + d := by
  have h := Nat.div_add_mod n d
  have hr := Nat.mod_lt n hd
  have e1 : (n / d + 1) * d = d * (n / d) + d := by ring
  have e2 : n / d * d = d * (n / d) := by ring
  unfold F64.rne
  split_ifs
  all_goals first
    | (rw [e1]; generalize d * (n / d) = Q at h ⊢; omega)
    | (rw [e2]; generalize d * (n / d) = Q at h ⊢; omega)

/-- Above 53 bits the unit of the binade is at most `2^-52` times the value. -/
theorem excess_pos_pow (q : Nat) (h : 0 < F64.excess q) : 2 ^ (F64.excess q + 52) ≤ q := by
  have hq : 1 ≤ q := by
    by_contra hq0
    have : q = 0 := by omega
    rw [this, excess_zero] at h
    omega
  have hL := log2Bisect_pow_le q 13 0 (by simpa using hq)
  unfold F64.excess at h ⊢
  have e : F64.log2Bisect q 13 0 - 52 + 52 = F64.log2Bisect q 13 0 := by omega
  rw [e]
  exact hL

/-- The rounded magnitude is within half a unit `2 ^ e` of the binade of `n / d`; either the unit
is `1` (a 53-bit or smaller quotient), or `2 ^ (e + 52)` does not exceed the quotient. -/
theorem roundMag_err (n d : Nat) (hd : 0 < d) :
    ∃ e : Nat, (e = 0 ∨ 2 ^ (e + 52) * d ≤ n) ∧
      2 * (F64.roundMag n d * d) ≤ 2 * n + d * 2 ^ e ∧
      2 * n ≤ 2 * (F64.roundMag n d * d) + d * 2 ^ e := by
  refine ⟨F64.excess (n / d), ?_, ?_⟩
  · by_cases h0 : F64.excess (n / d) = 0
    · exact Or.inl h0
    · right
      have h1 := excess_pos_pow (n / d) (by omega)
      calc 2 ^ (F64.excess (n / d) + 52) * d ≤ n / d * d := Nat.mul_le_mul_right d h1
        _ ≤ n := Nat.div_mul_le_self n d
  · have hpos : 0 < d * 2 ^ F64.excess (n / d) := Nat.mul_pos hd (pow_pos (by norm_num) _)
    have h := rne_err n (d * 2 ^ F64.excess (n / d)) hpos
    have e : F64.roundMag n d * d
        = F64.rne n (d * 2 ^ F64.excess (n / d)) * (d * 2 ^ F64.excess (n / d)) := by
      unfold F64.roundMag
      ring
    rw [e]
    exact h

/-- Rounding an integer (a sum or a difference of doubles) changes it by at most `2^-53` times
its magnitude. -/
theorem roundMag_int_err (n : Nat) :
    2 ^ 53 * F64.roundMag n 1 ≤ 2 ^ 53 * n + n ∧ 2 ^ 53 * n ≤ 2 ^ 53 * F64.roundMag n 1 + n := by
  obtain ⟨e, he, h1, h2⟩ := roundMag_err n 1 (by norm_num)
  rw [mul_one, one_mul] at h1 h2
  rcases he with he | he
  · subst he
    rw [pow_zero] at h1 h2
    omega
  · rw [mul_one, pow_add] at he
    generalize 2 ^ e = P at he h1 h2
    omega

/-- A finite rounded value is the rounded magnitude with the sign of the exact value. -/
theorem round_eq_fin (p : Int) (d : Nat) (r : Int) (h : F64.round p d = F64.fin r) :
    F64.roundMag p.natAbs d < F64.overflow ∧
      r = (if p < 0 then -(F64.roundMag p.natAbs d : Int) else (F64.roundMag p.natAbs d : Int)) := by
  unfold F64.round at h
  split_ifs at h with h1 h2
  · rw [F64.fin.injEq] at h
    exact ⟨h1, by rw [if_pos h2]; exact h.symm⟩
  · rw [F64.fin.injEq] at h
    exact ⟨h1, by rw [if_neg h2]; exact h.symm⟩

theorem round_of_lt (p : Int) (d : Nat) (h : F64.roundMag p.natAbs d < F64.overflow) :
    F64.round p d
      = F64.fin (if p < 0 then -(F64.roundMag p.natAbs d : Int) else (F64.roundMag p.natAbs d : Int)) := by
  unfold F64.round
  rw [if_pos h]
  split_ifs <;> rfl

/-- The rounding error of an addition: at most `2^-53` times the magnitude of the exact sum. -/
theorem add_err (a b r : Int) (h : F64.fin a + F64.fin b = F64.fin r) :
    2 ^ 53 * |r - (a + b)| ≤ |a + b| := by
  have h2 := (round_eq_fin (a + b) 1 r h).2
  have h3 := roundMag_int_err (a + b).natAbs
  generalize F64.roundMag (a + b).natAbs 1 = M at h2 h3
  split_ifs at h2 with hs
  · rw [abs_of_neg hs]
    rcases abs_cases (r - (a + b)) with ⟨e, -⟩ | ⟨e, -⟩ <;> rw [e] <;> omega
  · rw [abs_of_nonneg (by omega : (0 : Int) ≤ a + b)]
    rcases abs_cases (r - (a + b)) with ⟨e, -⟩ | ⟨e, -⟩ <;> rw [e] <;> omega

/-- The rounding error of a subtraction. -/
theorem sub_err (a b r : Int) (h : F64.fin a - F64.fin b = F64.fin r) :
    2 ^ 53 * |r - (a - b)| ≤ |a - b| := by
  have h2 := (round_eq_fin (a - b) 1 r h).2
  have h3 := roundMag_int_err (a - b).natAbs
  generalize F64.roundMag (a - b).natAbs 1 = M at h2 h3
  split_ifs at h2 with hs
  · rw [abs_of_neg hs]
    rcases abs_cases (r - (a - b)) with ⟨e, -⟩ | ⟨e, -⟩ <;> rw [e] <;> omega
  · rw [abs_of_nonneg (by omega : (0 : Int) ≤ a - b)]
    rcases abs_cases (r - (a - b)) with ⟨e, -⟩ | ⟨e, -⟩ <;> rw [e] <;> omega

end RoundingErrors

/-! ## Products, and results that are exact -/

section Exact

theorem unit_eq : F64.unit = 2 ^ 1074 := by
  unfold F64.unit
  rfl

theorem overflow_eq : F64.overflow = 2 ^ 2098 := by
  unfold F64.overflow
  rfl

/-- The product of a factor of magnitude at most `1` with a factor `0 ≤ d` has, after
rounding, magnitude at most `d * (1 + 2^-53)`. -/
theorem mul_le_bound (a d s : Int) (ha : |a| ≤ (F64.unit : Int)) (hd0 : 0 ≤ d)
    (h : F64.fin a * F64.fin d = F64.fin s) :
    2 ^ 53 * |s| ≤ 2 ^ 53 * d + d := by
  have hU := unit_pos
  rw [Int.abs_eq_natAbs] at ha
  have h2 := (round_eq_fin (a * d) F64.unit s h).2
  obtain ⟨e, he, h1, -⟩ := roundMag_err (a * d).natAbs F64.unit hU
  have hn : (a * d).natAbs ≤ F64.unit * d.natAbs := by
    rw [Int.natAbs_mul]
    exact Nat.mul_le_mul_right _ (by omega)
  generalize F64.roundMag (a * d).natAbs F64.unit = M at h2 h1
  generalize (a * d).natAbs = n at he h1 hn
  have hM : 2 ^ 53 * M ≤ 2 ^ 53 * d.natAbs + d.natAbs := by
    have h3 : F64.unit * (2 * M) ≤ F64.unit * (2 * d.natAbs + 2 ^ e) := by
      have e1 : F64.unit * (2 * M) = 2 * (M * F64.unit) := by ring
      have e2 : F64.unit * (2 * d.natAbs + 2 ^ e)
          = 2 * (F64.unit * d.natAbs) + F64.unit * 2 ^ e := by ring
      rw [e1, e2]
      omega
    have h4 : 2 * M ≤ 2 * d.natAbs + 2 ^ e := Nat.le_of_mul_le_mul_left h3 hU
    rcases he with he | he
    · subst he
      rw [pow_zero] at h4
      omega
    · have h5 : 2 ^ (e + 52) * F64.unit ≤ d.natAbs * F64.unit := by
        rw [Nat.mul_comm d.natAbs]
        exact le_trans he hn
      have h6 : 2 ^ (e + 52) ≤ d.natAbs := Nat.le_of_mul_le_mul_right h5 hU
      rw [pow_add] at h6
      generalize 2 ^ e = P at h4 h6
      omega
  have hs : |s| = (M : Int) := by
    rw [h2]
    split_ifs
    · rw [abs_neg]
      exact abs_of_nonneg (by omega)
    · exact abs_of_nonneg (by omega)
  rw [hs]
  omega

/-- A magnitude whose binade unit divides it is not changed by rounding. -/
theorem roundMag_of_dvd (n : Nat) (h : 2 ^ F64.excess n ∣ n) : F64.roundMag n 1 = n := by
  unfold F64.roundMag
  rw [Nat.div_one, one_mul]
  unfold F64.rne
  rw [Nat.mod_eq_zero_of_dvd h, if_pos (by
    have : 0 < 2 ^ F64.excess n := pow_pos (by norm_num) _
    omega)]
  exact Nat.div_mul_cancel h

theorem excess_le_of_lt (n k : Nat) (h : n < 2 ^ (k + 53)) : F64.excess n ≤ k := by
  by_contra hc
  have h1 := excess_pos_pow n (by omega)
  have h2 : 2 ^ (F64.excess n + 52) < 2 ^ (k + 53) := lt_of_le_of_lt h1 h
  have h3 := (Nat.pow_lt_pow_iff_right (by norm_num : 1 < 2)).mp h2
  omega

theorem unit_mul_pow : 2 ^ 53 * F64.unit = 2 ^ (1074 + 53) := by
  rw [unit_eq, Nat.mul_comm]
  exact (pow_add 2 1074 53).symm

theorem pow_dvd_unit (e : Nat) (h : e ≤ 1074) : 2 ^ e ∣ F64.unit := by
  refine ⟨2 ^ (1074 - e), ?_⟩
  rw [unit_eq, ← pow_add]
  congr 1
  omega

theorem pow_le_overflow : 2 ^ (1074 + 53) ≤ F64.overflow := by
  have e : F64.overflow = 2 ^ (1074 + 53) * 2 ^ 971 := by
    rw [overflow_eq, ← pow_add]
  rw [e]
  exact Nat.le_mul_of_pos_right _ (pow_pos (by norm_num) _)

/-- An integer of magnitude below `2^53` is a double. -/
theorem round_unit_mul (z : Int) (h : z.natAbs < 2 ^ 53) :
    F64.round (z * (F64.unit : Int)) 1 = F64.fin (z * (F64.unit : Int)) := by
  have hn : (z * (F64.unit : Int)).natAbs = z.natAbs * F64.unit := by
    rw [Int.natAbs_mul, Int.natAbs_ofNat]
  have hlt : z.natAbs * F64.unit < 2 ^ (1074 + 53) := by
    rw [← unit_mul_pow]
    exact Nat.mul_lt_mul_of_pos_right h unit_pos
  have hE := excess_le_of_lt _ _ hlt
  have hdvd : 2 ^ F64.excess (z.natAbs * F64.unit) ∣ z.natAbs * F64.unit := by
    exact Dvd.dvd.mul_left (pow_dvd_unit _ hE) _
  have hr := roundMag_of_dvd _ hdvd
  have ho : z.natAbs * F64.unit < F64.overflow := by
    exact lt_of_lt_of_le hlt pow_le_overflow
  rw [round_of_lt _ _ (by rw [hn, hr]; exact ho), hn, hr]
  congr 1
  generalize z * (F64.unit : Int) = p at hn
  split_ifs <;> omega

/-- The conversion of an integer below `2^53` is exact. -/
theorem natCast_eq (n : Nat) (h : n < 2 ^ 53) :
    ((n : Nat) : F64) = F64.fin ((n : Int) * (F64.unit : Int)) := by
  show F64.round ((n * F64.unit : Nat) : Int) 1 = _
  rw [Nat.cast_mul]
  exact round_unit_mul n (by simpa using h)

/-- The sum of two integers is exact as long as it stays below `2^53`. -/
theorem add_unit_mul (a b : Int) (h : (a + b).natAbs < 2 ^ 53) :
    F64.fin (a * (F64.unit : Int)) + F64.fin (b * (F64.unit : Int))
      = F64.fin ((a + b) * (F64.unit : Int)) := by
  show F64.round (a * (F64.unit : Int) + b * (F64.unit : Int)) 1 = _
  rw [← add_mul]
  exact round_unit_mul _ h

theorem rne_scale (n m d : Nat) (hd : 0 < d) : F64.rne (n * d) (m * d) = F64.rne n m := by
  have c1 : (2 * (n % m * d) < m * d) = (2 * (n % m) < m) := by
    rw [← Nat.mul_assoc]
    exact propext (Nat.mul_lt_mul_right hd)
  have c2 : (m * d < 2 * (n % m * d)) = (m < 2 * (n % m)) := by
    rw [← Nat.mul_assoc]
    exact propext (Nat.mul_lt_mul_right hd)
  unfold F64.rne
  simp only [Nat.mul_div_mul_right n m hd, Nat.mul_mod_mul_right, c1, c2]

theorem roundMag_scale (n d : Nat) (hd : 0 < d) : F64.roundMag (n * d) d = F64.roundMag n 1 := by
  unfold F64.roundMag
  rw [Nat.mul_div_cancel n hd, Nat.div_one, one_mul, Nat.mul_comm d, rne_scale _ _ _ hd]

/-- Rounding `p * d / d` is rounding `p`. -/
theorem round_scale (p : Int) (d : Nat) (hd : 0 < d) :
    F64.round (p * (d : Int)) d = F64.round p 1 := by
  have hn : (p * (d : Int)).natAbs = p.natAbs * d := by
    rw [Int.natAbs_mul, Int.natAbs_ofNat]
  have hs : (p * (d : Int) < 0) = (p < 0) := by
    apply propext
    constructor
    · intro h
      by_contra hp
      have : 0 ≤ p * (d : Int) := mul_nonneg (by omega) (by omega)
      omega
    · intro h
      exact mul_neg_of_neg_of_pos h (by exact_mod_cast hd)
  unfold F64.round
  simp only [hn, roundMag_scale _ _ hd, hs]

/-- The product of two integers is exact as long as it stays below `2^53`. -/
theorem mul_unit_mul (a b : Int) (h : (a * b).natAbs < 2 ^ 53) :
    F64.fin (a * (F64.unit : Int)) * F64.fin (b * (F64.unit : Int))
      = F64.fin (a * b * (F64.unit : Int)) := by
  show F64.round (a * (F64.unit : Int) * (b * (F64.unit : Int))) F64.unit = _
  have e : a * (F64.unit : Int) * (b * (F64.unit : Int))
      = a * b * (F64.unit : Int) * (F64.unit : Int) := by ring
  rw [e, round_scale _ _ unit_pos]
  exact round_unit_mul _ h

theorem round_zero (d : Nat) (hd : 0 < d) : F64.round 0 d = 0 := by
  rw [round_eq_zero_iff, roundMag_eq_zero_iff _ _ hd]
  simp

theorem zero_mul_fin (k : Int) : (0 : F64) * F64.fin k = 0 := by
  show F64.round (0 * k) F64.unit = 0
  rw [zero_mul]
  exact round_zero _ unit_pos

theorem fin_mul_zero (k : Int) : F64.fin k * (0 : F64) = 0 := by
  show F64.round (k * 0) F64.unit = 0
  rw [mul_zero]
  exact round_zero _ unit_pos

theorem fin_add_zero (k : Int) : F64.fin k + (0 : F64) = F64.round k 1 := by
  show F64.round (k + 0) 1 = _
  rw [add_zero]

end Exact

/-! ## The objective in double arithmetic -/

section ObjectiveDouble

theorem ofNat_eq (n : Nat) [n.AtLeastTwo] (h : n < 2 ^ 53) :
    (OfNat.ofNat n : F64) = F64.fin ((n : Int) * (F64.unit : Int)) :=
  natCast_eq n h

theorem notNeg_zero : F64.NotNeg 0 := le_refl (0 : Int)

theorem scale_notNeg (c : Nat) (s : F64) (hs : F64.NotNeg s) :
    F64.NotNeg (F64.fin ((c : Int) * (F64.unit : Int)) * s) := by
  cases s with
  | nonfinite => trivial
  | fin k =>
    have hk : (0 : Int) ≤ k := hs
    exact round_notNeg _ _ (mul_nonneg (mul_nonneg (by omega) (by omega)) hk)

/-- Multiplying by a weight `c ≥ 1` does not take a nonzero value to zero. -/
theorem scale_eq_zero_iff (c : Nat) (hc : 1 ≤ c) (s : F64) (hs : F64.NotNeg s) :
    F64.fin ((c : Int) * (F64.unit : Int)) * s = 0 ↔ s = 0 := by
  cases s with
  | nonfinite =>
    constructor
    · intro h
      cases h
    · intro h
      cases h
  | fin k =>
    have hk : (0 : Int) ≤ k := hs
    have hU := unit_pos
    show F64.round ((c : Int) * (F64.unit : Int) * k) F64.unit = 0 ↔ F64.fin k = F64.fin 0
    rw [round_eq_zero_iff, roundMag_eq_zero_iff _ _ hU, F64.fin.injEq]
    have e : ((c : Int) * (F64.unit : Int) * k).natAbs = c * k.natAbs * F64.unit := by
      rw [Int.natAbs_mul, Int.natAbs_mul, Int.natAbs_ofNat, Int.natAbs_ofNat]
      ring
    rw [e]
    constructor
    · intro h
      by_contra hk0
      have h1 : 1 ≤ k.natAbs := by omega
      have h2 : 1 * 1 ≤ c * k.natAbs := Nat.mul_le_mul hc h1
      have h3 : 1 * F64.unit ≤ c * k.natAbs * F64.unit := Nat.mul_le_mul_right _ (by omega)
      omega
    · intro h
      subst h
      simp

/-- A weighted square is not negative. -/
theorem weighted_sq_notNeg (n : Nat) [n.AtLeastTwo] (h : n < 2 ^ 53) (x : F64) :
    F64.NotNeg ((OfNat.ofNat n : F64) * x ^ 2) := by
  rw [ofNat_eq n h]
  exact scale_notNeg n _ (sq_notNeg x)

/-- A weighted square is zero exactly when the rounded square is. -/
theorem weighted_sq_eq_zero_iff (n : Nat) [n.AtLeastTwo] (h : n < 2 ^ 53) (x : F64) :
    (OfNat.ofNat n : F64) * x ^ 2 = 0 ↔ x ^ 2 = 0 := by
  rw [ofNat_eq n h]
  exact scale_eq_zero_iff n (by have := Nat.AtLeastTwo.prop (n := n); omega) _ (sq_notNeg x)

theorem cost_track_notNeg (N : Nat) (ref_v : F64) (vars : Array F64) :
    ∀ k, F64.NotNeg (cost_track N ref_v vars k)
  | 0 => notNeg_zero
  | k + 1 => by
    unfold cost_track
    exact add_notNeg _ _ (add_notNeg _ _ (add_notNeg _ _ (cost_track_notNeg N ref_v vars k)
      (weighted_sq_notNeg 3000 (by norm_num) _)) (weighted_sq_notNeg 2000 (by norm_num) _))
      (sq_notNeg _)

theorem cost_track_eq_zero_iff (N : Nat) (ref_v : F64) (vars : Array F64) :
    ∀ k, cost_track N ref_v vars k = 0 ↔ ∀ t, t < k →
      (entry vars (cte_start N + t) ^ 2 = 0 ∧ entry vars (epsi_start N + t) ^ 2 = 0 ∧
        (entry vars (v_start N + t) - ref_v) ^ 2 = 0)
  | 0 => ⟨fun _ t ht => by omega, fun _ => rfl⟩
  | k + 1 => by
    have ih := cost_track_eq_zero_iff N ref_v vars k
    have n0 := cost_track_notNeg N ref_v vars k
    have n1 := weighted_sq_notNeg 3000 (by norm_num) (entry vars (cte_start N + k))
    have n2 := weighted_sq_notNeg 2000 (by norm_num) (entry vars (epsi_start N + k))
    have n3 := sq_notNeg (entry vars (v_start N + k) - ref_v)
    unfold cost_track
    rw [add_eq_zero_iff _ _ (add_notNeg _ _ (add_notNeg _ _ n0 n1) n2) n3,
      add_eq_zero_iff _ _ (add_notNeg _ _ n0 n1) n2, add_eq_zero_iff _ _ n0 n1, ih,
      weighted_sq_eq_zero_iff 3000 (by norm_num), weighted_sq_eq_zero_iff 2000 (by norm_num)]
    constructor
    · rintro ⟨⟨⟨h0, h1⟩, h2⟩, h3⟩ t ht
      by_cases e : t = k
      · subst e
        exact ⟨h1, h2, h3⟩
      · exact h0 t (by omega)
    · intro h
      exact ⟨⟨⟨fun t ht => h t (by omega), (h k (by omega)).1⟩, (h k (by omega)).2.1⟩,
        (h k (by omega)).2.2⟩

theorem cost_act_notNeg (N : Nat) (vars : Array F64) (base : F64) (hb : F64.NotNeg base) :
    ∀ k, F64.NotNeg (cost_act N vars base k)
  | 0 => hb
  | k + 1 => by
    unfold cost_act
    exact add_notNeg _ _ (add_notNeg _ _ (cost_act_notNeg N vars base hb k)
      (weighted_sq_notNeg 5 (by norm_num) _)) (weighted_sq_notNeg 5 (by norm_num) _)

theorem cost_act_eq_zero_iff (N : Nat) (vars : Array F64) (base : F64) (hb : F64.NotNeg base) :
    ∀ k, cost_act N vars base k = 0 ↔ (base = 0 ∧ ∀ t, t < k →
      (entry vars (delta_start N + t) ^ 2 = 0 ∧ entry vars (a_start N + t) ^ 2 = 0))
  | 0 => ⟨fun h => ⟨h, fun t ht => by omega⟩, fun h => h.1⟩
  | k + 1 => by
    have ih := cost_act_eq_zero_iff N vars base hb k
    have n0 := cost_act_notNeg N vars base hb k
    have n1 := weighted_sq_notNeg 5 (by norm_num) (entry vars (delta_start N + k))
    have n2 := weighted_sq_notNeg 5 (by norm_num) (entry vars (a_start N + k))
    unfold cost_act
    rw [add_eq_zero_iff _ _ (add_notNeg _ _ n0 n1) n2, add_eq_zero_iff _ _ n0 n1, ih,
      weighted_sq_eq_zero_iff 5 (by norm_num), weighted_sq_eq_zero_iff 5 (by norm_num)]
    constructor
    · rintro ⟨⟨⟨hb0, h0⟩, h1⟩, h2⟩
      refine ⟨hb0, fun t ht => ?_⟩
      by_cases e : t = k
      · subst e
        exact ⟨h1, h2⟩
      · exact h0 t (by omega)
    · rintro ⟨hb0, h⟩
      exact ⟨⟨⟨hb0, fun t ht => h t (by omega)⟩, (h k (by omega)).1⟩, (h k (by omega)).2⟩

theorem cost_rate_notNeg (N : Nat) (vars : Array F64) (base : F64) (hb : F64.NotNeg base) :
    ∀ k, F64.NotNeg (cost_rate N vars base k)
  | 0 => hb
  | k + 1 => by
    unfold cost_rate
    exact add_notNeg _ _ (add_notNeg _ _ (cost_rate_notNeg N vars base hb k)
      (weighted_sq_notNeg 200 (by norm_num) _)) (weighted_sq_notNeg 10 (by norm_num) _)

theorem cost_rate_eq_zero_iff (N : Nat) (vars : Array F64) (base : F64) (hb : F64.NotNeg base) :
    ∀ k, cost_rate N vars base k = 0 ↔ (base = 0 ∧ ∀ t, t < k →
      ((entry vars (delta_start N + t + 1) - entry vars (delta_start N + t)) ^ 2 = 0 ∧
        (entry vars (a_start N + t + 1) - entry vars (a_start N + t)) ^ 2 = 0))
  | 0 => ⟨fun h => ⟨h, fun t ht => by omega⟩, fun h => h.1⟩
  | k + 1 => by
    have ih := cost_rate_eq_zero_iff N vars base hb k
    have n0 := cost_rate_notNeg N vars base hb k
    have n1 := weighted_sq_notNeg 200 (by norm_num)
      (entry vars (delta_start N + k + 1) - entry vars (delta_start N + k))
    have n2 := weighted_sq_notNeg 10 (by norm_num)
      (entry vars (a_start N + k + 1) - entry vars (a_start N + k))
    unfold cost_rate
    rw [add_eq_zero_iff _ _ (add_notNeg _ _ n0 n1) n2, add_eq_zero_iff _ _ n0 n1, ih,
      weighted_sq_eq_zero_iff 200 (by norm_num), weighted_sq_eq_zero_iff 10 (by norm_num)]
    constructor
    · rintro ⟨⟨⟨hb0, h0⟩, h1⟩, h2⟩
      refine ⟨hb0, fun t ht => ?_⟩
      by_cases e : t = k
      · subst e
        exact ⟨h1, h2⟩
      · exact h0 t (by omega)
    · rintro ⟨hb0, h⟩
      exact ⟨⟨⟨hb0, fun t ht => h t (by omega)⟩, (h k (by omega)).1⟩, (h k (by omega)).2⟩

/-- The objective in double arithmetic is a finite value `≥ 0` or not finite. -/
theorem objective_double_notNeg (N : Nat) (ref_v : F64) (vars : Array F64) :
    F64.NotNeg (objective_double N ref_v vars) :=
  cost_rate_notNeg N vars _ (cost_act_notNeg N vars _ (cost_track_notNeg N ref_v vars N) _) _

/-- The objective in double arithmetic is zero exactly when every squared term rounds to
zero. -/
theorem objective_double_eq_zero_iff (N : Nat) (ref_v : F64) (vars : Array F64) :
    objective_double N ref_v vars = 0 ↔
      ((∀ t, t < N → (entry vars (cte_start N + t) ^ 2 = 0 ∧
          entry vars (epsi_start N + t) ^ 2 = 0 ∧
          (entry vars (v_start N + t) - ref_v) ^ 2 = 0)) ∧
        (∀ t, t < N - 1 → (entry vars (delta_start N + t) ^ 2 = 0 ∧
          entry vars (a_start N + t) ^ 2 = 0)) ∧
        ∀ t, t < N - 2 →
          ((entry vars (delta_start N + t + 1) - entry vars (delta_start N + t)) ^ 2 = 0 ∧
            (entry vars (a_start N + t + 1) - entry vars (a_start N + t)) ^ 2 = 0)) := by
  unfold objective_double
  rw [cost_rate_eq_zero_iff N vars _
      (cost_act_notNeg N vars _ (cost_track_notNeg N ref_v vars N) _),
    cost_act_eq_zero_iff N vars _ (cost_track_notNeg N ref_v vars N),
    cost_track_eq_zero_iff]
  constructor
  · rintro ⟨⟨h1, h2⟩, h3⟩
    exact ⟨h1, h2, h3⟩
  · rintro ⟨h1, h2, h3⟩
    exact ⟨⟨h1, h2⟩, h3⟩

/-- The objective reads only the `cte`, `epsi`, `v`, `delta` and `a` entries. -/
theorem objective_double_congr (N : Nat) (ref_v : F64) (vars vars2 : Array F64)
    (h : ∀ i, 3 * N ≤ i → i < n_vars N → entry vars2 i = entry vars i) (hN : 2 ≤ N) :
    objective_double N ref_v vars2 = objective_double N ref_v vars := by
  obtain ⟨hx, hy, hpsi, hvs, hcte, hepsi, hdelta, ha, hnv, -⟩ := layout_eqs N
  have t1 : ∀ k, k ≤ N → cost_track N ref_v vars2 k = cost_track N ref_v vars k := by
    intro k
    induction k with
    | zero => intro _; rfl
    | succ k ih =>
      intro hk
      unfold cost_track
      rw [ih (by omega), h (cte_start N + k) (by omega) (by omega),
        h (epsi_start N + k) (by omega) (by omega), h (v_start N + k) (by omega) (by omega)]
  have t2 : ∀ base k, k ≤ N - 1 → cost_act N vars2 base k = cost_act N vars base k := by
    intro base k
    induction k with
    | zero => intro _; rfl
    | succ k ih =>
      intro hk
      unfold cost_act
      rw [ih (by omega), h (delta_start N + k) (by omega) (by omega),
        h (a_start N + k) (by omega) (by omega)]
  have t3 : ∀ base k, k ≤ N - 2 → cost_rate N vars2 base k = cost_rate N vars base k := by
    intro base k
    induction k with
    | zero => intro _; rfl
    | succ k ih =>
      intro hk
      unfold cost_rate
      rw [ih (by omega), h (delta_start N + k) (by omega) (by omega),
        h (a_start N + k) (by omega) (by omega), h (delta_start N + k + 1) (by omega) (by omega),
        h (a_start N + k + 1) (by omega) (by omega)]
  unfold objective_double
  rw [t3 _ _ (le_refl _), t2 _ _ (le_refl _), t1 _ (le_refl _)]

end ObjectiveDouble

/-! ## The bounds in double arithmetic -/

section SolverDouble

/-- A loop assigning `a` to `lb[i]` and `b` to `ub[i]` for `lo ≤ i < hi`, for any type of
entries. -/
theorem fill_pair_run {K : Type} [Zero K] (lo hi : Nat) (a b : K) (lb ub : Array K)
    (hle : lo ≤ hi) (h1 : hi ≤ lb.size) (h2 : hi ≤ ub.size) :
    ∃ r, forRange lo hi (fun i (p : Array K × Array K) => do
        let l ← wr p.1 i a
        let u ← wr p.2 i b
        pure (l, u)) (lb, ub) = Res.ok r ∧
      (r.1.size = lb.size ∧ r.2.size = ub.size ∧
        (∀ j, lo ≤ j → j < hi → entry r.1 j = a ∧ entry r.2 j = b) ∧
        ∀ j, (j < lo ∨ hi ≤ j) → entry r.1 j = entry lb j ∧ entry r.2 j = entry ub j) := by
  refine forRange_spec (fun k r => r.1.size = lb.size ∧ r.2.size = ub.size ∧
        (∀ j, lo ≤ j → j < k → entry r.1 j = a ∧ entry r.2 j = b) ∧
        ∀ j, (j < lo ∨ k ≤ j) → entry r.1 j = entry lb j ∧ entry r.2 j = entry ub j)
    lo hi _ (lb, ub) hle ⟨rfl, rfl, fun j h1 h2 => by omega, fun j _ => ⟨rfl, rfl⟩⟩ ?_
  rintro i ⟨l, u⟩ hi1 hi2 ⟨hs1, hs2, hin, hout⟩
  simp only at hs1 hs2 hin hout
  simp (disch := omega) only [wr_eq, Res.ok_bind, Res.pure_eq]
  refine ⟨_, rfl, ?_, ?_, ?_, ?_⟩
  · simp only [Array.size_setD, hs1]
  · simp only [Array.size_setD, hs2]
  · intro j hj1 hj2
    by_cases hji : j = i
    · subst hji
      exact ⟨entry_setD_eq _ _ _ (by omega), entry_setD_eq _ _ _ (by omega)⟩
    · rw [entry_setD_ne _ _ _ hji, entry_setD_ne _ _ _ hji]
      exact hin j hj1 (by omega)
  · intro j hj
    have hji : j ≠ i := by omega
    rw [entry_setD_ne _ _ _ hji, entry_setD_ne _ _ _ hji]
    exact hout j (by omega)

/-- A loop assigning `a` to `v[i]` for `lo ≤ i < hi`, for any type of entries. -/
theorem fill_run {K : Type} [Zero K] (lo hi : Nat) (a : K) (v : Array K) (hle : lo ≤ hi)
    (h1 : hi ≤ v.size) :
    ∃ r, forRange lo hi (fun i v => wr v i a) v = Res.ok r ∧
      (r.size = v.size ∧ (∀ j, lo ≤ j → j < hi → entry r j = a) ∧
        ∀ j, (j < lo ∨ hi ≤ j) → entry r j = entry v j) := by
  refine forRange_spec (fun k r => r.size = v.size ∧ (∀ j, lo ≤ j → j < k → entry r j = a) ∧
        ∀ j, (j < lo ∨ k ≤ j) → entry r j = entry v j)
    lo hi _ v hle ⟨rfl, fun j h1 h2 => by omega, fun j _ => rfl⟩ ?_
  rintro i s hi1 hi2 ⟨hs1, hin, hout⟩
  simp (disch := omega) only [wr_eq]
  refine ⟨_, rfl, ?_, ?_, ?_⟩
  · simp only [Array.size_setD, hs1]
  · intro j hj1 hj2
    by_cases hji : j = i
    · subst hji
      exact entry_setD_eq _ _ _ (by omega)
    · rw [entry_setD_ne _ _ _ hji]
      exact hin j hj1 (by omega)
  · intro j hj
    have hji : j ≠ i := by omega
    rw [entry_setD_ne _ _ _ hji]
    exact hout j (by omega)

/-- Lines 141-234 in double arithmetic succeed for every state with six entries, and build the
problem described by `Built_double`. -/
theorem Solve_problem_double_run (T : Trig F64) (N : Nat) (dt ref_v junk : F64)
    (state coeffs : Array F64) (hN : 1 ≤ N) (hst : 6 ≤ state.size) :
    ∃ p, Solve_problem_double T N dt ref_v junk state coeffs = Res.ok p ∧
      Built_double T N dt ref_v state coeffs p := by
  obtain ⟨hx, hy, hpsi, hvs, hcte, hepsi, hdelta, ha, hnv, hnc⟩ := layout_eqs N
  unfold Solve_problem_double
  simp (disch := omega) only [rd_eq, Res.ok_bind]
  -- the initial guess
  refine bind_spec (fun v => v.size = n_vars N ∧ ∀ j, j < n_vars N → entry v j = 0) ?_ ?_
  · obtain ⟨r, hr, hs, hin, -⟩ := fill_run 0 (N * 6 + (N - 1) * 2) (0 : F64)
      (Dvector (N * 6 + (N - 1) * 2) junk) (by omega) (by simp [Dvector])
    refine ⟨r, hr, ?_, fun j hj => hin j (by omega) (by omega)⟩
    rw [hs, hnv]; simp [Dvector]
  rintro vars ⟨hvars_size, hvars_zero⟩
  -- bounds of the state variables
  refine bind_spec (fun r => r.1.size = n_vars N ∧ r.2.size = n_vars N ∧
    ∀ j, j < delta_start N → entry r.1 j = -1.0e19 ∧ entry r.2 j = 1.0e19) ?_ ?_
  · obtain ⟨r, hr, hs1, hs2, hin, -⟩ := fill_pair_run 0 (delta_start N) (-1.0e19 : F64) 1.0e19
      (Dvector (N * 6 + (N - 1) * 2) junk) (Dvector (N * 6 + (N - 1) * 2) junk) (by omega)
      (by simp only [Dvector, Array.size_mkArray]; omega)
      (by simp only [Dvector, Array.size_mkArray]; omega)
    refine ⟨r, hr, ?_, ?_, fun j hj => hin j (by omega) hj⟩
    · rw [hs1, hnv]; simp [Dvector]
    · rw [hs2, hnv]; simp [Dvector]
  rintro b1 ⟨hb1s1, hb1s2, hb1⟩
  -- bounds of the steering variables
  refine bind_spec (fun r => r.1.size = n_vars N ∧ r.2.size = n_vars N ∧
    (∀ j, j < delta_start N → entry r.1 j = -1.0e19 ∧ entry r.2 j = 1.0e19) ∧
    ∀ j, delta_start N ≤ j → j < a_start N →
      entry r.1 j = -0.436332 * Lf_double ∧ entry r.2 j = 0.436332 * Lf_double) ?_ ?_
  · obtain ⟨r, hr, hs1, hs2, hin, hout⟩ := fill_pair_run (delta_start N) (a_start N)
      (-0.436332 * Lf_double : F64) (0.436332 * Lf_double) b1.1 b1.2 (by omega) (by omega)
      (by omega)
    refine ⟨r, hr, by omega, by omega, fun j hj => ?_, hin⟩
    rw [(hout j (Or.inl hj)).1, (hout j (Or.inl hj)).2]
    exact hb1 j hj
  rintro b2 ⟨hb2s1, hb2s2, hb2a, hb2b⟩
  -- bounds of the acceleration variables
  refine bind_spec (fun r => r.1.size = n_vars N ∧ r.2.size = n_vars N ∧
    (∀ j, j < delta_start N → entry r.1 j = -1.0e19 ∧ entry r.2 j = 1.0e19) ∧
    (∀ j, delta_start N ≤ j → j < a_start N →
      entry r.1 j = -0.436332 * Lf_double ∧ entry r.2 j = 0.436332 * Lf_double) ∧
    ∀ j, a_start N ≤ j → j < n_vars N → entry r.1 j = -1.0 ∧ entry r.2 j = 1.0) ?_ ?_
  · obtain ⟨r, hr, hs1, hs2, hin, hout⟩ := fill_pair_run (a_start N) (N * 6 + (N - 1) * 2)
      (-1.0 : F64) 1.0 b2.1 b2.2 (by omega) (by omega) (by omega)
    refine ⟨r, hr, by omega, by omega, fun j hj => ?_, fun j hj1 hj2 => ?_,
      fun j hj1 hj2 => hin j hj1 (by omega)⟩
    · rw [(hout j (Or.inl (by omega))).1, (hout j (Or.inl (by omega))).2]
      exact hb2a j hj
    · rw [(hout j (Or.inl (by omega))).1, (hout j (Or.inl (by omega))).2]
      exact hb2b j hj1 hj2
  rintro b3 ⟨hb3s1, hb3s2, hb3a, hb3b, hb3c⟩
  -- bounds of the constraints
  refine bind_spec (fun r => r.1.size = N * 6 ∧ r.2.size = N * 6 ∧
    ∀ j, j < N * 6 → entry r.1 j = 0 ∧ entry r.2 j = 0) ?_ ?_
  · obtain ⟨r, hr, hs1, hs2, hin, -⟩ := fill_pair_run 0 (N * 6) (0 : F64) 0
      (Dvector (N * 6) junk) (Dvector (N * 6) junk) (by omega)
      (by simp only [Dvector, Array.size_mkArray]; omega)
      (by simp only [Dvector, Array.size_mkArray]; omega)
    refine ⟨r, hr, ?_, ?_, fun j hj => hin j (by omega) hj⟩
    · rw [hs1]; simp [Dvector]
    · rw [hs2]; simp [Dvector]
  rintro c ⟨hcs1, hcs2, hc⟩
  -- the twelve entries pinned to the measured state
  simp (disch := first | omega | (simp only [Array.size_setD]; omega)) only
    [wr_eq, Res.ok_bind, Res.pure_eq]
  refine ⟨_, rfl, ?_⟩
  constructor
  · rfl
  · exact hvars_size
  · exact hvars_zero
  · exact hb3s1
  · exact hb3s2
  · exact hb3a
  · exact hb3b
  · exact hb3c
  · simp only [Array.size_setD, hcs1, hnc]
  · simp only [Array.size_setD, hcs2, hnc]
  · intro i hi h1 h2 h3 h4 h5 h6
    simp (disch := omega) only [entry_setD_ne]
    exact hc i (by omega)
  · simp (disch := first | omega | (simp only [Array.size_setD]; omega)) only
      [entry_setD_ne, entry_setD_eq, and_self]
  · simp (disch := first | omega | (simp only [Array.size_setD]; omega)) only
      [entry_setD_ne, entry_setD_eq, and_self]

end SolverDouble

/-! ## Errors of the operations read on rational values -/

section HeadingDouble

theorem toRat_fin (k : Int) : F64.toRat (F64.fin k) = (k : ℚ) / (F64.unit : ℚ) := rfl

theorem unit_pos_rat : (0 : ℚ) < (F64.unit : ℚ) := by
  exact_mod_cast unit_pos

/-- An integer bound on an error in units of `2^-1074`, read on the rational values. -/
theorem toRat_err_bound (x B : Int) (h : 2 ^ 53 * |x| ≤ B) :
    |(x : ℚ) / (F64.unit : ℚ)| ≤ (B : ℚ) / (F64.unit : ℚ) / 2 ^ 53 := by
  have hU := unit_pos_rat
  have h2 : ((2 ^ 53 * |x| : Int) : ℚ) ≤ (B : ℚ) := by exact_mod_cast h
  rw [Int.cast_mul, Int.cast_abs] at h2
  rw [abs_div, abs_of_pos hU, div_div, mul_comm (F64.unit : ℚ), ← div_div,
    div_le_div_iff_of_pos_right hU, le_div_iff₀ (by positivity)]
  have e : (((2 ^ 53 : Int)) : ℚ) = 2 ^ 53 := by norm_num
  rw [e] at h2
  linarith

/-- A finite difference has finite operands. -/
theorem sub_fin_inv (x y : F64) (r : Int) (h : x - y = F64.fin r) :
    ∃ a b, x = F64.fin a ∧ y = F64.fin b := by
  cases x with
  | nonfinite => cases h
  | fin a =>
    cases y with
    | nonfinite => cases h
    | fin b => exact ⟨a, b, rfl, rfl⟩

/-- Subtracting the same rounded term `s` from `p` and from the rounded `p - a` gives two
values whose difference is `a` up to three rounding errors. -/
theorem heading_err (p a s psi w e : Int) (h1 : F64.fin p - F64.fin s = F64.fin psi)
    (h2 : F64.fin p - F64.fin a = F64.fin w) (h3 : F64.fin w - F64.fin s = F64.fin e) :
    2 ^ 53 * |e - (psi - a)| ≤ |p - a| + |w - s| + |p - s| := by
  have a1 := sub_err p s psi h1
  have a2 := sub_err p a w h2
  have a3 := sub_err w s e h3
  have t : |e - (psi - a)| ≤ |e - (w - s)| + |w - (p - a)| + |psi - (p - s)| := by
    have e1 : e - (psi - a) = (e - (w - s)) + (w - (p - a)) + -(psi - (p - s)) := by ring
    rw [e1]
    refine le_trans (abs_add _ _) ?_
    rw [abs_neg]
    exact add_le_add_right (abs_add _ _) _
  linarith

/-- The rational values of two finite doubles differ by the difference of their units. -/
theorem toRat_sub_abs (a b : Int) :
    |F64.toRat (F64.fin a) - F64.toRat (F64.fin b)| = (|a - b| : ℚ) / (F64.unit : ℚ) := by
  have hU := unit_pos_rat
  rw [toRat_fin, toRat_fin, ← sub_div, abs_div, abs_of_pos hU]

end HeadingDouble

/-! ## Feasible decision vectors in double arithmetic -/

section FeasibleDouble

theorem entry_lit6_double (x y psi v cte epsi : F64) :
    entry #[x, y, psi, v, cte, epsi] 0 = x ∧ entry #[x, y, psi, v, cte, epsi] 1 = y ∧
      entry #[x, y, psi, v, cte, epsi] 2 = psi ∧ entry #[x, y, psi, v, cte, epsi] 3 = v ∧
      entry #[x, y, psi, v, cte, epsi] 4 = cte ∧ entry #[x, y, psi, v, cte, epsi] 5 = epsi :=
  ⟨rfl, rfl, rfl, rfl, rfl, rfl⟩

/-- The targets of the constraints in double arithmetic: the measured state at timestep `0`,
zero afterwards. -/
theorem feasible_double_iff_targets (T : Trig F64) (N : Nat) (dt ref_v : F64)
    (x y psi v cte epsi : F64) (coeffs : Array F64) (p : Problem F64) (out : Array F64)
    (hN : 2 ≤ N) (hb : Built_double T N dt ref_v #[x, y, psi, v, cte, epsi] coeffs p) :
    feasible N p out ↔
      (entry out (1 + x_start N) = x ∧ entry out (1 + y_start N) = y ∧
        entry out (1 + psi_start N) = psi ∧ entry out (1 + v_start N) = v ∧
        entry out (1 + cte_start N) = cte ∧ entry out (1 + epsi_start N) = epsi) ∧
      ∀ t, 1 ≤ t → t < N →
        entry out (1 + x_start N + t) = 0 ∧ entry out (1 + y_start N + t) = 0 ∧
        entry out (1 + psi_start N + t) = 0 ∧ entry out (1 + v_start N + t) = 0 ∧
        entry out (1 + cte_start N + t) = 0 ∧ entry out (1 + epsi_start N + t) = 0 := by
  obtain ⟨hx, hy, hpsi, hvs, hcte, hepsi, -, -, -, hnc⟩ := layout_eqs N
  obtain ⟨l1, l2, l3, l4, l5, l6⟩ := hb.clower_init
  obtain ⟨u1, u2, u3, u4, u5, u6⟩ := hb.cupper_init
  obtain ⟨s0, s1, s2, s3, s4, s5⟩ := entry_lit6_double x y psi v cte epsi
  rw [s0] at l1 u1
  rw [s1] at l2 u2
  rw [s2] at l3 u3
  rw [s3] at l4 u4
  rw [s4] at l5 u5
  rw [s5] at l6 u6
  have hz : ∀ t, 1 ≤ t → t < N → ∀ s, (s = x_start N ∨ s = y_start N ∨ s = psi_start N ∨
      s = v_start N ∨ s = cte_start N ∨ s = epsi_start N) →
      entry p.constraints_lowerbound (s + t) = 0 ∧
      entry p.constraints_upperbound (s + t) = 0 := by
    intro t h1 ht s hs
    exact hb.cbounds_zero (s + t) (by omega) (by omega) (by omega) (by omega) (by omega)
      (by omega) (by omega)
  constructor
  · intro h
    refine ⟨⟨?_, ?_, ?_, ?_, ?_, ?_⟩, fun t h1 ht => ⟨?_, ?_, ?_, ?_, ?_, ?_⟩⟩
    · rw [(h (x_start N) (by omega)).1, l1]
    · rw [(h (y_start N) (by omega)).1, l2]
    · rw [(h (psi_start N) (by omega)).1, l3]
    · rw [(h (v_start N) (by omega)).1, l4]
    · rw [(h (cte_start N) (by omega)).1, l5]
    · rw [(h (epsi_start N) (by omega)).1, l6]
    · rw [Nat.add_assoc, (h (x_start N + t) (by omega)).1]
      exact (hz t h1 ht _ (Or.inl rfl)).1
    · rw [Nat.add_assoc, (h (y_start N + t) (by omega)).1]
      exact (hz t h1 ht _ (Or.inr (Or.inl rfl))).1
    · rw [Nat.add_assoc, (h (psi_start N + t) (by omega)).1]
      exact (hz t h1 ht _ (Or.inr (Or.inr (Or.inl rfl)))).1
    · rw [Nat.add_assoc, (h (v_start N + t) (by omega)).1]
      exact (hz t h1 ht _ (Or.inr (Or.inr (Or.inr (Or.inl rfl))))).1
    · rw [Nat.add_assoc, (h (cte_start N + t) (by omega)).1]
      exact (hz t h1 ht _ (Or.inr (Or.inr (Or.inr (Or.inr (Or.inl rfl)))))).1
    · rw [Nat.add_assoc, (h (epsi_start N + t) (by omega)).1]
      exact (hz t h1 ht _ (Or.inr (Or.inr (Or.inr (Or.inr (Or.inr rfl)))))).1
  · rintro ⟨⟨i1, i2, i3, i4, i5, i6⟩, hstep⟩ i hi
    have key : ∀ s m, (s = x_start N ∨ s = y_start N ∨ s = psi_start N ∨
        s = v_start N ∨ s = cte_start N ∨ s = epsi_start N) →
        entry out (1 + s) = m → entry p.constraints_lowerbound s = m →
        entry p.constraints_upperbound s = m →
        (∀ t, 1 ≤ t → t < N → entry out (1 + s + t) = 0) →
        ∀ t, t < N → entry out (1 + (s + t)) = entry p.constraints_lowerbound (s + t) ∧
          entry out (1 + (s + t)) = entry p.constraints_upperbound (s + t) := by
      intro s m hs h0 hl hu hst t ht
      by_cases ht0 : t = 0
      · subst ht0
        rw [Nat.add_zero, h0, hl, hu]
        exact ⟨rfl, rfl⟩
      · obtain ⟨a, b⟩ := hz t (by omega) ht s hs
        rw [← Nat.add_assoc, hst t (by omega) ht, a, b]
        exact ⟨rfl, rfl⟩
    rcases constraint_index_cases N i hi with ⟨t, ht, rfl⟩ | ⟨t, ht, rfl⟩ | ⟨t, ht, rfl⟩ |
      ⟨t, ht, rfl⟩ | ⟨t, ht, rfl⟩ | ⟨t, ht, rfl⟩
    · exact key _ _ (Or.inl rfl) i1 l1 u1 (fun t h1 ht => (hstep t h1 ht).1) t ht
    · exact key _ _ (Or.inr (Or.inl rfl)) i2 l2 u2 (fun t h1 ht => (hstep t h1 ht).2.1) t ht
    · exact key _ _ (Or.inr (Or.inr (Or.inl rfl))) i3 l3 u3
        (fun t h1 ht => (hstep t h1 ht).2.2.1) t ht
    · exact key _ _ (Or.inr (Or.inr (Or.inr (Or.inl rfl)))) i4 l4 u4
        (fun t h1 ht => (hstep t h1 ht).2.2.2.1) t ht
    · exact key _ _ (Or.inr (Or.inr (Or.inr (Or.inr (Or.inl rfl))))) i5 l5 u5
        (fun t h1 ht => (hstep t h1 ht).2.2.2.2.1) t ht
    · exact key _ _ (Or.inr (Or.inr (Or.inr (Or.inr (Or.inr rfl))))) i6 l6 u6
        (fun t h1 ht => (hstep t h1 ht).2.2.2.2.2) t ht

/-- Along a feasible decision vector, in double arithmetic, the first speed is the measured
speed and each later speed is the rounded sum of the previous speed and the rounded product of
the acceleration with `dt`; these speeds are finite. -/
theorem feasible_speed_double (T : Trig F64) (N : Nat) (dt ref_v : F64)
    (x y psi v cte epsi : F64) (coeffs : Array F64) (p : Problem F64) (vars out : Array F64)
    (hN : 2 ≤ N) (hb : Built_double T N dt ref_v #[x, y, psi, v, cte, epsi] coeffs p)
    (hinit : initial_entries_double N vars out)
    (hstep : ∀ t, 1 ≤ t → t < N → step_entries_double T N dt coeffs vars out t)
    (hfeas : feasible N p out) :
    entry vars (v_start N) = v ∧
    ∀ t, t + 1 < N → (entry vars (v_start N + (t + 1))
        = entry vars (v_start N + t) + entry vars (a_start N + t) * dt ∧
      entry vars (v_start N + (t + 1)) ≠ F64.nonfinite) := by
  rw [feasible_double_iff_targets T N dt ref_v x y psi v cte epsi coeffs p out hN hb] at hfeas
  obtain ⟨⟨-, -, -, a4, -, -⟩, hz⟩ := hfeas
  refine ⟨by rw [← a4, hinit.2.2.2.1], fun t ht => ?_⟩
  have r4 := (hstep (t + 1) (by omega) ht).2.2.2.1
  have z4 := (hz (t + 1) (by omega) ht).2.2.2.1
  have ix : ∀ s : Nat, s + (t + 1) - 1 = s + t := fun s => rfl
  rw [z4, ix, ix] at r4
  exact (sub_eq_zero_iff _ _).mp r4.symm

theorem fin_units (x : F64) (h : x ≠ F64.nonfinite) : x = F64.fin x.units := by
  cases x with
  | nonfinite => exact absurd rfl h
  | fin k => rfl

theorem le_inv (x y : F64) (h : x ≤ y) : ∃ a b, x = F64.fin a ∧ y = F64.fin b ∧ a ≤ b := by
  cases x with
  | nonfinite => exact absurd h (fun h => h)
  | fin a =>
    cases y with
    | nonfinite => exact absurd h (fun h => h)
    | fin b => exact ⟨a, b, rfl, rfl, h⟩

/-- The drift of a sequence of speeds, in units of `2^-1074`: if each speed is the rounded sum
of the previous one and the rounded product of an acceleration of magnitude at most `1` with
`0 ≤ D ≤ 1`, starting from a magnitude of at most `2^10`, then after `t ≤ 2^10` steps the
speed has changed by at most `t * (D + 2^-40)`. -/
theorem speed_drift (V A : Nat → Int) (D : Int) (n : Nat) (hD0 : 0 ≤ D)
    (hD1 : D ≤ (F64.unit : Int)) (hV0 : |V 0| ≤ 2 ^ 10 * (F64.unit : Int)) (hn : n ≤ 2 ^ 10)
    (hA : ∀ t, t < n → |A t| ≤ (F64.unit : Int))
    (hstep : ∀ t, t < n → F64.fin (V t) + F64.fin (A t) * F64.fin D = F64.fin (V (t + 1))) :
    ∀ t, t ≤ n →
      2 ^ 53 * |V t - V 0| ≤ (t : Int) * (2 ^ 53 * D + 2 ^ 13 * (F64.unit : Int)) := by
  have hU : (0 : Int) < (F64.unit : Int) := by exact_mod_cast unit_pos
  intro t
  induction t with
  | zero =>
    intro _
    simp
  | succ t ih =>
    intro ht
    have ih2 := ih (by omega)
    have hs := hstep t (by omega)
    cases hm : F64.fin (A t) * F64.fin D with
    | nonfinite =>
      rw [hm] at hs
      cases hs
    | fin s =>
      rw [hm] at hs
      have b1 := mul_le_bound (A t) D s (hA t (by omega)) hD0 hm
      have b2 := add_err (V t) s (V (t + 1)) hs
      have tC : (t : Int) * (2 ^ 53 * D + 2 ^ 13 * (F64.unit : Int))
          ≤ 2 ^ 10 * (2 ^ 53 * D + 2 ^ 13 * (F64.unit : Int)) := by
        refine mul_le_mul_of_nonneg_right ?_ (by positivity)
        have : t ≤ 2 ^ 10 := by omega
        exact_mod_cast this
      have t1 : |V t + s| ≤ |V 0| + |V t - V 0| + |s| := by
        have e : V t + s = V 0 + (V t - V 0) + s := by ring
        rw [e]
        exact abs_add_three _ _ _
      have t2 : |V (t + 1) - V 0| ≤ |V t - V 0| + |s| + |V (t + 1) - (V t + s)| := by
        have e : V (t + 1) - V 0 = (V t - V 0) + s + (V (t + 1) - (V t + s)) := by ring
        rw [e]
        exact abs_add_three _ _ _
      push_cast
      linarith

end FeasibleDouble

/-! ## The straight-line vector in double arithmetic -/

section StraightDouble

theorem vec_of_entry_gen {K : Type} [Zero K] (n : Nat) (f : Nat → K) (i : Nat) (h : i < n) :
    entry (vec_of n f) i = f i := by
  have hs : (vec_of n f).size = n := by simp [vec_of]
  rw [entry_eq_getElem _ _ (by rw [hs]; exact h)]
  simp [vec_of]

/-- The state blocks of a trajectory hold the states, its actuator blocks the actuators, for
any type of entries. -/
theorem trajectory_entries_gen {K : Type} [Zero K] (N : Nat) (hN : 2 ≤ N)
    (s : Nat → VehicleState K) (delta a : Nat → K) :
    (∀ t, t < N → state_at N (trajectory N s delta a) t = s t) ∧
    ∀ t, t < N - 1 → entry (trajectory N s delta a) (delta_start N + t) = delta t ∧
      entry (trajectory N s delta a) (a_start N + t) = a t := by
  obtain ⟨hx, hy, hpsi, hvs, hcte, hepsi, hdelta, ha, hnv, -⟩ := layout_eqs N
  constructor
  · intro t ht
    unfold state_at trajectory
    rw [vec_of_entry_gen _ _ _ (by omega), vec_of_entry_gen _ _ _ (by omega),
      vec_of_entry_gen _ _ _ (by omega), vec_of_entry_gen _ _ _ (by omega),
      vec_of_entry_gen _ _ _ (by omega), vec_of_entry_gen _ _ _ (by omega)]
    have e1 : x_start N + t - x_start N = t := by omega
    have e2 : y_start N + t - y_start N = t := by omega
    have e3 : psi_start N + t - psi_start N = t := by omega
    have e4 : v_start N + t - v_start N = t := by omega
    have e5 : cte_start N + t - cte_start N = t := by omega
    have e6 : epsi_start N + t - epsi_start N = t := by omega
    simp (disch := omega) only [if_pos, if_neg, e1, e2, e3, e4, e5, e6]
  · intro t ht
    unfold trajectory
    rw [vec_of_entry_gen _ _ _ (by omega), vec_of_entry_gen _ _ _ (by omega)]
    have e1 : delta_start N + t - delta_start N = t := by omega
    have e2 : a_start N + t - a_start N = t := by omega
    simp (disch := omega) only [if_pos, if_neg, e1, e2, and_self]

theorem straight_line_double_size (N : Nat) (dt : F64) :
    (straight_line_double N dt).size = n_vars N :=
  trajectory_size N _ _ _

/-- In double arithmetic `100 * 0.1 * t` is exactly `10 * t`, as long as it stays below
`2^53`. -/
theorem hundred_dt_mul (t : Nat) (ht : 10 * t < 2 ^ 53) :
    (100 : F64) * 0.1 * (t : F64) = F64.fin (((10 * t : Nat) : Int) * (F64.unit : Int)) := by
  have h1 : (100 : F64) * 0.1 = F64.fin ((10 : Int) * (F64.unit : Int)) := by decide!
  rw [h1, natCast_eq t (by omega), mul_unit_mul 10 t (by omega)]
  exact congrArg F64.fin (by push_cast; ring)

/-- The entries of the straight-line vector in double arithmetic, block by block. -/
theorem straight_line_double_entries (N : Nat) (hN : 2 ≤ N) (hmax : 10 * N < 2 ^ 53) :
    (∀ t, t < N → entry (straight_line_double N 0.1) (x_start N + t)
        = F64.fin (((10 * t : Nat) : Int) * (F64.unit : Int)) ∧
      entry (straight_line_double N 0.1) (y_start N + t) = 0 ∧
      entry (straight_line_double N 0.1) (psi_start N + t) = 0 ∧
      entry (straight_line_double N 0.1) (v_start N + t) = 100 ∧
      entry (straight_line_double N 0.1) (cte_start N + t) = 0 ∧
      entry (straight_line_double N 0.1) (epsi_start N + t) = 0) ∧
    ∀ t, t < N - 1 → entry (straight_line_double N 0.1) (delta_start N + t) = 0 ∧
      entry (straight_line_double N 0.1) (a_start N + t) = 0 := by
  obtain ⟨hst, hact⟩ := trajectory_entries_gen N hN
    (fun t => VehicleState.mk (100 * (0.1 : F64) * (t : F64)) 0 0 100 0 0) (fun _ => 0)
    (fun _ => 0)
  refine ⟨fun t ht => ?_, hact⟩
  have h := hst t ht
  unfold state_at at h
  rw [VehicleState.mk.injEq] at h
  obtain ⟨h1, h2, h3, h4, h5, h6⟩ := h
  exact ⟨by rw [← hundred_dt_mul t (by omega)]; exact h1, h2, h3, h4, h5, h6⟩

theorem sub_self_fin (a : Int) : F64.fin a - F64.fin a = 0 := by
  show F64.round (a - a) 1 = 0
  rw [sub_self]
  exact round_zero 1 (by norm_num)

theorem entry_zeros4 : entry (#[0, 0, 0, 0] : Array F64) 0 = 0 ∧
    entry (#[0, 0, 0, 0] : Array F64) 1 = 0 ∧ entry (#[0, 0, 0, 0] : Array F64) 2 = 0 ∧
    entry (#[0, 0, 0, 0] : Array F64) 3 = 0 := ⟨rfl, rfl, rfl, rfl⟩

/-- The straight-line vector satisfies every constraint in double arithmetic. -/
theorem straight_line_double_feasible (T : Trig F64) (N : Nat) (hN : 2 ≤ N)
    (hmax : 10 * N < 2 ^ 53) (p : Problem F64) (out : Array F64) (hcos : T.cos 0 = 1)
    (hsin : T.sin 0 = 0) (hatan : T.atan 0 = 0)
    (hb : Built_double T N 0.1 100 #[0, 0, 0, 100, 0, 0] #[0, 0, 0, 0] p)
    (hinit : initial_entries_double N (straight_line_double N 0.1) out)
    (hstep : ∀ t, 1 ≤ t → t < N →
      step_entries_double T N 0.1 #[0, 0, 0, 0] (straight_line_double N 0.1) out t) :
    feasible N p out := by
  obtain ⟨hst, hact⟩ := straight_line_double_entries N hN hmax
  rw [feasible_double_iff_targets T N 0.1 100 0 0 0 100 0 0 _ p out hN hb]
  obtain ⟨i1, i2, i3, i4, i5, i6⟩ := hinit
  obtain ⟨s1, s2, s3, s4, s5, s6⟩ := hst 0 (by omega)
  simp only [Nat.add_zero] at s1 s2 s3 s4 s5 s6
  refine ⟨⟨?_, ?_, ?_, ?_, ?_, ?_⟩, fun t h1 ht => ?_⟩
  · rw [i1, s1]
    simp
    rfl
  · rw [i2, s2]
  · rw [i3, s3]
  · rw [i4, s4]
  · rw [i5, s5]
  · rw [i6, s6]
  · obtain ⟨s, rfl⟩ : ∃ s, t = s + 1 := ⟨t - 1, by omega⟩
    obtain ⟨r1, r2, r3, r4, r5, r6⟩ := hstep (s + 1) h1 ht
    obtain ⟨x0, y0, p0, v0, c0, e0⟩ := hst s (by omega)
    obtain ⟨x1, y1, p1, v1, c1, e1⟩ := hst (s + 1) ht
    obtain ⟨d0, a0⟩ := hact s (by omega)
    obtain ⟨k0, k1, k2, k3⟩ := entry_zeros4
    have ix : ∀ b : Nat, b + (s + 1) - 1 = b + s := fun b => rfl
    simp only [ix] at r1 r2 r3 r4 r5 r6
    rw [x1, x0, v0, p0, hcos] at r1
    rw [y1, y0, v0, p0, hsin] at r2
    rw [p1, p0, v0, d0] at r3
    rw [v1, v0, a0] at r4
    rw [c1, k0, k1, k2, k3, x0, y0, v0, e0, hsin] at r5
    rw [e1, p0, k1, k2, k3, x0, v0, d0] at r6
    have h3 : (3 : F64) * 0 = 0 := by decide!
    have h2 : (2 : F64) * 0 = 0 := by decide!
    have h0 : (0 : F64) + 0 = 0 := by decide!
    simp only [zero_mul_fin, h3, h2, h0, hatan] at r5 r6
    have hs : (100 : F64) * 1 * 0.1 = F64.fin ((10 : Int) * (F64.unit : Int)) := by decide!
    rw [hs, add_unit_mul _ _ (by push_cast; omega)] at r1
    have e : (((10 * s : Nat) : Int) + 10) = ((10 * (s + 1) : Nat) : Int) := by
      push_cast
      ring
    rw [e, sub_self_fin] at r1
    refine ⟨r1, ?_, ?_, ?_, ?_, ?_⟩
    · rw [r2]; decide!
    · rw [r3]; decide!
    · rw [r4]; decide!
    · rw [r5]; decide!
    · rw [r6]; decide!

/-- The straight-line vector lies within the variable bounds in double arithmetic. -/
theorem straight_line_double_within_bounds (T : Trig F64) (N : Nat) (hN : 2 ≤ N)
    (hmax : N * 6 + (N - 1) * 2 < 2 ^ 31) (ref_v : F64) (state coeffs : Array F64)
    (p : Problem F64) (hb : Built_double T N 0.1 ref_v state coeffs p) :
    within_bounds p (straight_line_double N 0.1) := by
  obtain ⟨-, -, -, -, -, -, hdelta, hast, hnv, -⟩ := layout_eqs N
  obtain ⟨hst, hact⟩ := straight_line_double_entries N hN (by omega)
  have hU : (0 : Int) < (F64.unit : Int) := by exact_mod_cast unit_pos
  have hl : (-1.0e19 : F64) = F64.fin (-(10000000000000000000 * (F64.unit : Int))) := by decide!
  have hu : (1.0e19 : F64) = F64.fin (10000000000000000000 * (F64.unit : Int)) := by decide!
  intro i hi
  rw [straight_line_double_size] at hi
  by_cases h6 : i < N * 6
  · obtain ⟨bl, bu⟩ := hb.state_bounds i (by omega)
    rw [bl, bu]
    rcases constraint_index_cases N i h6 with ⟨t, ht, rfl⟩ | ⟨t, ht, rfl⟩ | ⟨t, ht, rfl⟩ |
      ⟨t, ht, rfl⟩ | ⟨t, ht, rfl⟩ | ⟨t, ht, rfl⟩
    · rw [(hst t ht).1, hl, hu]
      have h1 : ((10 * t : Nat) : Int) ≤ 10000000000000000000 := by
        have : 10 * t ≤ 10000000000000000000 := by omega
        exact_mod_cast this
      have h2 : (0 : Int) ≤ ((10 * t : Nat) : Int) := Int.natCast_nonneg _
      constructor
      · show -(10000000000000000000 * (F64.unit : Int)) ≤ ((10 * t : Nat) : Int) * (F64.unit : Int)
        have := mul_nonneg h2 (le_of_lt hU)
        linarith
      · show ((10 * t : Nat) : Int) * (F64.unit : Int) ≤ 10000000000000000000 * (F64.unit : Int)
        exact mul_le_mul_of_nonneg_right h1 (le_of_lt hU)
    · rw [(hst t ht).2.1]; decide!
    · rw [(hst t ht).2.2.1]; decide!
    · rw [(hst t ht).2.2.2.1]; decide!
    · rw [(hst t ht).2.2.2.2.1]; decide!
    · rw [(hst t ht).2.2.2.2.2]; decide!
  · by_cases h7 : i < a_start N
    · obtain ⟨bl, bu⟩ := hb.delta_bounds i (by omega) h7
      have e : i = delta_start N + (i - delta_start N) := by omega
      rw [bl, bu, e, (hact (i - delta_start N) (by omega)).1]
      decide!
    · obtain ⟨bl, bu⟩ := hb.a_bounds i (by omega) hi
      have e : i = a_start N + (i - a_start N) := by omega
      rw [bl, bu, e, (hact (i - a_start N) (by omega)).2]
      decide!

/-- A square that rounds to zero belongs to a finite value of magnitude at most `2^-537.5`. -/
theorem sq_zero_units (x : F64) (h : x ^ 2 = 0) :
    x ≠ F64.nonfinite ∧ 2 * (x.units * x.units) ≤ (F64.unit : Int) := by
  cases x with
  | nonfinite => cases h
  | fin k => exact ⟨(fun h2 => by cases h2), (sq_eq_zero_iff k).mp h⟩

/-- Lines 247-259 on a solution vector of doubles that has all `n_vars` entries. -/
theorem Solve_result_double_run (N : Nat) (solution : solve_result F64) (hN : 2 ≤ N)
    (hx : n_vars N ≤ solution.x.size) :
    ∃ result, Solve_result N solution = Res.ok result ∧ (result.size = 2 + 2 * (N - 1) ∧
      entry result 0 = entry solution.x (delta_start N) ∧
      entry result 1 = entry solution.x (a_start N) ∧
      ∀ i, i < N - 1 → entry result (2 + 2 * i) = entry solution.x (x_start N + i) ∧
        entry result (3 + 2 * i) = entry solution.x (y_start N + i)) := by
  obtain ⟨hx0, hy, hpsi, hvs, hcte, hepsi, hdelta, ha, hnv, hnc⟩ := layout_eqs N
  unfold Solve_result
  simp (disch := omega) only [rd_eq, Res.ok_bind]
  refine forRange_spec (fun k r => r.size = 2 + 2 * k ∧
      entry r 0 = entry solution.x (delta_start N) ∧
      entry r 1 = entry solution.x (a_start N) ∧
      ∀ i, i < k → entry r (2 + 2 * i) = entry solution.x (x_start N + i) ∧
        entry r (3 + 2 * i) = entry solution.x (y_start N + i)) 0 (N - 1) _ _ (by omega) ?_ ?_
  · refine ⟨by simp, ?_, ?_, fun i hi => by omega⟩
    · rw [entry_push_lt _ _ (by simp)]
      exact entry_push_eq #[] _
    · exact entry_push_eq (#[].push _) _
  · rintro k r - hk ⟨hs, h0, h1, hin⟩
    simp (disch := omega) only [rd_eq, Res.ok_bind, Res.pure_eq]
    refine ⟨_, rfl, ?_, ?_, ?_, ?_⟩
    · simp only [Array.size_push, hs]; omega
    · rw [entry_push_lt _ _ (by simp only [Array.size_push]; omega),
        entry_push_lt _ _ (by omega)]
      exact h0
    · rw [entry_push_lt _ _ (by simp only [Array.size_push]; omega),
        entry_push_lt _ _ (by omega)]
      exact h1
    · intro i hi
      by_cases hik : i = k
      · subst hik
        constructor
        · rw [entry_push_lt _ _ (by simp only [Array.size_push]; omega)]
          have e : 2 + 2 * i = r.size := by omega
          rw [e]
          exact entry_push_eq r _
        · have e : 3 + 2 * i = (r.push (entry solution.x (x_start N + i))).size := by
            simp only [Array.size_push]; omega
          rw [e]
          exact entry_push_eq _ _
      · have hlt : i < k := by omega
        rw [entry_push_lt _ _ (by simp only [Array.size_push]; omega),
          entry_push_lt _ _ (by omega),
          entry_push_lt _ _ (by simp only [Array.size_push]; omega),
          entry_push_lt _ _ (by omega)]
        exact hin i hlt

theorem Solve_double_eq (T : Trig F64) (N : Nat) (dt ref_v junk : F64)
    (solve : Problem F64 → solve_result F64) (state coeffs : Array F64) (p : Problem F64)
    (hp : Solve_problem_double T N dt ref_v junk state coeffs = Res.ok p) :
    Solve_double T N dt ref_v junk solve state coeffs = Solve_result N (solve p) := by
  unfold Solve_double
  rw [hp]
  rfl

end StraightDouble

/-! ## The sample trajectories in double arithmetic -/

section SamplesDouble

/-- The forward simulation `speed_path` satisfies every constraint of the problem for the state
`(0, 0, 0, 30, 0, 0)`, and its accelerations lie within their bounds. -/
theorem speed_path_feasible :
    ∃ p out, Solve_problem_double double_trig 10 0.1 100 0 #[0, 0, 0, 30, 0, 0] #[0, 0, 0, 0]
        = Res.ok p ∧
      FG_eval_double double_trig 10 0.1 100 #[0, 0, 0, 0] double_fg speed_path = Res.ok out ∧
      feasible 10 p out ∧
      ∀ k, k < 10 - 1 →
        entry p.vars_lowerbound (a_start 10 + k) ≤ entry speed_path (a_start 10 + k) ∧
        entry speed_path (a_start 10 + k) ≤ entry p.vars_upperbound (a_start 10 + k) := by
  obtain ⟨p, hp, hb⟩ := Solve_problem_double_run double_trig 10 0.1 100 0 #[0, 0, 0, 30, 0, 0]
    #[0, 0, 0, 0] (by decide) (by decide)
  obtain ⟨out, hrun, -, -, hinit, hstep⟩ := FG_eval_double_run double_trig 10 0.1 100
    #[0, 0, 0, 0] double_fg speed_path (by decide) (by decide) (by decide) (by decide)
  refine ⟨p, out, hp, hrun, ?_, fun k hk => ?_⟩
  · rw [feasible_double_iff_targets double_trig 10 0.1 100 0 0 0 30 0 0 _ p out (by decide) hb]
    obtain ⟨i1, i2, i3, i4, i5, i6⟩ := hinit
    refine ⟨⟨?_, ?_, ?_, ?_, ?_, ?_⟩, fun t h1 ht => ?_⟩
    · rw [i1]; decide!
    · rw [i2]; decide!
    · rw [i3]; decide!
    · rw [i4]; decide!
    · rw [i5]; decide!
    · rw [i6]; decide!
    · obtain ⟨r1, r2, r3, r4, r5, r6⟩ := hstep t h1 ht
      rw [r1, r2, r3, r4, r5, r6]
      clear r1 r2 r3 r4 r5 r6 hstep hrun hp hb i1 i2 i3 i4 i5 i6
      revert t
      decide!
  · obtain ⟨bl, bu⟩ := hb.a_bounds (a_start 10 + k) (Nat.le_add_right _ _)
      (by rw [show a_start 10 = 69 from rfl, show n_vars 10 = 78 from rfl]; omega)
    rw [bl, bu]
    clear bl bu hb hp hrun hinit hstep
    revert k
    decide!

/-- The forward simulation `tiny_steer_path` satisfies every constraint of the straight-line
scenario and every variable bound, and its objective is `0`. -/
theorem tiny_steer_path_feasible (p : Problem F64)
    (hb : Built_double double_trig 10 0.1 100 #[0, 0, 0, 100, 0, 0] #[0, 0, 0, 0] p) :
    ∃ out, FG_eval_double double_trig 10 0.1 100 #[0, 0, 0, 0] double_fg tiny_steer_path
        = Res.ok out ∧
      feasible 10 p out ∧ within_bounds p tiny_steer_path ∧ entry out 0 = 0 := by
  obtain ⟨out, hrun, -, hobj, hinit, hstep⟩ := FG_eval_double_run double_trig 10 0.1 100
    #[0, 0, 0, 0] double_fg tiny_steer_path (by decide) (by decide) (by decide) (by decide)
  refine ⟨out, hrun, ?_, ?_, ?_⟩
  · rw [feasible_double_iff_targets double_trig 10 0.1 100 0 0 0 100 0 0 _ p out (by decide) hb]
    obtain ⟨i1, i2, i3, i4, i5, i6⟩ := hinit
    refine ⟨⟨?_, ?_, ?_, ?_, ?_, ?_⟩, fun t h1 ht => ?_⟩
    · rw [i1]; decide!
    · rw [i2]; decide!
    · rw [i3]; decide!
    · rw [i4]; decide!
    · rw [i5]; decide!
    · rw [i6]; decide!
    · obtain ⟨r1, r2, r3, r4, r5, r6⟩ := hstep t h1 ht
      rw [r1, r2, r3, r4, r5, r6]
      clear r1 r2 r3 r4 r5 r6 hstep hrun hb i1 i2 i3 i4 i5 i6 hobj
      revert t
      decide!
  · intro i hi
    have hi2 : i < 78 := hi
    by_cases h6 : i < 60
    · obtain ⟨bl, bu⟩ := hb.state_bounds i h6
      rw [bl, bu]
      clear bl bu hb hrun hobj hinit hstep hi hi2
      revert i
      decide!
    · by_cases h7 : i < 69
      · obtain ⟨bl, bu⟩ := hb.delta_bounds i (by
          rw [show delta_start 10 = 60 from rfl]; omega) h7
        rw [bl, bu]
        have h8 : 60 ≤ i := by omega
        clear bl bu hb hrun hobj hinit hstep hi h6
        revert i
        decide!
      · obtain ⟨bl, bu⟩ := hb.a_bounds i (by rw [show a_start 10 = 69 from rfl]; omega) hi2
        rw [bl, bu]
        have h8 : 69 ≤ i := by omega
        clear bl bu hb hrun hobj hinit hstep hi h6 h7
        revert i
        decide!
  · rw [hobj]
    decide!

end SamplesDouble

/-! ## The claims that depend on the arithmetic of `double` -/

section ClaimsDouble

/-- C12, counterexample: in double arithmetic, for `N = 10`, the straight-line vector is not the
only constraint-satisfying vector of minimal objective.  The forward simulation
`tiny_steer_path`, with the steering `1e-200` at the first transition, also has every
constraint entry equal to its bound, lies within every variable bound and has the objective
`0`, the least value the objective takes. -/
theorem straight_line_not_unique :
    ∃ p out out2, Solve_problem_double double_trig 10 0.1 100 0 #[0, 0, 0, 100, 0, 0]
        #[0, 0, 0, 0] = Res.ok p ∧
      FG_eval_double double_trig 10 0.1 100 #[0, 0, 0, 0] double_fg
        (straight_line_double 10 0.1) = Res.ok out ∧
      feasible 10 p out ∧ within_bounds p (straight_line_double 10 0.1) ∧ entry out 0 = 0 ∧
      FG_eval_double double_trig 10 0.1 100 #[0, 0, 0, 0] double_fg tiny_steer_path
        = Res.ok out2 ∧
      feasible 10 p out2 ∧ within_bounds p tiny_steer_path ∧ entry out2 0 = 0 ∧
      tiny_steer_path.size = (straight_line_double 10 0.1).size ∧
      entry tiny_steer_path (delta_start 10) = 1e-200 ∧
      entry (straight_line_double 10 0.1) (delta_start 10) = 0 ∧
      tiny_steer_path ≠ straight_line_double 10 0.1 := by
  obtain ⟨p, hp, hb⟩ := Solve_problem_double_run double_trig 10 0.1 100 0
    #[0, 0, 0, 100, 0, 0] #[0, 0, 0, 0] (by decide) (by decide)
  obtain ⟨out, hrun, -, hobj, hinit, hstep⟩ := FG_eval_double_run double_trig 10 0.1 100
    #[0, 0, 0, 0] double_fg (straight_line_double 10 0.1) (by decide) (by decide) (by decide)
    (by decide)
  obtain ⟨out2, hrun2, hfeas2, hwb2, hobj2⟩ := tiny_steer_path_feasible p hb
  have hfeas := straight_line_double_feasible double_trig 10 (by decide) (by norm_num) p out
    rfl rfl (by decide!) hb hinit hstep
  have hwb := straight_line_double_within_bounds double_trig 10 (by decide) (by norm_num) 100 _ _
    p hb
  have hzero : entry out 0 = 0 := by
    rw [hobj]
    decide!
  have hne : entry tiny_steer_path (delta_start 10) ≠ entry (straight_line_double 10 0.1)
      (delta_start 10) := by decide!
  exact ⟨p, out, out2, hp, hrun, hfeas, hwb, hzero, hrun2, hfeas2, hwb2, hobj2, by decide,
    by decide!, by decide!, fun h => hne (by rw [h])⟩

/-- C12, as amended: in double arithmetic, for every `N ≥ 2` whose `n_vars` the `int` loop
counters of `MPC::Solve` can count (`N * 6 + (N - 1) * 2 < 2^31`), measured state
`(0, 0, 0, 100, 0, 0)`, coefficients `(0, 0, 0, 0)`, `v_ref = 100`, `dt = 0.1` and elementary
functions with `cos 0 = 1`, `sin 0 = 0`, `atan 0 = 0`: the straight-line vector, whose `x`
entries are exactly `10 * t`, has every constraint entry equal to its bound, lies within every
variable bound and has objective `0`; no decision vector has a negative objective, so `0` is
the global minimum; a decision vector that satisfies the constraints and attains the minimum
need not be the straight-line vector, but its steering and acceleration entries are finite and
their squares round to zero (magnitude at most `2^-537.5`); hence, whenever the solver returns
an optimal vector, `MPC::Solve` returns a steering and an acceleration of magnitude at most
`2^-537.5`, and when it returns the straight-line vector, `MPC::Solve` returns steering `0`,
acceleration `0` and the path `(10 * i, 0)`. -/
theorem straight_line_double_optimal (T : Trig F64) (N : Nat) (junk : F64) (fg : Array F64)
    (hN : 2 ≤ N) (hmax : N * 6 + (N - 1) * 2 < 2 ^ 31) (hfg : fg.size = 1 + N * 6)
    (hcos : T.cos 0 = 1) (hsin : T.sin 0 = 0) (hatan : T.atan 0 = 0) :
    ∃ p out, Solve_problem_double T N 0.1 100 junk #[0, 0, 0, 100, 0, 0] #[0, 0, 0, 0]
        = Res.ok p ∧
      FG_eval_double T N 0.1 100 #[0, 0, 0, 0] fg (straight_line_double N 0.1) = Res.ok out ∧
      feasible N p out ∧ within_bounds p (straight_line_double N 0.1) ∧ entry out 0 = 0 ∧
      (∀ t, t < N → entry (straight_line_double N 0.1) (x_start N + t) = ((10 * t : Nat) : F64) ∧
        entry (straight_line_double N 0.1) (y_start N + t) = 0) ∧
      (∀ vars out2 : Array F64, vars.size = N * 6 + (N - 1) * 2 →
        FG_eval_double T N 0.1 100 #[0, 0, 0, 0] fg vars = Res.ok out2 →
        F64.NotNeg (entry out2 0)) ∧
      (∀ vars out2 : Array F64, vars.size = N * 6 + (N - 1) * 2 →
        FG_eval_double T N 0.1 100 #[0, 0, 0, 0] fg vars = Res.ok out2 → feasible N p out2 →
        entry out2 0 ≤ entry out 0 →
        entry out2 0 = 0 ∧ ∀ t, t < N - 1 →
          (entry vars (delta_start N + t) ^ 2 = 0 ∧ entry vars (a_start N + t) ^ 2 = 0 ∧
            entry vars (delta_start N + t) ≠ F64.nonfinite ∧
            entry vars (a_start N + t) ≠ F64.nonfinite ∧
            2 * ((entry vars (delta_start N + t)).units * (entry vars (delta_start N + t)).units)
              ≤ (F64.unit : Int) ∧
            2 * ((entry vars (a_start N + t)).units * (entry vars (a_start N + t)).units)
              ≤ (F64.unit : Int))) ∧
      (∀ solve : Problem F64 → solve_result F64, (solve p).x.size = N * 6 + (N - 1) * 2 →
        (∃ out2, FG_eval_double T N 0.1 100 #[0, 0, 0, 0] fg (solve p).x = Res.ok out2 ∧
          feasible N p out2 ∧ within_bounds p (solve p).x ∧
          ∀ vars3 out3 : Array F64, vars3.size = N * 6 + (N - 1) * 2 →
            FG_eval_double T N 0.1 100 #[0, 0, 0, 0] fg vars3 = Res.ok out3 →
            feasible N p out3 → within_bounds p vars3 → entry out2 0 ≤ entry out3 0) →
        ∃ result, Solve_double T N 0.1 100 junk solve #[0, 0, 0, 100, 0, 0] #[0, 0, 0, 0]
            = Res.ok result ∧
          entry result 0 ^ 2 = 0 ∧ entry result 1 ^ 2 = 0 ∧
          2 * ((entry result 0).units * (entry result 0).units) ≤ (F64.unit : Int) ∧
          2 * ((entry result 1).units * (entry result 1).units) ≤ (F64.unit : Int)) ∧
      ∀ solve : Problem F64 → solve_result F64, (solve p).x = straight_line_double N 0.1 →
        ∃ result, Solve_double T N 0.1 100 junk solve #[0, 0, 0, 100, 0, 0] #[0, 0, 0, 0]
            = Res.ok result ∧
          entry result 0 = 0 ∧ entry result 1 = 0 ∧
          ∀ i, i < N - 1 → entry result (2 + 2 * i) = ((10 * i : Nat) : F64) ∧
            entry result (3 + 2 * i) = 0 := by
  obtain ⟨p, hp, hb⟩ := Solve_problem_double_run T N 0.1 100 junk #[0, 0, 0, 100, 0, 0]
    #[0, 0, 0, 0] (by omega) (by simp)
  obtain ⟨-, -, -, -, -, -, -, -, hnv, -⟩ := layout_eqs N
  have hsize := straight_line_double_size N (0.1 : F64)
  obtain ⟨hst, hact⟩ := straight_line_double_entries N hN (by omega)
  obtain ⟨out, hrun, -, hobj, hinit, hstep⟩ := FG_eval_double_run T N 0.1 100 #[0, 0, 0, 0] fg
    (straight_line_double N 0.1) hN (by simp) (by omega) (by rw [hsize])
  have hfeas := straight_line_double_feasible T N hN (by omega) p out hcos hsin hatan hb hinit
    hstep
  have hwb := straight_line_double_within_bounds T N hN hmax 100 _ _ p hb
  have hzero : entry out 0 = 0 := by
    rw [hobj, objective_double_eq_zero_iff]
    refine ⟨fun t ht => ?_, fun t ht => ?_, fun t ht => ?_⟩
    · rw [(hst t ht).2.2.2.2.1, (hst t ht).2.2.2.2.2, (hst t ht).2.2.2.1]
      exact ⟨by decide!, by decide!, by decide!⟩
    · rw [(hact t ht).1, (hact t ht).2]
      exact ⟨by decide!, by decide!⟩
    · have e : delta_start N + t + 1 = delta_start N + (t + 1) := by omega
      have e2 : a_start N + t + 1 = a_start N + (t + 1) := by omega
      rw [e, e2, (hact t (by omega)).1, (hact t (by omega)).2, (hact (t + 1) (by omega)).1,
        (hact (t + 1) (by omega)).2]
      exact ⟨by decide!, by decide!⟩
  have hpath : ∀ t, t < N → entry (straight_line_double N 0.1) (x_start N + t)
      = ((10 * t : Nat) : F64) ∧ entry (straight_line_double N 0.1) (y_start N + t) = 0 := by
    intro t ht
    exact ⟨by rw [(hst t ht).1, natCast_eq (10 * t) (by omega)], (hst t ht).2.1⟩
  have hmin : ∀ vars out2 : Array F64, vars.size = N * 6 + (N - 1) * 2 →
      FG_eval_double T N 0.1 100 #[0, 0, 0, 0] fg vars = Res.ok out2 →
      entry out2 0 = objective_double N 100 vars := by
    intro vars out2 hs2 hrun2
    obtain ⟨o, ho, -, hobj2, -⟩ := FG_eval_double_run T N 0.1 100 #[0, 0, 0, 0] fg vars hN
      (by simp) (by omega) (by rw [hs2, hnv])
    rw [hrun2] at ho
    cases ho
    exact hobj2
  have hopt : ∀ vars out2 : Array F64, vars.size = N * 6 + (N - 1) * 2 →
      FG_eval_double T N 0.1 100 #[0, 0, 0, 0] fg vars = Res.ok out2 → feasible N p out2 →
      entry out2 0 ≤ entry out 0 →
      entry out2 0 = 0 ∧ ∀ t, t < N - 1 →
        (entry vars (delta_start N + t) ^ 2 = 0 ∧ entry vars (a_start N + t) ^ 2 = 0 ∧
          entry vars (delta_start N + t) ≠ F64.nonfinite ∧
          entry vars (a_start N + t) ≠ F64.nonfinite ∧
          2 * ((entry vars (delta_start N + t)).units * (entry vars (delta_start N + t)).units)
            ≤ (F64.unit : Int) ∧
          2 * ((entry vars (a_start N + t)).units * (entry vars (a_start N + t)).units)
            ≤ (F64.unit : Int)) := by
    intro vars out2 hs2 hrun2 _ hle
    have hobj2 := hmin vars out2 hs2 hrun2
    have hnn := objective_double_notNeg N 100 vars
    rw [hzero, hobj2] at hle
    have h0 : objective_double N 100 vars = 0 := by
      obtain ⟨a, b, ha, hb2, hab⟩ := le_inv _ _ hle
      rw [ha] at hnn
      have hb3 : b = 0 := by
        cases hb2
        rfl
      have ha0 : (0 : Int) ≤ a := hnn
      rw [ha]
      show F64.fin a = F64.fin 0
      rw [show a = 0 by omega]
    refine ⟨by rw [hobj2, h0], fun t ht => ?_⟩
    obtain ⟨-, h2, -⟩ := (objective_double_eq_zero_iff N 100 vars).mp h0
    obtain ⟨d2, a2⟩ := h2 t ht
    exact ⟨d2, a2, (sq_zero_units _ d2).1, (sq_zero_units _ a2).1, (sq_zero_units _ d2).2,
      (sq_zero_units _ a2).2⟩
  refine ⟨p, out, hp, hrun, hfeas, hwb, hzero, hpath, ?_, hopt, ?_, ?_⟩
  · intro vars out2 hs2 hrun2
    rw [hmin vars out2 hs2 hrun2]
    exact objective_double_notNeg N 100 vars
  · rintro solve hsz ⟨out2, hrun2, hfeas2, -, hbest⟩
    have hle := hbest (straight_line_double N 0.1) out (by rw [hsize, hnv]) hrun hfeas hwb
    obtain ⟨-, hx⟩ := hopt (solve p).x out2 hsz hrun2 hfeas2 hle
    obtain ⟨-, -, -, -, -, -, hdelta, hast, -, -⟩ := layout_eqs N
    obtain ⟨result, hr, -, h0, h1, -⟩ := Solve_result_double_run N (solve p) hN
      (by rw [hsz, hnv])
    obtain ⟨d2, a2, -, -, du, au⟩ := hx 0 (by omega)
    refine ⟨result, ?_, ?_, ?_, ?_, ?_⟩
    · rw [Solve_double_eq T N 0.1 100 junk solve _ _ p hp]
      exact hr
    · rw [h0]
      exact d2
    · rw [h1]
      exact a2
    · rw [h0]
      exact du
    · rw [h1]
      exact au
  · intro solve hx
    obtain ⟨result, hr, -, h0, h1, hxy⟩ := Solve_result_double_run N (solve p) hN
      (by rw [hx, hsize])
    refine ⟨result, ?_, ?_, ?_, fun i hi => ?_⟩
    · rw [Solve_double_eq T N 0.1 100 junk solve _ _ p hp]
      exact hr
    · rw [h0, hx]
      exact (hact 0 (by omega)).1
    · rw [h1, hx]
      exact (hact 0 (by omega)).2
    · rw [(hxy i hi).1, (hxy i hi).2, hx]
      exact hpath i (by omega)

/-- C16, counterexample: in double arithmetic, for `N = 10` and the decision vector with
`cte_0 = 1e-200`, nonzero, and every other entry at its zero-cost value, the square of `cte_0`
underflows and the objective computed by the evaluator is `0`. -/
theorem FG_eval_objective_zero_by_underflow :
    ∃ out, FG_eval_double double_trig 10 0.1 100 #[0, 0, 0, 0] double_fg tiny_cte_vars
        = Res.ok out ∧
      entry out 0 = 0 ∧ entry tiny_cte_vars (cte_start 10 + 0) = 1e-200 ∧
      entry tiny_cte_vars (cte_start 10 + 0) ≠ 0 := by
  obtain ⟨out, hrun, -, hobj, -⟩ := FG_eval_double_run double_trig 10 0.1 100 #[0, 0, 0, 0]
    double_fg tiny_cte_vars (by decide) (by decide) (by decide) (by decide)
  refine ⟨out, hrun, ?_, by decide!, by decide!⟩
  rw [hobj]
  decide!

/-- C16, as amended: for `2 ≤ N`, in double arithmetic, the objective computed by the evaluator
is never negative (it is a finite value `≥ 0`, or it is not finite); it is `0` exactly when
every squared term of lines 57-77 rounds to zero, that is `cte_t² = 0`, `epsi_t² = 0`,
`(v_t - 100)² = 0` for `t < N`, `delta_t² = 0`, `a_t² = 0` for `t < N - 1` and
`(delta_{t+1} - delta_t)² = 0`, `(a_{t+1} - a_t)² = 0` for `t < N - 2`, where the square of a
finite double `k * 2^-1074` rounds to zero exactly when `2 * k² ≤ 2^1074` (magnitude at most
`2^-537.5`); in particular it is `0` when `cte_t = 0`, `epsi_t = 0`, `v_t = 100` for `t < N`
and `delta_t = 0`, `a_t = 0` for `t < N - 1`; and it is the same for any other coefficients and
any other decision vector with the same entries outside the `x`, `y` and `psi` blocks. -/
theorem FG_eval_double_objective_sign (T : Trig F64) (N : Nat) (dt : F64)
    (coeffs fg vars : Array F64) (hN : 2 ≤ N) (hc : coeffs.size = 4)
    (hfg : fg.size = 1 + N * 6) (hv : vars.size = N * 6 + (N - 1) * 2) :
    ∃ out, FG_eval_double T N dt 100 coeffs fg vars = Res.ok out ∧
      F64.NotNeg (entry out 0) ∧
      (entry out 0 = 0 ↔
        ((∀ t, t < N → (entry vars (cte_start N + t) ^ 2 = 0 ∧
            entry vars (epsi_start N + t) ^ 2 = 0 ∧
            (entry vars (v_start N + t) - 100) ^ 2 = 0)) ∧
          (∀ t, t < N - 1 → (entry vars (delta_start N + t) ^ 2 = 0 ∧
            entry vars (a_start N + t) ^ 2 = 0)) ∧
          ∀ t, t < N - 2 →
            ((entry vars (delta_start N + t + 1) - entry vars (delta_start N + t)) ^ 2 = 0 ∧
              (entry vars (a_start N + t + 1) - entry vars (a_start N + t)) ^ 2 = 0))) ∧
      (∀ k : Int, (F64.fin k) ^ 2 = 0 ↔ 2 * (k * k) ≤ (F64.unit : Int)) ∧
      ((∀ t, t < N → (entry vars (cte_start N + t) = 0 ∧ entry vars (epsi_start N + t) = 0 ∧
          entry vars (v_start N + t) = 100)) →
        (∀ t, t < N - 1 →
          (entry vars (delta_start N + t) = 0 ∧ entry vars (a_start N + t) = 0)) →
        entry out 0 = 0) ∧
      ∀ coeffs2 fg2 vars2 : Array F64, coeffs2.size = 4 → fg2.size = 1 + N * 6 →
        vars2.size = N * 6 + (N - 1) * 2 →
        (∀ i, v_start N ≤ i → entry vars2 i = entry vars i) →
        ∃ out2, FG_eval_double T N dt 100 coeffs2 fg2 vars2 = Res.ok out2 ∧
          entry out2 0 = entry out 0 := by
  obtain ⟨-, -, -, hvs, -, -, -, -, -, -⟩ := layout_eqs N
  obtain ⟨out, hrun, -, hobj, -⟩ := FG_eval_double_run T N dt 100 coeffs fg vars hN
    (by omega) (by omega) (by rw [hv]; exact Nat.le_of_eq rfl)
  refine ⟨out, hrun, ?_, ?_, sq_eq_zero_iff, ?_, ?_⟩
  · rw [hobj]
    exact objective_double_notNeg N 100 vars
  · rw [hobj]
    exact objective_double_eq_zero_iff N 100 vars
  · intro h1 h2
    rw [hobj, objective_double_eq_zero_iff]
    refine ⟨fun t ht => ?_, fun t ht => ?_, fun t ht => ?_⟩
    · rw [(h1 t ht).1, (h1 t ht).2.1, (h1 t ht).2.2]
      exact ⟨by decide!, by decide!, by decide!⟩
    · rw [(h2 t ht).1, (h2 t ht).2]
      exact ⟨by decide!, by decide!⟩
    · rw [(h2 t (by omega)).1, (h2 t (by omega)).2]
      have e : delta_start N + t + 1 = delta_start N + (t + 1) := by omega
      have e2 : a_start N + t + 1 = a_start N + (t + 1) := by omega
      rw [e, e2, (h2 (t + 1) (by omega)).1, (h2 (t + 1) (by omega)).2]
      exact ⟨by decide!, by decide!⟩
  · intro coeffs2 fg2 vars2 hc2 hfg2 hv2 hagree
    obtain ⟨out2, hrun2, -, hobj2, -⟩ := FG_eval_double_run T N dt 100 coeffs2 fg2 vars2 hN
      (by omega) (by omega) (by rw [hv2]; exact Nat.le_of_eq rfl)
    refine ⟨out2, hrun2, ?_⟩
    rw [hobj2, hobj]
    exact objective_double_congr N 100 vars vars2 (fun i h1 _ => hagree i (by omega)) hN

/-- C17, counterexample: in double arithmetic, for `N = 10`, `dt = 0.1`, the reference line of
slope `0.5` and the decision vector with `psi_0 = 0.3`, `v_0 = 10`, `delta_0 = 0.1`,
`psi_1 = 0.26254681647940076` and `epsi_1 = -0.20110079252140536`, the `psi` entry and the
`epsi` entry of timestep `1` are both `0`, while `epsi_1` differs from `psi_1 - atan(0.5)`,
both for the rounded difference and for the exact difference of the two doubles.  The two
entries read no value of `cos` or `sin`: they are `0` for any three functions with
`atan 0.5 = 0.4636476090008061`. -/
theorem FG_eval_heading_error_rounded :
    (∃ out, FG_eval_double double_trig 10 0.1 100 #[0, 0.5, 0, 0] double_fg heading_vars
        = Res.ok out ∧
      entry out (1 + psi_start 10 + 1) = 0 ∧ entry out (1 + epsi_start 10 + 1) = 0 ∧
      entry heading_vars (epsi_start 10 + 1) ≠ entry heading_vars (psi_start 10 + 1)
        - double_trig.atan (3 * 0 * entry heading_vars (x_start 10 + (1 - 1)) ^ 2
          + 2 * 0 * entry heading_vars (x_start 10 + (1 - 1)) + 0.5) ∧
      F64.toRat (entry heading_vars (epsi_start 10 + 1))
        ≠ F64.toRat (entry heading_vars (psi_start 10 + 1))
          - F64.toRat (double_trig.atan (3 * 0 * entry heading_vars (x_start 10 + (1 - 1)) ^ 2
            + 2 * 0 * entry heading_vars (x_start 10 + (1 - 1)) + 0.5))) ∧
    ∀ T : Trig F64, T.atan 0.5 = 0.4636476090008061 →
      ∃ out, FG_eval_double T 10 0.1 100 #[0, 0.5, 0, 0] double_fg heading_vars = Res.ok out ∧
        entry out (1 + psi_start 10 + 1) = 0 ∧ entry out (1 + epsi_start 10 + 1) = 0 ∧
        entry heading_vars (epsi_start 10 + 1) ≠ entry heading_vars (psi_start 10 + 1)
          - T.atan 0.5 := by
  have key : ∀ T : Trig F64, T.atan 0.5 = 0.4636476090008061 →
      ∃ out, FG_eval_double T 10 0.1 100 #[0, 0.5, 0, 0] double_fg heading_vars = Res.ok out ∧
        entry out (1 + psi_start 10 + 1) = 0 ∧ entry out (1 + epsi_start 10 + 1) = 0 ∧
        entry heading_vars (epsi_start 10 + 1) ≠ entry heading_vars (psi_start 10 + 1)
          - T.atan 0.5 := by
    intro T hT
    obtain ⟨out, hrun, -, -, -, hstep⟩ := FG_eval_double_run T 10 0.1 100
      #[0, 0.5, 0, 0] double_fg heading_vars (by decide) (by decide) (by decide) (by decide)
    obtain ⟨-, -, r3, -, -, r6⟩ := hstep 1 (by decide) (by decide)
    have harg : (3 * entry (#[0, 0.5, 0, 0] : Array F64) 3
          * entry heading_vars (x_start 10 + 1 - 1) * entry heading_vars (x_start 10 + 1 - 1)
        + 2 * entry (#[0, 0.5, 0, 0] : Array F64) 2 * entry heading_vars (x_start 10 + 1 - 1)
        + entry (#[0, 0.5, 0, 0] : Array F64) 1 : F64) = 0.5 := by decide!
    rw [harg, hT] at r6
    refine ⟨out, hrun, ?_, ?_, ?_⟩
    · rw [r3]
      decide!
    · rw [r6]
      decide!
    · rw [hT]
      decide!
  obtain ⟨out, hrun, h3, h6, -⟩ := key double_trig (by decide!)
  exact ⟨⟨out, hrun, h3, h6, by decide!, by decide!⟩, key⟩

/-- C17, as amended: for `2 ≤ N` and `1 ≤ t < N`, in double arithmetic, the `psi` entry of
timestep `t` is `psi_t - (psi_{t-1} - s)` and the `epsi` entry is
`epsi_t - ((psi_{t-1} - psides) - s)`, with the identical rounded steering term
`s = v_{t-1} * delta_{t-1} / Lf * dt` subtracted with the same sign and `psides` the desired
heading as line 117 computes it; when both entries are `0`, `psi_t = psi_{t-1} - s` and
`epsi_t = (psi_{t-1} - psides) - s` as doubles, all values are finite, and `epsi_t` equals
`psi_t - psides` up to the three rounding errors: the difference is at most `2^-53` times
`|psi_{t-1} - psides| + |(psi_{t-1} - psides) - s| + |psi_{t-1} - s|`. -/
theorem FG_eval_double_heading_error (T : Trig F64) (N : Nat) (dt ref_v c0 c1 c2 c3 : F64)
    (fg vars : Array F64) (t : Nat) (hN : 2 ≤ N) (hfg : fg.size = 1 + N * 6)
    (hv : vars.size = N * 6 + (N - 1) * 2) (h1 : 1 ≤ t) (ht : t < N) :
    ∃ out, FG_eval_double T N dt ref_v #[c0, c1, c2, c3] fg vars = Res.ok out ∧
      entry out (1 + psi_start N + t) = entry vars (psi_start N + t)
        - (entry vars (psi_start N + t - 1) - steer_term N dt vars t) ∧
      entry out (1 + epsi_start N + t) = entry vars (epsi_start N + t)
        - ((entry vars (psi_start N + t - 1) - psides_at T N #[c0, c1, c2, c3] vars t)
          - steer_term N dt vars t) ∧
      psides_at T N #[c0, c1, c2, c3] vars t
        = T.atan (3 * c3 * entry vars (x_start N + t - 1) * entry vars (x_start N + t - 1)
          + 2 * c2 * entry vars (x_start N + t - 1) + c1) ∧
      (entry out (1 + psi_start N + t) = 0 → entry out (1 + epsi_start N + t) = 0 →
        entry vars (psi_start N + t)
          = entry vars (psi_start N + t - 1) - steer_term N dt vars t ∧
        entry vars (epsi_start N + t)
          = (entry vars (psi_start N + t - 1) - psides_at T N #[c0, c1, c2, c3] vars t)
            - steer_term N dt vars t ∧
        entry vars (psi_start N + t) ≠ F64.nonfinite ∧
        entry vars (epsi_start N + t) ≠ F64.nonfinite ∧
        psides_at T N #[c0, c1, c2, c3] vars t ≠ F64.nonfinite ∧
        |F64.toRat (entry vars (epsi_start N + t)) - (F64.toRat (entry vars (psi_start N + t))
            - F64.toRat (psides_at T N #[c0, c1, c2, c3] vars t))|
          ≤ (|F64.toRat (entry vars (psi_start N + t - 1))
                - F64.toRat (psides_at T N #[c0, c1, c2, c3] vars t)|
              + |F64.toRat (entry vars (psi_start N + t - 1)
                    - psides_at T N #[c0, c1, c2, c3] vars t)
                  - F64.toRat (steer_term N dt vars t)|
              + |F64.toRat (entry vars (psi_start N + t - 1))
                  - F64.toRat (steer_term N dt vars t)|) / 2 ^ 53) := by
  obtain ⟨out, hrun, -, -, -, hstep⟩ := FG_eval_double_run T N dt ref_v #[c0, c1, c2, c3]
    fg vars hN (by simp) (by omega) (by rw [hv]; exact Nat.le_of_eq rfl)
  obtain ⟨-, -, r3, -, -, r6⟩ := hstep t h1 ht
  have hps : psides_at T N #[c0, c1, c2, c3] vars t
      = T.atan (3 * c3 * entry vars (x_start N + t - 1) * entry vars (x_start N + t - 1)
        + 2 * c2 * entry vars (x_start N + t - 1) + c1) := rfl
  refine ⟨out, hrun, r3, r6, hps, fun z3 z6 => ?_⟩
  have q3 : entry out (1 + psi_start N + t) = entry vars (psi_start N + t)
      - (entry vars (psi_start N + t - 1) - steer_term N dt vars t) := r3
  have q6 : entry out (1 + epsi_start N + t) = entry vars (epsi_start N + t)
      - ((entry vars (psi_start N + t - 1) - psides_at T N #[c0, c1, c2, c3] vars t)
        - steer_term N dt vars t) := r6
  rw [z3] at q3
  rw [z6] at q6
  obtain ⟨g3, f3⟩ := (sub_eq_zero_iff _ _).mp q3.symm
  obtain ⟨g6, f6⟩ := (sub_eq_zero_iff _ _).mp q6.symm
  generalize psides_at T N #[c0, c1, c2, c3] vars t = A at g6 ⊢
  generalize steer_term N dt vars t = S at g3 g6 ⊢
  generalize entry vars (psi_start N + t - 1) = P at g3 g6 ⊢
  generalize entry vars (psi_start N + t) = Y at g3 f3 ⊢
  generalize entry vars (epsi_start N + t) = E at g6 f6 ⊢
  cases Y with
  | nonfinite => exact absurd rfl f3
  | fin y =>
    cases E with
    | nonfinite => exact absurd rfl f6
    | fin e =>
      obtain ⟨p, s, rfl, rfl⟩ := sub_fin_inv P S y g3.symm
      cases hw : F64.fin p - A with
      | nonfinite =>
        rw [hw] at g6
        cases g6
      | fin w =>
        obtain ⟨p2, a, hp2, rfl⟩ := sub_fin_inv (F64.fin p) A w hw
        rw [hw] at g6
        refine ⟨g3, g6, (fun h => by cases h), (fun h => by cases h), (fun h => by cases h), ?_⟩
        have hb := heading_err p a s y w e g3.symm hw g6.symm
        have hq := toRat_err_bound (e - (y - a)) (|p - a| + |w - s| + |p - s|) hb
        have hU := unit_pos_rat
        simp only [toRat_fin]
        have e1 : (e : ℚ) / (F64.unit : ℚ) - ((y : ℚ) / (F64.unit : ℚ) - (a : ℚ) / (F64.unit : ℚ))
            = ((e - (y - a) : Int) : ℚ) / (F64.unit : ℚ) := by
          push_cast
          ring
        have e2 : |(p : ℚ) / (F64.unit : ℚ) - (a : ℚ) / (F64.unit : ℚ)|
              + |(w : ℚ) / (F64.unit : ℚ) - (s : ℚ) / (F64.unit : ℚ)|
              + |(p : ℚ) / (F64.unit : ℚ) - (s : ℚ) / (F64.unit : ℚ)|
            = ((|p - a| + |w - s| + |p - s| : Int) : ℚ) / (F64.unit : ℚ) := by
          rw [← sub_div, ← sub_div, ← sub_div, abs_div, abs_div, abs_div, abs_of_pos hU]
          push_cast
          ring
        rw [e1, e2]
        exact hq

/-- C18, counterexample: in double arithmetic, for `N = 10`, `dt = 0.1`, the measured speed `30`
and acceleration `1` at every transition, the forward simulation `speed_path` satisfies every
constraint and the acceleration bounds, yet its speed is `30.900000000000013` at timestep `9`:
it exceeds the measured speed by more than `9 * 0.1 = 0.9`, by more than `0.1` at timestep `1`,
and it is not the measured speed plus `dt` times the sum of the accelerations. -/
theorem feasible_speed_exceeds_bound :
    ∃ p out, Solve_problem_double double_trig 10 0.1 100 0 #[0, 0, 0, 30, 0, 0] #[0, 0, 0, 0]
        = Res.ok p ∧
      FG_eval_double double_trig 10 0.1 100 #[0, 0, 0, 0] double_fg speed_path = Res.ok out ∧
      feasible 10 p out ∧
      (∀ k, k < 10 - 1 →
        entry p.vars_lowerbound (a_start 10 + k) ≤ entry speed_path (a_start 10 + k) ∧
        entry speed_path (a_start 10 + k) ≤ entry p.vars_upperbound (a_start 10 + k)) ∧
      entry speed_path (v_start 10 + 9) = 30.900000000000013 ∧
      (9 : ℚ) / 10 < F64.toRat (entry speed_path (v_start 10 + 9)) - 30 ∧
      9 * F64.toRat (0.1 : F64) < F64.toRat (entry speed_path (v_start 10 + 9)) - 30 ∧
      (1 : ℚ) / 10 < F64.toRat (entry speed_path (v_start 10 + 1)) - 30 ∧
      entry speed_path (v_start 10 + 9) ≠ 30 + 0.1 * (1 + 1 + 1 + 1 + 1 + 1 + 1 + 1 + 1) ∧
      F64.toRat (entry speed_path (v_start 10 + 9)) ≠ 30 + F64.toRat (0.1 : F64) * 9 := by
  obtain ⟨p, out, hp, hrun, hfeas, hacc⟩ := speed_path_feasible
  exact ⟨p, out, hp, hrun, hfeas, hacc, by decide!, by decide!, by decide!, by decide!,
    by decide!, by decide!⟩

/-- C18, as amended: for `2 ≤ N`, in double arithmetic, along every decision vector whose
constraint entries equal the bounds built by `MPC::Solve` and whose accelerations lie within
their variable bounds, the speed at timestep `0` is the measured speed and each later speed is
`v_{t+1} = v_t + a_t * dt` with the product and the sum rounded; so, for `0 ≤ dt ≤ 1`, a
measured speed of magnitude at most `1024` and `N ≤ 1024`, the speed at timestep `t < N`
differs from the measured speed by at most `t * (dt + 2^-40)`: by at most `0.9 + 10^-11` over
the whole horizon when `dt = 0.1` and `N = 10`. -/
theorem feasible_speed_double_bound (T : Trig F64) (N : Nat) (dt ref_v junk : F64)
    (x y psi v cte epsi : F64) (coeffs : Array F64) (p : Problem F64) (fg vars out : Array F64)
    (hN : 2 ≤ N) (hc : 4 ≤ coeffs.size) (hfg : fg.size = 1 + N * 6)
    (hv : vars.size = N * 6 + (N - 1) * 2)
    (hp : Solve_problem_double T N dt ref_v junk #[x, y, psi, v, cte, epsi] coeffs = Res.ok p)
    (hrun : FG_eval_double T N dt ref_v coeffs fg vars = Res.ok out)
    (hfeas : feasible N p out)
    (hacc : ∀ k, k < N - 1 →
      entry p.vars_lowerbound (a_start N + k) ≤ entry vars (a_start N + k) ∧
      entry vars (a_start N + k) ≤ entry p.vars_upperbound (a_start N + k)) :
    entry vars (v_start N) = v ∧
    (∀ t, t + 1 < N → entry vars (v_start N + (t + 1))
      = entry vars (v_start N + t) + entry vars (a_start N + t) * dt) ∧
    (0 ≤ dt → dt ≤ 1 → -1024 ≤ v → v ≤ 1024 → N ≤ 1024 → ∀ t, t < N →
      |F64.toRat (entry vars (v_start N + t)) - F64.toRat v|
        ≤ t * (F64.toRat dt + 1 / 2 ^ 40)) ∧
    (dt = 0.1 → N = 10 → -1024 ≤ v → v ≤ 1024 → ∀ t, t < N →
      |F64.toRat (entry vars (v_start N + t)) - F64.toRat v| ≤ 9 / 10 + 1 / 10 ^ 11) := by
  obtain ⟨p2, hp2, hb⟩ := Solve_problem_double_run T N dt ref_v junk #[x, y, psi, v, cte, epsi]
    coeffs (by omega) (by simp)
  rw [hp] at hp2
  cases hp2
  obtain ⟨out2, hrun2, -, -, hinit, hstep⟩ := FG_eval_double_run T N dt ref_v coeffs fg vars hN
    hc (by omega) (by rw [hv]; exact Nat.le_of_eq rfl)
  rw [hrun] at hrun2
  cases hrun2
  obtain ⟨hv0, hrec⟩ := feasible_speed_double T N dt ref_v x y psi v cte epsi coeffs p vars out
    hN hb hinit hstep hfeas
  obtain ⟨-, -, -, -, -, -, -, hast, hnv, -⟩ := layout_eqs N
  have hbound : 0 ≤ dt → dt ≤ 1 → -1024 ≤ v → v ≤ 1024 → N ≤ 1024 → ∀ t, t < N →
      |F64.toRat (entry vars (v_start N + t)) - F64.toRat v|
        ≤ t * (F64.toRat dt + 1 / 2 ^ 40) := by
    intro hd0 hd1 hvl hvu hNmax
    obtain ⟨z, D, hz, hD, hzD⟩ := le_inv _ _ hd0
    subst hD
    cases hz
    obtain ⟨D2, o, hD2, ho, hDo⟩ := le_inv _ _ hd1
    cases hD2
    have ho2 : o = (F64.unit : Int) := by
      have : (1 : F64) = F64.fin (F64.unit : Int) := rfl
      rw [this] at ho
      cases ho
      rfl
    subst ho2
    obtain ⟨l, v0, hl, hv0', hlv⟩ := le_inv _ _ hvl
    subst hv0'
    obtain ⟨v0', u, hv0'', hu, hvu'⟩ := le_inv _ _ hvu
    cases hv0''
    have hl2 : l = -(1024 * (F64.unit : Int)) := by
      have e : (-1024 : F64) = F64.fin (-(1024 * (F64.unit : Int))) := by
        show F64.neg (OfNat.ofNat 1024) = _
        rw [ofNat_eq 1024 (by norm_num)]
        rfl
      rw [e] at hl
      cases hl
      rfl
    have hu2 : u = 1024 * (F64.unit : Int) := by
      rw [ofNat_eq 1024 (by norm_num)] at hu
      cases hu
      rfl
    subst hl2 hu2
    -- the accelerations are finite, of magnitude at most one
    have hA : ∀ k, k < N - 1 → ∃ a : Int, entry vars (a_start N + k) = F64.fin a ∧
        |a| ≤ (F64.unit : Int) := by
      intro k hk
      obtain ⟨h1, h2⟩ := hacc k hk
      obtain ⟨bl, bu⟩ := hb.a_bounds (a_start N + k) (by omega) (by omega)
      rw [bl] at h1
      rw [bu] at h2
      obtain ⟨m1, a, hm1, ha, hle1⟩ := le_inv _ _ h1
      obtain ⟨a', m2, ha', hm2, hle2⟩ := le_inv _ _ h2
      rw [ha] at ha'
      cases ha'
      have e1 : (-1.0 : F64) = F64.fin (-(F64.unit : Int)) := by decide!
      have e2 : (1.0 : F64) = F64.fin (F64.unit : Int) := by decide!
      rw [e1] at hm1
      rw [e2] at hm2
      cases hm1
      cases hm2
      exact ⟨a, ha, abs_le.mpr ⟨hle1, hle2⟩⟩
    -- the speeds are finite
    have hV : ∀ t, t < N → entry vars (v_start N + t)
        = F64.fin (entry vars (v_start N + t)).units := by
      intro t ht
      cases t with
      | zero =>
        show entry vars (v_start N) = F64.fin (entry vars (v_start N)).units
        rw [hv0]
        rfl
      | succ t => exact fin_units _ (hrec t ht).2
    have hdrift := speed_drift (fun t => (entry vars (v_start N + t)).units)
      (fun t => (entry vars (a_start N + t)).units) D (N - 1) hzD hDo
      (by
        show |(entry vars (v_start N)).units| ≤ _
        rw [hv0]
        exact abs_le.mpr ⟨by
          show -(2 ^ 10 * (F64.unit : Int)) ≤ v0
          omega, by
          show v0 ≤ 2 ^ 10 * (F64.unit : Int)
          omega⟩)
      (by omega)
      (fun t ht => by
        obtain ⟨a, ha, hab⟩ := hA t ht
        show |(entry vars (a_start N + t)).units| ≤ _
        rw [ha]
        exact hab)
      (fun t ht => by
        obtain ⟨a, ha, -⟩ := hA t ht
        have h1 := (hrec t (by omega)).1
        show F64.fin (entry vars (v_start N + t)).units
          + F64.fin (entry vars (a_start N + t)).units * F64.fin D
          = F64.fin (entry vars (v_start N + (t + 1))).units
        rw [← hV t (by omega), ← hV (t + 1) (by omega), h1, ha]
        rfl)
    intro t ht
    have h := hdrift t (by omega)
    simp only at h
    have hU := unit_pos_rat
    rw [hV t ht]
    have e0 : (entry vars (v_start N + 0)).units = v0 := by
      show (entry vars (v_start N)).units = v0
      rw [hv0]
      rfl
    rw [e0] at h
    rw [toRat_sub_abs, toRat_fin, div_le_iff₀ hU]
    have h2 : ((2 ^ 53 * |(entry vars (v_start N + t)).units - v0| : Int) : ℚ)
        ≤ (((t : Int) * (2 ^ 53 * D + 2 ^ 13 * (F64.unit : Int)) : Int) : ℚ) := by
      exact_mod_cast h
    push_cast at h2
    have e : (t : ℚ) * ((D : ℚ) / (F64.unit : ℚ) + 1 / 2 ^ 40) * (F64.unit : ℚ)
        = (t : ℚ) * ((D : ℚ) + (F64.unit : ℚ) / 2 ^ 40) := by
      field_simp
      ring
    rw [e]
    linarith
  refine ⟨hv0, fun t ht => (hrec t ht).1, hbound, fun hdt h10 hvl hvu t ht => ?_⟩
  have h1 := hbound (by rw [hdt]; decide!) (by rw [hdt]; decide!) hvl hvu (by omega) t ht
  have h2 : (t : ℚ) ≤ 9 := by
    have : t ≤ 9 := by omega
    exact_mod_cast this
  have h3 : F64.toRat (0.1 : F64) ≤ 1 / 10 + 1 / 10 ^ 17 := by decide!
  have h4 : (0 : ℚ) ≤ F64.toRat (0.1 : F64) := by decide!
  rw [hdt] at h1
  have h5 : (t : ℚ) * (F64.toRat (0.1 : F64) + 1 / 2 ^ 40)
      ≤ 9 * (F64.toRat (0.1 : F64) + 1 / 2 ^ 40) :=
    mul_le_mul_of_nonneg_right h2 (by positivity)
  have h6 : (9 : ℚ) * (1 / 10 + 1 / 10 ^ 17 + 1 / 2 ^ 40) ≤ 9 / 10 + 1 / 10 ^ 11 := by norm_num
  linarith

end ClaimsDouble

/-! ## Instances of these theorems on sample inputs -/

section WitnessesDouble

/-- Witness for C12 as amended: the horizon `N = 10` of the source, with stand-ins for `cos`,
`sin` and `atan` that take the values `1`, `0` and `0` at `0`. -/
theorem straight_line_double_optimal_witness :
    (2 ≤ 10 ∧ 10 * 6 + (10 - 1) * 2 < 2 ^ 31 ∧ double_fg.size = 1 + 10 * 6 ∧
      double_trig.cos 0 = 1 ∧ double_trig.sin 0 = 0 ∧ double_trig.atan 0 = 0) ∧
    (∃ p out, Solve_problem_double double_trig 10 0.1 100 9 #[0, 0, 0, 100, 0, 0] #[0, 0, 0, 0]
        = Res.ok p ∧
      FG_eval_double double_trig 10 0.1 100 #[0, 0, 0, 0] double_fg (straight_line_double 10 0.1) = Res.ok out ∧
      feasible 10 p out ∧ within_bounds p (straight_line_double 10 0.1) ∧ entry out 0 = 0 ∧
      (∀ t, t < 10 → entry (straight_line_double 10 0.1) (x_start 10 + t) = ((10 * t : Nat) : F64) ∧
        entry (straight_line_double 10 0.1) (y_start 10 + t) = 0) ∧
      (∀ vars out2 : Array F64, vars.size = 10 * 6 + (10 - 1) * 2 →
        FG_eval_double double_trig 10 0.1 100 #[0, 0, 0, 0] double_fg vars = Res.ok out2 →
        F64.NotNeg (entry out2 0)) ∧
      (∀ vars out2 : Array F64, vars.size = 10 * 6 + (10 - 1) * 2 →
        FG_eval_double double_trig 10 0.1 100 #[0, 0, 0, 0] double_fg vars = Res.ok out2 → feasible 10 p out2 →
        entry out2 0 ≤ entry out 0 →
        entry out2 0 = 0 ∧ ∀ t, t < 10 - 1 →
          (entry vars (delta_start 10 + t) ^ 2 = 0 ∧ entry vars (a_start 10 + t) ^ 2 = 0 ∧
            entry vars (delta_start 10 + t) ≠ F64.nonfinite ∧
            entry vars (a_start 10 + t) ≠ F64.nonfinite ∧
            2 * ((entry vars (delta_start 10 + t)).units * (entry vars (delta_start 10 + t)).units)
              ≤ (F64.unit : Int) ∧
            2 * ((entry vars (a_start 10 + t)).units * (entry vars (a_start 10 + t)).units)
              ≤ (F64.unit : Int))) ∧
      (∀ solve : Problem F64 → solve_result F64, (solve p).x.size = 10 * 6 + (10 - 1) * 2 →
        (∃ out2, FG_eval_double double_trig 10 0.1 100 #[0, 0, 0, 0] double_fg (solve p).x = Res.ok out2 ∧
          feasible 10 p out2 ∧ within_bounds p (solve p).x ∧
          ∀ vars3 out3 : Array F64, vars3.size = 10 * 6 + (10 - 1) * 2 →
            FG_eval_double double_trig 10 0.1 100 #[0, 0, 0, 0] double_fg vars3 = Res.ok out3 →
            feasible 10 p out3 → within_bounds p vars3 → entry out2 0 ≤ entry out3 0) →
        ∃ result, Solve_double double_trig 10 0.1 100 9 solve #[0, 0, 0, 100, 0, 0] #[0, 0, 0, 0]
            = Res.ok result ∧
          entry result 0 ^ 2 = 0 ∧ entry result 1 ^ 2 = 0 ∧
          2 * ((entry result 0).units * (entry result 0).units) ≤ (F64.unit : Int) ∧
          2 * ((entry result 1).units * (entry result 1).units) ≤ (F64.unit : Int)) ∧
      ∀ solve : Problem F64 → solve_result F64, (solve p).x = straight_line_double 10 0.1 →
        ∃ result, Solve_double double_trig 10 0.1 100 9 solve #[0, 0, 0, 100, 0, 0] #[0, 0, 0, 0]
            = Res.ok result ∧
          entry result 0 = 0 ∧ entry result 1 = 0 ∧
          ∀ i, i < 10 - 1 → entry result (2 + 2 * i) = ((10 * i : Nat) : F64) ∧
            entry result (3 + 2 * i) = 0) :=
  ⟨⟨by decide, by decide, rfl, rfl, rfl, by decide!⟩,
    straight_line_double_optimal double_trig 10 9 double_fg (by decide) (by decide) rfl rfl rfl
      (by decide!)⟩

/-- Witness for C16 as amended: `N = 10`, `dt = 0.1`, the coefficients `(7, 5, 3, 1)` and the
decision vector `tiny_cte_vars`. -/
theorem FG_eval_double_objective_sign_witness :
    (2 ≤ 10 ∧ (#[7, 5, 3, 1] : Array F64).size = 4 ∧ double_fg.size = 1 + 10 * 6 ∧
      tiny_cte_vars.size = 10 * 6 + (10 - 1) * 2) ∧
    (∃ out, FG_eval_double double_trig 10 0.1 100 #[7, 5, 3, 1] double_fg tiny_cte_vars = Res.ok out ∧
      F64.NotNeg (entry out 0) ∧
      (entry out 0 = 0 ↔
        ((∀ t, t < 10 → (entry tiny_cte_vars (cte_start 10 + t) ^ 2 = 0 ∧
            entry tiny_cte_vars (epsi_start 10 + t) ^ 2 = 0 ∧
            (entry tiny_cte_vars (v_start 10 + t) - 100) ^ 2 = 0)) ∧
          (∀ t, t < 10 - 1 → (entry tiny_cte_vars (delta_start 10 + t) ^ 2 = 0 ∧
            entry tiny_cte_vars (a_start 10 + t) ^ 2 = 0)) ∧
          ∀ t, t < 10 - 2 →
            ((entry tiny_cte_vars (delta_start 10 + t + 1) - entry tiny_cte_vars (delta_start 10 + t)) ^ 2 = 0 ∧
              (entry tiny_cte_vars (a_start 10 + t + 1) - entry tiny_cte_vars (a_start 10 + t)) ^ 2 = 0))) ∧
      (∀ k : Int, (F64.fin k) ^ 2 = 0 ↔ 2 * (k * k) ≤ (F64.unit : Int)) ∧
      ((∀ t, t < 10 → (entry tiny_cte_vars (cte_start 10 + t) = 0 ∧ entry tiny_cte_vars (epsi_start 10 + t) = 0 ∧
          entry tiny_cte_vars (v_start 10 + t) = 100)) →
        (∀ t, t < 10 - 1 →
          (entry tiny_cte_vars (delta_start 10 + t) = 0 ∧ entry tiny_cte_vars (a_start 10 + t) = 0)) →
        entry out 0 = 0) ∧
      ∀ coeffs2 fg2 vars2 : Array F64, coeffs2.size = 4 → fg2.size = 1 + 10 * 6 →
        vars2.size = 10 * 6 + (10 - 1) * 2 →
        (∀ i, v_start 10 ≤ i → entry vars2 i = entry tiny_cte_vars i) →
        ∃ out2, FG_eval_double double_trig 10 0.1 100 coeffs2 fg2 vars2 = Res.ok out2 ∧
          entry out2 0 = entry out 0) :=
  ⟨⟨by decide, rfl, rfl, by decide⟩,
    FG_eval_double_objective_sign double_trig 10 0.1 #[7, 5, 3, 1] double_fg tiny_cte_vars
      (by decide) rfl rfl (by decide)⟩

/-- Witness for C17 as amended: `N = 10`, the step `t = 1`, the reference line of slope `0.5`
and the decision vector `heading_vars`. -/
theorem FG_eval_double_heading_error_witness :
    (2 ≤ 10 ∧ double_fg.size = 1 + 10 * 6 ∧ heading_vars.size = 10 * 6 + (10 - 1) * 2 ∧
      1 ≤ 1 ∧ 1 < 10) ∧
    (∃ out, FG_eval_double double_trig 10 0.1 100 #[0, 0.5, 0, 0] double_fg heading_vars = Res.ok out ∧
      entry out (1 + psi_start 10 + 1) = entry heading_vars (psi_start 10 + 1)
        - (entry heading_vars (psi_start 10 + 1 - 1) - steer_term 10 0.1 heading_vars 1) ∧
      entry out (1 + epsi_start 10 + 1) = entry heading_vars (epsi_start 10 + 1)
        - ((entry heading_vars (psi_start 10 + 1 - 1) - psides_at double_trig 10 #[0, 0.5, 0, 0] heading_vars 1)
          - steer_term 10 0.1 heading_vars 1) ∧
      psides_at double_trig 10 #[0, 0.5, 0, 0] heading_vars 1
        = double_trig.atan (3 * 0 * entry heading_vars (x_start 10 + 1 - 1) * entry heading_vars (x_start 10 + 1 - 1)
          + 2 * 0 * entry heading_vars (x_start 10 + 1 - 1) + 0.5) ∧
      (entry out (1 + psi_start 10 + 1) = 0 → entry out (1 + epsi_start 10 + 1) = 0 →
        entry heading_vars (psi_start 10 + 1)
          = entry heading_vars (psi_start 10 + 1 - 1) - steer_term 10 0.1 heading_vars 1 ∧
        entry heading_vars (epsi_start 10 + 1)
          = (entry heading_vars (psi_start 10 + 1 - 1) - psides_at double_trig 10 #[0, 0.5, 0, 0] heading_vars 1)
            - steer_term 10 0.1 heading_vars 1 ∧
        entry heading_vars (psi_start 10 + 1) ≠ F64.nonfinite ∧
        entry heading_vars (epsi_start 10 + 1) ≠ F64.nonfinite ∧
        psides_at double_trig 10 #[0, 0.5, 0, 0] heading_vars 1 ≠ F64.nonfinite ∧
        |F64.toRat (entry heading_vars (epsi_start 10 + 1)) - (F64.toRat (entry heading_vars (psi_start 10 + 1))
            - F64.toRat (psides_at double_trig 10 #[0, 0.5, 0, 0] heading_vars 1))|
          ≤ (|F64.toRat (entry heading_vars (psi_start 10 + 1 - 1))
                - F64.toRat (psides_at double_trig 10 #[0, 0.5, 0, 0] heading_vars 1)|
              + |F64.toRat (entry heading_vars (psi_start 10 + 1 - 1)
                    - psides_at double_trig 10 #[0, 0.5, 0, 0] heading_vars 1)
                  - F64.toRat (steer_term 10 0.1 heading_vars 1)|
              + |F64.toRat (entry heading_vars (psi_start 10 + 1 - 1))
                  - F64.toRat (steer_term 10 0.1 heading_vars 1)|) / 2 ^ 53)) :=
  ⟨⟨by decide, rfl, by decide, by decide, by decide⟩,
    FG_eval_double_heading_error double_trig 10 0.1 100 0 0.5 0 0 double_fg heading_vars 1
      (by decide) rfl (by decide) (by decide) (by decide)⟩

/-- Witness for C18 as amended: `N = 10`, `dt = 0.1` and the forward simulation `speed_path`
from the measured speed `30` under acceleration `1`: it satisfies the constraints and the
acceleration bounds, and its speed follows the rounded recurrence and the bound. -/
theorem feasible_speed_double_bound_witness :
    ∃ (p : Problem F64) (out : Array F64),
      (2 ≤ 10 ∧ 4 ≤ (#[0, 0, 0, 0] : Array F64).size ∧ double_fg.size = 1 + 10 * 6 ∧
        speed_path.size = 10 * 6 + (10 - 1) * 2 ∧
        Solve_problem_double double_trig 10 0.1 100 0 #[0, 0, 0, 30, 0, 0] #[0, 0, 0, 0]
          = Res.ok p ∧
        FG_eval_double double_trig 10 0.1 100 #[0, 0, 0, 0] double_fg speed_path = Res.ok out ∧
        feasible 10 p out ∧
        ∀ k, k < 10 - 1 →
          entry p.vars_lowerbound (a_start 10 + k) ≤ entry speed_path (a_start 10 + k) ∧
          entry speed_path (a_start 10 + k) ≤ entry p.vars_upperbound (a_start 10 + k)) ∧
      (entry speed_path (v_start 10) = (30 : F64) ∧
    (∀ t, t + 1 < 10 → entry speed_path (v_start 10 + (t + 1))
      = entry speed_path (v_start 10 + t) + entry speed_path (a_start 10 + t) * (0.1 : F64)) ∧
    (0 ≤ (0.1 : F64) → (0.1 : F64) ≤ 1 → -1024 ≤ (30 : F64) → (30 : F64) ≤ 1024 → 10 ≤ 1024 → ∀ t, t < 10 →
      |F64.toRat (entry speed_path (v_start 10 + t)) - F64.toRat (30 : F64)|
        ≤ t * (F64.toRat (0.1 : F64) + 1 / 2 ^ 40)) ∧
    ((0.1 : F64) = 0.1 → 10 = 10 → -1024 ≤ (30 : F64) → (30 : F64) ≤ 1024 → ∀ t, t < 10 →
      |F64.toRat (entry speed_path (v_start 10 + t)) - F64.toRat (30 : F64)| ≤ 9 / 10 + 1 / 10 ^ 11)) := by
  obtain ⟨p, out, hp, hrun, hfeas, hacc⟩ := speed_path_feasible
  exact ⟨p, out, ⟨by decide, by decide, rfl, by decide, hp, hrun, hfeas, hacc⟩,
    feasible_speed_double_bound double_trig 10 0.1 100 0 0 0 0 30 0 0 #[0, 0, 0, 0] p double_fg
      speed_path out (by decide) (by decide) rfl (by decide) hp hrun hfeas hacc⟩

end WitnessesDouble

end MPC
